import Mathlib

/-!
# rbhash: single-threaded model of `rbhash::map`

A shallow embedding of `include/rbhash/rbhash.hpp`: the open-addressed bucket table with
tombstones, the stripe locks with their element counters, the linear probes and the resize
path, executed by one thread.

Conventions of the embedding.

* Every call returns `Except error _`.  `error.out_of_fuel` stands for a loop that has not
  finished within the fuel given, `error.deadlock` for `spinlock_t::lock()` on a lock that is
  already held (it would spin for ever), `error.out_of_bounds` for an index past the end of a
  vector, `error.uninitialized` for a read of slot storage that holds no pair,
  `error.assertion` for a failing `assert`, `error.out_of_range` for the exception of the
  throwing `find`.
* Each call of a function of the recursive group `insert`, `upsert`, `uprase_fn`,
  `linear_insert_loop`, `linear_expand` and each iteration of the insert loop consumes one
  unit of fuel.
* `size_type` and `hashpower` are unbounded naturals, `counter_type` is an unbounded integer.
* `KeyEqual` is equality of `K`.  The parameter `hash_fn : K → ℕ` of the recursive group
  `insert`, `upsert`, `uprase_fn`, `linear_insert_loop`, `linear_expand` is the
  default-constructed functor `Hash()`: `linear_expand` migrates into `map new_map(new_hp)`,
  whose functor is `Hash()`, and `map.insert hash_fn`, `map.upsert hash_fn`,
  `map.uprase_fn hash_fn` are the methods of a map whose member `hash_fn_` is `Hash()` (a map
  constructed without a functor argument, or with a functor that has no state).  The same
  methods of a map constructed with another functor are `map.insert_with`, `map.upsert_with`,
  `map.uprase_fn_with`, which hash the key with `hash_fn_` and resize with `Hash()`.  The
  methods without a resize (`find`, `update`, `erase`) take `hash_fn_` as their parameter.
* `all_locks_` lists the stripe sets newest first: `get_current_locks` is the head and
  `emplace_back` is `cons`.
* The migration of `linear_expand` runs its slices one after the other in index order (what
  `parallel_exec` does with no extra worker thread, and also with the default 8 when the table
  has fewer than 9 buckets: the extra workers then get empty slices).
* The fields `hash_value_`, `old_buckets_`, `max_num_worker_threads_` and the two debug
  counters are never read by the modelled functions and are left out.
* `buckets_` is never null: moves and `clear_and_free` are outside the model.
* A held `LockManager` is the index of its stripe in the stripe set that was current when it
  was taken; no stripe set is appended while one is held.

The file has three parts: the embedding of the source; the notions used to state its
properties (the probes without locks, the invariant `map.inv`, the postconditions of the
insert path) with concrete maps; the lemmas and the claims `C1`, `C2`, ….
-/

set_option linter.unusedSectionVars false

namespace rbhash

/-- Ways in which a modelled call fails to return a value. -/
inductive error where
  | out_of_fuel
  | deadlock
  | out_of_bounds
  | uninitialized
  | assertion
  | out_of_range
  deriving DecidableEq

/-- The `op_status` enumeration of the source. -/
inductive op_status where
  | ok
  | failure
  | failure_key_not_found
  | failure_key_duplicated
  | failure_under_expansion
  deriving DecidableEq

/-- The `spinlock_t` class: the test-and-set flag, the element counter, the migration flag. -/
structure spinlock_t where
  lock_ : Bool
  element_counter_ : Int
  is_migrated_ : Bool
  deriving DecidableEq

/-- The default constructor `spinlock_t()`: unlocked, counter 0, migrated. -/
def spinlock_t.new : spinlock_t := ⟨false, 0, true⟩

/-- The method `spinlock_t::lock`: a held lock is never released by the calling thread. -/
def spinlock_t.lock (s : spinlock_t) : Except error spinlock_t :=
  if s.lock_ then .error .deadlock else .ok ⟨true, s.element_counter_, s.is_migrated_⟩

/-- The method `spinlock_t::unlock`. -/
def spinlock_t.unlock (s : spinlock_t) : spinlock_t :=
  ⟨false, s.element_counter_, s.is_migrated_⟩

/-- The copy assignment `spinlock_t::operator=`: counter and migration flag, not the flag. -/
def spinlock_t.assign (dst src : spinlock_t) : spinlock_t :=
  ⟨dst.lock_, src.element_counter_, src.is_migrated_⟩

/-- The class `table::bucket`: storage for one pair and the two flags. -/
structure bucket (K V : Type) where
  storage_ : Option (K × V)
  occupied_ : Bool
  deleted_ : Bool
  deriving DecidableEq

/-- The default constructor `bucket()`. -/
def bucket.new {K V : Type} : bucket K V := ⟨none, false, false⟩

/-- A slot is live when it is occupied and not deleted. -/
def bucket.live {K V : Type} (b : bucket K V) : Bool := b.occupied_ && !b.deleted_

/-- The class `table`: the hashpower and the bucket array. -/
structure table (K V : Type) where
  hashpower_ : Nat
  buckets_ : List (bucket K V)
  deriving DecidableEq

/-- The function `hashsize`: `1 << hp`. -/
def hashsize (hp : Nat) : Nat := 1 <<< hp

/-- The function `hashmask`: `hashsize(hp) - 1`. -/
def hashmask (hp : Nat) : Nat := hashsize hp - 1

/-- The function `index_hash`: `hv & hashmask(hp)`. -/
def index_hash (hp hv : Nat) : Nat := hv &&& hashmask hp

/-- The constant `kMaxNumLocks`. -/
def kMaxNumLocks : Nat := 1 <<< 16

section table_ops

variable {K V : Type}

/-- The method `table::size`. -/
def table.size (t : table K V) : Nat := 1 <<< t.hashpower_

/-- The constructor `table(hp)`: `size()` default buckets. -/
def table.new (hp : Nat) : table K V := ⟨hp, List.replicate (1 <<< hp) bucket.new⟩

/-- The method `table::setKV`. -/
def table.setKV (t : table K V) (ind : Nat) (k : K) (v : V) : Except error (table K V) :=
  match t.buckets_[ind]? with
  | none => .error .out_of_bounds
  | some b =>
    if !b.occupied_ || b.deleted_ then
      .ok ⟨t.hashpower_, t.buckets_.set ind ⟨some (k, v), true, false⟩⟩
    else .error .assertion

/-- The method `table::eraseKV`. -/
def table.eraseKV (t : table K V) (ind : Nat) : Except error (table K V) :=
  match t.buckets_[ind]? with
  | none => .error .out_of_bounds
  | some b =>
    if b.occupied_ then
      .ok ⟨t.hashpower_, t.buckets_.set ind ⟨none, b.occupied_, true⟩⟩
    else .error .assertion

/-- One iteration of the loop of `table::clear`. -/
def table.clear_step (t : table K V) (i : Nat) : Except error (table K V) :=
  match t.buckets_[i]? with
  | none => .error .out_of_bounds
  | some b =>
    match (if b.occupied_ && !b.deleted_ then t.eraseKV i else .ok t) with
    | .error e => .error e
    | .ok t1 =>
      match t1.buckets_[i]? with
      | none => .error .out_of_bounds
      | some b1 => .ok ⟨t1.hashpower_, t1.buckets_.set i ⟨b1.storage_, false, b1.deleted_⟩⟩

/-- The method `table::clear`. -/
def table.clear (t : table K V) : Except error (table K V) :=
  (List.range t.size).foldlM table.clear_step t

end table_ops

section iterators

variable {K V : Type}

/-- The `for` loop of `const_iterator::operator++`; the result is the index at which the loop
returns or is left. -/
def const_iterator.inc_loop (t : table K V) : Nat → Nat → Except error Nat
  | 0, index => if index < t.size then .error .out_of_fuel else .ok index
  | fuel + 1, index =>
    if index < t.size then
      match t.buckets_[index]? with
      | none => .error .out_of_bounds
      | some b =>
        if b.occupied_ && !b.deleted_ then .ok index
        else const_iterator.inc_loop t fuel (index + 1)
    else .ok index

/-- The method `const_iterator::operator++` on the iterator at `index`; the `assert` holds
when the loop returned inside the table or was left at `end_pos`. -/
def const_iterator.operator_inc (t : table K V) (index : Nat) : Except error Nat :=
  match const_iterator.inc_loop t (t.size - index) (index + 1) with
  | .error e => .error e
  | .ok i => if i ≤ t.size then .ok i else .error .assertion

/-- The `while` loop of `const_iterator::operator--`; `--index_` is a decrement of the
unsigned 64-bit `size_type`, which wraps from `0` to `2^64 - 1`. -/
def const_iterator.dec_loop (t : table K V) : Nat → Nat → Except error Nat
  | 0, _ => .error .out_of_fuel
  | fuel + 1, index =>
    match t.buckets_[index]? with
    | none => .error .out_of_bounds
    | some b =>
      if !b.occupied_ || b.deleted_ then
        let index := if index = 0 then 2 ^ 64 - 1 else index - 1
        if index = 0 then .ok index else const_iterator.dec_loop t fuel index
      else .ok index

/-- The method `const_iterator::operator--` on the iterator at `index`. -/
def const_iterator.operator_dec (t : table K V) (index : Nat) : Except error Nat :=
  let index := if index = 0 then 2 ^ 64 - 1 else index - 1
  if index ≠ 0 then const_iterator.dec_loop t (index + 1) index else .ok index

/-- The constructor `const_iterator(buckets, index)`, which skips to the next live slot. -/
def const_iterator.mk (t : table K V) (index : Nat) : Except error Nat :=
  if index ≠ t.size then
    match t.buckets_[index]? with
    | none => .error .out_of_bounds
    | some b =>
      if !b.occupied_ || b.deleted_ then const_iterator.operator_inc t index else .ok index
  else .ok index

/-- The methods `locked_table::begin` and `cbegin`. -/
def locked_table.begin (t : table K V) : Except error Nat := const_iterator.mk t 0

/-- The methods `locked_table::end` and `cend`. -/
def locked_table.cend (t : table K V) : Except error Nat := const_iterator.mk t t.size

/-- The loop `for (; it != end(); ++it) visit(it)`: the indices visited from `it` on. -/
def locked_table.forward (t : table K V) : Nat → Nat → Except error (List Nat)
  | 0, _ => .error .out_of_fuel
  | fuel + 1, it =>
    match locked_table.cend t with
    | .error e => .error e
    | .ok e =>
      if it = e then .ok []
      else
        match const_iterator.operator_inc t it with
        | .error e => .error e
        | .ok next =>
          match locked_table.forward t fuel next with
          | .error e => .error e
          | .ok rest => .ok (it :: rest)

/-- The loop `while (it != begin()) { --it; visit(it); }`: the indices visited below `it`. -/
def locked_table.backward (t : table K V) : Nat → Nat → Except error (List Nat)
  | 0, _ => .error .out_of_fuel
  | fuel + 1, it =>
    match locked_table.begin t with
    | .error e => .error e
    | .ok b =>
      if it = b then .ok []
      else
        match const_iterator.operator_dec t it with
        | .error e => .error e
        | .ok prev =>
          match locked_table.backward t fuel prev with
          | .error e => .error e
          | .ok rest => .ok (prev :: rest)

end iterators

/-- The class `map`: the history of stripe sets (newest first) and the bucket table. -/
structure map (K V : Type) where
  all_locks_ : List (List spinlock_t)
  buckets_ : table K V
  deriving DecidableEq

/-- The struct `table_position`; `lock` names the held stripe by its index in the current set. -/
structure table_position where
  index : Nat
  status : op_status
  lock : Option Nat
  deriving DecidableEq

section map_ops

variable {K V : Type}

/-- The constructor `map(hp)`. -/
def map.new (hp : Nat) : map K V :=
  ⟨[List.replicate (min (1 <<< hp) kMaxNumLocks) spinlock_t.new], table.new hp⟩

/-- The method `map::hashpower`. -/
def map.hashpower (m : map K V) : Nat := m.buckets_.hashpower_

/-- The method `map::bucket_count`. -/
def map.bucket_count (m : map K V) : Nat := m.buckets_.size

/-- The method `map::capacity`. -/
def map.capacity (m : map K V) : Nat := m.bucket_count

/-- The method `map::get_current_locks`. -/
def map.get_current_locks (m : map K V) : Except error (List spinlock_t) :=
  match m.all_locks_ with
  | [] => .error .out_of_bounds
  | locks :: _ => .ok locks

/-- The method `map::size`. -/
def map.size (m : map K V) : Except error Nat :=
  match m.all_locks_ with
  | [] => .ok 0
  | locks :: _ =>
    let s : Int := (locks.map spinlock_t.element_counter_).sum
    if 0 ≤ s then .ok s.toNat else .error .assertion

/-- The method `map::lock_ind`. -/
def map.lock_ind (m : map K V) (bucket_ind : Nat) : Except error Nat :=
  match m.get_current_locks with
  | .error e => .error e
  | .ok locks => .ok (bucket_ind &&& (locks.length - 1))

/-- Replace the current stripe set. -/
def map.set_current_locks (m : map K V) (locks : List spinlock_t) : map K V :=
  match m.all_locks_ with
  | [] => m
  | _ :: older => ⟨locks :: older, m.buckets_⟩

/-- Release of a `LockManager`: `unlock` on stripe `l` of the current set. -/
def map.unlock_one (m : map K V) (l : Nat) : map K V :=
  match m.all_locks_ with
  | [] => m
  | locks :: older =>
    match locks[l]? with
    | none => m
    | some s => ⟨locks.set l s.unlock :: older, m.buckets_⟩

/-- Destruction of the `LockManager` carried by a `table_position`. -/
def map.release (m : map K V) (lock : Option Nat) : map K V :=
  match lock with
  | none => m
  | some l => m.unlock_one l

/-- The method `map::lock_one`; the second component is `none` when `check_hashpower` threw
`hashpower_changed` (the stripe is released again), the index of the held stripe otherwise. -/
def map.lock_one (m : map K V) (hp i : Nat) : Except error (map K V × Option Nat) :=
  match m.get_current_locks with
  | .error e => .error e
  | .ok locks =>
    let l := i &&& (locks.length - 1)
    if l < kMaxNumLocks then
      match locks[l]? with
      | none => .error .out_of_bounds
      | some s =>
        match s.lock with
        | .error e => .error e
        | .ok s1 =>
          let m1 := m.set_current_locks (locks.set l s1)
          if m1.hashpower ≠ hp then .ok (m1.unlock_one l, none) else .ok (m1, some l)
    else .error .assertion

/-- The method `map::lock_one_loop`, returning the updated `hp`, `ind`, `retry_counter` and the
held stripe.  After a `hashpower_changed` the hashpower is read again, so the second attempt
of a single thread cannot see a further change. -/
def map.lock_one_loop (m : map K V) (hp ind retry_counter hv : Nat) :
    Except error (map K V × Nat × Nat × Nat × Nat) :=
  match m.lock_one hp ind with
  | .error e => .error e
  | .ok (m1, some l) => .ok (m1, hp, ind, retry_counter, l)
  | .ok (m1, none) =>
    let hp1 := m1.hashpower
    let ind1 := index_hash hp1 hv
    match m1.lock_one hp1 ind1 with
    | .error e => .error e
    | .ok (m2, some l) => .ok (m2, hp1, ind1, 0, l)
    | .ok (_, none) => .error .out_of_fuel

/-- Lock every stripe of a set in order. -/
def lock_set : List spinlock_t → Except error (List spinlock_t)
  | [] => .ok []
  | s :: rest =>
    match s.lock with
    | .error e => .error e
    | .ok s1 =>
      match lock_set rest with
      | .error e => .error e
      | .ok r => .ok (s1 :: r)

/-- The method `map::lock_all`.  The guard is `none` for an empty history, else the position
(counted from the oldest set) of `first_locked`. -/
def map.lock_all (m : map K V) : Except error (map K V × Option Nat) :=
  match m.all_locks_ with
  | [] => .ok (m, none)
  | locks :: older =>
    match lock_set locks with
    | .error e => .error e
    | .ok locked => .ok (⟨locked :: older, m.buckets_⟩, some older.length)

/-- The deleter `AllUnlocker`: unlock every stripe of every set from `first_locked` on. -/
def map.AllUnlocker (m : map K V) (first_locked : Nat) : map K V :=
  let n := m.all_locks_.length - first_locked
  ⟨(m.all_locks_.take n).map (List.map spinlock_t.unlock) ++ m.all_locks_.drop n, m.buckets_⟩

/-- Destruction of an `AllLocksManager`. -/
def map.release_all (m : map K V) (guard : Option Nat) : map K V :=
  match guard with
  | none => m
  | some first_locked => m.AllUnlocker first_locked

/-- The method `map::maybe_resize_locks`. -/
def map.maybe_resize_locks (m : map K V) (new_bucket_count : Nat) (new_locks : List spinlock_t) :
    Except error (map K V) :=
  let n := min kMaxNumLocks new_bucket_count
  if n < new_locks.length then .error .out_of_bounds
  else
    let next_locks := new_locks.map (spinlock_t.assign spinlock_t.new) ++
      List.replicate (n - new_locks.length) spinlock_t.new
    match lock_set next_locks with
    | .error e => .error e
    | .ok locked => .ok ⟨locked :: m.all_locks_, m.buckets_⟩

/-- Add `d` to the element counter of stripe `lock_ind(bucket_ind)` of the current set. -/
def map.bump_counter (m : map K V) (bucket_ind : Nat) (d : Int) : Except error (map K V) :=
  match m.get_current_locks with
  | .error e => .error e
  | .ok locks =>
    let l := bucket_ind &&& (locks.length - 1)
    match locks[l]? with
    | none => .error .out_of_bounds
    | some s =>
      .ok (m.set_current_locks (locks.set l ⟨s.lock_, s.element_counter_ + d, s.is_migrated_⟩))

/-- The method `map::add_to_bucket`. -/
def map.add_to_bucket (m : map K V) (bucket_ind : Nat) (key : K) (val : V) :
    Except error (map K V) :=
  match m.buckets_.setKV bucket_ind key val with
  | .error e => .error e
  | .ok t => map.bump_counter ⟨m.all_locks_, t⟩ bucket_ind 1

/-- The method `map::del_from_bucket`. -/
def map.del_from_bucket (m : map K V) (bucket_ind : Nat) : Except error (map K V) :=
  match m.buckets_.eraseKV bucket_ind with
  | .error e => .error e
  | .ok t => map.bump_counter ⟨m.all_locks_, t⟩ bucket_ind (-1)

/-- Read `buckets_[ind].mapped()` of a slot together with its key. -/
def map.read_slot (m : map K V) (ind : Nat) : Except error (bucket K V × K × V) :=
  match m.buckets_.buckets_[ind]? with
  | none => .error .out_of_bounds
  | some b =>
    match b.storage_ with
    | none => .error .uninitialized
    | some (k, v) => .ok (b, k, v)

/-- Write through the reference `buckets_[ind].mapped()`. -/
def map.write_mapped (m : map K V) (ind : Nat) (b : bucket K V) (k : K) (v : V) : map K V :=
  ⟨m.all_locks_, ⟨m.buckets_.hashpower_,
    m.buckets_.buckets_.set ind ⟨some (k, v), b.occupied_, b.deleted_⟩⟩⟩

end map_ops

section probes

variable {K V : Type} [DecidableEq K] (hash_fn : K → Nat)

/-- The method `map::hashed_key`. -/
def map.hashed_key (key : K) : Nat := hash_fn key

/-- The loop of `map::linear_find_loop`, one iteration per unit of fuel. -/
def map.linear_find_loop.go (key : K) (hv : Nat) :
    Nat → map K V → Nat → Nat → Nat → Except error (map K V × table_position)
  | 0, _, _, _, _ => .error .out_of_fuel
  | fuel + 1, m, hp, ind, retry_counter =>
    match m.lock_one_loop hp ind retry_counter hv with
    | .error e => .error e
    | .ok (m1, hp, ind, retry_counter, l) =>
      match m1.buckets_.buckets_[ind]? with
      | none => .error .out_of_bounds
      | some b =>
        let next : Except error (map K V × table_position) :=
          if retry_counter + 1 ≥ hp then
            .ok (m1.unlock_one l, ⟨0, .failure_key_not_found, none⟩)
          else go key hv fuel (m1.unlock_one l) hp (index_hash hp (ind + 1)) (retry_counter + 1)
        if !b.occupied_ then .ok (m1.unlock_one l, ⟨0, .failure_key_not_found, none⟩)
        else if b.deleted_ then next
        else
          match b.storage_ with
          | none => .error .uninitialized
          | some (k, _) => if k = key then .ok (m1, ⟨ind, .ok, some l⟩) else next

/-- The method `map::linear_find_loop`; the loop runs at most `max 1 hp` times. -/
def map.linear_find_loop (m : map K V) (key : K) (hv : Nat) :
    Except error (map K V × table_position) :=
  let hp := m.hashpower
  map.linear_find_loop.go key hv (hp + 1) m hp (index_hash hp hv) 0

/-- The method `map::find_fn`; the functor receives the mapped value and its captured state
and returns the (possibly modified) mapped value and its new captured state. -/
def map.find_fn {σ : Type} (m : map K V) (key : K) (fn : V → σ → V × σ) (s : σ) :
    Except error (map K V × Bool × σ) :=
  let hv := map.hashed_key hash_fn key
  match m.linear_find_loop key hv with
  | .error e => .error e
  | .ok (m1, pos) =>
    if pos.status = .ok then
      match m1.read_slot pos.index with
      | .error e => .error e
      | .ok (b, k, v) =>
        .ok ((m1.write_mapped pos.index b k (fn v s).1).release pos.lock, true, (fn v s).2)
    else .ok (m1.release pos.lock, false, s)

/-- The method `map::update_fn`. -/
def map.update_fn (m : map K V) (key : K) (fn : V → V) : Except error (map K V × Bool) :=
  match map.find_fn hash_fn m key (fun v (_ : Unit) => (fn v, ())) () with
  | .error e => .error e
  | .ok (m1, r, _) => .ok (m1, r)

/-- The overload `bool map::find(const K&, mapped_type&)`: the result and the new `val`. -/
def map.find (m : map K V) (key : K) (val : V) : Except error (map K V × Bool × V) :=
  map.find_fn hash_fn m key (fun v _ => (v, v)) val

/-- The overload `mapped_type map::find(const K&)`, which throws `std::out_of_range`. -/
def map.find_or_throw (m : map K V) (key : K) : Except error (map K V × V) :=
  let hv := map.hashed_key hash_fn key
  match m.linear_find_loop key hv with
  | .error e => .error e
  | .ok (m1, pos) =>
    if pos.status = .ok then
      match m1.read_slot pos.index with
      | .error e => .error e
      | .ok (_, _, v) => .ok (m1.release pos.lock, v)
    else .error .out_of_range

/-- The method `map::update`. -/
def map.update (m : map K V) (key : K) (val : V) : Except error (map K V × Bool) :=
  map.update_fn hash_fn m key (fun _ => val)

/-- The method `map::erase_fn`. -/
def map.erase_fn (m : map K V) (key : K) (fn : V → V × Bool) : Except error (map K V × Bool) :=
  let hv := map.hashed_key hash_fn key
  match m.linear_find_loop key hv with
  | .error e => .error e
  | .ok (m1, pos) =>
    if pos.status = .ok then
      match m1.read_slot pos.index with
      | .error e => .error e
      | .ok (b, k, v) =>
        let m2 := m1.write_mapped pos.index b k (fn v).1
        if (fn v).2 then
          match m2.del_from_bucket pos.index with
          | .error e => .error e
          | .ok m3 => .ok (m3.release pos.lock, true)
        else .ok (m2.release pos.lock, true)
    else .ok (m1.release pos.lock, false)

/-- The method `map::erase`. -/
def map.erase (m : map K V) (key : K) : Except error (map K V × Bool) :=
  map.erase_fn hash_fn m key (fun v => (v, true))

/-- The body of the migration loop of `linear_expand` for source slot `i`; `ins` is
`new_map.insert`. -/
def map.migrate_step (ins : map K V → K → V → Except error (map K V × Bool))
    (src : List (bucket K V)) (new_map : map K V) (i : Nat) : Except error (map K V) :=
  match src[i]? with
  | none => .error .out_of_bounds
  | some bucket =>
    if bucket.occupied_ && !bucket.deleted_ then
      match bucket.storage_ with
      | none => .error .uninitialized
      | some (k, v) =>
        match ins new_map k v with
        | .error e => .error e
        | .ok (nm, _) => .ok nm
    else .ok new_map

mutual

/-- The loop of `map::linear_insert_loop`. -/
def map.linear_insert_loop.go :
    Nat → K → Nat → map K V → Nat → Nat → Nat → Except error (map K V × table_position)
  | 0, _, _, _, _, _, _ => .error .out_of_fuel
  | fuel + 1, key, hv, m, hp, ind, retry_counter =>
    match m.lock_one_loop hp ind retry_counter hv with
    | .error e => .error e
    | .ok (m1, hp, ind, retry_counter, l) =>
      match m1.buckets_.buckets_[ind]? with
      | none => .error .out_of_bounds
      | some b =>
        if !b.occupied_ || b.deleted_ then .ok (m1, ⟨ind, .ok, some l⟩)
        else
          match b.storage_ with
          | none => .error .uninitialized
          | some (k, _) =>
            if k = key then .ok (m1, ⟨ind, .failure_key_duplicated, some l⟩)
            else if retry_counter + 1 ≥ hp then
              match map.linear_expand fuel (m1.unlock_one l) hp (hp + 1) with
              | .error e => .error e
              | .ok (m2, _) =>
                map.linear_insert_loop.go fuel key hv m2 m2.hashpower
                  (index_hash m2.hashpower hv) 0
            else
              map.linear_insert_loop.go fuel key hv (m1.unlock_one l) hp
                (index_hash hp (ind + 1)) (retry_counter + 1)

/-- The method `map::linear_expand`; `new_map(new_hp)` is constructed with the default
arguments, so its functor is `Hash()`, the parameter `hash_fn` of the group. -/
def map.linear_expand : Nat → map K V → Nat → Nat → Except error (map K V × op_status)
  | 0, _, _, _ => .error .out_of_fuel
  | fuel + 1, m, orig_hp, new_hp =>
    match m.lock_all with
    | .error e => .error e
    | .ok (m1, none) => .ok (m1, .failure)
    | .ok (m1, some first_locked) =>
      let hp := m1.hashpower
      if hp ≠ orig_hp then .ok (m1.AllUnlocker first_locked, .failure_under_expansion)
      else
        match (List.range (hashsize hp)).foldlM
            (map.migrate_step (map.insert fuel) m1.buckets_.buckets_) (map.new new_hp) with
        | .error e => .error e
        | .ok new_map =>
          match new_map.get_current_locks with
          | .error e => .error e
          | .ok new_locks =>
            match m1.maybe_resize_locks new_map.bucket_count new_locks with
            | .error e => .error e
            | .ok m2 =>
              .ok (map.AllUnlocker ⟨m2.all_locks_, new_map.buckets_⟩ first_locked, .ok)

/-- The method `map::insert`. -/
def map.insert : Nat → map K V → K → V → Except error (map K V × Bool)
  | 0, _, _, _ => .error .out_of_fuel
  | fuel + 1, m, key, val => map.upsert fuel m key (fun v => v) val

/-- The method `map::upsert`. -/
def map.upsert : Nat → map K V → K → (V → V) → V → Except error (map K V × Bool)
  | 0, _, _, _, _ => .error .out_of_fuel
  | fuel + 1, m, key, fn, val => map.uprase_fn fuel m key (fun v => (fn v, false)) val

/-- The method `map::uprase_fn` of a map whose member `hash_fn_` is `Hash()`. -/
def map.uprase_fn : Nat → map K V → K → (V → V × Bool) → V → Except error (map K V × Bool)
  | 0, _, _, _, _ => .error .out_of_fuel
  | fuel + 1, m, key, fn, val =>
    let hv := map.hashed_key hash_fn key
    match map.linear_insert_loop fuel m key hv with
    | .error e => .error e
    | .ok (m1, pos) =>
      if pos.status = .failure then .error .assertion
      else if pos.status = .ok then
        match pos.lock with
        | none => .error .assertion
        | some _ =>
          match m1.add_to_bucket pos.index key val with
          | .error e => .error e
          | .ok m2 => .ok (m2.release pos.lock, true)
      else if pos.status ≠ .failure_key_duplicated then .error .assertion
      else
        match m1.read_slot pos.index with
        | .error e => .error e
        | .ok (b, k, v) =>
          let m2 := m1.write_mapped pos.index b k (fn v).1
          if (fn v).2 then
            match m2.del_from_bucket pos.index with
            | .error e => .error e
            | .ok m3 => .ok (m3.release pos.lock, false)
          else .ok (m2.release pos.lock, false)

/-- The method `map::linear_insert_loop`. -/
def map.linear_insert_loop : Nat → map K V → K → Nat → Except error (map K V × table_position)
  | 0, _, _, _ => .error .out_of_fuel
  | fuel + 1, m, key, hv =>
    map.linear_insert_loop.go fuel key hv m m.hashpower (index_hash m.hashpower hv) 0

end

/-- The method `map::uprase_fn` of a map whose member `hash_fn_` is `hash_fn` while the
default-constructed functor `Hash()` is `default_hash`: the key is hashed by `hash_fn_`, and
the resizes of `linear_insert_loop` migrate into a `new_map` built with `Hash()`. -/
def map.uprase_fn_with (default_hash : K → Nat) :
    Nat → map K V → K → (V → V × Bool) → V → Except error (map K V × Bool)
  | 0, _, _, _, _ => .error .out_of_fuel
  | fuel + 1, m, key, fn, val =>
    let hv := map.hashed_key hash_fn key
    match map.linear_insert_loop default_hash fuel m key hv with
    | .error e => .error e
    | .ok (m1, pos) =>
      if pos.status = .failure then .error .assertion
      else if pos.status = .ok then
        match pos.lock with
        | none => .error .assertion
        | some _ =>
          match m1.add_to_bucket pos.index key val with
          | .error e => .error e
          | .ok m2 => .ok (m2.release pos.lock, true)
      else if pos.status ≠ .failure_key_duplicated then .error .assertion
      else
        match m1.read_slot pos.index with
        | .error e => .error e
        | .ok (b, k, v) =>
          let m2 := m1.write_mapped pos.index b k (fn v).1
          if (fn v).2 then
            match m2.del_from_bucket pos.index with
            | .error e => .error e
            | .ok m3 => .ok (m3.release pos.lock, false)
          else .ok (m2.release pos.lock, false)

/-- The method `map::upsert` of a map whose member `hash_fn_` is `hash_fn` while `Hash()` is
`default_hash`. -/
def map.upsert_with (default_hash : K → Nat) :
    Nat → map K V → K → (V → V) → V → Except error (map K V × Bool)
  | 0, _, _, _, _ => .error .out_of_fuel
  | fuel + 1, m, key, fn, val =>
    map.uprase_fn_with hash_fn default_hash fuel m key (fun v => (fn v, false)) val

/-- The method `map::insert` of a map whose member `hash_fn_` is `hash_fn` while `Hash()` is
`default_hash`. -/
def map.insert_with (default_hash : K → Nat) :
    Nat → map K V → K → V → Except error (map K V × Bool)
  | 0, _, _, _ => .error .out_of_fuel
  | fuel + 1, m, key, val => map.upsert_with hash_fn default_hash fuel m key (fun v => v) val

/-- The constructor `map(first, last, hp, hf)` with the functor `hf = hash_fn` while `Hash()`
is `default_hash`. -/
def map.new_range_with (default_hash : K → Nat) (fuel : Nat) (kvs : List (K × V)) (hp : Nat) :
    Except error (map K V) :=
  kvs.foldlM (fun m kv => (map.insert_with hash_fn default_hash fuel m kv.1 kv.2).map Prod.fst)
    (map.new hp)

/-- The method `map::insert_or_assign`. -/
def map.insert_or_assign (fuel : Nat) (m : map K V) (key : K) (val : V) :
    Except error (map K V × Bool) :=
  map.upsert hash_fn fuel m key (fun _ => val) val

/-- The method `map::linear_clear`. -/
def map.linear_clear (m : map K V) : Except error (map K V) :=
  match m.buckets_.clear with
  | .error e => .error e
  | .ok t =>
    match m.get_current_locks with
    | .error e => .error e
    | .ok locks =>
      .ok (map.set_current_locks ⟨m.all_locks_, t⟩
        (locks.map (fun lock => (⟨lock.lock_, 0, true⟩ : spinlock_t))))

/-- The method `map::clear`. -/
def map.clear (m : map K V) : Except error (map K V) :=
  match m.lock_all with
  | .error e => .error e
  | .ok (m1, none) => .ok m1
  | .ok (m1, some first_locked) =>
    match m1.linear_clear with
    | .error e => .error e
    | .ok m2 => .ok (m2.AllUnlocker first_locked)

/-- The method `map::linear_rehash`. -/
def map.linear_rehash (fuel : Nat) (m : map K V) (new_hp : Nat) : Except error (map K V × Bool) :=
  let hp := m.hashpower
  if new_hp = hp then .ok (m, false)
  else
    match map.linear_expand hash_fn fuel m hp new_hp with
    | .error e => .error e
    | .ok (m1, st) => .ok (m1, decide (st = .ok))

/-- The method `map::rehash`. -/
def map.rehash (fuel : Nat) (m : map K V) (hp : Nat) : Except error (map K V × Bool) :=
  map.linear_rehash hash_fn fuel m hp

/-- The loop of `map::reserve_calc`. -/
def map.reserve_calc.go (buckets : Nat) : Nat → Nat → Except error Nat
  | 0, _ => .error .out_of_fuel
  | fuel + 1, blog2 =>
    if 1 <<< blog2 < buckets then map.reserve_calc.go buckets fuel (blog2 + 1) else .ok blog2

/-- The function `map::reserve_calc`; the loop ends after at most `n` increments. -/
def map.reserve_calc (n : Nat) : Except error Nat :=
  let buckets := n
  match map.reserve_calc.go buckets (n + 1) 0 with
  | .error e => .error e
  | .ok blog2 => if n ≤ buckets ∧ buckets ≤ hashsize blog2 then .ok blog2 else .error .assertion

/-- The method `map::linear_reserve`. -/
def map.linear_reserve (fuel : Nat) (m : map K V) (n : Nat) : Except error (map K V × Bool) :=
  let hp := m.hashpower
  match map.reserve_calc n with
  | .error e => .error e
  | .ok new_hp =>
    if new_hp = hp then .ok (m, false)
    else
      match map.linear_expand hash_fn fuel m hp new_hp with
      | .error e => .error e
      | .ok (m1, st) => .ok (m1, decide (st = .ok))

/-- The method `map::reserve`. -/
def map.reserve (fuel : Nat) (m : map K V) (n : Nat) : Except error (map K V × Bool) :=
  map.linear_reserve hash_fn fuel m n

/-- The method `map::load_factor`, as an exact quotient. -/
def map.load_factor (m : map K V) : Except error ℚ :=
  match m.size with
  | .error e => .error e
  | .ok s => .ok ((s : ℚ) / (m.capacity : ℚ))

/-- The method `map::shrink`; the bound `1 / 4` of the source is a quotient of integers. -/
def map.shrink : Nat → map K V → Except error (map K V)
  | 0, _ => .error .out_of_fuel
  | fuel + 1, m =>
    match m.load_factor with
    | .error e => .error e
    | .ok lf =>
      if lf ≤ (((1 / 4 : Nat) : ℚ)) then
        let hp := m.hashpower
        if hp > 1 then
          match map.linear_expand hash_fn fuel m hp (hp - 1) with
          | .error e => .error e
          | .ok (m1, _) => map.shrink fuel m1
        else .ok m
      else .ok m

/-- The calls of the public interface that act on a map. -/
inductive op (K V : Type) where
  | insert (key : K) (val : V)
  | insert_or_assign (key : K) (val : V)
  | upsert (key : K) (fn : V → V) (val : V)
  | update (key : K) (val : V)
  | update_fn (key : K) (fn : V → V)
  | find (key : K) (val : V)
  | erase (key : K)
  | clear
  | rehash (hp : Nat)
  | reserve (n : Nat)
  | shrink

/-- The state a call of the public interface leaves behind. -/
def map.apply (fuel : Nat) (m : map K V) : op K V → Except error (map K V)
  | .insert key val => (map.insert hash_fn fuel m key val).map Prod.fst
  | .insert_or_assign key val => (map.insert_or_assign hash_fn fuel m key val).map Prod.fst
  | .upsert key fn val => (map.upsert hash_fn fuel m key fn val).map Prod.fst
  | .update key val => (map.update hash_fn m key val).map Prod.fst
  | .update_fn key fn => (map.update_fn hash_fn m key fn).map Prod.fst
  | .find key val => (map.find hash_fn m key val).map Prod.fst
  | .erase key => (map.erase hash_fn m key).map Prod.fst
  | .clear => m.clear
  | .rehash hp => (map.rehash hash_fn fuel m hp).map Prod.fst
  | .reserve n => (map.reserve hash_fn fuel m n).map Prod.fst
  | .shrink => map.shrink hash_fn fuel m

/-- The states a single thread reaches from a constructed map through the public interface. -/
inductive reachable : map K V → Prop where
  | construct (hp : Nat) : reachable (map.new hp)
  | step {m m' : map K V} (fuel : Nat) (o : op K V) :
      reachable m → map.apply hash_fn fuel m o = .ok m' → reachable m'

/-- The call is `clear()`. -/
def op.is_clear : op K V → Bool
  | .clear => true
  | _ => false

/-- The states a single thread reaches from a constructed map without calling `clear()`. -/
inductive reachable_no_clear : map K V → Prop where
  | construct (hp : Nat) : reachable_no_clear (map.new hp)
  | step {m m' : map K V} (fuel : Nat) (o : op K V) :
      reachable_no_clear m → o.is_clear = false → map.apply hash_fn fuel m o = .ok m' →
      reachable_no_clear m'

/-- The constructor `map(first, last, hp)` from an iterator range of pairs. -/
def map.new_range (fuel : Nat) (kvs : List (K × V)) (hp : Nat) : Except error (map K V) :=
  kvs.foldlM (fun m kv => (map.insert hash_fn fuel m kv.1 kv.2).map Prod.fst) (map.new hp)

/-- The constructor `map(init, hp)` from an initializer list, which delegates to the range
constructor. -/
def map.new_init (fuel : Nat) (init : List (K × V)) (hp : Nat) : Except error (map K V) :=
  map.new_range hash_fn fuel init hp

/-- The loop `for (kv : kvs) { insert(kv.first, kv.second); size(); }` of the size tests: the
final map, and the result of every insert with the size after it. -/
def map.insert_each (fuel : Nat) : map K V → List (K × V) →
    Except error (map K V × List (Bool × Nat))
  | m, [] => .ok (m, [])
  | m, (k, v) :: rest =>
    match map.insert hash_fn fuel m k v with
    | .error e => .error e
    | .ok (m1, r) =>
      match m1.size with
      | .error e => .error e
      | .ok s =>
        match map.insert_each fuel m1 rest with
        | .error e => .error e
        | .ok (m2, log) => .ok (m2, (r, s) :: log)

/-- Run a list of calls one after the other. -/
def map.run (fuel : Nat) : map K V → List (op K V) → Except error (map K V)
  | m, [] => .ok m
  | m, o :: rest =>
    match map.apply hash_fn fuel m o with
    | .error e => .error e
    | .ok m1 => map.run fuel m1 rest

end probes

/-! ## Specification-level notions used to state and prove the properties -/

section spec

variable {K V : Type} [DecidableEq K]

/-- The slot is live and stores the key `key`. -/
def bucket.holds (b : bucket K V) (key : K) : Bool :=
  b.occupied_ && !b.deleted_ &&
    match b.storage_ with
    | some (k, _) => decide (k = key)
    | none => false

/-- The number of slots a probe may examine: `hashpower` of them, and one when it is 0. -/
def probe_budget (hp : Nat) : Nat := max 1 hp

/-- The slot a find probe over at most `n` slots starting at `ind` ends on, without locks. -/
def probe_find (key : K) (bs : List (bucket K V)) : Nat → Nat → Option Nat
  | 0, _ => none
  | n + 1, ind =>
    match bs[ind]? with
    | none => none
    | some b =>
      if !b.occupied_ then none
      else if b.holds key then some ind
      else probe_find key bs n ((ind + 1) % bs.length)

/-- Outcome of an insert-slot probe that stays within its budget, or its exhaustion. -/
inductive insert_slot where
  | here (j : Nat)
  | duplicate (j : Nat)
  | exhausted
  deriving DecidableEq

/-- The outcome of an insert-slot probe over at most `n` slots starting at `ind`. -/
def probe_insert (key : K) (bs : List (bucket K V)) : Nat → Nat → insert_slot
  | 0, _ => .exhausted
  | n + 1, ind =>
    match bs[ind]? with
    | none => .exhausted
    | some b =>
      if !b.live then .here ind
      else if b.holds key then .duplicate ind
      else probe_insert key bs n ((ind + 1) % bs.length)

/-- Slot `j` is met by a walk of at most `n` slots from `ind` that only crosses occupied slots. -/
def probe_reach (bs : List (bucket K V)) : Nat → Nat → Nat → Bool
  | 0, _, _ => false
  | n + 1, ind, j =>
    decide (ind = j) ||
      match bs[ind]? with
      | none => false
      | some b => b.occupied_ && probe_reach bs n ((ind + 1) % bs.length) j

/-- Slot `i` exists and is live. -/
def live_at (bs : List (bucket K V)) (i : Nat) : Bool :=
  match bs[i]? with
  | none => false
  | some b => b.live

/-- The number of live slots of a bucket array. -/
def live_count (bs : List (bucket K V)) : Nat := (List.range bs.length).countP (live_at bs)

/-- Some slot of the bucket array is live with key `key`. -/
def has_key (bs : List (bucket K V)) (key : K) : Prop :=
  ∃ (j : Nat) (b : bucket K V), bs[j]? = some b ∧ b.holds key = true

/-- The stripe of the current set that guards bucket `i`. -/
def map.stripe (m : map K V) (i : Nat) : Nat :=
  match m.all_locks_ with
  | [] => 0
  | cur :: _ => i &&& (cur.length - 1)

/-- The map with stripe `l` of the current set held. -/
def map.hold (m : map K V) (l : Nat) : map K V :=
  match m.all_locks_ with
  | [] => m
  | cur :: older =>
    match cur[l]? with
    | none => m
    | some s => ⟨cur.set l ⟨true, s.element_counter_, s.is_migrated_⟩ :: older, m.buckets_⟩

/-- The map with another bucket array of the same hashpower. -/
def map.with_buckets (m : map K V) (bs : List (bucket K V)) : map K V :=
  ⟨m.all_locks_, ⟨m.buckets_.hashpower_, bs⟩⟩

/-- The map with `d` added to the element counter of stripe `l` of the current set. -/
def map.add_counter (m : map K V) (l : Nat) (d : Int) : map K V :=
  match m.all_locks_ with
  | [] => m
  | cur :: older =>
    match cur[l]? with
    | none => m
    | some s => ⟨cur.set l ⟨s.lock_, s.element_counter_ + d, s.is_migrated_⟩ :: older, m.buckets_⟩

/-- The state invariant of a map no call is running on. -/
structure map.inv (hash_fn : K → Nat) (m : map K V) : Prop where
  len : m.buckets_.buckets_.length = 2 ^ m.buckets_.hashpower_
  cur : ∃ cur older, m.all_locks_ = cur :: older ∧
    cur.length = min (2 ^ m.buckets_.hashpower_) kMaxNumLocks
  free : ∀ locks ∈ m.all_locks_, ∀ s ∈ locks, s.lock_ = false
  init : ∀ (j : Nat) (b : bucket K V), m.buckets_.buckets_[j]? = some b → b.live = true → b.storage_.isSome = true
  reach : ∀ (j : Nat) (b : bucket K V) (k : K) (v : V), m.buckets_.buckets_[j]? = some b → b.live = true →
    b.storage_ = some (k, v) →
    probe_reach m.buckets_.buckets_ (probe_budget m.buckets_.hashpower_)
      (index_hash m.buckets_.hashpower_ (hash_fn k)) j = true

/-- The result of the find loop in terms of the slot the probe ends on. -/
def map.find_result (m : map K V) : Option Nat → map K V × table_position
  | none => (m, ⟨0, .failure_key_not_found, none⟩)
  | some j => (m.hold (m.stripe j), ⟨j, .ok, some (m.stripe j)⟩)

/-- The bucket a key is hashed to. -/
def map.home (hash_fn : K → Nat) (m : map K V) (key : K) : Nat :=
  index_hash m.hashpower (hash_fn key)

/-- The number of live slots of a bucket array that stripe `s` of a set of `n` stripes guards. -/
def stripe_live (bs : List (bucket K V)) (n s : Nat) : Nat :=
  (List.range bs.length).countP (fun i => live_at bs i && decide (i &&& (n - 1) = s))

/-- Every element counter of the current stripe set is the number of live slots its stripe
guards. -/
def map.counted (m : map K V) : Prop :=
  ∀ (cur : List spinlock_t) (older : List (List spinlock_t)), m.all_locks_ = cur :: older →
    ∀ (s : Nat) (c : spinlock_t), cur[s]? = some c →
      c.element_counter_ = (stripe_live m.buckets_.buckets_ cur.length s : Int)

/-- No slot of the bucket array has its `deleted` flag set. -/
def map.no_deleted (m : map K V) : Prop :=
  ∀ (i : Nat) (b : bucket K V), m.buckets_.buckets_[i]? = some b → b.deleted_ = false

/-- The state of a table that was built by inserts alone: the counters are exact and there is
no tombstone. -/
def map.fresh (m : map K V) : Prop := m.counted ∧ m.no_deleted

/-- Every slot of the bucket array satisfies `deleted ⇒ occupied`. -/
def map.tidy (m : map K V) : Prop :=
  ∀ (i : Nat) (b : bucket K V), m.buckets_.buckets_[i]? = some b → b.deleted_ = true →
    b.occupied_ = true

/-- Some slot of the bucket array is live with the pair `(key, val)`. -/
def has_pair (bs : List (bucket K V)) (key : K) (val : V) : Prop :=
  ∃ (j : Nat) (b : bucket K V), bs[j]? = some b ∧ b.live = true ∧ b.storage_ = some (key, val)

/-- No key is live in two slots of the bucket array. -/
def nodup_keys (bs : List (bucket K V)) : Prop :=
  ∀ (i j : Nat) (b c : bucket K V) (k : K), bs[i]? = some b → bs[j]? = some c →
    b.holds k = true → c.holds k = true → i = j

/-- What a migration keeps: every pair of `m0` is a pair of `m`, every key of `m` is a key of
`m0`, no live slot is lost when no key of `m` is live twice, and `m0` is `m` itself or has no
key live twice. -/
def map.kept (m m0 : map K V) : Prop :=
  (∀ key val, has_pair m0.buckets_.buckets_ key val → has_pair m.buckets_.buckets_ key val) ∧
  (∀ key, has_key m.buckets_.buckets_ key → has_key m0.buckets_.buckets_ key) ∧
  (nodup_keys m.buckets_.buckets_ →
    live_count m.buckets_.buckets_ ≤ live_count m0.buckets_.buckets_) ∧
  (m0 = m ∨ nodup_keys m0.buckets_.buckets_)

/-- What resizes preserve: `m0` has at least the hashpower of `m`, no key `m` does not have,
and no more live slots; `m0` is `m` itself or a table built by inserts alone, of a greater
hashpower; and `m0` keeps the contents of `m`. -/
def map.grown (m m0 : map K V) : Prop :=
  m.hashpower ≤ m0.hashpower ∧
  (∀ key, has_key m0.buckets_.buckets_ key → has_key m.buckets_.buckets_ key) ∧
  live_count m0.buckets_.buckets_ ≤ live_count m.buckets_.buckets_ ∧
  (m0 = m ∨ m0.fresh) ∧
  m.kept m0 ∧
  (m0 = m ∨ m.hashpower < m0.hashpower)

/-- The map after the pair `(key, val)` is constructed in slot `j`. -/
def map.stored (m : map K V) (j : Nat) (key : K) (val : V) : map K V :=
  (m.with_buckets (m.buckets_.buckets_.set j ⟨some (key, val), true, false⟩)).add_counter
    (m.stripe j) 1

/-- The map after the mapped value of slot `j` (bucket `b`, key `key`) is replaced by `val`. -/
def map.assigned (m : map K V) (j : Nat) (b : bucket K V) (key : K) (val : V) : map K V :=
  m.with_buckets (m.buckets_.buckets_.set j ⟨some (key, val), b.occupied_, b.deleted_⟩)

/-- The map after slot `j` (bucket `b`) is erased. -/
def map.erased (m : map K V) (j : Nat) (b : bucket K V) : map K V :=
  (m.with_buckets (m.buckets_.buckets_.set j ⟨none, b.occupied_, true⟩)).add_counter
    (m.stripe j) (-1)

/-- What a returning insert loop started at `(ind, r)` establishes. -/
def map.go_post (hash_fn : K → Nat) (m : map K V) (key : K) (hv ind r : Nat)
    (x : map K V × table_position) : Prop :=
  ∃ (m0 : map K V) (j n i : Nat), map.inv hash_fn m0 ∧ m.grown m0 ∧
    x.1 = m0.hold (m0.stripe j) ∧
    ((m0 = m ∧ n = probe_budget m.hashpower - r ∧ i = ind) ∨
      (probe_insert key m.buckets_.buckets_ (probe_budget m.hashpower - r) ind = .exhausted ∧
        n = probe_budget m0.hashpower ∧ i = index_hash m0.hashpower hv)) ∧
    ((x.2 = ⟨j, .ok, some (m0.stripe j)⟩ ∧
        probe_insert key m0.buckets_.buckets_ n i = .here j) ∨
      (x.2 = ⟨j, .failure_key_duplicated, some (m0.stripe j)⟩ ∧
        probe_insert key m0.buckets_.buckets_ n i = .duplicate j))

/-- What a returning `linear_insert_loop` establishes. -/
def map.loop_post (hash_fn : K → Nat) (m : map K V) (key : K) (hv : Nat)
    (x : map K V × table_position) : Prop :=
  ∃ (m0 : map K V) (j : Nat), map.inv hash_fn m0 ∧ m.grown m0 ∧
    (m0 = m ∨ probe_insert key m.buckets_.buckets_ (probe_budget m.hashpower)
      (index_hash m.hashpower hv) = .exhausted) ∧
    x.1 = m0.hold (m0.stripe j) ∧
    ((x.2 = ⟨j, .ok, some (m0.stripe j)⟩ ∧
        probe_insert key m0.buckets_.buckets_ (probe_budget m0.hashpower)
          (index_hash m0.hashpower hv) = .here j) ∨
      (x.2 = ⟨j, .failure_key_duplicated, some (m0.stripe j)⟩ ∧
        probe_insert key m0.buckets_.buckets_ (probe_budget m0.hashpower)
          (index_hash m0.hashpower hv) = .duplicate j))

/-- What a returning `upsert` establishes: after the resizes that led from `m` to `m0` (none
unless the probe of `m` was exhausted), either the pair was stored in the slot the probe
chose, or the functor was applied to the duplicate. -/
def map.upsert_post (hash_fn : K → Nat) (m : map K V) (key : K) (fn : V → V) (val : V)
    (x : map K V × Bool) : Prop :=
  ∃ (m0 : map K V), map.inv hash_fn m0 ∧ m.grown m0 ∧
    (m0 = m ∨ probe_insert key m.buckets_.buckets_ (probe_budget m.hashpower)
      (m.home hash_fn key) = .exhausted) ∧
    ((x.2 = true ∧ ∃ j, probe_insert key m0.buckets_.buckets_ (probe_budget m0.hashpower)
          (m0.home hash_fn key) = .here j ∧ x.1 = m0.stored j key val) ∨
      (x.2 = false ∧ ∃ (j : Nat) (b : bucket K V) (v : V),
          probe_insert key m0.buckets_.buckets_ (probe_budget m0.hashpower)
            (m0.home hash_fn key) = .duplicate j ∧
          m0.buckets_.buckets_[j]? = some b ∧ b.storage_ = some (key, v) ∧
          x.1 = m0.assigned j b key (fn v)))

/-- What a returning `linear_expand(hashpower(), n)` establishes. -/
def map.resized (hash_fn : K → Nat) (m : map K V) (n : Nat) (x : map K V × op_status) : Prop :=
  x.2 = .ok ∧ map.inv hash_fn x.1 ∧ n ≤ x.1.hashpower ∧
  (∀ key, has_key x.1.buckets_.buckets_ key → has_key m.buckets_.buckets_ key) ∧
  live_count x.1.buckets_.buckets_ ≤ live_count m.buckets_.buckets_ ∧
  x.1.fresh ∧
  m.kept x.1 ∧ nodup_keys x.1.buckets_.buckets_

/-- The value a find probe for `key` ends on, if it ends on a slot. -/
def map.lookup (hash_fn : K → Nat) (m : map K V) (key : K) : Option V :=
  match probe_find key m.buckets_.buckets_ (probe_budget m.hashpower) (m.home hash_fn key) with
  | none => none
  | some j =>
    match m.buckets_.buckets_[j]? with
    | none => none
    | some b => b.storage_.map Prod.snd

/-- The value of the first pair of an association list whose key is `key`. -/
def first_value (key : K) : List (K × V) → Option V
  | [] => none
  | (k, v) :: rest => if k = key then some v else first_value key rest

/-- The state of a map that was built by inserts alone, as the constructors build it: the
invariant, exact counters, no tombstone, and no key live twice. -/
def map.clean (hash_fn : K → Nat) (m : map K V) : Prop :=
  map.inv hash_fn m ∧ m.fresh ∧ nodup_keys m.buckets_.buckets_

/-- The slot `table::clear` leaves in the place of `b`. -/
def bucket.cleared (b : bucket K V) : bucket K V :=
  if b.occupied_ && !b.deleted_ then ⟨none, false, true⟩ else ⟨b.storage_, false, b.deleted_⟩

/-- The map `clear()` leaves behind: every slot cleared, every counter of the current stripe
set 0. -/
def map.cleared (m : map K V) : map K V :=
  match m.all_locks_ with
  | [] => m
  | cur :: older =>
    ⟨cur.map (fun _ => (⟨false, 0, true⟩ : spinlock_t)) :: older,
      ⟨m.buckets_.hashpower_, m.buckets_.buckets_.map bucket.cleared⟩⟩

/-- A stripe with its flag set. -/
def spinlock_t.held (s : spinlock_t) : spinlock_t := ⟨true, s.element_counter_, s.is_migrated_⟩

/-- The two maps have the same bucket table and the same element counters. -/
def map.same_data (m m' : map K V) : Prop :=
  m'.buckets_ = m.buckets_ ∧
  m'.all_locks_.map (List.map spinlock_t.element_counter_)
    = m.all_locks_.map (List.map spinlock_t.element_counter_)

end spec

/-! ## Concrete maps over `int` keys and values with the identity hash -/

section scenarios

/-- A hash functor that returns its argument. -/
def identity_hash : Nat → Nat := fun k => k

/-- A free stripe with element counter `c`. -/
def stripe_of (c : Int) : spinlock_t := ⟨false, c, true⟩

/-- A live slot holding `(k, v)`. -/
def live_slot (k v : Nat) : bucket Nat Nat := ⟨some (k, v), true, false⟩

/-- An erased slot. -/
def tombstone : bucket Nat Nat := ⟨none, true, true⟩

/-- Hashpower 1 after `insert(1, 1); insert(2, 2)`: both slots live. -/
def full_table : map Nat Nat :=
  ⟨[[stripe_of 1, stripe_of 1]], ⟨1, [live_slot 2 2, live_slot 1 1]⟩⟩

/-- The map `full_table` after `insert(3, v)`, which grows it to hashpower 2. -/
def grown_table (v : Nat) : map Nat Nat :=
  ⟨[[stripe_of 0, stripe_of 1, stripe_of 1, stripe_of 1], [stripe_of 1, stripe_of 1]],
    ⟨2, [bucket.new, live_slot 1 1, live_slot 2 2, live_slot 3 v]⟩⟩

/-- The map `full_table` after `update(2, 7)`. -/
def updated_table : map Nat Nat :=
  ⟨[[stripe_of 1, stripe_of 1]], ⟨1, [live_slot 2 7, live_slot 1 1]⟩⟩

/-- Hashpower 2 after `insert(0, 0); insert(4, 1); erase(0)`: key 4 lives in slot 1 behind the
tombstone of its home slot 0. -/
def key_behind_tombstone : map Nat Nat :=
  ⟨[[stripe_of 0, stripe_of 1, stripe_of 0, stripe_of 0]],
    ⟨2, [tombstone, live_slot 4 1, bucket.new, bucket.new]⟩⟩

/-- The map `key_behind_tombstone` after a further `insert(4, 2)`: key 4 is live twice. -/
def key_stored_twice : map Nat Nat :=
  ⟨[[stripe_of 1, stripe_of 1, stripe_of 0, stripe_of 0]],
    ⟨2, [live_slot 4 2, live_slot 4 1, bucket.new, bucket.new]⟩⟩

/-- Hashpower 2 after `insert(3, 1); insert(7, 2); erase(3); insert(7, 3)`: key 7 is live in
its home slot 3 with value 3 and in slot 0 with value 2. -/
def key_twice_wrapped : map Nat Nat :=
  ⟨[[stripe_of 1, stripe_of 0, stripe_of 0, stripe_of 1]],
    ⟨2, [live_slot 7 2, bucket.new, bucket.new, live_slot 7 3]⟩⟩

/-- The map `key_twice_wrapped` after `insert(11, 0)`, which grows it to hashpower 3. -/
def key_twice_wrapped_grown : map Nat Nat :=
  ⟨[[stripe_of 0, stripe_of 0, stripe_of 0, stripe_of 1, stripe_of 0, stripe_of 0, stripe_of 0,
      stripe_of 1], [stripe_of 1, stripe_of 0, stripe_of 0, stripe_of 1]],
    ⟨3, [bucket.new, bucket.new, bucket.new, live_slot 11 0, bucket.new, bucket.new, bucket.new,
      live_slot 7 2]⟩⟩

/-- Hashpower 1 after `insert(1, 1); clear()`: slot 1 keeps its `deleted` flag. -/
def cleared_table : map Nat Nat :=
  ⟨[[stripe_of 0, stripe_of 0]], ⟨1, [bucket.new, ⟨none, false, true⟩]⟩⟩

/-- The map `full_table` after `rehash(0)`: rebuilt at hashpower 1. -/
def full_table_rehashed : map Nat Nat :=
  ⟨[[stripe_of 1, stripe_of 1], [stripe_of 1, stripe_of 1]],
    ⟨1, [live_slot 2 2, live_slot 1 1]⟩⟩

/-- The map `key_twice_wrapped` after `rehash(3)`: one of the two pairs of key 7 is left. -/
def key_twice_wrapped_rehashed : map Nat Nat :=
  ⟨[[stripe_of 0, stripe_of 0, stripe_of 0, stripe_of 0, stripe_of 0, stripe_of 0, stripe_of 0,
      stripe_of 1], [stripe_of 1, stripe_of 0, stripe_of 0, stripe_of 1]],
    ⟨3, [bucket.new, bucket.new, bucket.new, bucket.new, bucket.new, bucket.new, bucket.new,
      live_slot 7 2]⟩⟩

/-- The empty map of hashpower 3 after `reserve(2)`: hashpower 1. -/
def reserved_down : map Nat Nat :=
  ⟨[[stripe_of 0, stripe_of 0], List.replicate 8 (stripe_of 0)],
    ⟨1, [bucket.new, bucket.new]⟩⟩

/-- Hashpower 3 after `insert(1, 1)`: one live slot out of eight. -/
def sparse_table : map Nat Nat :=
  ⟨[[stripe_of 0, stripe_of 1, stripe_of 0, stripe_of 0, stripe_of 0, stripe_of 0, stripe_of 0,
      stripe_of 0]],
    ⟨3, [bucket.new, live_slot 1 1, bucket.new, bucket.new, bucket.new, bucket.new, bucket.new,
      bucket.new]⟩⟩

/-- A bucket array of hashpower 3 with live slots 1, 4 and 6 and a tombstone in slot 2. -/
def gapped_slots : table Nat Nat :=
  ⟨3, [bucket.new, live_slot 1 1, tombstone, bucket.new, live_slot 4 4, bucket.new,
    live_slot 6 6, bucket.new]⟩

/-- The bucket array of hashpower `hp` in which slot `j` holds the pair `(j, j)` for every
`j < n` and no other slot was ever occupied. -/
def filled_slots (hp n : Nat) : List (bucket Nat Nat) :=
  (List.range (2 ^ hp)).map (fun j => if j < n then live_slot j j else bucket.new)

/-- The map has hashpower `hp` and the bucket array `filled_slots hp n`, and satisfies the
invariant (for the identity hash) with exact counters. -/
def map.filled (m : map Nat Nat) (hp n : Nat) : Prop :=
  map.inv identity_hash m ∧ m.counted ∧ m.buckets_ = ⟨hp, filled_slots hp n⟩

/-- A hash functor that maps every key to 0. -/
def constant_hash : Nat → Nat := fun _ => 0

/-- Hashpower 0 after `insert(1, 1)`: the single slot is live. -/
def one_slot_full : map Nat Nat := ⟨[[stripe_of 1]], ⟨0, [live_slot 1 1]⟩⟩

/-- A hash functor with a seed as its state: `SeededHash{s}(k) = k + s`; the
default-constructed functor has seed 0 and is the identity hash. -/
def seeded_hash (s : Nat) : Nat → Nat := fun k => k + s

/-- Hashpower 0 after `insert(0, 10)`: the single slot is live. -/
def seeded_full : map Nat Nat := ⟨[[stripe_of 1]], ⟨0, [live_slot 0 10]⟩⟩

/-- The map built with `SeededHash{1}` at hashpower 0 after `insert(0, 10); insert(2, 20)`:
the grow has moved key 0 to slot 0, its home under `Hash()`. -/
def seeded_lost : map Nat Nat :=
  ⟨[[stripe_of 1, stripe_of 1], [stripe_of 1]], ⟨1, [live_slot 0 10, live_slot 2 20]⟩⟩

/-- The map `seeded_lost` after a further `insert(0, 30)`: key 0 is live twice. -/
def seeded_twice : map Nat Nat :=
  ⟨[[stripe_of 1, stripe_of 1, stripe_of 1, stripe_of 0], [stripe_of 1, stripe_of 1],
      [stripe_of 1]],
    ⟨2, [live_slot 0 10, live_slot 0 30, live_slot 2 20, bucket.new]⟩⟩

end scenarios

/-! ## Arithmetic of indices -/

section lemmas

variable {K V : Type} [DecidableEq K] {hash_fn : K → Nat}

theorem hashsize_eq (hp : Nat) : hashsize hp = 2 ^ hp := by
  simp [hashsize, Nat.one_shiftLeft]

theorem index_hash_eq (hp hv : Nat) : index_hash hp hv = hv % 2 ^ hp := by
  unfold index_hash hashmask
  rw [hashsize_eq, Nat.and_pow_two_sub_one_eq_mod]

theorem index_hash_lt (hp hv : Nat) : index_hash hp hv < 2 ^ hp := by
  rw [index_hash_eq]
  exact Nat.mod_lt _ (Nat.pos_pow_of_pos hp (by decide))

theorem and_pred_lt (i n : Nat) (hn : 0 < n) : i &&& (n - 1) < n := by
  have := @Nat.and_le_right i (n - 1)
  omega

theorem kMaxNumLocks_eq : kMaxNumLocks = 65536 := by decide

theorem list_set_same {α : Type} {l : List α} {i : Nat} {a : α} (h : l[i]? = some a) :
    l.set i a = l := by
  apply List.ext_getElem?
  intro j
  rw [List.getElem?_set']
  split
  · next hij => subst hij; simp [h]
  · rfl

/-! ## Stripe locks -/

theorem map.inv.stripe_lt {m : map K V} (h : map.inv hash_fn m) {cur older}
    (hc : m.all_locks_ = cur :: older) (i : Nat) : m.stripe i < cur.length := by
  obtain ⟨cur', older', hc', hlen⟩ := h.cur
  rw [hc] at hc'
  cases hc'
  unfold map.stripe
  rw [hc]
  apply and_pred_lt
  rw [hlen]
  have : 0 < 2 ^ m.buckets_.hashpower_ := Nat.pos_pow_of_pos _ (by decide)
  simp [kMaxNumLocks_eq]

theorem map.inv.lock_one_eq {m : map K V} (h : map.inv hash_fn m) (i : Nat) :
    m.lock_one m.hashpower i = .ok (m.hold (m.stripe i), some (m.stripe i)) := by
  obtain ⟨cur, older, hc, hlen⟩ := h.cur
  have hl := h.stripe_lt hc i
  have hk : m.stripe i < kMaxNumLocks := by
    have : cur.length ≤ kMaxNumLocks := by rw [hlen]; exact Nat.min_le_right _ _
    omega
  have hs : (cur[m.stripe i]).lock_ = false :=
    h.free cur (by rw [hc]; simp) _ (List.getElem_mem _)
  have hst : m.stripe i = i &&& (cur.length - 1) := by unfold map.stripe; rw [hc]
  unfold map.lock_one map.get_current_locks map.hold
  simp only [hc, ← hst, hk, if_true, List.getElem?_eq_getElem hl, spinlock_t.lock, hs,
    map.set_current_locks, map.hashpower]
  simp

theorem map.inv.unlock_hold {m : map K V} (h : map.inv hash_fn m) (i : Nat) :
    (m.hold (m.stripe i)).unlock_one (m.stripe i) = m := by
  obtain ⟨cur, older, hc, hlen⟩ := h.cur
  have hl := h.stripe_lt hc i
  have hs : (cur[m.stripe i]).lock_ = false :=
    h.free cur (by rw [hc]; simp) _ (List.getElem_mem _)
  unfold map.hold map.unlock_one
  simp only [hc, List.getElem?_eq_getElem hl]
  simp only [List.getElem?_set_self hl, spinlock_t.unlock, List.set_set]
  have : (⟨false, (cur[m.stripe i]).element_counter_, (cur[m.stripe i]).is_migrated_⟩ : spinlock_t)
      = cur[m.stripe i] := by
    rw [← hs]
  rw [this, list_set_same (List.getElem?_eq_getElem hl)]
  cases m
  simp_all

theorem map.hold_buckets (m : map K V) (l : Nat) : (m.hold l).buckets_ = m.buckets_ := by
  unfold map.hold
  split
  · rfl
  · split <;> rfl

theorem map.inv.lock_one_loop_eq {m : map K V} (h : map.inv hash_fn m) (ind r hv : Nat) :
    m.lock_one_loop m.hashpower ind r hv
      = .ok (m.hold (m.stripe ind), m.hashpower, ind, r, m.stripe ind) := by
  unfold map.lock_one_loop
  rw [h.lock_one_eq]

/-! ## The find probe -/

theorem map.inv.find_go_eq {m : map K V} (h : map.inv hash_fn m) (key : K) (hv : Nat) :
    ∀ (fuel r ind : Nat), ind < 2 ^ m.hashpower → r < probe_budget m.hashpower →
      probe_budget m.hashpower - r ≤ fuel →
      map.linear_find_loop.go key hv fuel m m.hashpower ind r
        = .ok (m.find_result
            (probe_find key m.buckets_.buckets_ (probe_budget m.hashpower - r) ind)) := by
  intro fuel
  induction fuel with
  | zero => intro r ind _ hr hf; omega
  | succ fuel ih =>
    intro r ind hind hr hf
    obtain ⟨k, hk⟩ : ∃ k, probe_budget m.hashpower - r = k + 1 :=
      ⟨probe_budget m.hashpower - r - 1, by omega⟩
    have hlen := h.len
    have hb : ind < m.buckets_.buckets_.length := by rw [hlen]; exact hind
    have hnext : (if r + 1 ≥ m.hashpower then
          (.ok (m, ⟨0, .failure_key_not_found, none⟩) : Except error (map K V × table_position))
        else map.linear_find_loop.go key hv fuel m m.hashpower
          (index_hash m.hashpower (ind + 1)) (r + 1))
        = .ok (m.find_result
            (probe_find key m.buckets_.buckets_ k ((ind + 1) % m.buckets_.buckets_.length))) := by
      by_cases hge : r + 1 ≥ m.hashpower
      · have hk0 : k = 0 := by unfold probe_budget at hk hr; omega
        subst hk0
        simp [hge, probe_find, map.find_result]
      · have hr1 : r + 1 < probe_budget m.hashpower := by unfold probe_budget; omega
        rw [if_neg hge, ih (r + 1) _ (index_hash_lt _ _) hr1 (by omega)]
        have hk1 : probe_budget m.hashpower - (r + 1) = k := by omega
        rw [hk1, index_hash_eq, hlen]
        rfl
    rw [hk]
    unfold map.linear_find_loop.go
    rw [h.lock_one_loop_eq]
    simp only [map.hold_buckets, List.getElem?_eq_getElem hb, h.unlock_hold, probe_find]
    have hbe : m.buckets_.buckets_[ind]? = some m.buckets_.buckets_[ind] :=
      List.getElem?_eq_getElem hb
    generalize m.buckets_.buckets_[ind] = b at hbe
    cases hocc : b.occupied_
    · simp [map.find_result]
    · cases hdel : b.deleted_
      · cases hst : b.storage_ with
        | none =>
          have := h.init ind b hbe (by simp [bucket.live, hocc, hdel])
          simp [hst] at this
        | some kv =>
          obtain ⟨k', v'⟩ := kv
          by_cases hkey : k' = key
          · simp [bucket.holds, hocc, hdel, hst, hkey, map.find_result]
          · simp only [bucket.holds, hocc, hdel, hst, hkey]
            simpa using hnext
      · simp only [bucket.holds, hocc, hdel]
        simpa using hnext

theorem map.inv.linear_find_loop_eq {m : map K V} (h : map.inv hash_fn m) (key : K) (hv : Nat) :
    m.linear_find_loop key hv
      = .ok (m.find_result (probe_find key m.buckets_.buckets_ (probe_budget m.hashpower)
          (index_hash m.hashpower hv))) := by
  unfold map.linear_find_loop
  have := h.find_go_eq key hv (m.hashpower + 1) 0 (index_hash m.hashpower hv)
    (index_hash_lt _ _) (by unfold probe_budget; omega) (by unfold probe_budget; omega)
  simpa using this

/-! ## Properties of the probes over a bucket array -/

theorem bucket.holds_iff (b : bucket K V) (key : K) :
    b.holds key = true ↔
      b.occupied_ = true ∧ b.deleted_ = false ∧ ∃ v, b.storage_ = some (key, v) := by
  unfold bucket.holds
  cases hst : b.storage_ with
  | none => simp
  | some kv =>
    obtain ⟨k, v⟩ := kv
    by_cases hk : k = key <;> simp [hk, and_assoc]

theorem bucket.holds_live {b : bucket K V} {key : K} (h : b.holds key = true) :
    b.live = true := by
  rw [bucket.holds_iff] at h
  simp [bucket.live, h.1, h.2.1]

theorem probe_find_some {key : K} {bs : List (bucket K V)} :
    ∀ (n ind j : Nat), probe_find key bs n ind = some j →
      ∃ b, bs[j]? = some b ∧ b.holds key = true := by
  intro n
  induction n with
  | zero => intro ind j h; simp [probe_find] at h
  | succ n ih =>
    intro ind j h
    unfold probe_find at h
    split at h
    · simp at h
    · next b hb =>
      split at h
      · simp at h
      · split at h
        · next hh =>
          simp only [Option.some.injEq] at h
          subst h
          exact ⟨b, hb, hh⟩
        · exact ih _ _ h

theorem probe_insert_slot {key : K} {bs : List (bucket K V)} :
    ∀ (n ind j : Nat),
      (probe_insert key bs n ind = .here j → ∃ b, bs[j]? = some b ∧ b.live = false) ∧
      (probe_insert key bs n ind = .duplicate j → ∃ b, bs[j]? = some b ∧ b.holds key = true) := by
  intro n
  induction n with
  | zero => intro ind j; simp [probe_insert]
  | succ n ih =>
    intro ind j
    unfold probe_insert
    split
    · simp
    · next b hb =>
      by_cases hl : b.live = true
      · by_cases hh : b.holds key = true
        · simp only [hl, hh, Bool.not_true, Bool.false_eq_true, if_false, if_true,
            insert_slot.duplicate.injEq]
          refine ⟨by simp, ?_⟩
          intro h
          subst h
          exact ⟨b, hb, hh⟩
        · simp only [hl, hh, Bool.not_true]
          exact ih _ _
      · simp only [Bool.not_eq_true] at hl
        simp only [hl, Bool.not_false, if_true, insert_slot.here.injEq]
        refine ⟨?_, by simp⟩
        intro h
        subst h
        exact ⟨b, hb, hl⟩

/-- After the slot chosen by the insert probe is made to hold the key, both probes end on it. -/
theorem probe_after_store {key : K} {bs bs' : List (bucket K V)} {j : Nat}
    (hlen : bs'.length = bs.length) (hoff : ∀ i, i ≠ j → bs'[i]? = bs[i]?)
    (hj : ∃ b', bs'[j]? = some b' ∧ b'.holds key = true) :
    ∀ (n ind : Nat),
      (probe_insert key bs n ind = .here j ∨ probe_insert key bs n ind = .duplicate j) →
      probe_find key bs' n ind = some j ∧ probe_insert key bs' n ind = .duplicate j := by
  intro n
  induction n with
  | zero => intro ind h; simp [probe_insert] at h
  | succ n ih =>
    intro ind h
    obtain ⟨b', hb', hh'⟩ := hj
    by_cases hij : ind = j
    · subst hij
      have hl := bucket.holds_live hh'
      have ho : b'.occupied_ = true := ((bucket.holds_iff _ _).1 hh').1
      unfold probe_find probe_insert
      simp [hb', hh', hl, ho]
    · unfold probe_insert at h
      unfold probe_find probe_insert
      rw [hoff ind hij]
      split at h
      · simp at h
      · next b hb =>
        by_cases hl : b.live = true
        · by_cases hh : b.holds key = true
          · simp only [hl, hh, Bool.not_true, if_true, insert_slot.duplicate.injEq] at h
            simp at h
            exact absurd h hij
          · simp only [hl, hh, Bool.not_true] at h
            have ho : b.occupied_ = true := by
              simp only [bucket.live, Bool.and_eq_true] at hl
              exact hl.1
            simp only [hb, hl, hh, ho, Bool.not_true, hlen]
            exact ih _ h
        · simp only [Bool.not_eq_true] at hl
          simp only [hl, Bool.not_false, if_true, insert_slot.here.injEq] at h
          simp at h
          exact absurd h hij

theorem probe_insert_reach {key : K} {bs : List (bucket K V)} {j : Nat} :
    ∀ (n ind : Nat),
      (probe_insert key bs n ind = .here j ∨ probe_insert key bs n ind = .duplicate j) →
      probe_reach bs n ind j = true := by
  intro n
  induction n with
  | zero => intro ind h; simp [probe_insert] at h
  | succ n ih =>
    intro ind h
    unfold probe_reach
    by_cases hij : ind = j
    · simp [hij]
    · unfold probe_insert at h
      split at h
      · simp at h
      · next b hb =>
        by_cases hl : b.live = true
        · by_cases hh : b.holds key = true
          · simp [hl, hh] at h
            exact absurd h hij
          · simp only [hl, hh, Bool.not_true] at h
            have ho : b.occupied_ = true := by
              simp only [bucket.live, Bool.and_eq_true] at hl
              exact hl.1
            simp only [hb, ho, Bool.true_and, Bool.or_eq_true, decide_eq_true_eq]
            exact Or.inr (ih _ h)
        · simp only [Bool.not_eq_true] at hl
          simp [hl] at h
          exact absurd h hij

theorem probe_reach_mono {bs bs' : List (bucket K V)} {j : Nat}
    (hlen : bs'.length = bs.length)
    (hocc : ∀ (i : Nat) (b : bucket K V), bs[i]? = some b → b.occupied_ = true →
      ∃ b' : bucket K V, bs'[i]? = some b' ∧ b'.occupied_ = true) :
    ∀ (n ind : Nat), probe_reach bs n ind j = true → probe_reach bs' n ind j = true := by
  intro n
  induction n with
  | zero => intro ind h; simp [probe_reach] at h
  | succ n ih =>
    intro ind h
    unfold probe_reach at h ⊢
    simp only [Bool.or_eq_true, decide_eq_true_eq] at h ⊢
    rcases h with h | h
    · exact Or.inl h
    · right
      split at h
      · simp at h
      · next b hb =>
        simp only [Bool.and_eq_true] at h
        obtain ⟨b', hb', ho'⟩ := hocc ind b hb h.1
        simp only [hb', ho', Bool.true_and, hlen]
        exact ih _ h.2

theorem probe_find_of_reach {key : K} {bs : List (bucket K V)} {j : Nat}
    (hj : ∃ b, bs[j]? = some b ∧ b.holds key = true) :
    ∀ (n ind : Nat), probe_reach bs n ind j = true → (probe_find key bs n ind).isSome = true := by
  intro n
  induction n with
  | zero => intro ind h; simp [probe_reach] at h
  | succ n ih =>
    intro ind h
    obtain ⟨bj, hbj, hhj⟩ := hj
    unfold probe_reach at h
    unfold probe_find
    simp only [Bool.or_eq_true, decide_eq_true_eq] at h
    by_cases hij : ind = j
    · subst hij
      have ho : bj.occupied_ = true := ((bucket.holds_iff _ _).1 hhj).1
      simp [hbj, hhj, ho]
    · rcases h with h | h
      · exact absurd h hij
      · split at h
        · simp at h
        · next b hb =>
          simp only [Bool.and_eq_true] at h
          simp only [hb, h.1, Bool.not_true]
          by_cases hh : b.holds key = true
          · simp [hh]
          · simp only [hh]
            exact ih _ h.2

/-! ## Preservation of the invariant by slot and counter updates -/

theorem map.inv.add_counter {m : map K V} (h : map.inv hash_fn m) (l : Nat) (d : Int) :
    map.inv hash_fn (m.add_counter l d) := by
  obtain ⟨cur, older, hc, hlen⟩ := h.cur
  unfold map.add_counter
  rw [hc]
  dsimp only
  split
  · exact h
  · next s hs =>
    refine ⟨h.len, ⟨_, older, rfl, ?_⟩, ?_, h.init, h.reach⟩
    · simpa using hlen
    · intro locks hlocks s' hs'
      simp only [List.mem_cons] at hlocks
      rcases hlocks with rfl | hlocks
      · rcases List.mem_or_eq_of_mem_set hs' with hmem | rfl
        · exact h.free cur (by rw [hc]; simp) _ hmem
        · have hl : l < cur.length := by
            by_contra hcon
            rw [List.getElem?_eq_none (by omega)] at hs
            simp at hs
          rw [List.getElem?_eq_getElem hl] at hs
          simp only [Option.some.injEq] at hs
          subst hs
          exact h.free cur (by rw [hc]; simp) (cur[l]) (List.getElem_mem _)
      · exact h.free locks (by rw [hc]; simp [hlocks]) _ hs'

theorem map.inv.set_slot {m : map K V} (h : map.inv hash_fn m) {j : Nat} {b : bucket K V}
    (b' : bucket K V) (hb : m.buckets_.buckets_[j]? = some b)
    (hocc : b.occupied_ = true → b'.occupied_ = true)
    (hlive : b'.live = true → ∃ k v, b'.storage_ = some (k, v) ∧
      probe_reach m.buckets_.buckets_ (probe_budget m.buckets_.hashpower_)
        (index_hash m.buckets_.hashpower_ (hash_fn k)) j = true) :
    map.inv hash_fn (m.with_buckets (m.buckets_.buckets_.set j b')) := by
  have hj : j < m.buckets_.buckets_.length := by
    by_contra hcon
    rw [List.getElem?_eq_none (by omega)] at hb
    simp at hb
  have hmono : ∀ (i : Nat) (c : bucket K V), m.buckets_.buckets_[i]? = some c →
      c.occupied_ = true →
      ∃ c' : bucket K V, (m.buckets_.buckets_.set j b')[i]? = some c' ∧ c'.occupied_ = true := by
    intro i c hc ho
    rw [List.getElem?_set]
    by_cases hij : j = i
    · subst hij
      rw [hb] at hc
      simp only [Option.some.injEq] at hc
      subst hc
      simp [hj, hocc ho]
    · simp [hij, hc, ho]
  refine ⟨?_, h.cur, h.free, ?_, ?_⟩
  · simpa [map.with_buckets] using h.len
  · intro i c hc hl
    simp only [map.with_buckets, List.getElem?_set] at hc
    by_cases hij : j = i
    · subst hij
      simp only [hj, if_true, Option.some.injEq] at hc
      subst hc
      obtain ⟨k, v, hst, _⟩ := hlive hl
      simp [hst]
    · simp only [hij, if_false] at hc
      exact h.init i c hc hl
  · intro i c k v hc hl hst
    simp only [map.with_buckets] at hc ⊢
    apply probe_reach_mono (List.length_set _ _ _) hmono
    rw [List.getElem?_set] at hc
    by_cases hij : j = i
    · subst hij
      simp only [hj, if_true, Option.some.injEq] at hc
      subst hc
      obtain ⟨k', v', hst', hr⟩ := hlive hl
      rw [hst] at hst'
      simp only [Option.some.injEq, Prod.mk.injEq] at hst'
      rw [hst'.1]
      exact hr
    · simp only [hij, if_false] at hc
      exact h.reach i c k v hc hl hst

/-! ## Release of a held stripe after a slot or counter update -/

theorem map.unlock_one_mk (ls : List (List spinlock_t)) (t t' : table K V) (l : Nat) :
    (⟨ls, t⟩ : map K V).unlock_one l = ⟨((⟨ls, t'⟩ : map K V).unlock_one l).all_locks_, t⟩ := by
  unfold map.unlock_one
  dsimp only
  split
  · rfl
  · split <;> rfl

theorem map.inv.release_held {m : map K V} (h : map.inv hash_fn m) (i : Nat) (t : table K V) :
    (⟨(m.hold (m.stripe i)).all_locks_, t⟩ : map K V).unlock_one (m.stripe i)
      = ⟨m.all_locks_, t⟩ := by
  rw [map.unlock_one_mk _ t m.buckets_]
  have : (⟨(m.hold (m.stripe i)).all_locks_, m.buckets_⟩ : map K V) = m.hold (m.stripe i) := by
    rw [← map.hold_buckets m (m.stripe i)]
  rw [this, h.unlock_hold]

theorem map.inv.release_write {m : map K V} (h : map.inv hash_fn m) (i j : Nat)
    (b : bucket K V) (k : K) (v : V) :
    ((m.hold (m.stripe i)).write_mapped j b k v).release (some (m.stripe i))
      = m.with_buckets (m.buckets_.buckets_.set j ⟨some (k, v), b.occupied_, b.deleted_⟩) := by
  unfold map.write_mapped map.release map.with_buckets
  simp only [map.hold_buckets]
  rw [h.release_held]

theorem map.inv.release_bump {m : map K V} (h : map.inv hash_fn m) (i : Nat) (t : table K V)
    (d : Int) :
    ∃ m2, map.bump_counter (⟨(m.hold (m.stripe i)).all_locks_, t⟩ : map K V) i d = .ok m2 ∧
      m2.unlock_one (m.stripe i) = (⟨m.all_locks_, t⟩ : map K V).add_counter (m.stripe i) d := by
  obtain ⟨cur, older, hc, hlen⟩ := h.cur
  have hl := h.stripe_lt hc i
  have hs : (cur[m.stripe i]).lock_ = false :=
    h.free cur (by rw [hc]; simp) _ (List.getElem_mem _)
  have hst : m.stripe i = i &&& (cur.length - 1) := by unfold map.stripe; rw [hc]
  unfold map.bump_counter map.get_current_locks map.hold map.add_counter map.set_current_locks
  simp only [hc, List.getElem?_eq_getElem hl, List.length_set, ← hst]
  simp only [List.getElem?_set_self hl, List.set_set]
  refine ⟨_, rfl, ?_⟩
  unfold map.unlock_one
  simp only [List.length_set, List.getElem?_set_self hl, List.set_set, spinlock_t.unlock, hs]

theorem map.inv.find_fn_none {σ : Type} {m : map K V} (h : map.inv hash_fn m) (key : K)
    (fn : V → σ → V × σ) (s : σ)
    (hp : probe_find key m.buckets_.buckets_ (probe_budget m.hashpower)
      (index_hash m.hashpower (hash_fn key)) = none) :
    map.find_fn hash_fn m key fn s = .ok (m, false, s) := by
  unfold map.find_fn map.hashed_key
  simp only [h.linear_find_loop_eq, hp, map.find_result]
  simp [map.release]

theorem map.inv.find_fn_some {σ : Type} {m : map K V} (h : map.inv hash_fn m) (key : K)
    (fn : V → σ → V × σ) (s : σ) {j : Nat} {b : bucket K V} {k : K} {v : V}
    (hp : probe_find key m.buckets_.buckets_ (probe_budget m.hashpower)
      (index_hash m.hashpower (hash_fn key)) = some j)
    (hb : m.buckets_.buckets_[j]? = some b) (hst : b.storage_ = some (k, v)) :
    map.find_fn hash_fn m key fn s
      = .ok (m.with_buckets
          (m.buckets_.buckets_.set j ⟨some (k, (fn v s).1), b.occupied_, b.deleted_⟩),
          true, (fn v s).2) := by
  unfold map.find_fn map.hashed_key
  simp only [h.linear_find_loop_eq, hp, map.find_result]
  simp only [map.read_slot, map.hold_buckets, hb, hst, if_true, h.release_write]

/-! ## More fuel never changes a result -/

theorem foldlM_ok_mono {α β : Type} {f g : β → α → Except error β}
    (hfg : ∀ b a y, f b a = .ok y → g b a = .ok y) :
    ∀ (l : List α) (init x : β), List.foldlM f init l = .ok x → List.foldlM g init l = .ok x := by
  intro l
  induction l with
  | nil => intro init x h; simpa using h
  | cons a l ih =>
    intro init x h
    simp only [List.foldlM_cons, bind, Except.bind] at h ⊢
    cases hf : f init a with
    | error e => simp [hf] at h
    | ok y =>
      simp only [hf] at h
      simp only [hfg _ _ _ hf]
      exact ih _ _ h

theorem map.migrate_step_mono {f g : map K V → K → V → Except error (map K V × Bool)}
    (hfg : ∀ m k v y, f m k v = .ok y → g m k v = .ok y) (src : List (bucket K V))
    (nm : map K V) (i : Nat) (y : map K V) (h : map.migrate_step f src nm i = .ok y) :
    map.migrate_step g src nm i = .ok y := by
  unfold map.migrate_step at h ⊢
  cases hs : src[i]? with
  | none => simp [hs] at h
  | some b =>
    simp only [hs] at h ⊢
    by_cases hl : (b.occupied_ && !b.deleted_) = true
    · simp only [hl, if_true] at h ⊢
      cases hst : b.storage_ with
      | none => simp [hst] at h
      | some kv =>
        obtain ⟨k, v⟩ := kv
        simp only [hst] at h ⊢
        cases hf : f nm k v with
        | error e => simp [hf] at h
        | ok r =>
          simp only [hf] at h
          simp only [hfg _ _ _ _ hf]
          exact h
    · simp only [hl] at h ⊢
      exact h

theorem map.fuel_succ (fuel : Nat) :
    (∀ (key : K) (hv : Nat) (m : map K V) (hp ind r : Nat) x,
      map.linear_insert_loop.go hash_fn fuel key hv m hp ind r = .ok x →
      map.linear_insert_loop.go hash_fn (fuel + 1) key hv m hp ind r = .ok x) ∧
    (∀ (m : map K V) (o n : Nat) x, map.linear_expand hash_fn fuel m o n = .ok x →
      map.linear_expand hash_fn (fuel + 1) m o n = .ok x) ∧
    (∀ (m : map K V) (key : K) (val : V) x, map.insert hash_fn fuel m key val = .ok x →
      map.insert hash_fn (fuel + 1) m key val = .ok x) ∧
    (∀ (m : map K V) (key : K) (fn : V → V) (val : V) x,
      map.upsert hash_fn fuel m key fn val = .ok x →
      map.upsert hash_fn (fuel + 1) m key fn val = .ok x) ∧
    (∀ (m : map K V) (key : K) (fn : V → V × Bool) (val : V) x,
      map.uprase_fn hash_fn fuel m key fn val = .ok x →
      map.uprase_fn hash_fn (fuel + 1) m key fn val = .ok x) ∧
    (∀ (m : map K V) (key : K) (hv : Nat) x,
      map.linear_insert_loop hash_fn fuel m key hv = .ok x →
      map.linear_insert_loop hash_fn (fuel + 1) m key hv = .ok x) := by
  induction fuel with
  | zero =>
    refine ⟨?_, ?_, ?_, ?_, ?_, ?_⟩
    · intro key hv m hp ind r x h; simp [map.linear_insert_loop.go] at h
    · intro m o n x h; simp [map.linear_expand] at h
    · intro m key val x h; simp [map.insert] at h
    · intro m key fn val x h; simp [map.upsert] at h
    · intro m key fn val x h; simp [map.uprase_fn] at h
    · intro m key hv x h; simp [map.linear_insert_loop] at h
  | succ fuel ih =>
    obtain ⟨ihgo, ihexp, ihins, ihups, ihupr, ihlil⟩ := ih
    refine ⟨?_, ?_, ?_, ?_, ?_, ?_⟩
    · intro key hv m hp ind r x h
      rw [map.linear_insert_loop.go] at h ⊢
      cases hlk : m.lock_one_loop hp ind r hv with
      | error e => simp [hlk] at h
      | ok p =>
        obtain ⟨m1, hp1, ind1, r1, l⟩ := p
        simp only [hlk] at h ⊢
        cases hbk : m1.buckets_.buckets_[ind1]? with
        | none => simp [hbk] at h
        | some b =>
          simp only [hbk] at h ⊢
          split at h
          · next hc => simpa [hc] using h
          · next hc =>
            simp only [hc]
            cases hst : b.storage_ with
            | none => simp [hst] at h
            | some kv =>
              obtain ⟨k, v⟩ := kv
              simp only [hst] at h ⊢
              split at h
              · next hk => simpa [hk] using h
              · next hk =>
                simp only [hk]
                split at h
                · next hge =>
                  simp only [hge]
                  cases hex : map.linear_expand hash_fn fuel (m1.unlock_one l) hp1 (hp1 + 1) with
                  | error e => simp [hex] at h
                  | ok q =>
                    obtain ⟨m2, st⟩ := q
                    simp only [hex] at h
                    simp only [ihexp _ _ _ _ hex, if_true]
                    exact ihgo _ _ _ _ _ _ _ h
                · next hge =>
                  simp only [hge, if_false]
                  exact ihgo _ _ _ _ _ _ _ h
    · intro m o n x h
      rw [map.linear_expand] at h ⊢
      cases hla : m.lock_all with
      | error e => simp [hla] at h
      | ok p =>
        obtain ⟨m1, g⟩ := p
        cases g with
        | none => simpa [hla] using h
        | some first_locked =>
          simp only [hla] at h ⊢
          split at h
          · next hne => simpa [hne] using h
          · next hne =>
            simp only [hne, if_false]
            cases hfo : List.foldlM
                (map.migrate_step (map.insert hash_fn fuel) m1.buckets_.buckets_)
                (map.new n) (List.range (hashsize m1.hashpower)) with
            | error e => simp [hfo] at h
            | ok nm =>
              simp only [hfo] at h
              have := foldlM_ok_mono
                (fun b a y hy => map.migrate_step_mono (g := map.insert hash_fn (fuel + 1))
                  ihins m1.buckets_.buckets_ b a y hy) _ _ _ hfo
              simp only [this]
              exact h
    · intro m key val x h
      rw [map.insert] at h ⊢
      exact ihups _ _ _ _ _ h
    · intro m key fn val x h
      rw [map.upsert] at h ⊢
      exact ihupr _ _ _ _ _ h
    · intro m key fn val x h
      rw [map.uprase_fn] at h ⊢
      cases hl : map.linear_insert_loop hash_fn fuel m key (map.hashed_key hash_fn key) with
      | error e => simp [hl] at h
      | ok p =>
        simp only [hl] at h
        simp only [ihlil _ _ _ _ hl]
        exact h
    · intro m key hv x h
      rw [map.linear_insert_loop] at h ⊢
      exact ihgo _ _ _ _ _ _ _ h

theorem map.uprase_fn_mono {fuel fuel' : Nat} (hle : fuel ≤ fuel') {m : map K V} {key : K}
    {fn : V → V × Bool} {val : V} {x : map K V × Bool}
    (h : map.uprase_fn hash_fn fuel m key fn val = .ok x) :
    map.uprase_fn hash_fn fuel' m key fn val = .ok x := by
  induction hle with
  | refl => exact h
  | step _ ih => exact (map.fuel_succ _).2.2.2.2.1 _ _ _ _ _ ih

theorem map.upsert_mono {fuel fuel' : Nat} (hle : fuel ≤ fuel') {m : map K V} {key : K}
    {fn : V → V} {val : V} {x : map K V × Bool}
    (h : map.upsert hash_fn fuel m key fn val = .ok x) :
    map.upsert hash_fn fuel' m key fn val = .ok x := by
  induction hle with
  | refl => exact h
  | step _ ih => exact (map.fuel_succ _).2.2.2.1 _ _ _ _ _ ih

theorem map.insert_mono {fuel fuel' : Nat} (hle : fuel ≤ fuel') {m : map K V} {key : K}
    {val : V} {x : map K V × Bool} (h : map.insert hash_fn fuel m key val = .ok x) :
    map.insert hash_fn fuel' m key val = .ok x := by
  induction hle with
  | refl => exact h
  | step _ ih => exact (map.fuel_succ _).2.2.1 _ _ _ _ ih

theorem map.linear_expand_mono {fuel fuel' : Nat} (hle : fuel ≤ fuel') {m : map K V}
    {o n : Nat} {x : map K V × op_status} (h : map.linear_expand hash_fn fuel m o n = .ok x) :
    map.linear_expand hash_fn fuel' m o n = .ok x := by
  induction hle with
  | refl => exact h
  | step _ ih => exact (map.fuel_succ _).2.1 _ _ _ _ ih

theorem map.linear_insert_loop_go_mono {fuel fuel' : Nat} (hle : fuel ≤ fuel') {m : map K V}
    {key : K} {hv hp ind r : Nat} {x : map K V × table_position}
    (h : map.linear_insert_loop.go hash_fn fuel key hv m hp ind r = .ok x) :
    map.linear_insert_loop.go hash_fn fuel' key hv m hp ind r = .ok x := by
  induction hle with
  | refl => exact h
  | step _ ih => exact (map.fuel_succ _).1 _ _ _ _ _ _ _ ih

/-! ## Counting live slots -/

theorem countP_le_add_one (p p' : Nat → Bool) (j : Nat) :
    ∀ (l : List Nat), l.Nodup → (∀ i ∈ l, i ≠ j → p' i = true → p i = true) →
      l.countP p' ≤ l.countP p + 1 := by
  intro l
  induction l with
  | nil => intro _ _; simp
  | cons a l ih =>
    intro hnd h
    rw [List.nodup_cons] at hnd
    by_cases haj : a = j
    · subst haj
      have hmono : l.countP p' ≤ l.countP p := by
        apply List.countP_mono_left
        intro i hi hp'
        exact h i (List.mem_cons_of_mem _ hi) (fun hc => hnd.1 (hc ▸ hi)) hp'
      rw [List.countP_cons, List.countP_cons]
      split <;> split <;> omega
    · have ih' := ih hnd.2 (fun i hi => h i (List.mem_cons_of_mem _ hi))
      have ha := h a (List.mem_cons_self _ _) haj
      have hle : (if p' a = true then 1 else 0) ≤ (if p a = true then 1 else 0) := by
        by_cases hp' : p' a = true
        · simp [hp', ha hp']
        · simp [hp']
      rw [List.countP_cons, List.countP_cons]
      omega

theorem live_count_set_le (bs : List (bucket K V)) (j : Nat) (b' : bucket K V) :
    live_count (bs.set j b') ≤ live_count bs + 1 := by
  unfold live_count
  rw [List.length_set]
  apply countP_le_add_one _ _ j _ (List.nodup_range _)
  intro i _ hij h
  unfold live_at at h ⊢
  rw [List.getElem?_set_ne (Ne.symm hij)] at h
  exact h

theorem live_count_set_dead (bs : List (bucket K V)) (j : Nat) (b' : bucket K V)
    (hb' : b'.live = false) : live_count (bs.set j b') ≤ live_count bs := by
  unfold live_count
  rw [List.length_set]
  apply List.countP_mono_left
  intro i _ h
  unfold live_at at h ⊢
  rw [List.getElem?_set] at h
  by_cases hij : j = i
  · subst hij
    simp only [if_true] at h
    by_cases hj : j < bs.length
    · simp [hj, hb'] at h
    · simp [hj] at h
  · simpa [hij] using h

theorem live_count_replicate (n : Nat) :
    live_count (List.replicate n (bucket.new : bucket K V)) = 0 := by
  unfold live_count
  rw [List.countP_eq_zero]
  intro i _
  unfold live_at
  rw [List.getElem?_replicate]
  by_cases h : i < n <;> simp [h, bucket.new, bucket.live]

theorem has_key_set {bs : List (bucket K V)} {j : Nat} {b' : bucket K V} {key : K}
    (h : has_key (bs.set j b') key) : has_key bs key ∨ b'.holds key = true := by
  obtain ⟨i, c, hc, hh⟩ := h
  rw [List.getElem?_set] at hc
  by_cases hij : j = i
  · simp only [hij, if_true] at hc
    split at hc
    · simp only [Option.some.injEq] at hc
      subst hc
      exact Or.inr hh
    · simp at hc
  · simp only [hij, if_false] at hc
    exact Or.inl ⟨i, c, hc, hh⟩

theorem has_key_replicate (n : Nat) (key : K) :
    ¬ has_key (List.replicate n (bucket.new : bucket K V)) key := by
  rintro ⟨i, c, hc, hh⟩
  rw [List.getElem?_replicate] at hc
  split at hc
  · simp only [Option.some.injEq] at hc
    subst hc
    simp [bucket.holds, bucket.new] at hh
  · simp at hc

/-! ## The constructed map -/

theorem map.inv_new (hp : Nat) : map.inv hash_fn (map.new hp : map K V) := by
  refine ⟨?_, ⟨_, [], rfl, ?_⟩, ?_, ?_, ?_⟩
  · simp [map.new, table.new, Nat.one_shiftLeft]
  · simp [map.new, table.new, Nat.one_shiftLeft]
  · intro locks hl s hs
    simp only [map.new, List.mem_singleton] at hl
    subst hl
    rw [List.eq_of_mem_replicate hs]
    rfl
  · intro j b hb hl
    simp only [map.new, table.new] at hb
    rw [List.getElem?_replicate] at hb
    split at hb
    · simp only [Option.some.injEq] at hb
      subst hb
      simp [bucket.new, bucket.live] at hl
    · simp at hb
  · intro j b k v hb hl
    simp only [map.new, table.new] at hb
    rw [List.getElem?_replicate] at hb
    split at hb
    · simp only [Option.some.injEq] at hb
      subst hb
      simp [bucket.new, bucket.live] at hl
    · simp at hb

/-! ## The element counters -/

theorem countP_range_update (p p' : Nat → Bool) (j : Nat) (h : ∀ i, i ≠ j → p' i = p i) :
    ∀ (N : Nat), j < N →
      (List.range N).countP p' + (if p j = true then 1 else 0)
        = (List.range N).countP p + (if p' j = true then 1 else 0) := by
  intro N
  induction N with
  | zero => intro hj; omega
  | succ N ih =>
    intro hj
    rw [List.range_succ, List.countP_append, List.countP_append, List.countP_singleton,
      List.countP_singleton]
    by_cases hjN : j = N
    · subst hjN
      have hcongr : (List.range j).countP p' = (List.range j).countP p := by
        apply List.countP_congr
        intro i hi
        rw [List.mem_range] at hi
        rw [h i (by omega)]
      rw [hcongr]
      omega
    · have hN := h N (fun hc => hjN hc.symm)
      have := ih (by omega)
      rw [hN]
      omega

theorem countP_range_congr (p p' : Nat → Bool) (N : Nat) (h : ∀ i, i < N → p' i = p i) :
    (List.range N).countP p' = (List.range N).countP p := by
  apply List.countP_congr
  intro i hi
  rw [List.mem_range] at hi
  rw [h i hi]

theorem stripe_live_set {bs : List (bucket K V)} {j : Nat} {b : bucket K V} (b' : bucket K V)
    (hb : bs[j]? = some b) (n s : Nat) :
    stripe_live (bs.set j b') n s + (if (b.live && decide (j &&& (n - 1) = s)) = true then 1 else 0)
      = stripe_live bs n s + (if (b'.live && decide (j &&& (n - 1) = s)) = true then 1 else 0) := by
  have hj : j < bs.length := by
    by_contra hcon
    rw [List.getElem?_eq_none (by omega)] at hb
    simp at hb
  unfold stripe_live
  rw [List.length_set]
  have key := countP_range_update
    (fun i => live_at bs i && decide (i &&& (n - 1) = s))
    (fun i => live_at (bs.set j b') i && decide (i &&& (n - 1) = s)) j
    (by
      intro i hij
      simp only [live_at]
      rw [List.getElem?_set_ne (Ne.symm hij)]) bs.length hj
  simp only [live_at, hb, List.getElem?_set_self hj] at key
  exact key

theorem range_sum_indicator (x : Nat) :
    ∀ (n : Nat), ((List.range n).map (fun s => if x = s then 1 else 0)).sum
      = if x < n then 1 else 0 := by
  intro n
  induction n with
  | zero => simp
  | succ n ih =>
    rw [List.range_succ, List.map_append, List.sum_append, ih]
    simp only [List.map_cons, List.map_nil, List.sum_cons, List.sum_nil]
    by_cases h1 : x < n
    · have h2 : ¬ x = n := by omega
      have h3 : x < n + 1 := by omega
      simp only [if_pos h1, if_neg h2, if_pos h3, Nat.add_zero]
    · by_cases h2 : x = n
      · have h3 : x < n + 1 := by omega
        simp only [if_neg h1, if_pos h2, if_pos h3, Nat.add_zero, Nat.zero_add]
      · have h3 : ¬ x < n + 1 := by omega
        simp only [if_neg h1, if_neg h2, if_neg h3, Nat.add_zero]

theorem countP_split_sum (q : Nat → Bool) (f : Nat → Nat) (n : Nat) (hf : ∀ i, f i < n) :
    ∀ (l : List Nat),
      ((List.range n).map (fun s => l.countP (fun i => q i && decide (f i = s)))).sum
        = l.countP q := by
  intro l
  induction l with
  | nil => simp
  | cons a l ih =>
    simp only [List.countP_cons]
    rw [List.sum_map_add, ih]
    congr 1
    by_cases hq : q a = true
    · simp only [hq, Bool.true_and, decide_eq_true_eq, if_true]
      rw [range_sum_indicator]
      simp [hf a]
    · simp [hq]

theorem stripe_live_sum (bs : List (bucket K V)) (n : Nat) (hn : 0 < n) :
    ((List.range n).map (stripe_live bs n)).sum = live_count bs := by
  unfold live_count
  have := countP_split_sum (live_at bs) (fun i => i &&& (n - 1)) n
    (fun i => and_pred_lt i n hn) (List.range bs.length)
  rw [← this]
  rfl

/-! ## The pairs of a bucket array -/

theorem has_key_iff_pair (bs : List (bucket K V)) (key : K) :
    has_key bs key ↔ ∃ v, has_pair bs key v := by
  constructor
  · rintro ⟨j, b, hb, hh⟩
    obtain ⟨-, -, v, hst⟩ := (bucket.holds_iff _ _).1 hh
    exact ⟨v, j, b, hb, bucket.holds_live hh, hst⟩
  · rintro ⟨v, j, b, hb, hl, hst⟩
    simp only [bucket.live, Bool.and_eq_true, Bool.not_eq_true'] at hl
    exact ⟨j, b, hb, (bucket.holds_iff _ _).2 ⟨hl.1, hl.2, v, hst⟩⟩

theorem has_pair_set {bs : List (bucket K V)} {j : Nat} {b' : bucket K V} {key : K} {val : V}
    (h : has_pair (bs.set j b') key val) :
    has_pair bs key val ∨ (b'.live = true ∧ b'.storage_ = some (key, val)) := by
  obtain ⟨i, c, hc, hl, hst⟩ := h
  rw [List.getElem?_set] at hc
  by_cases hij : j = i
  · simp only [hij, if_true] at hc
    split at hc
    · simp only [Option.some.injEq] at hc
      subst hc
      exact Or.inr ⟨hl, hst⟩
    · simp at hc
  · simp only [hij, if_false] at hc
    exact Or.inl ⟨i, c, hc, hl, hst⟩

theorem has_pair_set_keep {bs : List (bucket K V)} {j : Nat} {b : bucket K V}
    (b' : bucket K V) (hb : bs[j]? = some b) (hl : b.live = false) {key : K} {val : V}
    (h : has_pair bs key val) : has_pair (bs.set j b') key val := by
  obtain ⟨i, c, hc, hcl, hst⟩ := h
  have hij : j ≠ i := by
    intro hcon
    subst hcon
    rw [hb] at hc
    simp only [Option.some.injEq] at hc
    subst hc
    rw [hl] at hcl
    simp at hcl
  exact ⟨i, c, by rw [List.getElem?_set_ne hij]; exact hc, hcl, hst⟩

theorem has_key_set_keep {bs : List (bucket K V)} {j : Nat} {b : bucket K V}
    (b' : bucket K V) (hb : bs[j]? = some b) (hl : b.live = false) {key : K}
    (h : has_key bs key) : has_key (bs.set j b') key := by
  obtain ⟨v, hv⟩ := (has_key_iff_pair _ _).1 h
  exact (has_key_iff_pair _ _).2 ⟨v, has_pair_set_keep b' hb hl hv⟩

theorem has_key_set_same {bs : List (bucket K V)} {j : Nat} {b : bucket K V}
    (b' : bucket K V) (hb : bs[j]? = some b) (hsame : ∀ k, b.holds k = true → b'.holds k = true)
    {key : K} (h : has_key bs key) : has_key (bs.set j b') key := by
  obtain ⟨i, c, hc, hh⟩ := h
  have hj : j < bs.length := by
    by_contra hcon
    rw [List.getElem?_eq_none (by omega)] at hb
    simp at hb
  by_cases hij : j = i
  · subst hij
    rw [hb] at hc
    simp only [Option.some.injEq] at hc
    subst hc
    exact ⟨j, b', List.getElem?_set_self hj, hsame _ hh⟩
  · exact ⟨i, c, by rw [List.getElem?_set_ne hij]; exact hc, hh⟩

theorem has_key_set_new {bs : List (bucket K V)} {j : Nat} (hj : j < bs.length)
    {b' : bucket K V} {key : K} (h : b'.holds key = true) : has_key (bs.set j b') key :=
  ⟨j, b', List.getElem?_set_self hj, h⟩

theorem has_pair_replicate (n : Nat) (key : K) (val : V) :
    ¬ has_pair (List.replicate n (bucket.new : bucket K V)) key val := by
  intro h
  exact has_key_replicate n key ((has_key_iff_pair _ _).2 ⟨val, h⟩)

theorem nodup_keys_replicate (n : Nat) :
    nodup_keys (List.replicate n (bucket.new : bucket K V)) := by
  intro i j b c k hb _ hh _
  exact absurd (⟨i, b, hb, hh⟩ : has_key _ k) (has_key_replicate n k)

theorem nodup_keys_set_new {bs : List (bucket K V)} {j : Nat}
    {b' : bucket K V} (h : nodup_keys bs)
    (hnew : ∀ k, b'.holds k = true → ¬ has_key bs k) : nodup_keys (bs.set j b') := by
  intro i1 i2 c1 c2 k h1 h2 hh1 hh2
  rw [List.getElem?_set] at h1 h2
  by_cases e1 : j = i1
  · by_cases e2 : j = i2
    · rw [← e1, ← e2]
    · exfalso
      simp only [e1, if_true] at h1
      simp only [e2, if_false] at h2
      split at h1
      · simp only [Option.some.injEq] at h1
        subst h1
        exact hnew k hh1 ⟨i2, c2, h2, hh2⟩
      · simp at h1
  · by_cases e2 : j = i2
    · exfalso
      simp only [e2, if_true] at h2
      simp only [e1, if_false] at h1
      split at h2
      · simp only [Option.some.injEq] at h2
        subst h2
        exact hnew k hh2 ⟨i1, c1, h1, hh1⟩
      · simp at h2
    · simp only [e1, if_false] at h1
      simp only [e2, if_false] at h2
      exact h i1 i2 c1 c2 k h1 h2 hh1 hh2

theorem nodup_keys_set_same {bs : List (bucket K V)} {j : Nat} {b : bucket K V}
    {b' : bucket K V} (h : nodup_keys bs) (hb : bs[j]? = some b)
    (hsame : ∀ k, b'.holds k = true → b.holds k = true) : nodup_keys (bs.set j b') := by
  intro i1 i2 c1 c2 k h1 h2 hh1 hh2
  rw [List.getElem?_set] at h1 h2
  have key1 : ∃ d1 : bucket K V, bs[i1]? = some d1 ∧ d1.holds k = true := by
    by_cases e1 : j = i1
    · simp only [e1, if_true] at h1
      split at h1
      · simp only [Option.some.injEq] at h1
        subst h1
        exact ⟨b, by rw [← e1]; exact hb, hsame k hh1⟩
      · simp at h1
    · simp only [e1, if_false] at h1
      exact ⟨c1, h1, hh1⟩
  have key2 : ∃ d2 : bucket K V, bs[i2]? = some d2 ∧ d2.holds k = true := by
    by_cases e2 : j = i2
    · simp only [e2, if_true] at h2
      split at h2
      · simp only [Option.some.injEq] at h2
        subst h2
        exact ⟨b, by rw [← e2]; exact hb, hsame k hh2⟩
      · simp at h2
    · simp only [e2, if_false] at h2
      exact ⟨c2, h2, hh2⟩
  obtain ⟨d1, hd1, hhd1⟩ := key1
  obtain ⟨d2, hd2, hhd2⟩ := key2
  exact h i1 i2 d1 d2 k hd1 hd2 hhd1 hhd2

theorem nodup_keys.pair_unique {bs : List (bucket K V)} (h : nodup_keys bs) {key : K}
    {v v' : V} (h1 : has_pair bs key v) (h2 : has_pair bs key v') : v = v' := by
  obtain ⟨i, b, hb, hl, hst⟩ := h1
  obtain ⟨j, c, hc, hcl, hct⟩ := h2
  simp only [bucket.live, Bool.and_eq_true, Bool.not_eq_true'] at hl hcl
  have hij := h i j b c key hb hc ((bucket.holds_iff _ _).2 ⟨hl.1, hl.2, v, hst⟩)
    ((bucket.holds_iff _ _).2 ⟨hcl.1, hcl.2, v', hct⟩)
  subst hij
  rw [hb] at hc
  simp only [Option.some.injEq] at hc
  subst hc
  rw [hst] at hct
  simp only [Option.some.injEq, Prod.mk.injEq] at hct
  exact hct.2

theorem probe_insert_dup_of_reach {key : K} {bs : List (bucket K V)} {i : Nat}
    (hnd : ∀ (j : Nat) (b : bucket K V), bs[j]? = some b → b.deleted_ = false)
    (hi : ∃ b, bs[i]? = some b ∧ b.holds key = true) :
    ∀ (n ind : Nat), probe_reach bs n ind i = true →
      ∃ j, probe_insert key bs n ind = .duplicate j := by
  intro n
  induction n with
  | zero => intro ind h; simp [probe_reach] at h
  | succ n ih =>
    intro ind h
    obtain ⟨bi, hbi, hhi⟩ := hi
    unfold probe_reach at h
    unfold probe_insert
    by_cases hind : ind = i
    · subst hind
      simp [hbi, bucket.holds_live hhi, hhi]
    · simp only [hind, decide_False, Bool.false_or] at h
      cases hb : bs[ind]? with
      | none => simp [hb] at h
      | some b =>
        simp only [hb, Bool.and_eq_true] at h
        have hl : b.live = true := by
          simp [bucket.live, h.1, hnd ind b hb]
        by_cases hh : b.holds key = true
        · exact ⟨ind, by simp [hl, hh]⟩
        · simp only [hl, Bool.not_true, Bool.false_eq_true, if_false, hh]
          exact ih _ h.2

theorem map.kept_refl (m : map K V) : m.kept m :=
  ⟨fun _ _ h => h, fun _ h => h, fun _ => Nat.le_refl _, Or.inl rfl⟩

theorem map.kept_trans {m m1 m2 : map K V} (h1 : m.kept m1) (h2 : m1.kept m2) :
    m.kept m2 := by
  refine ⟨fun k v h => h1.1 k v (h2.1 k v h), fun k h => h2.2.1 k (h1.2.1 k h), ?_, ?_⟩
  · intro hnd
    have hnd1 : nodup_keys m1.buckets_.buckets_ := by
      rcases h1.2.2.2 with h | h
      · rw [h]; exact hnd
      · exact h
    exact Nat.le_trans (h1.2.2.1 hnd) (h2.2.2.1 hnd1)
  · rcases h2.2.2.2 with h | h
    · rw [h]
      exact h1.2.2.2
    · exact Or.inr h

theorem map.inv.absent_of_here {m : map K V} (hinv : map.inv hash_fn m) (hnd : m.no_deleted)
    {key : K} {j : Nat}
    (hp : probe_insert key m.buckets_.buckets_ (probe_budget m.hashpower)
      (m.home hash_fn key) = .here j) :
    ¬ has_key m.buckets_.buckets_ key := by
  rintro ⟨i, b, hb, hh⟩
  obtain ⟨-, -, v, hst⟩ := (bucket.holds_iff _ _).1 hh
  have hr := hinv.reach i b key v hb (bucket.holds_live hh) hst
  obtain ⟨j', hj'⟩ := probe_insert_dup_of_reach hnd ⟨b, hb, hh⟩ _ _ hr
  unfold map.home map.hashpower at hp
  rw [hp] at hj'
  simp at hj'

/-! ## The states an upsert leaves behind -/

theorem map.grown_refl (m : map K V) : m.grown m :=
  ⟨Nat.le_refl _, fun _ h => h, Nat.le_refl _, Or.inl rfl, m.kept_refl, Or.inl rfl⟩

theorem map.grown_trans {m m1 m2 : map K V} (h1 : m.grown m1) (h2 : m1.grown m2) :
    m.grown m2 := by
  refine ⟨Nat.le_trans h1.1 h2.1, fun k h => h1.2.1 k (h2.2.1 k h),
    Nat.le_trans h2.2.2.1 h1.2.2.1, ?_, map.kept_trans h1.2.2.2.2.1 h2.2.2.2.2.1, ?_⟩
  · rcases h2.2.2.2.1 with h | h
    · rw [h]
      exact h1.2.2.2.1
    · exact Or.inr h
  · rcases h2.2.2.2.2.2 with h | h
    · rw [h]
      exact h1.2.2.2.2.2
    · right
      exact Nat.lt_of_le_of_lt h1.1 h

theorem map.inv.stored {m : map K V} (h : map.inv hash_fn m) {key : K} {j : Nat} (val : V)
    (hp : probe_insert key m.buckets_.buckets_ (probe_budget m.hashpower)
      (m.home hash_fn key) = .here j) :
    map.inv hash_fn (m.stored j key val) := by
  obtain ⟨b, hb, -⟩ := (probe_insert_slot _ _ j).1 hp
  apply map.inv.add_counter
  apply h.set_slot _ hb (fun _ => rfl)
  intro _
  exact ⟨key, val, rfl, probe_insert_reach _ _ (Or.inl hp)⟩

theorem map.inv.assigned {m : map K V} (h : map.inv hash_fn m) {key : K} {j : Nat}
    {b : bucket K V} {v : V} (val : V) (hb : m.buckets_.buckets_[j]? = some b)
    (hst : b.storage_ = some (key, v)) :
    map.inv hash_fn (m.assigned j b key val) := by
  refine h.set_slot ⟨some (key, val), b.occupied_, b.deleted_⟩ hb (fun ho => ho) ?_
  intro hl
  exact ⟨key, val, rfl, h.reach j b key v hb hl hst⟩

theorem map.inv.erased {m : map K V} (h : map.inv hash_fn m) {j : Nat} {b : bucket K V}
    (hb : m.buckets_.buckets_[j]? = some b) :
    map.inv hash_fn (m.erased j b) := by
  apply map.inv.add_counter
  refine h.set_slot ⟨none, b.occupied_, true⟩ hb (fun ho => ho) ?_
  intro hl
  simp [bucket.live] at hl

theorem map.upsert_post.keeps_inv {m : map K V} {key : K} {fn : V → V} {val : V}
    {x : map K V × Bool} (h : map.upsert_post hash_fn m key fn val x) :
    map.inv hash_fn x.1 := by
  obtain ⟨m0, hinv, -, -, h | h⟩ := h
  · obtain ⟨-, j, hp, hx⟩ := h
    rw [hx]
    exact hinv.stored val hp
  · obtain ⟨-, j, b, v, -, hb, hst, hx⟩ := h
    rw [hx]
    exact hinv.assigned _ hb hst

theorem map.add_counter_buckets (m : map K V) (l : Nat) (d : Int) :
    (m.add_counter l d).buckets_ = m.buckets_ := by
  unfold map.add_counter
  split
  · rfl
  · split <;> rfl

theorem map.stored_buckets (m : map K V) (j : Nat) (key : K) (val : V) :
    (m.stored j key val).buckets_
      = ⟨m.buckets_.hashpower_, m.buckets_.buckets_.set j ⟨some (key, val), true, false⟩⟩ := by
  unfold map.stored
  rw [map.add_counter_buckets]
  rfl

theorem map.upsert_post.bounds {m : map K V} {key : K} {fn : V → V} {val : V}
    {x : map K V × Bool} (h : map.upsert_post hash_fn m key fn val x) :
    m.hashpower ≤ x.1.hashpower ∧
    (∀ key', has_key x.1.buckets_.buckets_ key' →
      has_key m.buckets_.buckets_ key' ∨ key' = key) ∧
    live_count x.1.buckets_.buckets_ ≤ live_count m.buckets_.buckets_ + 1 := by
  obtain ⟨m0, hinv, hg, -, h | h⟩ := h
  · obtain ⟨-, j, hp, hx⟩ := h
    rw [hx]
    simp only [map.hashpower, map.stored_buckets]
    refine ⟨hg.1, ?_, ?_⟩
    · intro key' hk
      rcases has_key_set hk with hk | hk
      · exact Or.inl (hg.2.1 _ hk)
      · right
        rw [bucket.holds_iff] at hk
        obtain ⟨-, -, v, hv⟩ := hk
        simp only [Option.some.injEq, Prod.mk.injEq] at hv
        exact hv.1.symm
    · exact Nat.le_trans (live_count_set_le _ _ _) (Nat.add_le_add_right hg.2.2.1 1)
  · obtain ⟨-, j, b, v, -, hb, hst, hx⟩ := h
    rw [hx]
    unfold map.assigned
    refine ⟨hg.1, ?_, ?_⟩
    · intro key' hk
      rcases has_key_set hk with hk | hk
      · exact Or.inl (hg.2.1 _ hk)
      · right
        rw [bucket.holds_iff] at hk
        obtain ⟨-, -, v, hv⟩ := hk
        simp only [Option.some.injEq, Prod.mk.injEq] at hv
        exact hv.1.symm
    · exact Nat.le_trans (live_count_set_le _ _ _) (Nat.add_le_add_right hg.2.2.1 1)

theorem map.counted_set_slot {m : map K V} (hinv : map.inv hash_fn m) (hc : m.counted)
    {j : Nat} {b : bucket K V} (b' : bucket K V) (hb : m.buckets_.buckets_[j]? = some b)
    (d : Int)
    (hd : d + (if b.live = true then 1 else 0) = (if b'.live = true then 1 else 0)) :
    ((m.with_buckets (m.buckets_.buckets_.set j b')).add_counter (m.stripe j) d).counted := by
  obtain ⟨cur, older, hcur, -⟩ := hinv.cur
  have hl := hinv.stripe_lt hcur j
  have hst : m.stripe j = j &&& (cur.length - 1) := by unfold map.stripe; rw [hcur]
  have hcnt := hc cur older hcur
  unfold map.add_counter map.with_buckets
  simp only [hcur, List.getElem?_eq_getElem hl]
  intro cur' older' heq s c hcs
  simp only [map.mk.injEq, List.cons.injEq] at heq
  obtain ⟨hcur', -⟩ := heq
  subst hcur'
  rw [List.length_set]
  have hset := stripe_live_set b' hb cur.length s
  rw [List.getElem?_set] at hcs
  by_cases hls : m.stripe j = s
  · subst hls
    simp only [if_true, hl, Option.some.injEq] at hcs
    subst hcs
    simp only
    have h0 := hcnt (m.stripe j) _ (List.getElem?_eq_getElem hl)
    rw [h0]
    have hdec : decide (j &&& (cur.length - 1) = m.stripe j) = true := by
      rw [← hst]
      simp
    simp only [hdec, Bool.and_true] at hset
    by_cases h1 : b.live = true <;> by_cases h2 : b'.live = true <;>
      simp only [h1, h2, if_true, if_false, Bool.false_eq_true] at hset hd <;> omega
  · simp only [hls, if_false] at hcs
    rw [hcnt s c hcs]
    have hdec : decide (j &&& (cur.length - 1) = s) = false := by
      rw [← hst]
      simp [hls]
    simp only [hdec, Bool.and_false, Bool.false_eq_true, if_false, Nat.add_zero] at hset
    rw [hset]

theorem map.add_counter_zero {m : map K V} (l : Nat) : m.add_counter l 0 = m := by
  unfold map.add_counter
  split
  · rfl
  · next cur older hc =>
    split
    · rfl
    · next s hs =>
      have : cur.set l ⟨s.lock_, s.element_counter_ + 0, s.is_migrated_⟩ = cur := by
        apply list_set_same
        rw [hs]
        simp
      rw [this]
      cases m
      simp only at hc
      rw [hc]

theorem map.counted_stored {m : map K V} (hinv : map.inv hash_fn m) (hc : m.counted) {key : K}
    {j : Nat} (val : V)
    (hp : probe_insert key m.buckets_.buckets_ (probe_budget m.hashpower)
      (m.home hash_fn key) = .here j) :
    (m.stored j key val).counted := by
  obtain ⟨b, hb, hbl⟩ := (probe_insert_slot _ _ j).1 hp
  apply map.counted_set_slot hinv hc _ hb
  rw [hbl]
  rfl

theorem map.counted_assigned {m : map K V} (hinv : map.inv hash_fn m) (hc : m.counted) {key : K}
    {j : Nat} {b : bucket K V} (val : V) (hb : m.buckets_.buckets_[j]? = some b) :
    (m.assigned j b key val).counted := by
  have := map.counted_set_slot hinv hc ⟨some (key, val), b.occupied_, b.deleted_⟩ hb 0
    (by simp [bucket.live])
  rw [map.add_counter_zero] at this
  exact this

theorem map.counted_erased {m : map K V} (hinv : map.inv hash_fn m) (hc : m.counted) {j : Nat}
    {b : bucket K V} (hb : m.buckets_.buckets_[j]? = some b) (hl : b.live = true) :
    (m.erased j b).counted := by
  apply map.counted_set_slot hinv hc _ hb
  rw [hl]
  simp [bucket.live]

theorem map.counted_new (hp : Nat) : (map.new hp : map K V).counted := by
  intro cur older heq s c hcs
  simp only [map.new, List.cons.injEq] at heq
  obtain ⟨hcur, -⟩ := heq
  subst hcur
  rw [List.getElem?_replicate] at hcs
  split at hcs
  · simp only [Option.some.injEq] at hcs
    subst hcs
    have : stripe_live (map.new hp : map K V).buckets_.buckets_
        (List.replicate (min (1 <<< hp) kMaxNumLocks) spinlock_t.new).length s = 0 := by
      unfold stripe_live
      rw [List.countP_eq_zero]
      intro i _
      simp only [map.new, table.new, live_at]
      rw [List.getElem?_replicate]
      by_cases h : i < 1 <<< hp <;> simp [h, bucket.new, bucket.live]
    rw [this]
    rfl
  · simp at hcs

theorem map.fresh_new (hp : Nat) : (map.new hp : map K V).fresh := by
  refine ⟨map.counted_new hp, ?_⟩
  intro i b hb
  simp only [map.new, table.new] at hb
  rw [List.getElem?_replicate] at hb
  split at hb
  · simp only [Option.some.injEq] at hb
    subst hb
    rfl
  · simp at hb

theorem map.no_deleted_set {m : map K V} (h : m.no_deleted) (j : Nat) (b' : bucket K V)
    (hb' : b'.deleted_ = false) (l : Nat) (d : Int) :
    ((m.with_buckets (m.buckets_.buckets_.set j b')).add_counter l d).no_deleted := by
  intro i b hb
  rw [map.add_counter_buckets] at hb
  simp only [map.with_buckets, List.getElem?_set] at hb
  by_cases hij : j = i
  · simp only [hij, if_true] at hb
    split at hb
    · simp only [Option.some.injEq] at hb
      subst hb
      exact hb'
    · simp at hb
  · simp only [hij, if_false] at hb
    exact h i b hb

theorem map.fresh_stored {m : map K V} (hinv : map.inv hash_fn m) (hf : m.fresh) {key : K}
    {j : Nat} (val : V)
    (hp : probe_insert key m.buckets_.buckets_ (probe_budget m.hashpower)
      (m.home hash_fn key) = .here j) :
    (m.stored j key val).fresh :=
  ⟨map.counted_stored hinv hf.1 val hp, map.no_deleted_set hf.2 j _ rfl _ _⟩

theorem map.fresh_assigned {m : map K V} (hinv : map.inv hash_fn m) (hf : m.fresh) {key : K}
    {j : Nat} {b : bucket K V} (val : V) (hb : m.buckets_.buckets_[j]? = some b) :
    (m.assigned j b key val).fresh := by
  refine ⟨map.counted_assigned hinv hf.1 val hb, ?_⟩
  have := map.no_deleted_set hf.2 j ⟨some (key, val), b.occupied_, b.deleted_⟩ (hf.2 j b hb)
    0 0
  rw [map.add_counter_zero] at this
  exact this

theorem map.upsert_post.keeps_fresh {m : map K V} {key : K} {fn : V → V} {val : V}
    {x : map K V × Bool} (h : map.upsert_post hash_fn m key fn val x) (hf : m.fresh) :
    x.1.fresh := by
  obtain ⟨m0, hinv, hg, -, h | h⟩ := h
  · obtain ⟨-, j, hp, hx⟩ := h
    rw [hx]
    refine map.fresh_stored hinv ?_ val hp
    rcases hg.2.2.2.1 with h0 | h0
    · rw [h0]; exact hf
    · exact h0
  · obtain ⟨-, j, b, v, -, hb, hst, hx⟩ := h
    rw [hx]
    refine map.fresh_assigned hinv ?_ _ hb
    rcases hg.2.2.2.1 with h0 | h0
    · rw [h0]; exact hf
    · exact h0

theorem map.assigned_same {m : map K V} {j : Nat} {b : bucket K V} {key : K} {v : V}
    (hb : m.buckets_.buckets_[j]? = some b) (hst : b.storage_ = some (key, v)) :
    m.assigned j b key v = m := by
  unfold map.assigned
  have hbb : (⟨some (key, v), b.occupied_, b.deleted_⟩ : bucket K V) = b := by
    rw [← hst]
  rw [hbb, list_set_same hb]
  rfl

theorem live_count_set_eq {bs : List (bucket K V)} {j : Nat} {b : bucket K V} (b' : bucket K V)
    (hb : bs[j]? = some b) :
    live_count (bs.set j b') + (if b.live = true then 1 else 0)
      = live_count bs + (if b'.live = true then 1 else 0) := by
  have hj : j < bs.length := by
    by_contra hcon
    rw [List.getElem?_eq_none (by omega)] at hb
    simp at hb
  unfold live_count
  rw [List.length_set]
  have key := countP_range_update (live_at bs) (live_at (bs.set j b')) j
    (by
      intro i hij
      simp only [live_at]
      rw [List.getElem?_set_ne (Ne.symm hij)]) bs.length hj
  simp only [live_at, hb, List.getElem?_set_self hj] at key
  exact key

theorem live_count_stored (m : map K V) {j : Nat} {b : bucket K V} (key : K) (val : V)
    (hb : m.buckets_.buckets_[j]? = some b) (hl : b.live = false) :
    live_count (m.stored j key val).buckets_.buckets_ = live_count m.buckets_.buckets_ + 1 := by
  rw [map.stored_buckets]
  have := live_count_set_eq ⟨some (key, val), true, false⟩ hb
  simp only [hl, Bool.false_eq_true, if_false] at this
  simpa [bucket.live] using this

theorem live_count_assigned (m : map K V) {j : Nat} {b : bucket K V} (key : K) (val : V)
    (hb : m.buckets_.buckets_[j]? = some b) :
    live_count (m.assigned j b key val).buckets_.buckets_ = live_count m.buckets_.buckets_ := by
  unfold map.assigned map.with_buckets
  have := live_count_set_eq ⟨some (key, val), b.occupied_, b.deleted_⟩ hb
  have hsame : (⟨some (key, val), b.occupied_, b.deleted_⟩ : bucket K V).live = b.live := rfl
  rw [hsame] at this
  simp only at this ⊢
  omega

theorem map.kept.pairs_of_nodup {m m0 : map K V} (h : m.kept m0)
    (hnd : nodup_keys m.buckets_.buckets_) {k : K} {v : V}
    (hkv : has_pair m.buckets_.buckets_ k v) : has_pair m0.buckets_.buckets_ k v := by
  obtain ⟨v', hv'⟩ := (has_key_iff_pair _ _).1 (h.2.1 k ((has_key_iff_pair _ _).2 ⟨v, hkv⟩))
  have := hnd.pair_unique hkv (h.1 k v' hv')
  rw [this]
  exact hv'

theorem map.upsert_post.keeps_nodup {m : map K V} {key : K} {fn : V → V} {val : V}
    {x : map K V × Bool} (h : map.upsert_post hash_fn m key fn val x) (hf : m.fresh)
    (hnd : nodup_keys m.buckets_.buckets_) : nodup_keys x.1.buckets_.buckets_ := by
  obtain ⟨m0, hinv, hg, -, h | h⟩ := h
  all_goals
    have hf0 : m0.fresh := by
      rcases hg.2.2.2.1 with h0 | h0
      · rw [h0]; exact hf
      · exact h0
    have hnd0 : nodup_keys m0.buckets_.buckets_ := by
      rcases hg.2.2.2.2.1.2.2.2 with h0 | h0
      · rw [h0]; exact hnd
      · exact h0
  · obtain ⟨-, j, hp, hx⟩ := h
    rw [hx, map.stored_buckets]
    apply nodup_keys_set_new hnd0
    intro k hk
    obtain ⟨-, -, v, hv⟩ := (bucket.holds_iff _ _).1 hk
    simp only [Option.some.injEq, Prod.mk.injEq] at hv
    rw [← hv.1]
    exact hinv.absent_of_here hf0.2 hp
  · obtain ⟨-, j, b, v, -, hb, hst, hx⟩ := h
    rw [hx]
    unfold map.assigned map.with_buckets
    apply nodup_keys_set_same hnd0 hb
    intro k hk
    obtain ⟨ho, hd, v', hv'⟩ := (bucket.holds_iff _ _).1 hk
    simp only [Option.some.injEq, Prod.mk.injEq] at hv'
    exact (bucket.holds_iff _ _).2 ⟨ho, hd, v, by rw [hst, hv'.1]⟩

theorem map.upsert_post.pairs_id {m : map K V} {key : K} {val : V}
    {x : map K V × Bool} (h : map.upsert_post hash_fn m key (fun v => v) val x) {k : K} {v : V}
    (hp : has_pair x.1.buckets_.buckets_ k v) :
    has_pair m.buckets_.buckets_ k v ∨ (k = key ∧ v = val) := by
  obtain ⟨m0, hinv, hg, -, h | h⟩ := h
  · obtain ⟨-, j, -, hx⟩ := h
    rw [hx, map.stored_buckets] at hp
    rcases has_pair_set hp with hp | ⟨-, hp⟩
    · exact Or.inl (hg.2.2.2.2.1.1 k v hp)
    · simp only [Option.some.injEq, Prod.mk.injEq] at hp
      exact Or.inr ⟨hp.1.symm, hp.2.symm⟩
  · obtain ⟨-, j, b, v0, -, hb, hst, hx⟩ := h
    rw [hx, map.assigned_same hb hst] at hp
    exact Or.inl (hg.2.2.2.2.1.1 k v hp)

theorem map.upsert_post.keeps_keys {m : map K V} {key : K} {fn : V → V} {val : V}
    {x : map K V × Bool} (h : map.upsert_post hash_fn m key fn val x) :
    (∀ k, has_key m.buckets_.buckets_ k → has_key x.1.buckets_.buckets_ k) ∧
    has_key x.1.buckets_.buckets_ key := by
  obtain ⟨m0, hinv, hg, -, h | h⟩ := h
  · obtain ⟨-, j, hp, hx⟩ := h
    obtain ⟨b, hb, hbl⟩ := (probe_insert_slot _ _ j).1 hp
    have hj : j < m0.buckets_.buckets_.length := by
      by_contra hcon
      rw [List.getElem?_eq_none (by omega)] at hb
      simp at hb
    rw [hx, map.stored_buckets]
    refine ⟨fun k hk => has_key_set_keep _ hb hbl (hg.2.2.2.2.1.2.1 k hk), ?_⟩
    exact has_key_set_new hj ((bucket.holds_iff _ _).2 ⟨rfl, rfl, val, rfl⟩)
  · obtain ⟨-, j, b, v, hp, hb, hst, hx⟩ := h
    obtain ⟨b2, hb2, hh2⟩ := (probe_insert_slot _ _ j).2 hp
    rw [hb] at hb2
    simp only [Option.some.injEq] at hb2
    subst hb2
    obtain ⟨ho, hd, -⟩ := (bucket.holds_iff _ _).1 hh2
    have hj : j < m0.buckets_.buckets_.length := by
      by_contra hcon
      rw [List.getElem?_eq_none (by omega)] at hb
      simp at hb
    rw [hx]
    unfold map.assigned map.with_buckets
    refine ⟨fun k hk => has_key_set_same _ hb ?_ (hg.2.2.2.2.1.2.1 k hk), ?_⟩
    · intro k hk
      obtain ⟨-, -, v', hv'⟩ := (bucket.holds_iff _ _).1 hk
      rw [hst] at hv'
      simp only [Option.some.injEq, Prod.mk.injEq] at hv'
      exact (bucket.holds_iff _ _).2 ⟨ho, hd, fn v, by rw [hv'.1]⟩
    · exact has_key_set_new hj ((bucket.holds_iff _ _).2 ⟨ho, hd, fn v, rfl⟩)

theorem map.upsert_post.of_absent {m : map K V} {key : K} {fn : V → V} {val : V}
    {x : map K V × Bool} (h : map.upsert_post hash_fn m key fn val x)
    (habs : ¬ has_key m.buckets_.buckets_ key) :
    x.2 = true ∧ has_pair x.1.buckets_.buckets_ key val ∧
    (nodup_keys m.buckets_.buckets_ → ∀ k v, has_pair m.buckets_.buckets_ k v →
      has_pair x.1.buckets_.buckets_ k v) ∧
    (nodup_keys m.buckets_.buckets_ →
      live_count x.1.buckets_.buckets_ = live_count m.buckets_.buckets_ + 1) := by
  obtain ⟨m0, hinv, hg, -, h | h⟩ := h
  · obtain ⟨hx2, j, hp, hx⟩ := h
    obtain ⟨b, hb, hbl⟩ := (probe_insert_slot _ _ j).1 hp
    have hj : j < m0.buckets_.buckets_.length := by
      by_contra hcon
      rw [List.getElem?_eq_none (by omega)] at hb
      simp at hb
    refine ⟨hx2, ?_, ?_, ?_⟩
    · rw [hx, map.stored_buckets]
      exact ⟨j, _, List.getElem?_set_self hj, rfl, rfl⟩
    · intro hnd k v hkv
      rw [hx, map.stored_buckets]
      exact has_pair_set_keep _ hb hbl (hg.2.2.2.2.1.pairs_of_nodup hnd hkv)
    · intro hnd
      rw [hx, live_count_stored m0 key val hb hbl]
      have h1 := hg.2.2.1
      have h2 := hg.2.2.2.2.1.2.2.1 hnd
      omega
  · obtain ⟨-, j, b, v, hp, -, -, -⟩ := h
    obtain ⟨b2, hb2, hh2⟩ := (probe_insert_slot _ _ j).2 hp
    exact absurd (hg.2.1 key ⟨j, b2, hb2, hh2⟩) habs

/-! ## What the insert loop, the resize and the upsert establish -/

theorem probe_budget_pos (hp : Nat) : 0 < probe_budget hp := by
  unfold probe_budget
  omega

theorem map.go_post_succ (fuel : Nat)
    (ihgo : ∀ (m : map K V) (key : K) (hv ind r : Nat) x, map.inv hash_fn m →
      ind < 2 ^ m.hashpower → r < probe_budget m.hashpower →
      map.linear_insert_loop.go hash_fn fuel key hv m m.hashpower ind r = .ok x →
      map.go_post hash_fn m key hv ind r x)
    (ihexp : ∀ (m : map K V) (n : Nat) x, map.inv hash_fn m →
      map.linear_expand hash_fn fuel m m.hashpower n = .ok x → map.resized hash_fn m n x) :
    ∀ (m : map K V) (key : K) (hv ind r : Nat) x, map.inv hash_fn m →
      ind < 2 ^ m.hashpower → r < probe_budget m.hashpower →
      map.linear_insert_loop.go hash_fn (fuel + 1) key hv m m.hashpower ind r = .ok x →
      map.go_post hash_fn m key hv ind r x := by
  intro m key hv ind r x hinv hind hr h
  obtain ⟨k, hk⟩ : ∃ k, probe_budget m.hashpower - r = k + 1 :=
    ⟨probe_budget m.hashpower - r - 1, by omega⟩
  have hlen := hinv.len
  have hb : ind < m.buckets_.buckets_.length := by rw [hlen]; exact hind
  have hbe : m.buckets_.buckets_[ind]? = some m.buckets_.buckets_[ind] :=
    List.getElem?_eq_getElem hb
  rw [map.linear_insert_loop.go, hinv.lock_one_loop_eq] at h
  simp only [map.hold_buckets, hbe, hinv.unlock_hold] at h
  generalize m.buckets_.buckets_[ind] = b at hbe h
  by_cases hl : b.live = true
  · have hc : (!b.occupied_ || b.deleted_) = false := by
      simp only [bucket.live, Bool.and_eq_true, Bool.not_eq_true'] at hl
      simp [hl.1, hl.2]
    simp only [hc, Bool.false_eq_true, if_false] at h
    cases hst : b.storage_ with
    | none => simp [hst] at h
    | some kv =>
      obtain ⟨k', v'⟩ := kv
      simp only [hst] at h
      by_cases hkey : k' = key
      · simp only [hkey, if_true, Except.ok.injEq] at h
        refine ⟨m, ind, _, _, hinv, m.grown_refl, by rw [← h], Or.inl ⟨rfl, rfl, rfl⟩,
          Or.inr ⟨by rw [← h], ?_⟩⟩
        have hh : b.holds key = true := by
          rw [bucket.holds_iff]
          simp only [bucket.live, Bool.and_eq_true, Bool.not_eq_true'] at hl
          exact ⟨hl.1, hl.2, v', by rw [hst, hkey]⟩
        rw [hk]
        unfold probe_insert
        simp [hbe, hl, hh]
      · have hh : b.holds key = false := by
          cases hcon : b.holds key with
          | false => rfl
          | true =>
            rw [bucket.holds_iff] at hcon
            obtain ⟨-, -, v, hv'⟩ := hcon
            rw [hst] at hv'
            simp only [Option.some.injEq, Prod.mk.injEq] at hv'
            exact absurd hv'.1 hkey
        simp only [hkey, if_false] at h
        by_cases hge : r + 1 ≥ m.hashpower
        · simp only [hge, if_true] at h
          cases hex : map.linear_expand hash_fn fuel m m.hashpower (m.hashpower + 1) with
          | error e => simp [hex] at h
          | ok q =>
            obtain ⟨m2, st⟩ := q
            simp only [hex] at h
            obtain ⟨-, hinv2, hhp2, hkeys2, hlc2, hfr2, hkept2, -⟩ := ihexp m _ _ hinv hex
            obtain ⟨m0, j, n, i, hinv0, hg0, hx1, hni, hres⟩ :=
              ihgo m2 key hv _ 0 x hinv2 (index_hash_lt _ _) (probe_budget_pos _) h
            have hg2 : m.grown m2 :=
              ⟨by simp only at hhp2; omega, hkeys2, hlc2, Or.inr hfr2, hkept2,
                Or.inr (by simp only at hhp2; omega)⟩
            have hk0 : k = 0 := by unfold probe_budget at hk hr; omega
            have hexh : probe_insert key m.buckets_.buckets_ (probe_budget m.hashpower - r) ind
                = .exhausted := by
              rw [hk, hk0]
              unfold probe_insert
              simp [hbe, hl, hh, probe_insert]
            refine ⟨m0, j, n, i, hinv0, map.grown_trans hg2 hg0, hx1, Or.inr ⟨hexh, ?_⟩, hres⟩
            rcases hni with ⟨rfl, hn, hi⟩ | ⟨-, hni⟩
            · exact ⟨by rw [hn]; omega, hi⟩
            · exact hni
        · simp only [hge, if_false] at h
          have hr1 : r + 1 < probe_budget m.hashpower := by unfold probe_budget; omega
          obtain ⟨m0, j, n, i, hinv0, hg0, hx1, hni, hres⟩ :=
            ihgo m key hv _ (r + 1) x hinv (index_hash_lt _ _) hr1 h
          have hstep : probe_insert key m.buckets_.buckets_ (probe_budget m.hashpower - r) ind
              = probe_insert key m.buckets_.buckets_ (probe_budget m.hashpower - (r + 1))
                  (index_hash m.hashpower (ind + 1)) := by
            rw [hk]
            conv => lhs; unfold probe_insert
            simp only [hbe, hl, hh, Bool.not_true, Bool.false_eq_true, if_false]
            rw [index_hash_eq, hlen]
            have : probe_budget m.hashpower - (r + 1) = k := by omega
            rw [this]
            rfl
          rcases hni with ⟨rfl, hn, hi⟩ | ⟨hexh, hni⟩
          · refine ⟨m0, j, _, _, hinv0, hg0, hx1, Or.inl ⟨rfl, rfl, rfl⟩, ?_⟩
            rw [hstep, ← hn, ← hi]
            exact hres
          · exact ⟨m0, j, n, i, hinv0, hg0, hx1, Or.inr ⟨by rw [hstep]; exact hexh, hni⟩, hres⟩
  · simp only [Bool.not_eq_true] at hl
    have hc : (!b.occupied_ || b.deleted_) = true := by
      simp only [bucket.live] at hl
      cases ho : b.occupied_ <;> cases hd : b.deleted_ <;> simp [ho, hd] at hl ⊢
    simp only [hc, if_true, Except.ok.injEq] at h
    refine ⟨m, ind, _, _, hinv, m.grown_refl, by rw [← h], Or.inl ⟨rfl, rfl, rfl⟩,
      Or.inl ⟨by rw [← h], ?_⟩⟩
    rw [hk]
    unfold probe_insert
    simp [hbe, hl]

theorem map.loop_post_succ (fuel : Nat)
    (ihgo : ∀ (m : map K V) (key : K) (hv ind r : Nat) x, map.inv hash_fn m →
      ind < 2 ^ m.hashpower → r < probe_budget m.hashpower →
      map.linear_insert_loop.go hash_fn fuel key hv m m.hashpower ind r = .ok x →
      map.go_post hash_fn m key hv ind r x) :
    ∀ (m : map K V) (key : K) (hv : Nat) x, map.inv hash_fn m →
      map.linear_insert_loop hash_fn (fuel + 1) m key hv = .ok x →
      map.loop_post hash_fn m key hv x := by
  intro m key hv x hinv h
  rw [map.linear_insert_loop] at h
  obtain ⟨m0, j, n, i, hinv0, hg0, hx1, hni, hres⟩ :=
    ihgo m key hv _ 0 x hinv (index_hash_lt _ _) (probe_budget_pos _) h
  have hn : n = probe_budget m0.hashpower ∧ i = index_hash m0.hashpower hv := by
    rcases hni with ⟨rfl, hn, hi⟩ | ⟨-, hni⟩
    · exact ⟨by rw [hn]; omega, hi⟩
    · exact hni
  have hor : m0 = m ∨ probe_insert key m.buckets_.buckets_ (probe_budget m.hashpower)
      (index_hash m.hashpower hv) = .exhausted := by
    rcases hni with ⟨h0, -, -⟩ | ⟨hexh, -⟩
    · exact Or.inl h0
    · exact Or.inr (by simpa using hexh)
  rw [hn.1, hn.2] at hres
  exact ⟨m0, j, hinv0, hg0, hor, hx1, hres⟩

theorem map.uprase_post_succ (fuel : Nat)
    (ihl : ∀ (m : map K V) (key : K) (hv : Nat) x, map.inv hash_fn m →
      map.linear_insert_loop hash_fn fuel m key hv = .ok x →
      map.loop_post hash_fn m key hv x) :
    ∀ (m : map K V) (key : K) (fn : V → V) (val : V) x, map.inv hash_fn m →
      map.uprase_fn hash_fn (fuel + 1) m key (fun v => (fn v, false)) val = .ok x →
      map.upsert_post hash_fn m key fn val x := by
  intro m key fn val x hinv h
  rw [map.uprase_fn] at h
  cases hl : map.linear_insert_loop hash_fn fuel m key (map.hashed_key hash_fn key) with
  | error e => simp [hl] at h
  | ok q =>
    obtain ⟨m1, pos⟩ := q
    simp only [hl] at h
    obtain ⟨m0, j, hinv0, hg0, hor, hm1, hres⟩ := ihl m key _ _ hinv hl
    simp only at hm1 hres
    subst hm1
    rcases hres with ⟨hpos, hprobe⟩ | ⟨hpos, hprobe⟩
    · subst hpos
      obtain ⟨b, hb, hbl⟩ := (probe_insert_slot _ _ j).1 hprobe
      have hc : (!b.occupied_ || b.deleted_) = true := by
        simp only [bucket.live] at hbl
        cases ho : b.occupied_ <;> cases hd : b.deleted_ <;> simp [ho, hd] at hbl ⊢
      obtain ⟨m2, hm2, hrel⟩ := hinv0.release_bump j
        ⟨m0.buckets_.hashpower_, m0.buckets_.buckets_.set j ⟨some (key, val), true, false⟩⟩ 1
      simp only [map.add_to_bucket, table.setKV, map.hold_buckets, hb, hc, if_true, hm2,
        map.release, hrel] at h
      simp at h
      refine ⟨m0, hinv0, hg0, hor, Or.inl ⟨by rw [← h], j, hprobe, by rw [← h]; rfl⟩⟩
    · subst hpos
      obtain ⟨b, hb, hbh⟩ := (probe_insert_slot _ _ j).2 hprobe
      obtain ⟨-, -, v, hst⟩ := (bucket.holds_iff _ _).1 hbh
      simp only [map.read_slot, map.hold_buckets, hb, hst, hinv0.release_write] at h
      simp at h
      exact ⟨m0, hinv0, hg0, hor,
        Or.inr ⟨by rw [← h], j, b, v, hprobe, hb, hst, by rw [← h]; rfl⟩⟩

theorem lock_set_free :
    ∀ (l : List spinlock_t), (∀ s ∈ l, s.lock_ = false) →
      lock_set l = .ok (l.map spinlock_t.held) := by
  intro l
  induction l with
  | nil => intro _; rfl
  | cons s l ih =>
    intro h
    have hs := h s (List.mem_cons_self _ _)
    have ih' := ih (fun s' hs' => h s' (List.mem_cons_of_mem _ hs'))
    simp [lock_set, spinlock_t.lock, hs, ih', spinlock_t.held]

theorem map.inv.lock_all_eq {m : map K V} (h : map.inv hash_fn m) :
    ∃ cur older, m.all_locks_ = cur :: older ∧
      cur.length = min (2 ^ m.buckets_.hashpower_) kMaxNumLocks ∧
      m.lock_all = .ok (⟨cur.map spinlock_t.held :: older, m.buckets_⟩, some older.length) := by
  obtain ⟨cur, older, hc, hlen⟩ := h.cur
  refine ⟨cur, older, hc, hlen, ?_⟩
  unfold map.lock_all
  simp only [hc]
  rw [lock_set_free cur (h.free cur (by rw [hc]; simp))]

theorem map.migrate_fold (fuel : Nat)
    (ihins : ∀ (m : map K V) (key : K) (val : V) x, map.inv hash_fn m →
      map.insert hash_fn fuel m key val = .ok x →
      map.upsert_post hash_fn m key (fun v => v) val x)
    (src : List (bucket K V)) :
    ∀ (l : List Nat) (nm nm' : map K V), map.inv hash_fn nm →
      List.foldlM (map.migrate_step (map.insert hash_fn fuel) src) nm l = .ok nm' →
      map.inv hash_fn nm' ∧ nm.hashpower ≤ nm'.hashpower ∧
      (∀ key, has_key nm'.buckets_.buckets_ key →
        has_key nm.buckets_.buckets_ key ∨ has_key src key) ∧
      live_count nm'.buckets_.buckets_
        ≤ live_count nm.buckets_.buckets_ + l.countP (live_at src) ∧
      (nm.fresh → nm'.fresh) := by
  intro l
  induction l with
  | nil =>
    intro nm nm' hinv h
    simp only [List.foldlM_nil, pure, Except.pure, Except.ok.injEq] at h
    subst h
    exact ⟨hinv, Nat.le_refl _, fun _ hk => Or.inl hk, by simp, fun hf => hf⟩
  | cons i l ih =>
    intro nm nm' hinv h
    simp only [List.foldlM_cons, bind, Except.bind] at h
    cases hstep : map.migrate_step (map.insert hash_fn fuel) src nm i with
    | error e => simp [hstep] at h
    | ok nm1 =>
      simp only [hstep] at h
      have hone : map.inv hash_fn nm1 ∧ nm.hashpower ≤ nm1.hashpower ∧
          (∀ key, has_key nm1.buckets_.buckets_ key →
            has_key nm.buckets_.buckets_ key ∨ has_key src key) ∧
          live_count nm1.buckets_.buckets_
            ≤ live_count nm.buckets_.buckets_ + (if live_at src i = true then 1 else 0) ∧
          (nm.fresh → nm1.fresh) := by
        unfold map.migrate_step at hstep
        cases hs : src[i]? with
        | none => simp [hs] at hstep
        | some b =>
          simp only [hs] at hstep
          by_cases hl : (b.occupied_ && !b.deleted_) = true
          · simp only [hl, if_true] at hstep
            cases hst : b.storage_ with
            | none => simp [hst] at hstep
            | some kv =>
              obtain ⟨k, v⟩ := kv
              simp only [hst] at hstep
              cases hi : map.insert hash_fn fuel nm k v with
              | error e => simp [hi] at hstep
              | ok r =>
                simp only [hi, Except.ok.injEq] at hstep
                have hpost := ihins nm k v r hinv hi
                have hb := hpost.bounds
                rw [hstep] at hb
                have hla : live_at src i = true := by
                  unfold live_at
                  simp [hs, bucket.live, hl]
                refine ⟨by rw [← hstep]; exact hpost.keeps_inv, hb.1, ?_,
                  by simpa [hla] using hb.2.2,
                  fun hf => by rw [← hstep]; exact hpost.keeps_fresh hf⟩
                intro key hk
                rcases hb.2.1 key hk with hk | hk
                · exact Or.inl hk
                · right
                  subst hk
                  refine ⟨i, b, hs, ?_⟩
                  rw [bucket.holds_iff]
                  simp only [Bool.and_eq_true, Bool.not_eq_true'] at hl
                  exact ⟨hl.1, hl.2, v, hst⟩
          · simp only [hl, Bool.false_eq_true, if_false, Except.ok.injEq] at hstep
            subst hstep
            exact ⟨hinv, Nat.le_refl _, fun _ hk => Or.inl hk, by omega, fun hf => hf⟩
      obtain ⟨hinv1, hhp1, hk1, hlc1, hf1⟩ := hone
      obtain ⟨hinv', hhp', hk', hlc', hf'⟩ := ih nm1 nm' hinv1 h
      refine ⟨hinv', Nat.le_trans hhp1 hhp', ?_, ?_, fun hf => hf' (hf1 hf)⟩
      · intro key hk
        rcases hk' key hk with hk | hk
        · exact hk1 key hk
        · exact Or.inr hk
      · rw [List.countP_cons]
        omega

theorem map.AllUnlocker_one (A : List spinlock_t) (older : List (List spinlock_t))
    (t : table K V) :
    map.AllUnlocker (⟨A :: older, t⟩ : map K V) older.length
      = ⟨A.map spinlock_t.unlock :: older, t⟩ := by
  unfold map.AllUnlocker
  have : (A :: older).length - older.length = 1 := by
    simp only [List.length_cons]
    omega
  simp only [this]
  simp

theorem map.AllUnlocker_two (A B : List spinlock_t) (older : List (List spinlock_t))
    (t : table K V) :
    map.AllUnlocker (⟨A :: B :: older, t⟩ : map K V) older.length
      = ⟨A.map spinlock_t.unlock :: B.map spinlock_t.unlock :: older, t⟩ := by
  unfold map.AllUnlocker
  have : (A :: B :: older).length - older.length = 2 := by
    simp only [List.length_cons]
    omega
  simp only [this]
  simp

theorem live_count_eq_countP (bs : List (bucket K V)) (hp : Nat) (h : bs.length = 2 ^ hp) :
    (List.range (hashsize hp)).countP (live_at bs) = live_count bs := by
  unfold live_count
  rw [hashsize_eq, h]

theorem map.migrate_fold_kept (fuel : Nat)
    (ihins : ∀ (m : map K V) (key : K) (val : V) x, map.inv hash_fn m →
      map.insert hash_fn fuel m key val = .ok x →
      map.upsert_post hash_fn m key (fun v => v) val x)
    (src : List (bucket K V)) :
    ∀ (l : List Nat) (nm nm' : map K V), map.inv hash_fn nm → nm.fresh →
      nodup_keys nm.buckets_.buckets_ →
      List.foldlM (map.migrate_step (map.insert hash_fn fuel) src) nm l = .ok nm' →
      nodup_keys nm'.buckets_.buckets_ ∧
      (∀ k v, has_pair nm'.buckets_.buckets_ k v →
        has_pair nm.buckets_.buckets_ k v ∨ has_pair src k v) ∧
      (∀ k, has_key nm.buckets_.buckets_ k → has_key nm'.buckets_.buckets_ k) ∧
      (∀ i ∈ l, ∀ (b : bucket K V) (k : K), src[i]? = some b → b.holds k = true →
        has_key nm'.buckets_.buckets_ k) ∧
      (l.Nodup → nodup_keys src →
        (∀ i ∈ l, ∀ (b : bucket K V) (k : K), src[i]? = some b → b.holds k = true →
          ¬ has_key nm.buckets_.buckets_ k) →
        live_count nm.buckets_.buckets_ + l.countP (live_at src)
          ≤ live_count nm'.buckets_.buckets_) := by
  intro l
  induction l with
  | nil =>
    intro nm nm' _ _ hnd h
    simp only [List.foldlM_nil, pure, Except.pure, Except.ok.injEq] at h
    subst h
    exact ⟨hnd, fun _ _ hp => Or.inl hp, fun _ hk => hk, fun i hi => by simp at hi,
      fun _ _ _ => by simp⟩
  | cons i l ih =>
    intro nm nm' hinv hf hnd h
    simp only [List.foldlM_cons, bind, Except.bind] at h
    cases hstep : map.migrate_step (map.insert hash_fn fuel) src nm i with
    | error e => simp [hstep] at h
    | ok nm1 =>
      simp only [hstep] at h
      unfold map.migrate_step at hstep
      cases hs : src[i]? with
      | none => simp [hs] at hstep
      | some b =>
        simp only [hs] at hstep
        by_cases hl : (b.occupied_ && !b.deleted_) = true
        · simp only [hl, if_true] at hstep
          cases hst : b.storage_ with
          | none => simp [hst] at hstep
          | some kv =>
            obtain ⟨k, v⟩ := kv
            simp only [hst] at hstep
            cases hi : map.insert hash_fn fuel nm k v with
            | error e => simp [hi] at hstep
            | ok r =>
              simp only [hi, Except.ok.injEq] at hstep
              have hpost := ihins nm k v r hinv hi
              subst hstep
              have hla : live_at src i = true := by
                unfold live_at
                simp [hs, bucket.live, hl]
              have hbk : b.holds k = true := by
                rw [bucket.holds_iff]
                simp only [Bool.and_eq_true, Bool.not_eq_true'] at hl
                exact ⟨hl.1, hl.2, v, hst⟩
              have hsrc : has_pair src k v := ⟨i, b, hs, hl, hst⟩
              obtain ⟨hnd', hp', hk', hin', hc'⟩ := ih r.1 nm' hpost.keeps_inv
                (hpost.keeps_fresh hf) (hpost.keeps_nodup hf hnd) h
              refine ⟨hnd', ?_, fun k0 hk0 => hk' k0 (hpost.keeps_keys.1 k0 hk0), ?_, ?_⟩
              · intro k0 v0 hp0
                rcases hp' k0 v0 hp0 with hp1 | hp1
                · rcases hpost.pairs_id hp1 with hp2 | ⟨e1, e2⟩
                  · exact Or.inl hp2
                  · right
                    rw [e1, e2]
                    exact hsrc
                · exact Or.inr hp1
              · intro i' hi' b' k' hb' hh'
                simp only [List.mem_cons] at hi'
                rcases hi' with rfl | hi'
                · rw [hs] at hb'
                  simp only [Option.some.injEq] at hb'
                  subst hb'
                  obtain ⟨-, -, v', hv'⟩ := (bucket.holds_iff _ _).1 hh'
                  rw [hst] at hv'
                  simp only [Option.some.injEq, Prod.mk.injEq] at hv'
                  rw [← hv'.1]
                  exact hk' k hpost.keeps_keys.2
                · exact hin' i' hi' b' k' hb' hh'
              · intro hlnd hsnd habs
                rw [List.nodup_cons] at hlnd
                have hk0 : ¬ has_key nm.buckets_.buckets_ k :=
                  habs i (List.mem_cons_self _ _) b k hs hbk
                have hone := (hpost.of_absent hk0).2.2.2 hnd
                have hrest := hc' hlnd.2 hsnd (by
                  intro i' hi' b' k' hb' hh' hcon
                  obtain ⟨v', hv'⟩ := (has_key_iff_pair _ _).1 hcon
                  rcases hpost.pairs_id hv' with hp2 | ⟨e1, -⟩
                  · exact habs i' (List.mem_cons_of_mem _ hi') b' k' hb' hh'
                      ((has_key_iff_pair _ _).2 ⟨v', hp2⟩)
                  · rw [e1] at hh'
                    have := hsnd i' i b' b k hb' hs hh' hbk
                    rw [this] at hi'
                    exact hlnd.1 hi')
                rw [List.countP_cons]
                simp only [hla, if_true]
                omega
        · simp only [hl, Bool.false_eq_true, if_false, Except.ok.injEq] at hstep
          subst hstep
          obtain ⟨hnd', hp', hk', hin', hc'⟩ := ih nm nm' hinv hf hnd h
          have hla : live_at src i = false := by
            unfold live_at
            simp only [hs, bucket.live]
            simpa using hl
          refine ⟨hnd', hp', hk', ?_, ?_⟩
          · intro i' hi' b' k' hb' hh'
            simp only [List.mem_cons] at hi'
            rcases hi' with rfl | hi'
            · rw [hs] at hb'
              simp only [Option.some.injEq] at hb'
              subst hb'
              exact absurd (bucket.holds_live hh') hl
            · exact hin' i' hi' b' k' hb' hh'
          · intro hlnd hsnd habs
            rw [List.nodup_cons] at hlnd
            have hrest := hc' hlnd.2 hsnd
              (fun i' hi' => habs i' (List.mem_cons_of_mem _ hi'))
            rw [List.countP_cons]
            simp only [hla, Bool.false_eq_true, if_false]
            omega

theorem map.resized_succ (fuel : Nat)
    (ihins : ∀ (m : map K V) (key : K) (val : V) x, map.inv hash_fn m →
      map.insert hash_fn fuel m key val = .ok x →
      map.upsert_post hash_fn m key (fun v => v) val x) :
    ∀ (m : map K V) (n : Nat) x, map.inv hash_fn m →
      map.linear_expand hash_fn (fuel + 1) m m.hashpower n = .ok x →
      map.resized hash_fn m n x := by
  intro m n x hinv h
  obtain ⟨cur, older, hc, hlen, hla⟩ := hinv.lock_all_eq
  rw [map.linear_expand, hla] at h
  simp only [map.hashpower, ne_eq, not_true_eq_false, if_false] at h
  cases hfo : List.foldlM (map.migrate_step (map.insert hash_fn fuel) m.buckets_.buckets_)
      (map.new n) (List.range (hashsize m.buckets_.hashpower_)) with
  | error e => simp [hfo] at h
  | ok nm =>
    simp only [hfo] at h
    obtain ⟨hinvn, hhpn, hkn, hlcn, hfrn⟩ :=
      map.migrate_fold fuel ihins m.buckets_.buckets_ _ _ nm (map.inv_new n) hfo
    replace hfrn := hfrn (map.fresh_new n)
    have hndn : nodup_keys (map.new n : map K V).buckets_.buckets_ := nodup_keys_replicate _
    obtain ⟨hnd', hp', -, hin', hc'⟩ :=
      map.migrate_fold_kept fuel ihins m.buckets_.buckets_ _ _ nm (map.inv_new n)
        (map.fresh_new n) hndn hfo
    obtain ⟨ncur, nolder, hnc, hnlen⟩ := hinvn.cur
    have hfree : ∀ s ∈ ncur.map (spinlock_t.assign spinlock_t.new) ++
        List.replicate (min kMaxNumLocks nm.bucket_count - ncur.length) spinlock_t.new,
        s.lock_ = false := by
      intro s hs
      rw [List.mem_append] at hs
      rcases hs with hs | hs
      · rw [List.mem_map] at hs
        obtain ⟨o, -, ho⟩ := hs
        rw [← ho]
        rfl
      · rw [List.eq_of_mem_replicate hs]
        rfl
    have hcount : nm.bucket_count = 2 ^ nm.buckets_.hashpower_ := by
      simp [map.bucket_count, table.size, Nat.one_shiftLeft]
    have hnl : ¬ (min kMaxNumLocks nm.bucket_count < ncur.length) := by
      rw [hnlen, hcount, Nat.min_comm]
      omega
    simp only [map.get_current_locks, hnc, map.maybe_resize_locks, hnl, if_false,
      lock_set_free _ hfree, map.AllUnlocker_two, Except.ok.injEq] at h
    rw [← h]
    refine ⟨rfl, ⟨hinvn.len, ⟨_, _, rfl, ?_⟩, ?_, hinvn.init, hinvn.reach⟩, ?_, ?_, ?_, ?_,
      ⟨?_, ?_, ?_, Or.inr hnd'⟩, hnd'⟩
    · simp only [List.length_map, List.length_append, List.length_replicate]
      rw [hnlen, hcount, Nat.min_comm]
      omega
    · intro locks hl s hs
      simp only [List.mem_cons] at hl
      rcases hl with rfl | rfl | hl
      · rw [List.mem_map] at hs
        obtain ⟨o, -, ho⟩ := hs
        rw [← ho]
        rfl
      · rw [List.mem_map] at hs
        obtain ⟨o, -, ho⟩ := hs
        rw [← ho]
        rfl
      · exact hinv.free locks (by rw [hc]; simp [hl]) s hs
    · have : (map.new n : map K V).hashpower = n := rfl
      simp only [map.hashpower] at hhpn this ⊢
      omega
    · intro key hk
      rcases hkn key hk with hk | hk
      · exact absurd hk (has_key_replicate _ _)
      · exact hk
    · have h0 : live_count (map.new n : map K V).buckets_.buckets_ = 0 :=
        live_count_replicate _
      rw [h0, live_count_eq_countP _ _ hinv.len] at hlcn
      simpa using hlcn
    · have hzero : min kMaxNumLocks nm.bucket_count - ncur.length = 0 := by
        rw [hnlen, hcount, Nat.min_comm]
        omega
      refine ⟨?_, fun i b hb => hfrn.2 i b hb⟩
      intro cur' older' heq s c hcs
      simp only [List.cons.injEq] at heq
      obtain ⟨hcur', -⟩ := heq
      subst hcur'
      simp only [hzero, List.replicate_zero, List.append_nil, List.map_map, List.length_map,
        List.getElem?_map] at hcs ⊢
      cases hn : ncur[s]? with
      | none => simp [hn] at hcs
      | some c0 =>
        simp only [hn, Option.map_some', Option.some.injEq] at hcs
        subst hcs
        exact hfrn.1 ncur nolder hnc s c0 hn
    · intro k v hkv
      rcases hp' k v hkv with h1 | h1
      · exact absurd h1 (has_pair_replicate _ _ _)
      · exact h1
    · rintro k ⟨i, b, hb, hh⟩
      have hi : i < m.buckets_.buckets_.length := by
        by_contra hcon
        rw [List.getElem?_eq_none (by omega)] at hb
        simp at hb
      refine hin' i ?_ b k hb hh
      rw [List.mem_range, hashsize_eq, ← hinv.len]
      exact hi
    · intro hnds
      have h0 : live_count (map.new n : map K V).buckets_.buckets_ = 0 :=
        live_count_replicate _
      have := hc' (List.nodup_range _) hnds
        (fun i _ b k _ _ hcon => absurd hcon (has_key_replicate _ _))
      rw [h0, live_count_eq_countP _ _ hinv.len] at this
      simpa using this

/-- Every returning call of the recursive group establishes its postcondition. -/
theorem map.sound (fuel : Nat) :
    (∀ (m : map K V) (key : K) (hv ind r : Nat) x, map.inv hash_fn m →
      ind < 2 ^ m.hashpower → r < probe_budget m.hashpower →
      map.linear_insert_loop.go hash_fn fuel key hv m m.hashpower ind r = .ok x →
      map.go_post hash_fn m key hv ind r x) ∧
    (∀ (m : map K V) (n : Nat) x, map.inv hash_fn m →
      map.linear_expand hash_fn fuel m m.hashpower n = .ok x → map.resized hash_fn m n x) ∧
    (∀ (m : map K V) (key : K) (val : V) x, map.inv hash_fn m →
      map.insert hash_fn fuel m key val = .ok x →
      map.upsert_post hash_fn m key (fun v => v) val x) ∧
    (∀ (m : map K V) (key : K) (fn : V → V) (val : V) x, map.inv hash_fn m →
      map.upsert hash_fn fuel m key fn val = .ok x →
      map.upsert_post hash_fn m key fn val x) ∧
    (∀ (m : map K V) (key : K) (fn : V → V) (val : V) x, map.inv hash_fn m →
      map.uprase_fn hash_fn fuel m key (fun v => (fn v, false)) val = .ok x →
      map.upsert_post hash_fn m key fn val x) ∧
    (∀ (m : map K V) (key : K) (hv : Nat) x, map.inv hash_fn m →
      map.linear_insert_loop hash_fn fuel m key hv = .ok x →
      map.loop_post hash_fn m key hv x) := by
  induction fuel with
  | zero =>
    refine ⟨?_, ?_, ?_, ?_, ?_, ?_⟩
    · intro m key hv ind r x _ _ _ h; simp [map.linear_insert_loop.go] at h
    · intro m n x _ h; simp [map.linear_expand] at h
    · intro m key val x _ h; simp [map.insert] at h
    · intro m key fn val x _ h; simp [map.upsert] at h
    · intro m key fn val x _ h; simp [map.uprase_fn] at h
    · intro m key hv x _ h; simp [map.linear_insert_loop] at h
  | succ fuel ih =>
    obtain ⟨ihgo, ihexp, ihins, ihups, ihupr, ihlil⟩ := ih
    refine ⟨map.go_post_succ fuel ihgo ihexp, map.resized_succ fuel ihins, ?_, ?_,
      map.uprase_post_succ fuel ihlil, map.loop_post_succ fuel ihgo⟩
    · intro m key val x hinv h
      rw [map.insert] at h
      exact ihups m key _ val x hinv h
    · intro m key fn val x hinv h
      rw [map.upsert] at h
      exact ihupr m key fn val x hinv h

theorem map.inv.upsert_sound {m : map K V} (hinv : map.inv hash_fn m) {fuel : Nat} {key : K}
    {fn : V → V} {val : V} {x : map K V × Bool}
    (h : map.upsert hash_fn fuel m key fn val = .ok x) :
    map.upsert_post hash_fn m key fn val x :=
  (map.sound fuel).2.2.2.1 m key fn val x hinv h

theorem map.inv.insert_sound {m : map K V} (hinv : map.inv hash_fn m) {fuel : Nat} {key : K}
    {val : V} {x : map K V × Bool} (h : map.insert hash_fn fuel m key val = .ok x) :
    map.upsert_post hash_fn m key (fun v => v) val x :=
  (map.sound fuel).2.2.1 m key val x hinv h

theorem map.inv.expand_sound {m : map K V} (hinv : map.inv hash_fn m) {fuel n : Nat}
    {x : map K V × op_status} (h : map.linear_expand hash_fn fuel m m.hashpower n = .ok x) :
    map.resized hash_fn m n x :=
  (map.sound fuel).2.1 m n x hinv h

/-! ## Erase, clear and the explicit resizes -/

theorem probe_find_lt {key : K} {bs : List (bucket K V)} {n ind j : Nat}
    (h : probe_find key bs n ind = some j) : j < bs.length := by
  obtain ⟨b, hb, -⟩ := probe_find_some n ind j h
  by_contra hcon
  rw [List.getElem?_eq_none (by omega)] at hb
  simp at hb

theorem map.inv.erase_none {m : map K V} (h : map.inv hash_fn m) (key : K)
    (hp : probe_find key m.buckets_.buckets_ (probe_budget m.hashpower)
      (m.home hash_fn key) = none) :
    map.erase hash_fn m key = .ok (m, false) := by
  unfold map.home at hp
  unfold map.erase map.erase_fn map.hashed_key
  simp only [h.linear_find_loop_eq, hp, map.find_result]
  simp [map.release]

theorem map.inv.erase_some {m : map K V} (h : map.inv hash_fn m) (key : K) {j : Nat}
    {b : bucket K V}
    (hp : probe_find key m.buckets_.buckets_ (probe_budget m.hashpower)
      (m.home hash_fn key) = some j)
    (hb : m.buckets_.buckets_[j]? = some b) :
    map.erase hash_fn m key = .ok (m.erased j b, true) := by
  unfold map.home at hp
  obtain ⟨b', hb', hh⟩ := probe_find_some _ _ _ hp
  rw [hb] at hb'
  simp only [Option.some.injEq] at hb'
  subst hb'
  obtain ⟨ho, -, v, hst⟩ := (bucket.holds_iff _ _).1 hh
  have hj := probe_find_lt hp
  obtain ⟨m2, hm2, hrel⟩ := h.release_bump j
    ⟨m.buckets_.hashpower_, m.buckets_.buckets_.set j ⟨none, b.occupied_, true⟩⟩ (-1)
  unfold map.erase map.erase_fn map.hashed_key
  simp only [ho] at hm2 hrel
  simp only [h.linear_find_loop_eq, hp, map.find_result, map.read_slot, map.hold_buckets, hb,
    hst, if_true, map.del_from_bucket, map.write_mapped, table.eraseKV,
    List.getElem?_set_self hj, ho, List.set_set, hm2, map.release, hrel]
  simp [map.erased, map.with_buckets, ho]

theorem table.clear_step_spec {t t1 : table K V} {i : Nat} (h : t.clear_step i = .ok t1) :
    t1.hashpower_ = t.hashpower_ ∧ t1.buckets_.length = t.buckets_.length ∧
    (∃ b : bucket K V, t1.buckets_[i]? = some b ∧ b.occupied_ = false) ∧
    (∀ k, k ≠ i → t1.buckets_[k]? = t.buckets_[k]?) := by
  unfold table.clear_step at h
  cases hb : t.buckets_[i]? with
  | none => simp [hb] at h
  | some b =>
    have hi : i < t.buckets_.length := by
      by_contra hcon
      rw [List.getElem?_eq_none (by omega)] at hb
      simp at hb
    simp only [hb] at h
    by_cases hl : (b.occupied_ && !b.deleted_) = true
    · have ho : b.occupied_ = true := by
        simp only [Bool.and_eq_true] at hl
        exact hl.1
      rw [if_pos hl] at h
      simp only [table.eraseKV, hb, ho, if_true, List.getElem?_set_self hi, List.set_set,
        Except.ok.injEq] at h
      subst h
      refine ⟨rfl, by simp, ⟨_, List.getElem?_set_self hi, rfl⟩, ?_⟩
      intro k hk
      exact List.getElem?_set_ne (Ne.symm hk)
    · rw [if_neg hl] at h
      simp only [hb, Except.ok.injEq] at h
      subst h
      refine ⟨rfl, by simp, ⟨_, List.getElem?_set_self hi, rfl⟩, ?_⟩
      intro k hk
      exact List.getElem?_set_ne (Ne.symm hk)

theorem table.clear_fold_spec :
    ∀ (l : List Nat) (t t' : table K V), List.foldlM table.clear_step t l = .ok t' →
      t'.hashpower_ = t.hashpower_ ∧ t'.buckets_.length = t.buckets_.length ∧
      (∀ (i : Nat) (b : bucket K V), t'.buckets_[i]? = some b →
        (i ∈ l ∨ ∃ b0 : bucket K V, t.buckets_[i]? = some b0 ∧ b0.occupied_ = false) →
        b.occupied_ = false) := by
  intro l
  induction l with
  | nil =>
    intro t t' h
    simp only [List.foldlM_nil, pure, Except.pure, Except.ok.injEq] at h
    subst h
    refine ⟨rfl, rfl, ?_⟩
    intro i b hb hor
    rcases hor with hor | ⟨b0, hb0, ho⟩
    · simp at hor
    · rw [hb] at hb0
      simp only [Option.some.injEq] at hb0
      rw [hb0]
      exact ho
  | cons a l ih =>
    intro t t' h
    simp only [List.foldlM_cons, bind, Except.bind] at h
    cases hstep : t.clear_step a with
    | error e => simp [hstep] at h
    | ok t1 =>
      simp only [hstep] at h
      obtain ⟨hhp1, hlen1, ⟨ba, hba, hoa⟩, hoff⟩ := table.clear_step_spec hstep
      obtain ⟨hhp', hlen', hall⟩ := ih t1 t' h
      refine ⟨hhp'.trans hhp1, hlen'.trans hlen1, ?_⟩
      intro i b hb hor
      apply hall i b hb
      by_cases hia : i = a
      · subst hia
        exact Or.inr ⟨ba, hba, hoa⟩
      · rcases hor with hor | ⟨b0, hb0, ho⟩
        · simp only [List.mem_cons] at hor
          rcases hor with hor | hor
          · exact absurd hor hia
          · exact Or.inl hor
        · exact Or.inr ⟨b0, by rw [hoff i hia]; exact hb0, ho⟩

theorem table.clear_spec {t t' : table K V} (h : t.clear = .ok t')
    (hlen : t.buckets_.length = 2 ^ t.hashpower_) :
    t'.hashpower_ = t.hashpower_ ∧ t'.buckets_.length = t.buckets_.length ∧
    (∀ (i : Nat) (b : bucket K V), t'.buckets_[i]? = some b → b.occupied_ = false) := by
  unfold table.clear at h
  obtain ⟨hhp, hl, hall⟩ := table.clear_fold_spec _ _ _ h
  refine ⟨hhp, hl, ?_⟩
  intro i b hb
  apply hall i b hb
  left
  have hi : i < t'.buckets_.length := by
    by_contra hcon
    rw [List.getElem?_eq_none (by omega)] at hb
    simp at hb
  rw [List.mem_range, table.size, Nat.one_shiftLeft, ← hlen, ← hl]
  exact hi

theorem map.inv.clear {m m' : map K V} (hinv : map.inv hash_fn m) (h : m.clear = .ok m') :
    map.inv hash_fn m' ∧ m'.hashpower = m.hashpower ∧
    (∀ (i : Nat) (b : bucket K V), m'.buckets_.buckets_[i]? = some b → b.occupied_ = false) := by
  obtain ⟨cur, older, hc, hlen, hla⟩ := hinv.lock_all_eq
  unfold map.clear at h
  simp only [hla, map.linear_clear] at h
  cases hcl : m.buckets_.clear with
  | error e => simp [hcl] at h
  | ok t =>
    obtain ⟨hhp, hl, hall⟩ := table.clear_spec hcl hinv.len
    simp only [hcl, map.get_current_locks, map.set_current_locks, map.AllUnlocker_one,
      Except.ok.injEq] at h
    subst h
    have hdead : ∀ (i : Nat) (b : bucket K V), t.buckets_[i]? = some b → b.live = true → False := by
      intro i b hb hlive
      have := hall i b hb
      simp [bucket.live, this] at hlive
    refine ⟨⟨?_, ⟨_, older, rfl, ?_⟩, ?_, ?_, ?_⟩, hhp, hall⟩
    · simp only
      rw [hl, hhp]
      exact hinv.len
    · simp only [List.length_map]
      rw [hhp]
      exact hlen
    · intro locks hlk s hs
      simp only [List.mem_cons] at hlk
      rcases hlk with rfl | hlk
      · rw [List.mem_map] at hs
        obtain ⟨o, -, ho⟩ := hs
        rw [← ho]
        rfl
      · exact hinv.free locks (by rw [hc]; simp [hlk]) s hs
    · intro i b hb hlive
      exact absurd hlive (fun hl' => hdead i b hb hl')
    · intro i b k v hb hlive
      exact absurd hlive (fun hl' => hdead i b hb hl')

theorem map.inv.linear_rehash {m m' : map K V} (hinv : map.inv hash_fn m) {fuel hp : Nat}
    {r : Bool} (h : map.linear_rehash hash_fn fuel m hp = .ok (m', r)) :
    map.inv hash_fn m' := by
  unfold map.linear_rehash at h
  by_cases hhp : hp = m.hashpower
  · simp only [hhp, if_true, Except.ok.injEq, Prod.mk.injEq] at h
    rw [← h.1]
    exact hinv
  · simp only [hhp, if_false] at h
    cases hex : map.linear_expand hash_fn fuel m m.hashpower hp with
    | error e => simp [hex] at h
    | ok q =>
      simp only [hex, Except.ok.injEq, Prod.mk.injEq] at h
      have := (hinv.expand_sound hex).2.1
      rw [h.1] at this
      exact this

theorem map.inv.linear_reserve {m m' : map K V} (hinv : map.inv hash_fn m) {fuel n : Nat}
    {r : Bool} (h : map.linear_reserve hash_fn fuel m n = .ok (m', r)) :
    map.inv hash_fn m' := by
  unfold map.linear_reserve at h
  cases hrc : map.reserve_calc n with
  | error e => simp [hrc] at h
  | ok new_hp =>
    simp only [hrc] at h
    by_cases hhp : new_hp = m.hashpower
    · simp only [hhp, if_true, Except.ok.injEq, Prod.mk.injEq] at h
      rw [← h.1]
      exact hinv
    · simp only [hhp, if_false] at h
      cases hex : map.linear_expand hash_fn fuel m m.hashpower new_hp with
      | error e => simp [hex] at h
      | ok q =>
        simp only [hex, Except.ok.injEq, Prod.mk.injEq] at h
        have := (hinv.expand_sound hex).2.1
        rw [h.1] at this
        exact this

theorem map.inv.shrink :
    ∀ (fuel : Nat) (m m' : map K V), map.inv hash_fn m →
      map.shrink hash_fn fuel m = .ok m' → map.inv hash_fn m' := by
  intro fuel
  induction fuel with
  | zero => intro m m' _ h; simp [map.shrink] at h
  | succ fuel ih =>
    intro m m' hinv h
    rw [map.shrink] at h
    cases hlf : m.load_factor with
    | error e => simp [hlf] at h
    | ok lf =>
      simp only [hlf] at h
      split at h
      · split at h
        · cases hex : map.linear_expand hash_fn fuel m m.hashpower (m.hashpower - 1) with
          | error e => simp [hex] at h
          | ok q =>
            simp only [hex] at h
            exact ih _ _ (hinv.expand_sound hex).2.1 h
        · simp only [Except.ok.injEq] at h
          rw [← h]
          exact hinv
      · simp only [Except.ok.injEq] at h
        rw [← h]
        exact hinv

/-! ## Every reachable state satisfies the invariant -/

theorem except_map_fst {α β : Type} {r : Except error (α × β)} {a : α}
    (h : r.map Prod.fst = .ok a) : ∃ b, r = .ok (a, b) := by
  cases r with
  | error e => simp [Except.map] at h
  | ok p =>
    obtain ⟨a', b⟩ := p
    simp only [Except.map, Except.ok.injEq] at h
    subst h
    exact ⟨b, rfl⟩

theorem map.inv.find_fn_inv {σ : Type} {m m' : map K V} (hinv : map.inv hash_fn m) {key : K}
    {fn : V → σ → V × σ} {s s' : σ} {r : Bool}
    (h : map.find_fn hash_fn m key fn s = .ok (m', r, s')) : map.inv hash_fn m' := by
  cases hp : probe_find key m.buckets_.buckets_ (probe_budget m.hashpower)
      (index_hash m.hashpower (hash_fn key)) with
  | none =>
    rw [hinv.find_fn_none key fn s hp] at h
    simp only [Except.ok.injEq, Prod.mk.injEq] at h
    rw [← h.1]
    exact hinv
  | some j =>
    obtain ⟨b, hb, hh⟩ := probe_find_some _ _ _ hp
    obtain ⟨-, -, v, hst⟩ := (bucket.holds_iff _ _).1 hh
    rw [hinv.find_fn_some key fn s hp hb hst] at h
    simp only [Except.ok.injEq, Prod.mk.injEq] at h
    rw [← h.1]
    exact hinv.assigned _ hb hst

theorem map.inv.erase_inv {m m' : map K V} (hinv : map.inv hash_fn m) {key : K} {r : Bool}
    (h : map.erase hash_fn m key = .ok (m', r)) : map.inv hash_fn m' := by
  cases hp : probe_find key m.buckets_.buckets_ (probe_budget m.hashpower)
      (m.home hash_fn key) with
  | none =>
    rw [hinv.erase_none key hp] at h
    simp only [Except.ok.injEq, Prod.mk.injEq] at h
    rw [← h.1]
    exact hinv
  | some j =>
    obtain ⟨b, hb, hh⟩ := probe_find_some _ _ _ hp
    rw [hinv.erase_some key hp hb] at h
    simp only [Except.ok.injEq, Prod.mk.injEq] at h
    rw [← h.1]
    exact hinv.erased hb

theorem map.inv.apply {m m' : map K V} (hinv : map.inv hash_fn m) {fuel : Nat} {o : op K V}
    (h : map.apply hash_fn fuel m o = .ok m') : map.inv hash_fn m' := by
  cases o with
  | insert key val =>
    obtain ⟨b, hb⟩ := except_map_fst h
    exact (hinv.insert_sound hb).keeps_inv
  | insert_or_assign key val =>
    obtain ⟨b, hb⟩ := except_map_fst h
    exact (hinv.upsert_sound hb).keeps_inv
  | upsert key fn val =>
    obtain ⟨b, hb⟩ := except_map_fst h
    exact (hinv.upsert_sound hb).keeps_inv
  | update key val =>
    obtain ⟨b, hb⟩ := except_map_fst h
    unfold map.update map.update_fn at hb
    cases hf : map.find_fn hash_fn m key (fun v (_ : Unit) => ((fun _ => val) v, ())) () with
    | error e => simp [hf] at hb
    | ok q =>
      obtain ⟨m1, r, u⟩ := q
      simp only [hf, Except.ok.injEq, Prod.mk.injEq] at hb
      rw [← hb.1]
      exact hinv.find_fn_inv hf
  | update_fn key fn =>
    obtain ⟨b, hb⟩ := except_map_fst h
    unfold map.update_fn at hb
    cases hf : map.find_fn hash_fn m key (fun v (_ : Unit) => (fn v, ())) () with
    | error e => simp [hf] at hb
    | ok q =>
      obtain ⟨m1, r, u⟩ := q
      simp only [hf, Except.ok.injEq, Prod.mk.injEq] at hb
      rw [← hb.1]
      exact hinv.find_fn_inv hf
  | find key val =>
    obtain ⟨b, hb⟩ := except_map_fst h
    obtain ⟨r, s⟩ := b
    exact hinv.find_fn_inv hb
  | erase key =>
    obtain ⟨b, hb⟩ := except_map_fst h
    exact hinv.erase_inv hb
  | clear => exact (hinv.clear h).1
  | rehash hp =>
    obtain ⟨b, hb⟩ := except_map_fst h
    exact hinv.linear_rehash hb
  | reserve n =>
    obtain ⟨b, hb⟩ := except_map_fst h
    exact hinv.linear_reserve hb
  | shrink => exact map.inv.shrink fuel m m' hinv h

theorem reachable.to_inv {m : map K V} (h : reachable hash_fn m) : map.inv hash_fn m := by
  induction h with
  | construct hp => exact map.inv_new hp
  | step fuel o _ happ ih => exact ih.apply happ

/-! ## The size, and the closed form of `clear` -/

theorem map.inv.size_eq {m : map K V} (hinv : map.inv hash_fn m) (hc : m.counted) :
    m.size = .ok (live_count m.buckets_.buckets_) := by
  obtain ⟨cur, older, hcur, hlen⟩ := hinv.cur
  have hpos : 0 < cur.length := by
    rw [hlen]
    have : 0 < 2 ^ m.buckets_.hashpower_ := Nat.pos_pow_of_pos _ (by decide)
    simp [kMaxNumLocks_eq]
  have hmap : cur.map spinlock_t.element_counter_
      = (List.range cur.length).map (fun s => (stripe_live m.buckets_.buckets_ cur.length s : Int)) := by
    apply List.ext_getElem?
    intro s
    rw [List.getElem?_map, List.getElem?_map]
    by_cases hs : s < cur.length
    · rw [List.getElem?_eq_getElem hs, List.getElem?_range hs]
      simp only [Option.map_some']
      rw [hc cur older hcur s _ (List.getElem?_eq_getElem hs)]
    · rw [List.getElem?_eq_none (by omega), List.getElem?_eq_none (by simpa using hs)]
      rfl
  have hsum : (cur.map spinlock_t.element_counter_).sum = (live_count m.buckets_.buckets_ : Int) := by
    rw [hmap, ← stripe_live_sum m.buckets_.buckets_ cur.length hpos, Nat.cast_list_sum,
      List.map_map]
    rfl
  unfold map.size
  simp only [hcur, hsum]
  simp

theorem table.clear_step_eq {t : table K V} {i : Nat} {b : bucket K V}
    (hb : t.buckets_[i]? = some b) :
    t.clear_step i = .ok ⟨t.hashpower_, t.buckets_.set i b.cleared⟩ := by
  have hi : i < t.buckets_.length := by
    by_contra hcon
    rw [List.getElem?_eq_none (by omega)] at hb
    simp at hb
  unfold table.clear_step bucket.cleared
  simp only [hb]
  by_cases hl : (b.occupied_ && !b.deleted_) = true
  · have ho : b.occupied_ = true := by
      simp only [Bool.and_eq_true] at hl
      exact hl.1
    rw [if_pos hl, if_pos hl]
    simp only [table.eraseKV, hb, ho, if_true, List.getElem?_set_self hi, List.set_set]
  · rw [if_neg hl, if_neg hl]
    simp only [hb]

theorem table.clear_fold_eq (t : table K V) :
    ∀ (k : Nat), k ≤ t.buckets_.length →
      ∃ bs : List (bucket K V), List.foldlM table.clear_step t (List.range k) = .ok ⟨t.hashpower_, bs⟩ ∧
        bs.length = t.buckets_.length ∧
        ∀ (i : Nat), bs[i]? = if i < k then t.buckets_[i]?.map bucket.cleared else t.buckets_[i]? := by
  intro k
  induction k with
  | zero =>
    intro _
    exact ⟨t.buckets_, rfl, rfl, fun i => by simp⟩
  | succ k ih =>
    intro hk
    obtain ⟨bs, hfold, hlen, hget⟩ := ih (by omega)
    have hbk : bs[k]? = some (t.buckets_[k]) := by
      rw [hget k]
      simp only [Nat.lt_irrefl, if_false]
      exact List.getElem?_eq_getElem (by omega)
    refine ⟨bs.set k (t.buckets_[k]).cleared, ?_, by simp [hlen], ?_⟩
    · rw [List.range_succ, List.foldlM_append, hfold]
      simp only [bind, Except.bind, List.foldlM_cons, List.foldlM_nil, pure, Except.pure]
      rw [table.clear_step_eq hbk]
    · intro i
      rw [List.getElem?_set]
      by_cases hik : k = i
      · subst hik
        have h1 : k < bs.length := by omega
        have h2 : k < k + 1 := by omega
        simp only [if_true, h1, h2]
        rw [List.getElem?_eq_getElem (by omega)]
        rfl
      · simp only [hik, if_false]
        rw [hget i]
        by_cases hlt : i < k
        · have : i < k + 1 := by omega
          simp [hlt, this]
        · have : ¬ i < k + 1 := by omega
          simp [hlt, this]

theorem table.clear_eq (t : table K V) (hlen : t.buckets_.length = t.size) :
    t.clear = .ok ⟨t.hashpower_, t.buckets_.map bucket.cleared⟩ := by
  obtain ⟨bs, hfold, hl, hget⟩ := table.clear_fold_eq t t.buckets_.length (Nat.le_refl _)
  unfold table.clear
  rw [← hlen, hfold]
  have : bs = t.buckets_.map bucket.cleared := by
    apply List.ext_getElem?
    intro i
    rw [hget i, List.getElem?_map]
    by_cases hi : i < t.buckets_.length
    · simp [hi]
    · simp only [hi, if_false]
      rw [List.getElem?_eq_none (by omega)]
      rfl
  rw [this]

theorem map.inv.clear_cleared {m : map K V} (hinv : map.inv hash_fn m) :
    m.clear = .ok m.cleared := by
  obtain ⟨cur, older, hc, hlen, hla⟩ := hinv.lock_all_eq
  have hsz : m.buckets_.buckets_.length = m.buckets_.size := by
    rw [hinv.len, table.size, Nat.one_shiftLeft]
  unfold map.clear map.cleared
  simp only [hla, map.linear_clear, table.clear_eq _ hsz, map.get_current_locks,
    map.set_current_locks, map.AllUnlocker_one, hc]
  simp [spinlock_t.held, spinlock_t.unlock, Function.comp_def]

theorem bucket.cleared_occupied (b : bucket K V) : b.cleared.occupied_ = false := by
  unfold bucket.cleared
  split <;> rfl

theorem bucket.cleared_deleted (b : bucket K V) :
    b.cleared.deleted_ = (b.occupied_ || b.deleted_) := by
  unfold bucket.cleared
  cases ho : b.occupied_ <;> cases hd : b.deleted_ <;> simp

theorem map.inv.cleared_counted {m : map K V} (hinv : map.inv hash_fn m) : m.cleared.counted := by
  obtain ⟨cur, older, hcur, -⟩ := hinv.cur
  unfold map.cleared
  simp only [hcur]
  intro cur' older' heq s c hcs
  simp only [List.cons.injEq] at heq
  obtain ⟨hcur', -⟩ := heq
  subst hcur'
  have hz : stripe_live (m.buckets_.buckets_.map bucket.cleared)
      (cur.map (fun _ => (⟨false, 0, true⟩ : spinlock_t))).length s = 0 := by
    unfold stripe_live
    rw [List.countP_eq_zero]
    intro i _
    simp only [live_at, List.getElem?_map]
    cases hb : m.buckets_.buckets_[i]? with
    | none => simp
    | some b => simp [bucket.live, bucket.cleared_occupied]
  simp only at hz ⊢
  rw [hz]
  rw [List.getElem?_map] at hcs
  cases hn : cur[s]? with
  | none => simp [hn] at hcs
  | some c0 =>
    simp only [hn, Option.map_some', Option.some.injEq] at hcs
    rw [← hcs]
    rfl

/-! ## Every reachable state has exact counters -/

theorem map.upsert_post.keeps_counted {m : map K V} {key : K} {fn : V → V} {val : V}
    {x : map K V × Bool} (h : map.upsert_post hash_fn m key fn val x) (hc : m.counted) :
    x.1.counted := by
  obtain ⟨m0, hinv, hg, -, h | h⟩ := h
  · obtain ⟨-, j, hp, hx⟩ := h
    rw [hx]
    refine map.counted_stored hinv ?_ val hp
    rcases hg.2.2.2.1 with h0 | h0
    · rw [h0]; exact hc
    · exact h0.1
  · obtain ⟨-, j, b, v, -, hb, hst, hx⟩ := h
    rw [hx]
    refine map.counted_assigned hinv ?_ _ hb
    rcases hg.2.2.2.1 with h0 | h0
    · rw [h0]; exact hc
    · exact h0.1

theorem map.counted_find_fn {σ : Type} {m m' : map K V} (hinv : map.inv hash_fn m)
    (hc : m.counted) {key : K} {fn : V → σ → V × σ} {s s' : σ} {r : Bool}
    (h : map.find_fn hash_fn m key fn s = .ok (m', r, s')) : m'.counted := by
  cases hp : probe_find key m.buckets_.buckets_ (probe_budget m.hashpower)
      (index_hash m.hashpower (hash_fn key)) with
  | none =>
    rw [hinv.find_fn_none key fn s hp] at h
    simp only [Except.ok.injEq, Prod.mk.injEq] at h
    rw [← h.1]
    exact hc
  | some j =>
    obtain ⟨b, hb, hh⟩ := probe_find_some _ _ _ hp
    obtain ⟨-, -, v, hst⟩ := (bucket.holds_iff _ _).1 hh
    rw [hinv.find_fn_some key fn s hp hb hst] at h
    simp only [Except.ok.injEq, Prod.mk.injEq] at h
    rw [← h.1]
    exact map.counted_assigned hinv hc _ hb

theorem map.counted_erase {m m' : map K V} (hinv : map.inv hash_fn m) (hc : m.counted)
    {key : K} {r : Bool} (h : map.erase hash_fn m key = .ok (m', r)) : m'.counted := by
  cases hp : probe_find key m.buckets_.buckets_ (probe_budget m.hashpower)
      (m.home hash_fn key) with
  | none =>
    rw [hinv.erase_none key hp] at h
    simp only [Except.ok.injEq, Prod.mk.injEq] at h
    rw [← h.1]
    exact hc
  | some j =>
    obtain ⟨b, hb, hh⟩ := probe_find_some _ _ _ hp
    rw [hinv.erase_some key hp hb] at h
    simp only [Except.ok.injEq, Prod.mk.injEq] at h
    rw [← h.1]
    exact map.counted_erased hinv hc hb (bucket.holds_live hh)

theorem map.fresh_shrink :
    ∀ (fuel : Nat) (m m' : map K V), map.inv hash_fn m →
      map.shrink hash_fn fuel m = .ok m' → m' = m ∨ m'.fresh := by
  intro fuel
  induction fuel with
  | zero => intro m m' _ h; simp [map.shrink] at h
  | succ fuel ih =>
    intro m m' hinv h
    rw [map.shrink] at h
    cases hlf : m.load_factor with
    | error e => simp [hlf] at h
    | ok lf =>
      simp only [hlf] at h
      split at h
      · split at h
        · cases hex : map.linear_expand hash_fn fuel m m.hashpower (m.hashpower - 1) with
          | error e => simp [hex] at h
          | ok q =>
            simp only [hex] at h
            have hr := hinv.expand_sound hex
            rcases ih _ _ hr.2.1 h with h0 | h0
            · right
              rw [h0]
              exact hr.2.2.2.2.2.1
            · exact Or.inr h0
        · simp only [Except.ok.injEq] at h
          exact Or.inl h.symm
      · simp only [Except.ok.injEq] at h
        exact Or.inl h.symm

theorem map.fresh_apply_resize {m m' : map K V} (hinv : map.inv hash_fn m) {fuel : Nat}
    {o : op K V} (ho : (∃ hp, o = .rehash hp) ∨ (∃ n, o = .reserve n) ∨ o = .shrink)
    (h : map.apply hash_fn fuel m o = .ok m') : m' = m ∨ m'.fresh := by
  rcases ho with ⟨hp, rfl⟩ | ⟨n, rfl⟩ | rfl
  · obtain ⟨b, hb⟩ := except_map_fst h
    unfold map.rehash map.linear_rehash at hb
    by_cases hhp : hp = m.hashpower
    · simp only [hhp, if_true, Except.ok.injEq, Prod.mk.injEq] at hb
      exact Or.inl hb.1.symm
    · simp only [hhp, if_false] at hb
      cases hex : map.linear_expand hash_fn fuel m m.hashpower hp with
      | error e => simp [hex] at hb
      | ok q =>
        simp only [hex, Except.ok.injEq, Prod.mk.injEq] at hb
        right
        rw [← hb.1]
        exact (hinv.expand_sound hex).2.2.2.2.2.1
  · obtain ⟨b, hb⟩ := except_map_fst h
    unfold map.reserve map.linear_reserve at hb
    cases hrc : map.reserve_calc n with
    | error e => simp [hrc] at hb
    | ok new_hp =>
      simp only [hrc] at hb
      by_cases hhp : new_hp = m.hashpower
      · simp only [hhp, if_true, Except.ok.injEq, Prod.mk.injEq] at hb
        exact Or.inl hb.1.symm
      · simp only [hhp, if_false] at hb
        cases hex : map.linear_expand hash_fn fuel m m.hashpower new_hp with
        | error e => simp [hex] at hb
        | ok q =>
          simp only [hex, Except.ok.injEq, Prod.mk.injEq] at hb
          right
          rw [← hb.1]
          exact (hinv.expand_sound hex).2.2.2.2.2.1
  · exact map.fresh_shrink fuel m m' hinv h

theorem map.counted_apply {m m' : map K V} (hinv : map.inv hash_fn m) (hc : m.counted)
    {fuel : Nat} {o : op K V} (h : map.apply hash_fn fuel m o = .ok m') : m'.counted := by
  cases o with
  | insert key val =>
    obtain ⟨b, hb⟩ := except_map_fst h
    exact (hinv.insert_sound hb).keeps_counted hc
  | insert_or_assign key val =>
    obtain ⟨b, hb⟩ := except_map_fst h
    exact (hinv.upsert_sound hb).keeps_counted hc
  | upsert key fn val =>
    obtain ⟨b, hb⟩ := except_map_fst h
    exact (hinv.upsert_sound hb).keeps_counted hc
  | update key val =>
    obtain ⟨b, hb⟩ := except_map_fst h
    unfold map.update map.update_fn at hb
    cases hf : map.find_fn hash_fn m key (fun v (_ : Unit) => ((fun _ => val) v, ())) () with
    | error e => simp [hf] at hb
    | ok q =>
      obtain ⟨m1, r, u⟩ := q
      simp only [hf, Except.ok.injEq, Prod.mk.injEq] at hb
      rw [← hb.1]
      exact map.counted_find_fn hinv hc hf
  | update_fn key fn =>
    obtain ⟨b, hb⟩ := except_map_fst h
    unfold map.update_fn at hb
    cases hf : map.find_fn hash_fn m key (fun v (_ : Unit) => (fn v, ())) () with
    | error e => simp [hf] at hb
    | ok q =>
      obtain ⟨m1, r, u⟩ := q
      simp only [hf, Except.ok.injEq, Prod.mk.injEq] at hb
      rw [← hb.1]
      exact map.counted_find_fn hinv hc hf
  | find key val =>
    obtain ⟨b, hb⟩ := except_map_fst h
    obtain ⟨r, s⟩ := b
    exact map.counted_find_fn hinv hc hb
  | erase key =>
    obtain ⟨b, hb⟩ := except_map_fst h
    exact map.counted_erase hinv hc hb
  | clear =>
    have h' : m.clear = .ok m' := h
    rw [hinv.clear_cleared] at h'
    simp only [Except.ok.injEq] at h'
    rw [← h']
    exact hinv.cleared_counted
  | rehash hp =>
    rcases map.fresh_apply_resize hinv (Or.inl ⟨hp, rfl⟩) h with h0 | h0
    · rw [h0]; exact hc
    · exact h0.1
  | reserve n =>
    rcases map.fresh_apply_resize hinv (Or.inr (Or.inl ⟨n, rfl⟩)) h with h0 | h0
    · rw [h0]; exact hc
    · exact h0.1
  | shrink =>
    rcases map.fresh_apply_resize hinv (Or.inr (Or.inr rfl)) h with h0 | h0
    · rw [h0]; exact hc
    · exact h0.1

theorem reachable.to_counted {m : map K V} (h : reachable hash_fn m) : m.counted := by
  induction h with
  | construct hp => exact map.counted_new hp
  | step fuel o hr happ ih => exact map.counted_apply hr.to_inv ih happ

theorem reachable.size_live {m : map K V} (h : reachable hash_fn m) :
    m.size = .ok (live_count m.buckets_.buckets_) :=
  h.to_inv.size_eq h.to_counted

/-! ## Slots keep `deleted ⇒ occupied` as long as `clear()` is not called -/

theorem map.tidy_set {m : map K V} (h : m.tidy) (j : Nat) (b' : bucket K V)
    (hb' : b'.deleted_ = true → b'.occupied_ = true) (l : Nat) (d : Int) :
    ((m.with_buckets (m.buckets_.buckets_.set j b')).add_counter l d).tidy := by
  intro i b hb
  rw [map.add_counter_buckets] at hb
  simp only [map.with_buckets, List.getElem?_set] at hb
  by_cases hij : j = i
  · simp only [hij, if_true] at hb
    split at hb
    · simp only [Option.some.injEq] at hb
      subst hb
      exact hb'
    · simp at hb
  · simp only [hij, if_false] at hb
    exact h i b hb

theorem map.fresh_tidy {m : map K V} (h : m.fresh) : m.tidy := by
  intro i b hb hd
  rw [h.2 i b hb] at hd
  simp at hd

theorem map.tidy_assigned {m : map K V} (h : m.tidy) {j : Nat} {b : bucket K V} (key : K)
    (val : V) (hb : m.buckets_.buckets_[j]? = some b) : (m.assigned j b key val).tidy := by
  have := map.tidy_set h j ⟨some (key, val), b.occupied_, b.deleted_⟩ (h j b hb) 0 0
  rw [map.add_counter_zero] at this
  exact this

theorem map.upsert_post.keeps_tidy {m : map K V} {key : K} {fn : V → V} {val : V}
    {x : map K V × Bool} (h : map.upsert_post hash_fn m key fn val x) (ht : m.tidy) :
    x.1.tidy := by
  obtain ⟨m0, hinv, hg, -, h | h⟩ := h
  · obtain ⟨-, j, hp, hx⟩ := h
    rw [hx]
    refine map.tidy_set ?_ j _ (fun _ => rfl) _ _
    rcases hg.2.2.2.1 with h0 | h0
    · rw [h0]; exact ht
    · exact map.fresh_tidy h0
  · obtain ⟨-, j, b, v, -, hb, hst, hx⟩ := h
    rw [hx]
    refine map.tidy_assigned ?_ _ _ hb
    rcases hg.2.2.2.1 with h0 | h0
    · rw [h0]; exact ht
    · exact map.fresh_tidy h0

theorem map.tidy_find_fn {σ : Type} {m m' : map K V} (hinv : map.inv hash_fn m)
    (ht : m.tidy) {key : K} {fn : V → σ → V × σ} {s s' : σ} {r : Bool}
    (h : map.find_fn hash_fn m key fn s = .ok (m', r, s')) : m'.tidy := by
  cases hp : probe_find key m.buckets_.buckets_ (probe_budget m.hashpower)
      (index_hash m.hashpower (hash_fn key)) with
  | none =>
    rw [hinv.find_fn_none key fn s hp] at h
    simp only [Except.ok.injEq, Prod.mk.injEq] at h
    rw [← h.1]
    exact ht
  | some j =>
    obtain ⟨b, hb, hh⟩ := probe_find_some _ _ _ hp
    obtain ⟨-, -, v, hst⟩ := (bucket.holds_iff _ _).1 hh
    rw [hinv.find_fn_some key fn s hp hb hst] at h
    simp only [Except.ok.injEq, Prod.mk.injEq] at h
    rw [← h.1]
    exact map.tidy_assigned ht _ _ hb

theorem map.tidy_erase {m m' : map K V} (hinv : map.inv hash_fn m) (ht : m.tidy)
    {key : K} {r : Bool} (h : map.erase hash_fn m key = .ok (m', r)) : m'.tidy := by
  cases hp : probe_find key m.buckets_.buckets_ (probe_budget m.hashpower)
      (m.home hash_fn key) with
  | none =>
    rw [hinv.erase_none key hp] at h
    simp only [Except.ok.injEq, Prod.mk.injEq] at h
    rw [← h.1]
    exact ht
  | some j =>
    obtain ⟨b, hb, hh⟩ := probe_find_some _ _ _ hp
    obtain ⟨ho, -, -, -⟩ := (bucket.holds_iff _ _).1 hh
    rw [hinv.erase_some key hp hb] at h
    simp only [Except.ok.injEq, Prod.mk.injEq] at h
    rw [← h.1]
    exact map.tidy_set ht j ⟨none, b.occupied_, true⟩ (fun _ => ho) _ _

theorem map.tidy_apply {m m' : map K V} (hinv : map.inv hash_fn m) (ht : m.tidy)
    {fuel : Nat} {o : op K V} (hno : o.is_clear = false)
    (h : map.apply hash_fn fuel m o = .ok m') : m'.tidy := by
  cases o with
  | insert key val =>
    obtain ⟨b, hb⟩ := except_map_fst h
    exact (hinv.insert_sound hb).keeps_tidy ht
  | insert_or_assign key val =>
    obtain ⟨b, hb⟩ := except_map_fst h
    exact (hinv.upsert_sound hb).keeps_tidy ht
  | upsert key fn val =>
    obtain ⟨b, hb⟩ := except_map_fst h
    exact (hinv.upsert_sound hb).keeps_tidy ht
  | update key val =>
    obtain ⟨b, hb⟩ := except_map_fst h
    unfold map.update map.update_fn at hb
    cases hf : map.find_fn hash_fn m key (fun v (_ : Unit) => ((fun _ => val) v, ())) () with
    | error e => simp [hf] at hb
    | ok q =>
      obtain ⟨m1, r, u⟩ := q
      simp only [hf, Except.ok.injEq, Prod.mk.injEq] at hb
      rw [← hb.1]
      exact map.tidy_find_fn hinv ht hf
  | update_fn key fn =>
    obtain ⟨b, hb⟩ := except_map_fst h
    unfold map.update_fn at hb
    cases hf : map.find_fn hash_fn m key (fun v (_ : Unit) => (fn v, ())) () with
    | error e => simp [hf] at hb
    | ok q =>
      obtain ⟨m1, r, u⟩ := q
      simp only [hf, Except.ok.injEq, Prod.mk.injEq] at hb
      rw [← hb.1]
      exact map.tidy_find_fn hinv ht hf
  | find key val =>
    obtain ⟨b, hb⟩ := except_map_fst h
    obtain ⟨r, s⟩ := b
    exact map.tidy_find_fn hinv ht hb
  | erase key =>
    obtain ⟨b, hb⟩ := except_map_fst h
    exact map.tidy_erase hinv ht hb
  | clear => simp [op.is_clear] at hno
  | rehash hp =>
    rcases map.fresh_apply_resize hinv (Or.inl ⟨hp, rfl⟩) h with h0 | h0
    · rw [h0]; exact ht
    · exact map.fresh_tidy h0
  | reserve n =>
    rcases map.fresh_apply_resize hinv (Or.inr (Or.inl ⟨n, rfl⟩)) h with h0 | h0
    · rw [h0]; exact ht
    · exact map.fresh_tidy h0
  | shrink =>
    rcases map.fresh_apply_resize hinv (Or.inr (Or.inr rfl)) h with h0 | h0
    · rw [h0]; exact ht
    · exact map.fresh_tidy h0

theorem reachable_no_clear.to_reachable {m : map K V} (h : reachable_no_clear hash_fn m) :
    reachable hash_fn m := by
  induction h with
  | construct hp => exact reachable.construct hp
  | step fuel o _ _ happ ih => exact reachable.step fuel o ih happ

theorem reachable_no_clear.to_tidy {m : map K V} (h : reachable_no_clear hash_fn m) :
    m.tidy := by
  induction h with
  | construct hp => exact map.fresh_tidy (map.fresh_new hp)
  | step fuel o hr hno happ ih => exact map.tidy_apply hr.to_reachable.to_inv ih hno happ

/-! ## Termination of the insert path -/

theorem map.inv.go_found {m : map K V} (hinv : map.inv hash_fn m) (key : K) (hv : Nat) :
    ∀ (k r ind : Nat), probe_budget m.hashpower - r = k → r < probe_budget m.hashpower →
      ind < 2 ^ m.hashpower → probe_insert key m.buckets_.buckets_ k ind ≠ .exhausted →
      ∃ x, map.linear_insert_loop.go hash_fn k key hv m m.hashpower ind r = .ok x := by
  intro k
  induction k with
  | zero => intro r ind hk hr; omega
  | succ k ih =>
    intro r ind hk hr hind hne
    have hlen := hinv.len
    have hb : ind < m.buckets_.buckets_.length := by rw [hlen]; exact hind
    have hbe : m.buckets_.buckets_[ind]? = some m.buckets_.buckets_[ind] :=
      List.getElem?_eq_getElem hb
    rw [map.linear_insert_loop.go, hinv.lock_one_loop_eq]
    simp only [map.hold_buckets, hbe, hinv.unlock_hold]
    unfold probe_insert at hne
    simp only [hbe] at hne
    generalize m.buckets_.buckets_[ind] = b at hbe hne
    by_cases hl : b.live = true
    · have hc : (!b.occupied_ || b.deleted_) = false := by
        simp only [bucket.live, Bool.and_eq_true, Bool.not_eq_true'] at hl
        simp [hl.1, hl.2]
      simp only [hc, Bool.false_eq_true, if_false]
      cases hst : b.storage_ with
      | none =>
        have := hinv.init ind b hbe hl
        simp [hst] at this
      | some kv =>
        obtain ⟨k', v'⟩ := kv
        simp only
        by_cases hkey : k' = key
        · simp [hkey]
        · have hh : b.holds key = false := by
            cases hcon : b.holds key with
            | false => rfl
            | true =>
              rw [bucket.holds_iff] at hcon
              obtain ⟨-, -, v, hv'⟩ := hcon
              rw [hst] at hv'
              simp only [Option.some.injEq, Prod.mk.injEq] at hv'
              exact absurd hv'.1 hkey
          simp only [hl, hh, Bool.not_true, Bool.false_eq_true, if_false] at hne
          simp only [hkey, if_false]
          by_cases hge : r + 1 ≥ m.hashpower
          · have hk0 : k = 0 := by unfold probe_budget at hk hr; omega
            subst hk0
            simp [probe_insert] at hne
          · simp only [hge, if_false]
            have hr1 : r + 1 < probe_budget m.hashpower := by unfold probe_budget; omega
            apply ih (r + 1) _ (by omega) hr1 (index_hash_lt _ _)
            rw [index_hash_eq]
            rw [hlen] at hne
            exact hne
    · simp only [Bool.not_eq_true] at hl
      have hc : (!b.occupied_ || b.deleted_) = true := by
        simp only [bucket.live] at hl
        cases ho : b.occupied_ <;> cases hd : b.deleted_ <;> simp [ho, hd] at hl ⊢
      simp [hc]

theorem map.inv.go_exhausted {m m2 : map K V} (hinv : map.inv hash_fn m) (key : K) (hv : Nat)
    {F : Nat} {st : op_status} {x : map K V × table_position}
    (hex : map.linear_expand hash_fn F m m.hashpower (m.hashpower + 1) = .ok (m2, st))
    (hgo : map.linear_insert_loop.go hash_fn F key hv m2 m2.hashpower
      (index_hash m2.hashpower hv) 0 = .ok x) :
    ∀ (k r ind : Nat), probe_budget m.hashpower - r = k → r < probe_budget m.hashpower →
      ind < 2 ^ m.hashpower → probe_insert key m.buckets_.buckets_ k ind = .exhausted →
      map.linear_insert_loop.go hash_fn (F + k) key hv m m.hashpower ind r = .ok x := by
  intro k
  induction k with
  | zero => intro r ind hk hr; omega
  | succ k ih =>
    intro r ind hk hr hind hne
    have hlen := hinv.len
    have hb : ind < m.buckets_.buckets_.length := by rw [hlen]; exact hind
    have hbe : m.buckets_.buckets_[ind]? = some m.buckets_.buckets_[ind] :=
      List.getElem?_eq_getElem hb
    show map.linear_insert_loop.go hash_fn ((F + k) + 1) key hv m m.hashpower ind r = .ok x
    rw [map.linear_insert_loop.go, hinv.lock_one_loop_eq]
    simp only [map.hold_buckets, hbe, hinv.unlock_hold]
    unfold probe_insert at hne
    simp only [hbe] at hne
    generalize m.buckets_.buckets_[ind] = b at hbe hne
    by_cases hl : b.live = true
    · have hc : (!b.occupied_ || b.deleted_) = false := by
        simp only [bucket.live, Bool.and_eq_true, Bool.not_eq_true'] at hl
        simp [hl.1, hl.2]
      simp only [hc, Bool.false_eq_true, if_false]
      simp only [hl, Bool.not_true, Bool.false_eq_true, if_false] at hne
      cases hst : b.storage_ with
      | none =>
        have := hinv.init ind b hbe hl
        simp [hst] at this
      | some kv =>
        obtain ⟨k', v'⟩ := kv
        simp only
        by_cases hkey : k' = key
        · have hh : b.holds key = true := by
            rw [bucket.holds_iff]
            simp only [bucket.live, Bool.and_eq_true, Bool.not_eq_true'] at hl
            exact ⟨hl.1, hl.2, v', by rw [hst, hkey]⟩
          simp [hh] at hne
        · have hh : b.holds key = false := by
            cases hcon : b.holds key with
            | false => rfl
            | true =>
              rw [bucket.holds_iff] at hcon
              obtain ⟨-, -, v, hv'⟩ := hcon
              rw [hst] at hv'
              simp only [Option.some.injEq, Prod.mk.injEq] at hv'
              exact absurd hv'.1 hkey
          simp only [hh, Bool.false_eq_true, if_false] at hne
          simp only [hkey, if_false]
          by_cases hge : r + 1 ≥ m.hashpower
          · have hk0 : k = 0 := by unfold probe_budget at hk hr; omega
            subst hk0
            simp only [hge, if_true, Nat.add_zero, hex]
            exact hgo
          · simp only [hge, if_false]
            have hr1 : r + 1 < probe_budget m.hashpower := by unfold probe_budget; omega
            apply ih (r + 1) _ (by omega) hr1 (index_hash_lt _ _)
            rw [index_hash_eq]
            rw [hlen] at hne
            exact hne
    · simp only [Bool.not_eq_true] at hl
      simp [hl] at hne

theorem add_mod_inj {N ind e e' : Nat} (he : e < N) (he' : e' < N)
    (h : (ind + e) % N = (ind + e') % N) : e = e' := by
  have h1 : ind + e ≡ ind + e' [MOD N] := h
  have h2 := Nat.ModEq.add_left_cancel' ind h1
  exact Nat.ModEq.eq_of_lt_of_lt h2 he he'

theorem probe_insert_exhausted_live {key : K} {bs : List (bucket K V)} :
    ∀ (n ind : Nat), probe_insert key bs n ind = .exhausted → ind < bs.length →
      ∀ e, e < n → live_at bs ((ind + e) % bs.length) = true := by
  intro n
  induction n with
  | zero => intro ind _ _ e he; omega
  | succ n ih =>
    intro ind h hind e he
    have hbe : bs[ind]? = some bs[ind] := List.getElem?_eq_getElem hind
    unfold probe_insert at h
    simp only [hbe] at h
    generalize bs[ind] = b at hbe h
    by_cases hl : b.live = true
    · simp only [hl, Bool.not_true, Bool.false_eq_true, if_false] at h
      by_cases hh : b.holds key = true
      · simp [hh] at h
      · simp only [hh, Bool.false_eq_true, if_false] at h
        cases e with
        | zero =>
          simp only [Nat.add_zero, Nat.mod_eq_of_lt hind]
          unfold live_at
          simp [hbe, hl]
        | succ e =>
          have := ih _ h (Nat.mod_lt _ (by omega)) e (by omega)
          rw [Nat.mod_add_mod] at this
          rw [show ind + (e + 1) = ind + 1 + e by omega]
          exact this
    · simp only [Bool.not_eq_true] at hl
      simp [hl] at h

theorem live_count_ge_of_run {bs : List (bucket K V)} {n : Nat} (ind : Nat)
    (hn : n ≤ bs.length)
    (h : ∀ e, e < n → live_at bs ((ind + e) % bs.length) = true) : n ≤ live_count bs := by
  unfold live_count
  rw [List.countP_eq_length_filter]
  have hnd : ((List.range n).map (fun e => (ind + e) % bs.length)).Nodup := by
    apply List.Nodup.map_on _ (List.nodup_range n)
    intro x hx y hy hxy
    rw [List.mem_range] at hx hy
    exact add_mod_inj (by omega) (by omega) hxy
  have hsub : (List.range n).map (fun e => (ind + e) % bs.length)
      ⊆ (List.range bs.length).filter (live_at bs) := by
    intro a ha
    rw [List.mem_map] at ha
    obtain ⟨e, he, hea⟩ := ha
    rw [List.mem_range] at he
    rw [List.mem_filter, List.mem_range, ← hea]
    exact ⟨Nat.mod_lt _ (by omega), h e he⟩
  have := (hnd.subperm hsub).length_le
  simpa using this

theorem map.inv.linear_expand_returns {m nm : map K V} (hinv : map.inv hash_fn m)
    {fuel n : Nat}
    (hfo : List.foldlM (map.migrate_step (map.insert hash_fn fuel) m.buckets_.buckets_)
      (map.new n) (List.range (hashsize m.buckets_.hashpower_)) = .ok nm) :
    ∃ x, map.linear_expand hash_fn (fuel + 1) m m.hashpower n = .ok x := by
  obtain ⟨cur, older, hc, hlen, hla⟩ := hinv.lock_all_eq
  rw [map.linear_expand, hla]
  simp only [map.hashpower, ne_eq, not_true_eq_false, if_false, hfo]
  obtain ⟨hinvn, -, -, -⟩ :=
    map.migrate_fold fuel (map.sound fuel).2.2.1 m.buckets_.buckets_ _ _ nm (map.inv_new n) hfo
  obtain ⟨ncur, nolder, hnc, hnlen⟩ := hinvn.cur
  have hfree : ∀ s ∈ ncur.map (spinlock_t.assign spinlock_t.new) ++
      List.replicate (min kMaxNumLocks nm.bucket_count - ncur.length) spinlock_t.new,
      s.lock_ = false := by
    intro s hs
    rw [List.mem_append] at hs
    rcases hs with hs | hs
    · rw [List.mem_map] at hs
      obtain ⟨o, -, ho⟩ := hs
      rw [← ho]
      rfl
    · rw [List.eq_of_mem_replicate hs]
      rfl
  have hcount : nm.bucket_count = 2 ^ nm.buckets_.hashpower_ := by
    simp [map.bucket_count, table.size, Nat.one_shiftLeft]
  have hnl : ¬ (min kMaxNumLocks nm.bucket_count < ncur.length) := by
    rw [hnlen, hcount, Nat.min_comm]
    omega
  simp only [map.get_current_locks, hnc, map.maybe_resize_locks, hnl, if_false,
    lock_set_free _ hfree]
  exact ⟨_, rfl⟩

theorem map.inv.uprase_fn_returns {m : map K V} (hinv : map.inv hash_fn m) {fuel : Nat}
    {key : K} {x : map K V × table_position} (fn : V → V) (val : V)
    (hl : map.linear_insert_loop hash_fn fuel m key (map.hashed_key hash_fn key) = .ok x) :
    ∃ y, map.uprase_fn hash_fn (fuel + 1) m key (fun v => (fn v, false)) val = .ok y := by
  obtain ⟨m1, pos⟩ := x
  obtain ⟨m0, j, hinv0, hg0, -, hm1, hres⟩ := (map.sound fuel).2.2.2.2.2 m key _ _ hinv hl
  simp only at hm1 hres
  subst hm1
  rw [map.uprase_fn]
  simp only [hl]
  rcases hres with ⟨hpos, hprobe⟩ | ⟨hpos, hprobe⟩
  · subst hpos
    obtain ⟨b, hb, hbl⟩ := (probe_insert_slot _ _ j).1 hprobe
    have hc : (!b.occupied_ || b.deleted_) = true := by
      simp only [bucket.live] at hbl
      cases ho : b.occupied_ <;> cases hd : b.deleted_ <;> simp [ho, hd] at hbl ⊢
    obtain ⟨m2, hm2, hrel⟩ := hinv0.release_bump j
      ⟨m0.buckets_.hashpower_, m0.buckets_.buckets_.set j ⟨some (key, val), true, false⟩⟩ 1
    simp only [map.add_to_bucket, table.setKV, map.hold_buckets, hb, hc, if_true, hm2]
    simp
  · subst hpos
    obtain ⟨b, hb, hbh⟩ := (probe_insert_slot _ _ j).2 hprobe
    obtain ⟨-, -, v, hst⟩ := (bucket.holds_iff _ _).1 hbh
    simp only [map.read_slot, map.hold_buckets, hb, hst]
    simp

theorem map.migrate_fold_returns (src : List (bucket K V)) (B : Nat)
    (hinit : ∀ (i : Nat) (b : bucket K V), src[i]? = some b → b.live = true →
      b.storage_.isSome = true)
    (hins : ∀ (nm : map K V), map.inv hash_fn nm → live_count nm.buckets_.buckets_ < B →
      ∀ (k : K) (v : V), ∃ fuel x, map.insert hash_fn fuel nm k v = .ok x) :
    ∀ (l : List Nat) (nm : map K V), (∀ i ∈ l, i < src.length) → map.inv hash_fn nm →
      live_count nm.buckets_.buckets_ + l.countP (live_at src) ≤ B →
      ∃ F nm', List.foldlM (map.migrate_step (map.insert hash_fn F) src) nm l = .ok nm' := by
  intro l
  induction l with
  | nil => intro nm _ _ _; exact ⟨0, nm, rfl⟩
  | cons i l ih =>
    intro nm hl hinv hB
    have hi : i < src.length := hl i (List.mem_cons_self _ _)
    have hl' : ∀ i' ∈ l, i' < src.length := fun i' hi' => hl i' (List.mem_cons_of_mem _ hi')
    have hbe : src[i]? = some src[i] := List.getElem?_eq_getElem hi
    generalize src[i] = b at hbe
    rw [List.countP_cons] at hB
    by_cases hlive : b.live = true
    · have hla : live_at src i = true := by unfold live_at; simp [hbe, hlive]
      simp only [hla, if_true] at hB
      cases hst : b.storage_ with
      | none =>
        have := hinit i b hbe hlive
        simp [hst] at this
      | some kv =>
        obtain ⟨k, v⟩ := kv
        obtain ⟨F1, x, hx⟩ := hins nm hinv (by omega) k v
        obtain ⟨nm1, r⟩ := x
        have hpost := hinv.insert_sound hx
        have hb1 := hpost.bounds
        obtain ⟨F2, nm', hF2⟩ := ih nm1 hl' hpost.keeps_inv (by simp only at hb1; omega)
        refine ⟨max F1 F2, nm', ?_⟩
        have hcond : (b.occupied_ && !b.deleted_) = true := hlive
        simp only [List.foldlM_cons, bind, Except.bind, map.migrate_step, hbe, hcond, if_true,
          hst, map.insert_mono (Nat.le_max_left F1 F2) hx]
        exact foldlM_ok_mono
          (fun b a y hy => map.migrate_step_mono
            (fun m k v y h => map.insert_mono (Nat.le_max_right F1 F2) h) src b a y hy) _ _ _ hF2
    · obtain ⟨F2, nm', hF2⟩ := ih nm hl' hinv (by omega)
      refine ⟨F2, nm', ?_⟩
      have hcond : ¬ (b.occupied_ && !b.deleted_) = true := hlive
      simp only [List.foldlM_cons, bind, Except.bind, map.migrate_step, hbe, hcond, if_false]
      exact hF2

theorem probe_budget_le (hp : Nat) : probe_budget hp ≤ 2 ^ hp := by
  unfold probe_budget
  have h1 := Nat.lt_two_pow hp
  have h2 := @Nat.one_le_two_pow hp
  omega

theorem map.inv.loop_returns_aux :
    ∀ (n d : Nat) (m : map K V), map.inv hash_fn m → live_count m.buckets_.buckets_ ≤ n →
      n + 1 - m.hashpower = d → ∀ (key : K) (hv : Nat),
      ∃ fuel x, map.linear_insert_loop hash_fn fuel m key hv = .ok x := by
  intro n
  induction n using Nat.strong_induction_on with
  | _ n ihn =>
    intro d
    induction d using Nat.strong_induction_on with
    | _ d ihd =>
      intro m hinv hlc hd key hv
      have hhome : index_hash m.hashpower hv < 2 ^ m.hashpower := index_hash_lt _ _
      cases hres : probe_insert key m.buckets_.buckets_ (probe_budget m.hashpower)
          (index_hash m.hashpower hv) with
      | here j =>
        obtain ⟨x, hx⟩ := hinv.go_found key hv (probe_budget m.hashpower) 0 _
          (Nat.sub_zero _) (probe_budget_pos _) hhome (by rw [hres]; simp)
        exact ⟨_ + 1, x, by rw [map.linear_insert_loop]; exact hx⟩
      | duplicate j =>
        obtain ⟨x, hx⟩ := hinv.go_found key hv (probe_budget m.hashpower) 0 _
          (Nat.sub_zero _) (probe_budget_pos _) hhome (by rw [hres]; simp)
        exact ⟨_ + 1, x, by rw [map.linear_insert_loop]; exact hx⟩
      | exhausted =>
        have hlen := hinv.len
        have hpig : probe_budget m.hashpower ≤ live_count m.buckets_.buckets_ := by
          apply live_count_ge_of_run (index_hash m.hashpower hv)
          · rw [hlen]; exact probe_budget_le _
          · exact probe_insert_exhausted_live _ _ hres (by rw [hlen]; exact hhome)
        have hbpos := probe_budget_pos m.hashpower
        have hins : ∀ (nm : map K V), map.inv hash_fn nm →
            live_count nm.buckets_.buckets_ < live_count m.buckets_.buckets_ →
            ∀ (k : K) (v : V), ∃ fuel x, map.insert hash_fn fuel nm k v = .ok x := by
          intro nm hinvn hlt k v
          obtain ⟨F, x, hx⟩ := ihn (n - 1) (by omega) _ nm hinvn (by omega) rfl k
            (map.hashed_key hash_fn k)
          obtain ⟨y, hy⟩ := hinvn.uprase_fn_returns (fun v => v) v hx
          exact ⟨F + 1 + 1 + 1, y, by rw [map.insert, map.upsert]; exact hy⟩
        obtain ⟨F0, nm', hfo⟩ := map.migrate_fold_returns m.buckets_.buckets_
          (live_count m.buckets_.buckets_) hinv.init hins (List.range (hashsize m.buckets_.hashpower_))
          (map.new (m.hashpower + 1))
          (by intro i hi; rw [List.mem_range, hashsize_eq] at hi; rw [hlen]; exact hi)
          (map.inv_new _)
          (by
            have h0 : live_count (map.new (m.hashpower + 1) : map K V).buckets_.buckets_ = 0 :=
              live_count_replicate _
            rw [h0, live_count_eq_countP _ _ hlen]
            omega)
        obtain ⟨q, hex⟩ := hinv.linear_expand_returns hfo
        obtain ⟨m2, st⟩ := q
        obtain ⟨-, hinv2, hhp2, -, hlc2, -, -⟩ := hinv.expand_sound hex
        simp only at hinv2 hhp2 hlc2
        have hhp : m.hashpower ≤ probe_budget m.hashpower := by unfold probe_budget; omega
        obtain ⟨F2, x, hx⟩ := ihd (n + 1 - m2.hashpower) (by omega) m2 hinv2 (by omega) rfl
          key hv
        cases F2 with
        | zero => simp [map.linear_insert_loop] at hx
        | succ F2 =>
          rw [map.linear_insert_loop] at hx
          have hex' := map.linear_expand_mono (Nat.le_max_left (F0 + 1) F2) hex
          have hgo' := map.linear_insert_loop_go_mono (Nat.le_max_right (F0 + 1) F2) hx
          have := hinv.go_exhausted key hv hex' hgo' (probe_budget m.hashpower) 0 _
            (Nat.sub_zero _) hbpos hhome hres
          exact ⟨_ + 1, x, by rw [map.linear_insert_loop]; exact this⟩

theorem map.inv.upsert_returns {m : map K V} (hinv : map.inv hash_fn m) (key : K)
    (fn : V → V) (val : V) : ∃ fuel x, map.upsert hash_fn fuel m key fn val = .ok x := by
  obtain ⟨F, x, hx⟩ := map.inv.loop_returns_aux _ _ m hinv (Nat.le_refl _) rfl key
    (map.hashed_key hash_fn key)
  obtain ⟨y, hy⟩ := hinv.uprase_fn_returns fn val hx
  exact ⟨F + 1 + 1, y, by rw [map.upsert]; exact hy⟩

theorem map.inv.insert_returns {m : map K V} (hinv : map.inv hash_fn m) (key : K) (val : V) :
    ∃ fuel x, map.insert hash_fn fuel m key val = .ok x := by
  obtain ⟨F, x, hx⟩ := hinv.upsert_returns key (fun v => v) val
  exact ⟨F + 1, x, by rw [map.insert]; exact hx⟩

/-! ## Lookups in terms of the find probe -/

theorem map.with_buckets_same (m : map K V) : m.with_buckets m.buckets_.buckets_ = m := rfl

theorem map.inv.find_none {m : map K V} (h : map.inv hash_fn m) (key : K) (out : V)
    (hp : probe_find key m.buckets_.buckets_ (probe_budget m.hashpower)
      (m.home hash_fn key) = none) :
    map.find hash_fn m key out = .ok (m, false, out) :=
  h.find_fn_none key _ out hp

theorem map.inv.find_some {m : map K V} (h : map.inv hash_fn m) (key : K) (out : V) {j : Nat}
    {b : bucket K V} {k : K} {v : V}
    (hp : probe_find key m.buckets_.buckets_ (probe_budget m.hashpower)
      (m.home hash_fn key) = some j)
    (hb : m.buckets_.buckets_[j]? = some b) (hst : b.storage_ = some (k, v)) :
    map.find hash_fn m key out = .ok (m, true, v) := by
  unfold map.find
  rw [h.find_fn_some key _ out hp hb hst]
  have hbb : (⟨some (k, v), b.occupied_, b.deleted_⟩ : bucket K V) = b := by
    rw [← hst]
  simp only [hbb, list_set_same hb, map.with_buckets_same]

theorem map.inv.absent_of_probe_none {m : map K V} (h : map.inv hash_fn m) {key : K}
    (hp : probe_find key m.buckets_.buckets_ (probe_budget m.hashpower)
      (m.home hash_fn key) = none) :
    ¬ has_key m.buckets_.buckets_ key := by
  rintro ⟨j, b, hb, hh⟩
  obtain ⟨ho, hd, v, hst⟩ := (bucket.holds_iff _ _).1 hh
  have hr := h.reach j b key v hb (bucket.holds_live hh) hst
  have := probe_find_of_reach ⟨b, hb, hh⟩ _ _ hr
  unfold map.home map.hashpower at hp
  rw [hp] at this
  simp at this

theorem probe_find_congr {key : K} {bs bs' : List (bucket K V)}
    (hlen : bs'.length = bs.length)
    (hsame : ∀ (i : Nat) (b : bucket K V), bs[i]? = some b →
      ∃ b' : bucket K V, bs'[i]? = some b' ∧ b'.occupied_ = b.occupied_ ∧
        b'.holds key = b.holds key) :
    ∀ (n ind : Nat), probe_find key bs' n ind = probe_find key bs n ind := by
  intro n
  induction n with
  | zero => intro ind; rfl
  | succ n ih =>
    intro ind
    unfold probe_find
    cases hb : bs[ind]? with
    | none =>
      have : bs'[ind]? = none := by
        rw [List.getElem?_eq_none_iff] at hb ⊢
        omega
      simp [this]
    | some b =>
      obtain ⟨b', hb', ho, hh⟩ := hsame ind b hb
      simp only [hb', ho, hh, hlen, ih]

theorem map.inv.find_after_store {m0 m' : map K V}
    (hinv' : map.inv hash_fn m') {key : K} {j : Nat} {b' : bucket K V} {val : V} (out : V)
    (hprobe : probe_insert key m0.buckets_.buckets_ (probe_budget m0.hashpower)
        (m0.home hash_fn key) = .here j ∨
      probe_insert key m0.buckets_.buckets_ (probe_budget m0.hashpower)
        (m0.home hash_fn key) = .duplicate j)
    (hbk : m'.buckets_ = ⟨m0.buckets_.hashpower_, m0.buckets_.buckets_.set j b'⟩)
    (hst : b'.storage_ = some (key, val)) (ho : b'.occupied_ = true)
    (hd : b'.deleted_ = false) :
    map.find hash_fn m' key out = .ok (m', true, val) ∧
    probe_insert key m'.buckets_.buckets_ (probe_budget m'.hashpower)
      (m'.home hash_fn key) = .duplicate j := by
  have hj : j < m0.buckets_.buckets_.length := by
    rcases hprobe with hp | hp
    · obtain ⟨b, hb, -⟩ := (probe_insert_slot _ _ j).1 hp
      by_contra hcon
      rw [List.getElem?_eq_none (by omega)] at hb
      simp at hb
    · obtain ⟨b, hb, -⟩ := (probe_insert_slot _ _ j).2 hp
      by_contra hcon
      rw [List.getElem?_eq_none (by omega)] at hb
      simp at hb
  have hh : b'.holds key = true := (bucket.holds_iff _ _).2 ⟨ho, hd, val, hst⟩
  have hget : (m0.buckets_.buckets_.set j b')[j]? = some b' := List.getElem?_set_self hj
  have hoff : ∀ i, i ≠ j →
      (m0.buckets_.buckets_.set j b')[i]? = m0.buckets_.buckets_[i]? :=
    fun i hij => List.getElem?_set_ne (Ne.symm hij)
  obtain ⟨hf, hi⟩ := probe_after_store (List.length_set _ _ _) hoff ⟨b', hget, hh⟩ _ _ hprobe
  have hhp : m'.hashpower = m0.hashpower := by simp [map.hashpower, hbk]
  have hbs : m'.buckets_.buckets_ = m0.buckets_.buckets_.set j b' := by rw [hbk]
  have hhome : m'.home hash_fn key = m0.home hash_fn key := by simp [map.home, hhp]
  refine ⟨hinv'.find_some key out (j := j) (b := b') ?_ ?_ hst, ?_⟩
  · rw [hbs, hhp, hhome]; exact hf
  · rw [hbs]; exact hget
  · rw [hbs, hhp, hhome]; exact hi

theorem reachable.run {m : map K V} (hr : reachable hash_fn m) (fuel : Nat) :
    ∀ (ops : List (op K V)) (m' : map K V), map.run hash_fn fuel m ops = .ok m' →
      reachable hash_fn m' := by
  intro ops
  induction ops generalizing m with
  | nil =>
    intro m' h
    simp only [map.run, Except.ok.injEq] at h
    rw [← h]
    exact hr
  | cons o rest ih =>
    intro m' h
    simp only [map.run] at h
    cases ha : map.apply hash_fn fuel m o with
    | error e => simp [ha] at h
    | ok m1 =>
      simp only [ha] at h
      exact ih (reachable.step fuel o hr ha) m' h

/-! ## The lookups leave the data alone, in every state -/

theorem map.same_data_refl (m : map K V) : m.same_data m := ⟨rfl, rfl⟩

theorem map.same_data_trans {m m1 m2 : map K V} (h1 : m.same_data m1) (h2 : m1.same_data m2) :
    m.same_data m2 := ⟨h2.1.trans h1.1, h2.2.trans h1.2⟩

theorem map.same_data_set_flag (m : map K V) {locks : List spinlock_t}
    {older : List (List spinlock_t)} {l : Nat} {s : spinlock_t} (s' : spinlock_t)
    (hc : m.all_locks_ = locks :: older) (hs : locks[l]? = some s)
    (hcnt : s'.element_counter_ = s.element_counter_) :
    m.same_data ⟨locks.set l s' :: older, m.buckets_⟩ := by
  refine ⟨rfl, ?_⟩
  rw [hc]
  simp only [List.map_cons, List.cons.injEq, and_true]
  apply List.ext_getElem?
  intro i
  simp only [List.getElem?_map, List.getElem?_set]
  by_cases hli : l = i
  · subst hli
    have hl : l < locks.length := by
      by_contra hcon
      rw [List.getElem?_eq_none (by omega)] at hs
      simp at hs
    simp [hl, hs, hcnt]
  · simp [hli]

theorem map.same_data_unlock_one (m : map K V) (l : Nat) : m.same_data (m.unlock_one l) := by
  unfold map.unlock_one
  cases hc : m.all_locks_ with
  | nil => exact m.same_data_refl
  | cons locks older =>
    simp only
    cases hs : locks[l]? with
    | none => exact m.same_data_refl
    | some s => exact m.same_data_set_flag _ hc hs rfl

theorem map.same_data_release (m : map K V) (lock : Option Nat) :
    m.same_data (m.release lock) := by
  cases lock with
  | none => exact m.same_data_refl
  | some l => exact m.same_data_unlock_one l

theorem map.same_data_lock_one {m m1 : map K V} {hp i : Nat} {g : Option Nat}
    (h : m.lock_one hp i = .ok (m1, g)) : m.same_data m1 := by
  unfold map.lock_one map.get_current_locks at h
  cases hc : m.all_locks_ with
  | nil => simp [hc] at h
  | cons locks older =>
    simp only [hc] at h
    split at h
    · cases hs : locks[i &&& (locks.length - 1)]? with
      | none => simp [hs] at h
      | some s =>
        simp only [hs, spinlock_t.lock] at h
        by_cases hlk : s.lock_ = true
        · simp [hlk] at h
        · simp only [hlk, Bool.false_eq_true, if_false, map.set_current_locks, hc] at h
          have hsd := m.same_data_set_flag ⟨true, s.element_counter_, s.is_migrated_⟩
            hc hs rfl
          split at h
          · simp only [Except.ok.injEq, Prod.mk.injEq] at h
            rw [← h.1]
            exact map.same_data_trans hsd (map.same_data_unlock_one _ _)
          · simp only [Except.ok.injEq, Prod.mk.injEq] at h
            rw [← h.1]
            exact hsd
    · simp at h

theorem map.same_data_lock_one_loop {m m1 : map K V} {hp ind r hv hp1 ind1 r1 l : Nat}
    (h : m.lock_one_loop hp ind r hv = .ok (m1, hp1, ind1, r1, l)) : m.same_data m1 := by
  unfold map.lock_one_loop at h
  cases h1 : m.lock_one hp ind with
  | error e => simp [h1] at h
  | ok p =>
    obtain ⟨ma, g⟩ := p
    have hsa := map.same_data_lock_one h1
    cases g with
    | some l' =>
      simp only [h1, Except.ok.injEq, Prod.mk.injEq] at h
      rw [← h.1]
      exact hsa
    | none =>
      simp only [h1] at h
      cases h2 : ma.lock_one ma.hashpower (index_hash ma.hashpower hv) with
      | error e => simp [h2] at h
      | ok q =>
        obtain ⟨mb, g2⟩ := q
        have hsb := map.same_data_lock_one h2
        cases g2 with
        | some l' =>
          simp only [h2, Except.ok.injEq, Prod.mk.injEq] at h
          rw [← h.1]
          exact map.same_data_trans hsa hsb
        | none => simp [h2] at h

theorem map.same_data_find_go (key : K) (hv : Nat) :
    ∀ (fuel : Nat) (m m1 : map K V) (hp ind r : Nat) (pos : table_position),
      map.linear_find_loop.go key hv fuel m hp ind r = .ok (m1, pos) →
      m.same_data m1 ∧ (pos.status ≠ .ok → pos.lock = none) := by
  intro fuel
  induction fuel with
  | zero => intro m m1 hp ind r pos h; simp [map.linear_find_loop.go] at h
  | succ fuel ih =>
    intro m m1 hp ind r pos h
    rw [map.linear_find_loop.go] at h
    cases hlk : m.lock_one_loop hp ind r hv with
    | error e => simp [hlk] at h
    | ok p =>
      obtain ⟨ma, hp1, ind1, r1, l⟩ := p
      have hsa := map.same_data_lock_one_loop hlk
      have hsu := map.same_data_trans hsa (ma.same_data_unlock_one l)
      simp only [hlk] at h
      cases hb : ma.buckets_.buckets_[ind1]? with
      | none => simp [hb] at h
      | some b =>
        simp only [hb] at h
        have hnext : ∀ (x : Except error (map K V × table_position)),
            (if r1 + 1 ≥ hp1 then
                (.ok (ma.unlock_one l, ⟨0, .failure_key_not_found, none⟩) :
                  Except error (map K V × table_position))
              else map.linear_find_loop.go key hv fuel (ma.unlock_one l) hp1
                (index_hash hp1 (ind1 + 1)) (r1 + 1)) = .ok (m1, pos) →
            m.same_data m1 ∧ (pos.status ≠ .ok → pos.lock = none) := by
          intro _ hx
          split at hx
          · simp only [Except.ok.injEq, Prod.mk.injEq] at hx
            rw [← hx.1, ← hx.2]
            exact ⟨hsu, fun _ => rfl⟩
          · obtain ⟨h1, h2⟩ := ih _ _ _ _ _ _ hx
            exact ⟨map.same_data_trans hsu h1, h2⟩
        split at h
        · simp only [Except.ok.injEq, Prod.mk.injEq] at h
          rw [← h.1, ← h.2]
          exact ⟨hsu, fun _ => rfl⟩
        · split at h
          · exact hnext (.ok (m1, pos)) h
          · cases hst : b.storage_ with
            | none => simp [hst] at h
            | some kv =>
              obtain ⟨k, v⟩ := kv
              simp only [hst] at h
              split at h
              · simp only [Except.ok.injEq, Prod.mk.injEq] at h
                rw [← h.1, ← h.2]
                exact ⟨hsa, fun hne => absurd rfl hne⟩
              · exact hnext (.ok (m1, pos)) h

theorem map.read_slot_ok {m : map K V} {ind : Nat} {b : bucket K V} {k : K} {v : V}
    (h : m.read_slot ind = .ok (b, k, v)) :
    m.buckets_.buckets_[ind]? = some b ∧ b.storage_ = some (k, v) := by
  unfold map.read_slot at h
  cases hb : m.buckets_.buckets_[ind]? with
  | none => simp [hb] at h
  | some b' =>
    simp only [hb] at h
    cases hst : b'.storage_ with
    | none => simp [hst] at h
    | some kv =>
      obtain ⟨k', v'⟩ := kv
      simp only [hst, Except.ok.injEq, Prod.mk.injEq] at h
      obtain ⟨h1, h2, h3⟩ := h
      subst h1 h2 h3
      exact ⟨rfl, hst⟩

theorem map.write_mapped_same {m : map K V} {ind : Nat} {b : bucket K V} {k : K} {v : V}
    (hb : m.buckets_.buckets_[ind]? = some b) (hst : b.storage_ = some (k, v)) :
    m.write_mapped ind b k v = m := by
  unfold map.write_mapped
  have hbb : (⟨some (k, v), b.occupied_, b.deleted_⟩ : bucket K V) = b := by
    rw [← hst]
  rw [hbb, list_set_same hb]

theorem map.inv.find_or_throw_none {m : map K V} (h : map.inv hash_fn m) (key : K)
    (hp : probe_find key m.buckets_.buckets_ (probe_budget m.hashpower)
      (m.home hash_fn key) = none) :
    map.find_or_throw hash_fn m key = .error .out_of_range := by
  unfold map.home at hp
  unfold map.find_or_throw map.hashed_key
  simp only [h.linear_find_loop_eq, hp, map.find_result]
  simp

theorem map.inv.find_or_throw_some {m : map K V} (h : map.inv hash_fn m) (key : K) {j : Nat}
    {b : bucket K V} {k : K} {v : V}
    (hp : probe_find key m.buckets_.buckets_ (probe_budget m.hashpower)
      (m.home hash_fn key) = some j)
    (hb : m.buckets_.buckets_[j]? = some b) (hst : b.storage_ = some (k, v)) :
    map.find_or_throw hash_fn m key = .ok (m, v) := by
  unfold map.home at hp
  unfold map.find_or_throw map.hashed_key
  simp only [h.linear_find_loop_eq, hp, map.find_result, map.read_slot, map.hold_buckets, hb,
    hst, if_true, map.release, h.unlock_hold]

theorem map.inv.find_after_upsert {m m1 : map K V} (hinv : map.inv hash_fn m) {fuel : Nat}
    {key : K} {val : V} {b1 : Bool} (out : V)
    (h : map.upsert hash_fn fuel m key (fun _ => val) val = .ok (m1, b1)) :
    map.find hash_fn m1 key out = .ok (m1, true, val) := by
  have hpost := hinv.upsert_sound h
  have hinv1 := hpost.keeps_inv
  obtain ⟨m0, hinv0, -, -, hc | hc⟩ := hpost
  · obtain ⟨-, j, hprobe, hx⟩ := hc
    simp only at hx hinv1
    subst hx
    exact (map.inv.find_after_store hinv1 out (Or.inl hprobe)
      (map.stored_buckets _ _ _ _) rfl rfl rfl).1
  · obtain ⟨-, j, b, v, hprobe, hb, hst, hx⟩ := hc
    simp only at hx hinv1
    subst hx
    obtain ⟨b', hb', hh⟩ := (probe_insert_slot _ _ j).2 hprobe
    rw [hb] at hb'
    simp only [Option.some.injEq] at hb'
    subst hb'
    obtain ⟨ho, hd, -⟩ := (bucket.holds_iff _ _).1 hh
    exact (map.inv.find_after_store hinv1 out (Or.inr hprobe) rfl rfl ho hd).1

/-! ## The explicit resizes return -/

theorem map.inv.linear_expand_of_fold {m nm : map K V} (hinv : map.inv hash_fn m)
    {fuel n : Nat}
    (hfo : List.foldlM (map.migrate_step (map.insert hash_fn fuel) m.buckets_.buckets_)
      (map.new n) (List.range (hashsize m.buckets_.hashpower_)) = .ok nm) :
    ∃ x, map.linear_expand hash_fn (fuel + 1) m m.hashpower n = .ok (x, .ok) ∧
      x.buckets_ = nm.buckets_ := by
  obtain ⟨cur, older, hc, hlen, hla⟩ := hinv.lock_all_eq
  rw [map.linear_expand, hla]
  simp only [map.hashpower, ne_eq, not_true_eq_false, if_false, hfo]
  obtain ⟨hinvn, -, -, -⟩ :=
    map.migrate_fold fuel (map.sound fuel).2.2.1 m.buckets_.buckets_ _ _ nm (map.inv_new n) hfo
  obtain ⟨ncur, nolder, hnc, hnlen⟩ := hinvn.cur
  have hfree : ∀ s ∈ ncur.map (spinlock_t.assign spinlock_t.new) ++
      List.replicate (min kMaxNumLocks nm.bucket_count - ncur.length) spinlock_t.new,
      s.lock_ = false := by
    intro s hs
    rw [List.mem_append] at hs
    rcases hs with hs | hs
    · rw [List.mem_map] at hs
      obtain ⟨o, -, ho⟩ := hs
      rw [← ho]
      rfl
    · rw [List.eq_of_mem_replicate hs]
      rfl
  have hcount : nm.bucket_count = 2 ^ nm.buckets_.hashpower_ := by
    simp [map.bucket_count, table.size, Nat.one_shiftLeft]
  have hnl : ¬ (min kMaxNumLocks nm.bucket_count < ncur.length) := by
    rw [hnlen, hcount, Nat.min_comm]
    omega
  simp only [map.get_current_locks, hnc, map.maybe_resize_locks, hnl, if_false,
    lock_set_free _ hfree]
  exact ⟨_, rfl, rfl⟩

theorem map.inv.expand_total {m : map K V} (hinv : map.inv hash_fn m) (n : Nat) :
    ∃ fuel x, map.linear_expand hash_fn fuel m m.hashpower n = .ok (x, .ok) := by
  have hlen := hinv.len
  have hins : ∀ (nm : map K V), map.inv hash_fn nm →
      live_count nm.buckets_.buckets_ < live_count m.buckets_.buckets_ →
      ∀ (k : K) (v : V), ∃ fuel x, map.insert hash_fn fuel nm k v = .ok x :=
    fun nm hinvn _ k v => hinvn.insert_returns k v
  obtain ⟨F0, nm', hfo⟩ := map.migrate_fold_returns m.buckets_.buckets_
    (live_count m.buckets_.buckets_) hinv.init hins
    (List.range (hashsize m.buckets_.hashpower_)) (map.new n)
    (by intro i hi; rw [List.mem_range, hashsize_eq] at hi; rw [hlen]; exact hi)
    (map.inv_new _)
    (by
      have h0 : live_count (map.new n : map K V).buckets_.buckets_ = 0 :=
        live_count_replicate _
      rw [h0, live_count_eq_countP _ _ hlen]
      omega)
  obtain ⟨x, hx, -⟩ := hinv.linear_expand_of_fold hfo
  exact ⟨_, x, hx⟩

theorem map.migrate_fold_empty (ins : map K V → K → V → Except error (map K V × Bool))
    (src : List (bucket K V)) (nm : map K V) :
    ∀ (l : List Nat), (∀ i ∈ l, i < src.length) → (∀ i ∈ l, live_at src i = false) →
      List.foldlM (map.migrate_step ins src) nm l = .ok nm := by
  intro l
  induction l with
  | nil => intro _ _; rfl
  | cons i l ih =>
    intro hl hdead
    have hi : i < src.length := hl i (List.mem_cons_self _ _)
    have hd := hdead i (List.mem_cons_self _ _)
    have hbe : src[i]? = some src[i] := List.getElem?_eq_getElem hi
    simp only [live_at, hbe, bucket.live] at hd
    simp only [List.foldlM_cons, bind, Except.bind, map.migrate_step, hbe, hd,
      Bool.false_eq_true, if_false]
    exact ih (fun i' hi' => hl i' (List.mem_cons_of_mem _ hi'))
      (fun i' hi' => hdead i' (List.mem_cons_of_mem _ hi'))

theorem map.inv.expand_empty {m : map K V} (hinv : map.inv hash_fn m)
    (hempty : live_count m.buckets_.buckets_ = 0) (fuel n : Nat) :
    ∃ x, map.linear_expand hash_fn (fuel + 1) m m.hashpower n = .ok (x, .ok) ∧
      x.buckets_ = table.new n := by
  have hlen := hinv.len
  have hfo : List.foldlM (map.migrate_step (map.insert hash_fn fuel) m.buckets_.buckets_)
      (map.new n) (List.range (hashsize m.buckets_.hashpower_)) = .ok (map.new n) := by
    apply map.migrate_fold_empty
    · intro i hi
      rw [List.mem_range, hashsize_eq] at hi
      rw [hlen]
      exact hi
    · intro i hi
      rw [List.mem_range, hashsize_eq, ← hlen] at hi
      unfold live_count at hempty
      rw [List.countP_eq_zero] at hempty
      have := hempty i (List.mem_range.2 hi)
      simpa using this
  obtain ⟨x, hx, hb⟩ := hinv.linear_expand_of_fold hfo
  exact ⟨x, hx, hb⟩

/-! ## The hashpower `reserve_calc` computes -/

theorem map.reserve_calc_go_spec (buckets : Nat) :
    ∀ (fuel blog2 : Nat), buckets + 1 ≤ fuel + blog2 →
      (∀ b, b < blog2 → 2 ^ b < buckets) →
      ∃ h, map.reserve_calc.go buckets fuel blog2 = .ok h ∧ buckets ≤ 2 ^ h ∧
        ∀ b, b < h → 2 ^ b < buckets := by
  intro fuel
  induction fuel with
  | zero =>
    intro blog2 hf hlow
    exfalso
    cases blog2 with
    | zero => omega
    | succ b =>
      have h1 := hlow b (by omega)
      have h2 := Nat.lt_two_pow b
      omega
  | succ fuel ih =>
    intro blog2 hf hlow
    rw [map.reserve_calc.go]
    by_cases hlt : 1 <<< blog2 < buckets
    · rw [if_pos hlt]
      apply ih (blog2 + 1) (by omega)
      intro b hb
      by_cases hbb : b = blog2
      · rw [hbb, ← Nat.one_shiftLeft]
        exact hlt
      · exact hlow b (by omega)
    · rw [if_neg hlt]
      rw [Nat.one_shiftLeft] at hlt
      exact ⟨blog2, rfl, by omega, hlow⟩

theorem map.reserve_calc_spec (n : Nat) :
    ∃ h, map.reserve_calc n = .ok h ∧ n ≤ 2 ^ h ∧ ∀ b, b < h → 2 ^ b < n := by
  obtain ⟨h, hgo, hge, hlow⟩ := map.reserve_calc_go_spec n (n + 1) 0 (by omega)
    (fun b hb => absurd hb (Nat.not_lt_zero b))
  refine ⟨h, ?_, hge, hlow⟩
  unfold map.reserve_calc
  simp only [hgo, hashsize_eq, hge, Nat.le_refl, and_self, if_true]

/-! ## Lookups and erases in closed form -/

theorem map.inv.find_eq {m : map K V} (h : map.inv hash_fn m) (key : K) (out : V) :
    map.find hash_fn m key out
      = .ok (m, (m.lookup hash_fn key).isSome, (m.lookup hash_fn key).getD out) := by
  unfold map.lookup
  cases hp : probe_find key m.buckets_.buckets_ (probe_budget m.hashpower)
      (m.home hash_fn key) with
  | none => exact h.find_none key out hp
  | some j =>
    obtain ⟨b, hb, hh⟩ := probe_find_some _ _ _ hp
    obtain ⟨-, -, v, hst⟩ := (bucket.holds_iff _ _).1 hh
    rw [h.find_some key out hp hb hst]
    simp [hb, hst]

theorem map.inv.erase_cases {m : map K V} (h : map.inv hash_fn m) (key : K) :
    (map.erase hash_fn m key = .ok (m, false) ∧ m.lookup hash_fn key = none) ∨
    (∃ (j : Nat) (b : bucket K V), m.buckets_.buckets_[j]? = some b ∧ b.holds key = true ∧
      map.erase hash_fn m key = .ok (m.erased j b, true)) := by
  cases hp : probe_find key m.buckets_.buckets_ (probe_budget m.hashpower)
      (m.home hash_fn key) with
  | none =>
    left
    refine ⟨h.erase_none key hp, ?_⟩
    unfold map.lookup
    rw [hp]
  | some j =>
    obtain ⟨b, hb, hh⟩ := probe_find_some _ _ _ hp
    exact Or.inr ⟨j, b, hb, hh, h.erase_some key hp hb⟩

theorem map.capacity_eq (m : map K V) : m.capacity = 2 ^ m.hashpower := by
  simp [map.capacity, map.bucket_count, table.size, map.hashpower, Nat.one_shiftLeft]

theorem map.inv.erase_returns {m : map K V} (h : map.inv hash_fn m) (key : K) :
    ∃ (m' : map K V) (r : Bool), map.erase hash_fn m key = .ok (m', r) := by
  rcases h.erase_cases key with ⟨h1, -⟩ | ⟨j, b, -, -, h1⟩
  · exact ⟨_, _, h1⟩
  · exact ⟨_, _, h1⟩

theorem map.lookup_none_of_no_live (m : map K V)
    (h : live_count m.buckets_.buckets_ = 0) (key : K) : m.lookup hash_fn key = none := by
  unfold map.lookup
  cases hp : probe_find key m.buckets_.buckets_ (probe_budget m.hashpower)
      (m.home hash_fn key) with
  | none => rfl
  | some j =>
    exfalso
    obtain ⟨b, hb, hh⟩ := probe_find_some _ _ _ hp
    have hj := probe_find_lt hp
    unfold live_count at h
    rw [List.countP_eq_zero] at h
    have := h j (List.mem_range.2 hj)
    simp [live_at, hb, bucket.holds_live hh] at this

theorem reachable_no_clear.of_run {m : map K V} (hr : reachable_no_clear hash_fn m)
    (fuel : Nat) :
    ∀ (ops : List (op K V)) (m' : map K V), ops.all (fun o => !o.is_clear) = true →
      map.run hash_fn fuel m ops = .ok m' → reachable_no_clear hash_fn m' := by
  intro ops
  induction ops generalizing m with
  | nil =>
    intro m' _ h
    simp only [map.run, Except.ok.injEq] at h
    rw [← h]
    exact hr
  | cons o rest ih =>
    intro m' hall h
    simp only [List.all_cons, Bool.and_eq_true, Bool.not_eq_true'] at hall
    simp only [map.run] at h
    cases ha : map.apply hash_fn fuel m o with
    | error e => simp [ha] at h
    | ok m1 =>
      simp only [ha] at h
      exact ih (reachable_no_clear.step fuel o hr hall.1 ha) m' hall.2 h

theorem map.inv.rehash_returns {m : map K V} (hinv : map.inv hash_fn m) {hp : Nat}
    (hne : hp ≠ m.hashpower) :
    ∃ fuel m', map.rehash hash_fn fuel m hp = .ok (m', true) := by
  obtain ⟨fuel, x, hx⟩ := hinv.expand_total hp
  refine ⟨fuel, x, ?_⟩
  unfold map.rehash map.linear_rehash
  simp [hne, hx]

theorem map.inv.rehash_sound {m m' : map K V} (hinv : map.inv hash_fn m) {fuel hp : Nat}
    {r : Bool} (hne : hp ≠ m.hashpower)
    (h : map.rehash hash_fn fuel m hp = .ok (m', r)) :
    r = true ∧ hp ≤ m'.hashpower ∧
      (live_count m.buckets_.buckets_ = 0 → m'.hashpower = hp) := by
  unfold map.rehash map.linear_rehash at h
  simp only [hne, if_false] at h
  cases hex : map.linear_expand hash_fn fuel m m.hashpower hp with
  | error e => simp [hex] at h
  | ok q =>
    obtain ⟨m1, st⟩ := q
    simp only [hex, Except.ok.injEq, Prod.mk.injEq] at h
    obtain ⟨hst, -, hle, -⟩ := hinv.expand_sound hex
    simp only at hst hle
    rw [← h.1, ← h.2, hst]
    refine ⟨by simp, hle, ?_⟩
    intro hempty
    cases fuel with
    | zero => simp [map.linear_expand] at hex
    | succ fuel =>
      obtain ⟨x, hx, hb⟩ := hinv.expand_empty hempty fuel hp
      rw [hx] at hex
      simp only [Except.ok.injEq, Prod.mk.injEq] at hex
      rw [← hex.1]
      unfold map.hashpower
      rw [hb]
      rfl

theorem map.inv.reserve_sound {m m' : map K V} (hinv : map.inv hash_fn m) {fuel n h : Nat}
    {r : Bool} (hcalc : map.reserve_calc n = .ok h) (hne : h ≠ m.hashpower)
    (hres : map.reserve hash_fn fuel m n = .ok (m', r)) :
    r = true ∧ h ≤ m'.hashpower ∧
      (live_count m.buckets_.buckets_ = 0 → m'.hashpower = h) := by
  have hre : map.rehash hash_fn fuel m h = .ok (m', r) := by
    unfold map.reserve map.linear_reserve at hres
    simp only [hcalc] at hres
    unfold map.rehash map.linear_rehash
    exact hres
  exact hinv.rehash_sound hne hre

/-! ## Maps built by inserts alone -/

theorem map.clean_new (hp : Nat) : map.clean hash_fn (map.new hp : map K V) :=
  ⟨map.inv_new hp, map.fresh_new hp, nodup_keys_replicate _⟩

theorem map.lookup_pair {m : map K V} {key : K} {v : V}
    (h : m.lookup hash_fn key = some v) : has_pair m.buckets_.buckets_ key v := by
  unfold map.lookup at h
  cases hp : probe_find key m.buckets_.buckets_ (probe_budget m.hashpower)
      (m.home hash_fn key) with
  | none => simp [hp] at h
  | some j =>
    obtain ⟨b, hb, hh⟩ := probe_find_some _ _ _ hp
    obtain ⟨-, -, v', hst⟩ := (bucket.holds_iff _ _).1 hh
    simp only [hp, hb, hst, Option.map_some', Option.some.injEq] at h
    subst h
    exact ⟨j, b, hb, bucket.holds_live hh, hst⟩

theorem map.inv.lookup_some_of_key {m : map K V} (hinv : map.inv hash_fn m) {key : K}
    (hk : has_key m.buckets_.buckets_ key) : ∃ v, m.lookup hash_fn key = some v := by
  cases hl : m.lookup hash_fn key with
  | some v => exact ⟨v, rfl⟩
  | none =>
    exfalso
    unfold map.lookup at hl
    cases hp : probe_find key m.buckets_.buckets_ (probe_budget m.hashpower)
        (m.home hash_fn key) with
    | none => exact hinv.absent_of_probe_none hp hk
    | some j =>
      obtain ⟨b, hb, hh⟩ := probe_find_some _ _ _ hp
      obtain ⟨-, -, v', hst⟩ := (bucket.holds_iff _ _).1 hh
      simp [hp, hb, hst] at hl

theorem map.inv.lookup_of_pair {m : map K V} (hinv : map.inv hash_fn m)
    (hnd : nodup_keys m.buckets_.buckets_) {key : K} {v : V}
    (h : has_pair m.buckets_.buckets_ key v) : m.lookup hash_fn key = some v := by
  obtain ⟨v', hv'⟩ := hinv.lookup_some_of_key ((has_key_iff_pair _ _).2 ⟨v, h⟩)
  rw [hv', hnd.pair_unique (map.lookup_pair hv') h]

theorem map.inv.lookup_none_iff {m : map K V} (hinv : map.inv hash_fn m) (key : K) :
    m.lookup hash_fn key = none ↔ ¬ has_key m.buckets_.buckets_ key := by
  constructor
  · intro h hk
    obtain ⟨v, hv⟩ := hinv.lookup_some_of_key hk
    rw [h] at hv
    simp at hv
  · intro h
    cases hl : m.lookup hash_fn key with
    | none => rfl
    | some v => exact absurd ((has_key_iff_pair _ _).2 ⟨v, map.lookup_pair hl⟩) h

theorem map.clean.insert_post {m : map K V} (hc : map.clean hash_fn m) {fuel : Nat} {key : K}
    {val : V} {x : map K V × Bool} (h : map.insert hash_fn fuel m key val = .ok x) :
    map.clean hash_fn x.1 ∧ m.hashpower ≤ x.1.hashpower ∧
    (∀ k v, has_pair x.1.buckets_.buckets_ k v →
      has_pair m.buckets_.buckets_ k v ∨ (k = key ∧ v = val)) ∧
    (∀ k v, has_pair m.buckets_.buckets_ k v → has_pair x.1.buckets_.buckets_ k v) ∧
    (¬ has_key m.buckets_.buckets_ key → x.2 = true ∧
      has_pair x.1.buckets_.buckets_ key val ∧
      live_count x.1.buckets_.buckets_ = live_count m.buckets_.buckets_ + 1) ∧
    (has_key m.buckets_.buckets_ key → x = (m, false)) := by
  obtain ⟨hinv, hf, hnd⟩ := hc
  have hpost := hinv.insert_sound h
  refine ⟨⟨hpost.keeps_inv, hpost.keeps_fresh hf, hpost.keeps_nodup hf hnd⟩, hpost.bounds.1,
    fun k v hp => hpost.pairs_id hp, ?_, ?_, ?_⟩
  · intro k v hkv
    obtain ⟨v', hv'⟩ := (has_key_iff_pair _ _).1
      (hpost.keeps_keys.1 k ((has_key_iff_pair _ _).2 ⟨v, hkv⟩))
    rcases hpost.pairs_id hv' with h1 | ⟨e1, e2⟩
    · rw [hnd.pair_unique hkv h1]
      exact hv'
    · by_cases hk : has_key m.buckets_.buckets_ key
      · obtain ⟨m0, hinv0, hg, hor, hres | hres⟩ := hpost
        · obtain ⟨-, j, hp, -⟩ := hres
          have hf0 : m0.fresh := by
            rcases hg.2.2.2.1 with h0 | h0
            · rw [h0]; exact hf
            · exact h0
          exact absurd (hg.2.2.2.2.1.2.1 key hk) (hinv0.absent_of_here hf0.2 hp)
        · obtain ⟨-, j, b, v0, -, hb, hst, hx⟩ := hres
          rw [hx, map.assigned_same hb hst]
          exact hg.2.2.2.2.1.pairs_of_nodup hnd hkv
      · exact ((hpost.of_absent hk).2.2.1 hnd) k v hkv
  · intro hk
    have := hpost.of_absent hk
    exact ⟨this.1, this.2.1, this.2.2.2 hnd⟩
  · intro hk
    obtain ⟨m0, hinv0, hg, hor, hres | hres⟩ := hpost
    · obtain ⟨-, j, hp, -⟩ := hres
      have hf0 : m0.fresh := by
        rcases hg.2.2.2.1 with h0 | h0
        · rw [h0]; exact hf
        · exact h0
      exact absurd (hg.2.2.2.2.1.2.1 key hk) (hinv0.absent_of_here hf0.2 hp)
    · obtain ⟨hx2, j, b, v0, -, hb, hst, hx⟩ := hres
      have hm0 : m0 = m := by
        rcases hor with h0 | h0
        · exact h0
        · exfalso
          obtain ⟨i, bi, hbi, hhi⟩ := hk
          obtain ⟨-, -, vi, hsti⟩ := (bucket.holds_iff _ _).1 hhi
          have hr := hinv.reach i bi key vi hbi (bucket.holds_live hhi) hsti
          obtain ⟨j', hj'⟩ := probe_insert_dup_of_reach hf.2 ⟨bi, hbi, hhi⟩ _ _ hr
          unfold map.home map.hashpower at h0
          rw [h0] at hj'
          simp at hj'
      rw [map.assigned_same hb hst, hm0] at hx
      exact Prod.ext hx hx2

theorem map.insert_each_mono {fuel fuel' : Nat} (hle : fuel ≤ fuel') :
    ∀ (kvs : List (K × V)) (m : map K V) (y : map K V × List (Bool × Nat)),
      map.insert_each hash_fn fuel m kvs = .ok y → map.insert_each hash_fn fuel' m kvs = .ok y := by
  intro kvs
  induction kvs with
  | nil => intro m y h; exact h
  | cons kv rest ih =>
    intro m y h
    obtain ⟨k, v⟩ := kv
    simp only [map.insert_each] at h ⊢
    cases hi : map.insert hash_fn fuel m k v with
    | error e => simp [hi] at h
    | ok r =>
      obtain ⟨m1, b⟩ := r
      simp only [hi] at h
      rw [map.insert_mono hle hi]
      simp only
      cases hs : m1.size with
      | error e => simp [hs] at h
      | ok s =>
        simp only [hs] at h ⊢
        cases hr : map.insert_each hash_fn fuel m1 rest with
        | error e => simp [hr] at h
        | ok q =>
          simp only [hr] at h
          rw [ih m1 q hr]
          exact h

theorem map.inv.insert_here {m : map K V} (hinv : map.inv hash_fn m) {fuel : Nat} {key : K}
    {val : V} {j : Nat} {x : map K V × Bool}
    (hp : probe_insert key m.buckets_.buckets_ (probe_budget m.hashpower)
      (m.home hash_fn key) = .here j)
    (h : map.insert hash_fn fuel m key val = .ok x) : x = (m.stored j key val, true) := by
  obtain ⟨m0, -, -, hor, hres⟩ := hinv.insert_sound h
  have hm0 : m0 = m := by
    rcases hor with h0 | h0
    · exact h0
    · rw [hp] at h0
      simp at h0
  subst hm0
  rcases hres with ⟨hx2, j', hp', hx⟩ | ⟨-, j', b, v, hp', -⟩
  · rw [hp] at hp'
    simp only [insert_slot.here.injEq] at hp'
    subst hp'
    exact Prod.ext hx hx2
  · rw [hp] at hp'
    simp at hp'

theorem map.clean.size_count {m : map K V} (hc : map.clean hash_fn m) :
    m.size = .ok (live_count m.buckets_.buckets_) :=
  hc.1.size_eq hc.2.1.1

theorem map.clean.find_pair {m : map K V} (hc : map.clean hash_fn m) {key : K} {v : V}
    (h : has_pair m.buckets_.buckets_ key v) (out : V) :
    map.find hash_fn m key out = .ok (m, true, v) := by
  rw [hc.1.find_eq key out, hc.1.lookup_of_pair hc.2.2 h]
  rfl

theorem map.clean.insert_each_spec :
    ∀ (kvs : List (K × V)) (m : map K V), map.clean hash_fn m → (kvs.map Prod.fst).Nodup →
      (∀ kv ∈ kvs, ¬ has_key m.buckets_.buckets_ kv.1) →
      ∃ (fuel : Nat) (m' : map K V),
        map.insert_each hash_fn fuel m kvs = .ok (m',
          (List.range kvs.length).map (fun i => (true, live_count m.buckets_.buckets_ + i + 1))) ∧
        map.clean hash_fn m' ∧ m.hashpower ≤ m'.hashpower ∧
        (∀ k v, has_pair m.buckets_.buckets_ k v → has_pair m'.buckets_.buckets_ k v) ∧
        (∀ kv ∈ kvs, has_pair m'.buckets_.buckets_ kv.1 kv.2) := by
  intro kvs
  induction kvs with
  | nil =>
    intro m hc _ _
    exact ⟨0, m, rfl, hc, Nat.le_refl _, fun _ _ h => h, fun kv hkv => by simp at hkv⟩
  | cons kv rest ih =>
    intro m hc hnd habs
    obtain ⟨k, v⟩ := kv
    simp only [List.map_cons, List.nodup_cons] at hnd
    obtain ⟨F1, x, hx⟩ := hc.1.insert_returns k v
    obtain ⟨hc1, hhp1, hsub1, hkeep1, hnew1, -⟩ := hc.insert_post hx
    obtain ⟨m1, r⟩ := x
    obtain ⟨hr, hpair, hlc⟩ := hnew1 (habs (k, v) (List.mem_cons_self _ _))
    simp only at hr hpair hlc hc1 hhp1 hsub1 hkeep1
    subst hr
    have habs1 : ∀ kv ∈ rest, ¬ has_key m1.buckets_.buckets_ kv.1 := by
      intro kv hkv hcon
      obtain ⟨v', hv'⟩ := (has_key_iff_pair _ _).1 hcon
      rcases hsub1 _ _ hv' with h1 | ⟨e1, -⟩
      · exact habs kv (List.mem_cons_of_mem _ hkv) ((has_key_iff_pair _ _).2 ⟨v', h1⟩)
      · apply hnd.1
        rw [← e1]
        exact List.mem_map_of_mem _ hkv
    obtain ⟨F2, m', hrun, hc', hhp', hkeep', hall'⟩ := ih m1 hc1 hnd.2 habs1
    refine ⟨max F1 F2, m', ?_, hc', Nat.le_trans hhp1 hhp',
      fun k0 v0 h0 => hkeep' _ _ (hkeep1 _ _ h0), ?_⟩
    · simp only [map.insert_each, map.insert_mono (Nat.le_max_left F1 F2) hx, hc1.size_count,
        map.insert_each_mono (Nat.le_max_right F1 F2) _ _ _ hrun, List.length_cons]
      rw [List.range_succ_eq_map]
      simp only [List.map_cons, List.map_map, hlc, Except.ok.injEq, Prod.mk.injEq, true_and,
        List.cons.injEq, Nat.add_zero]
      apply List.map_congr_left
      intro i _
      simp only [Function.comp, Prod.mk.injEq, true_and, Nat.succ_eq_add_one]
      omega
    · intro kv hkv
      simp only [List.mem_cons] at hkv
      rcases hkv with rfl | hkv
      · exact hkeep' _ _ hpair
      · exact hall' kv hkv

/-! ## The constructors from a list of pairs -/

theorem first_value_append_some {key : K} {v : V} :
    ∀ (l1 l2 : List (K × V)), first_value key l1 = some v →
      first_value key (l1 ++ l2) = some v := by
  intro l1
  induction l1 with
  | nil => intro l2 h; simp [first_value] at h
  | cons a l1 ih =>
    intro l2 h
    obtain ⟨k, w⟩ := a
    simp only [List.cons_append, first_value] at h ⊢
    by_cases hk : k = key
    · simpa [hk] using h
    · simp only [hk, if_false] at h ⊢
      exact ih l2 h

theorem first_value_append_none {key : K} :
    ∀ (l1 l2 : List (K × V)), first_value key l1 = none →
      first_value key (l1 ++ l2) = first_value key l2 := by
  intro l1
  induction l1 with
  | nil => intro l2 _; rfl
  | cons a l1 ih =>
    intro l2 h
    obtain ⟨k, w⟩ := a
    simp only [List.cons_append, first_value] at h ⊢
    by_cases hk : k = key
    · simp [hk] at h
    · simp only [hk, if_false] at h ⊢
      exact ih l2 h

theorem first_value_none_iff {key : K} :
    ∀ (l : List (K × V)), first_value key l = none ↔ key ∉ l.map Prod.fst := by
  intro l
  induction l with
  | nil => simp [first_value]
  | cons a l ih =>
    obtain ⟨k, w⟩ := a
    simp only [first_value, List.map_cons, List.mem_cons, not_or]
    by_cases hk : k = key
    · simp [hk]
    · simp only [hk, if_false, ih]
      constructor
      · intro h
        exact ⟨fun hc => hk hc.symm, h⟩
      · intro h
        exact h.2

theorem map.clean.lookup_frame {m m1 : map K V} (hc : map.clean hash_fn m)
    (hc1 : map.clean hash_fn m1) {key : K} {val : V}
    (hsub : ∀ k v, has_pair m1.buckets_.buckets_ k v →
      has_pair m.buckets_.buckets_ k v ∨ (k = key ∧ v = val))
    (hkeep : ∀ k v, has_pair m.buckets_.buckets_ k v → has_pair m1.buckets_.buckets_ k v)
    {k : K} (hne : k ≠ key) : m1.lookup hash_fn k = m.lookup hash_fn k := by
  cases hl : m.lookup hash_fn k with
  | some w => exact hc1.1.lookup_of_pair hc1.2.2 (hkeep _ _ (map.lookup_pair hl))
  | none =>
    rw [hc1.1.lookup_none_iff]
    intro hcon
    obtain ⟨w, hw⟩ := (has_key_iff_pair _ _).1 hcon
    rcases hsub _ _ hw with h1 | ⟨e1, -⟩
    · exact (hc.1.lookup_none_iff k).1 hl ((has_key_iff_pair _ _).2 ⟨w, h1⟩)
    · exact hne e1

theorem map.clean.new_range_spec :
    ∀ (rest acc : List (K × V)) (m : map K V), map.clean hash_fn m →
      (∀ k, m.lookup hash_fn k = first_value k acc) →
      live_count m.buckets_.buckets_ = (acc.map Prod.fst).toFinset.card →
      ∃ (fuel : Nat) (m' : map K V),
        rest.foldlM (fun m kv => (map.insert hash_fn fuel m kv.1 kv.2).map Prod.fst) m = .ok m' ∧
        map.clean hash_fn m' ∧
        (∀ k, m'.lookup hash_fn k = first_value k (acc ++ rest)) ∧
        live_count m'.buckets_.buckets_ = ((acc ++ rest).map Prod.fst).toFinset.card := by
  intro rest
  induction rest with
  | nil =>
    intro acc m hc hl hn
    exact ⟨0, m, rfl, hc, by simpa using hl, by simpa using hn⟩
  | cons kv rest ih =>
    intro acc m hc hl hn
    obtain ⟨k, v⟩ := kv
    obtain ⟨F1, x, hx⟩ := hc.1.insert_returns k v
    obtain ⟨hc1, -, hsub1, hkeep1, hnew1, hold1⟩ := hc.insert_post hx
    have hl1 : ∀ k', x.1.lookup hash_fn k' = first_value k' (acc ++ [(k, v)]) := by
      intro k'
      by_cases hk : has_key m.buckets_.buckets_ k
      · rw [hold1 hk]
        simp only
        rw [hl k']
        cases hf : first_value k' acc with
        | some w => rw [first_value_append_some _ _ hf]
        | none =>
          rw [first_value_append_none _ _ hf]
          have hne : k ≠ k' := by
            intro hcon
            rw [← hcon, ← hl k, hc.1.lookup_none_iff] at hf
            exact hf hk
          simp [first_value, hne]
      · obtain ⟨-, hpair, -⟩ := hnew1 hk
        have hnone : first_value k acc = none := by
          rw [← hl k, hc.1.lookup_none_iff]
          exact hk
        by_cases hkk : k' = k
        · rw [hkk, hc1.1.lookup_of_pair hc1.2.2 hpair, first_value_append_none _ _ hnone]
          simp [first_value]
        · rw [hc.lookup_frame hc1 hsub1 hkeep1 hkk, hl k']
          cases hf : first_value k' acc with
          | some w => rw [first_value_append_some _ _ hf]
          | none =>
            rw [first_value_append_none _ _ hf]
            have hne : ¬ k = k' := fun hcon => hkk hcon.symm
            simp [first_value, hne]
    have hn1 : live_count x.1.buckets_.buckets_
        = ((acc ++ [(k, v)]).map Prod.fst).toFinset.card := by
      by_cases hk : has_key m.buckets_.buckets_ k
      · rw [hold1 hk]
        simp only
        rw [hn]
        have hmem : k ∈ acc.map Prod.fst := by
          by_contra hcon
          rw [← first_value_none_iff, ← hl k, hc.1.lookup_none_iff] at hcon
          exact hcon hk
        congr 1
        ext a
        simp only [List.map_append, List.map_cons, List.map_nil, List.toFinset_append,
          List.toFinset_cons, List.toFinset_nil, Finset.mem_union, List.mem_toFinset,
          Finset.mem_insert, Finset.not_mem_empty, or_false]
        constructor
        · exact Or.inl
        · rintro (h | rfl)
          · exact h
          · exact hmem
      · obtain ⟨-, -, hlc⟩ := hnew1 hk
        rw [hlc, hn]
        have hmem : k ∉ (acc.map Prod.fst).toFinset := by
          rw [List.mem_toFinset, ← first_value_none_iff, ← hl k, hc.1.lookup_none_iff]
          exact hk
        have : ((acc ++ [(k, v)]).map Prod.fst).toFinset
            = Insert.insert k (acc.map Prod.fst).toFinset := by
          ext a
          simp only [List.map_append, List.map_cons, List.map_nil, List.toFinset_append,
            List.toFinset_cons, List.toFinset_nil, Finset.mem_union, List.mem_toFinset,
            Finset.mem_insert, Finset.not_mem_empty, or_false]
          exact Or.comm
        rw [this, Finset.card_insert_of_not_mem hmem]
    obtain ⟨F2, m', hrun, hc', hl', hn'⟩ := ih (acc ++ [(k, v)]) x.1 hc1 hl1 hn1
    refine ⟨max F1 F2, m', ?_, hc', ?_, ?_⟩
    · simp only [List.foldlM_cons, bind, Except.bind,
        map.insert_mono (Nat.le_max_left F1 F2) hx, Except.map]
      refine foldlM_ok_mono ?_ _ _ _ hrun
      intro b a y hy
      cases hi : map.insert hash_fn F2 b a.1 a.2 with
      | error e => simp [hi, Except.map] at hy
      | ok q =>
        rw [map.insert_mono (Nat.le_max_right F1 F2) hi]
        simpa [hi, Except.map] using hy
    · intro k'
      rw [hl' k', List.append_assoc]
      rfl
    · rw [hn', List.append_assoc]
      rfl

/-! ## Shrinking an empty map -/

theorem map.inv.load_factor_empty {m : map K V} (hinv : map.inv hash_fn m) (hc : m.counted)
    (h0 : live_count m.buckets_.buckets_ = 0) : m.load_factor = .ok 0 := by
  unfold map.load_factor
  rw [hinv.size_eq hc, h0]
  simp

theorem map.shrink_empty :
    ∀ (d : Nat) (m : map K V), map.inv hash_fn m → m.counted →
      live_count m.buckets_.buckets_ = 0 → m.hashpower = d + 1 →
      ∀ fuel, d + 1 ≤ fuel →
        ∃ m', map.shrink hash_fn fuel m = .ok m' ∧ map.inv hash_fn m' ∧ m'.counted ∧
          live_count m'.buckets_.buckets_ = 0 ∧ m'.hashpower = 1 := by
  intro d
  induction d with
  | zero =>
    intro m hinv hc h0 hhp fuel hf
    obtain ⟨f, rfl⟩ : ∃ f, fuel = f + 1 := ⟨fuel - 1, by omega⟩
    refine ⟨m, ?_, hinv, hc, h0, hhp⟩
    rw [map.shrink, hinv.load_factor_empty hc h0]
    simp [hhp]
  | succ d ih =>
    intro m hinv hc h0 hhp fuel hf
    obtain ⟨f, rfl⟩ : ∃ f, fuel = f + 1 + 1 := ⟨fuel - 2, by omega⟩
    obtain ⟨x, hx, hb⟩ := hinv.expand_empty h0 f (m.hashpower - 1)
    obtain ⟨-, hinvx, -, -, -, hfx, -⟩ := hinv.expand_sound hx
    simp only at hinvx hfx
    have hhpx : x.hashpower = d + 1 := by
      unfold map.hashpower
      rw [hb]
      simp only [table.new]
      omega
    have h0x : live_count x.buckets_.buckets_ = 0 := by
      rw [hb]
      exact live_count_replicate _
    obtain ⟨m', hm', hrest⟩ := ih x hinvx hfx.1 h0x hhpx (f + 1) (by omega)
    refine ⟨m', ?_, hrest⟩
    rw [map.shrink, hinv.load_factor_empty hc h0]
    have hgt : m.hashpower > 1 := by omega
    simp only [hgt, if_true, hx]
    simp only [Nat.reduceDiv, Nat.cast_zero, le_refl, if_true]
    exact hm'

/-! ## The iterators of the locked table -/

theorem live_at_lt {bs : List (bucket K V)} {i : Nat} (h : live_at bs i = true) :
    i < bs.length := by
  by_contra hcon
  unfold live_at at h
  rw [List.getElem?_eq_none (by omega)] at h
  simp at h

theorem dec_index {i : Nat} (h0 : 0 < i) :
    (if i = 0 then 2 ^ 64 - 1 else i - 1) = i - 1 := by
  rw [if_neg (by omega)]

theorem const_iterator.inc_loop_spec (t : table K V) (hlen : t.buckets_.length = t.size) :
    ∀ (fuel i : Nat), i ≤ t.size → t.size - i ≤ fuel →
      ∃ j, const_iterator.inc_loop t fuel i = .ok j ∧ i ≤ j ∧ j ≤ t.size ∧
        (j < t.size → live_at t.buckets_ j = true) ∧
        ∀ k, i ≤ k → k < j → live_at t.buckets_ k = false := by
  intro fuel
  induction fuel with
  | zero =>
    intro i hi hf
    have : ¬ i < t.size := by omega
    exact ⟨i, by simp [const_iterator.inc_loop, this], Nat.le_refl _, hi,
      fun h => absurd h this, fun k h1 h2 => by omega⟩
  | succ fuel ih =>
    intro i hi hf
    rw [const_iterator.inc_loop]
    by_cases hlt : i < t.size
    · have hb : t.buckets_[i]? = some t.buckets_[i] :=
        List.getElem?_eq_getElem (by rw [hlen]; exact hlt)
      generalize t.buckets_[i] = b at hb
      simp only [hlt, if_true, hb]
      by_cases hl : (b.occupied_ && !b.deleted_) = true
      · refine ⟨i, by simp [hl], Nat.le_refl _, hi, ?_, fun k h1 h2 => by omega⟩
        intro _
        simp [live_at, hb, bucket.live, hl]
      · obtain ⟨j, hj, h1, h2, h3, h4⟩ := ih (i + 1) (by omega) (by omega)
        refine ⟨j, by simp [hl, hj], by omega, h2, h3, ?_⟩
        intro k hk1 hk2
        by_cases hki : k = i
        · subst hki
          simp only [live_at, hb, bucket.live]
          simpa using hl
        · exact h4 k (by omega) hk2
    · refine ⟨i, by simp [hlt], Nat.le_refl _, hi, fun h => absurd h hlt,
        fun k h1 h2 => by omega⟩

theorem const_iterator.operator_inc_spec (t : table K V) (hlen : t.buckets_.length = t.size)
    {p : Nat} (hp : p < t.size) :
    ∃ j, const_iterator.operator_inc t p = .ok j ∧ p < j ∧ j ≤ t.size ∧
      (j < t.size → live_at t.buckets_ j = true) ∧
      ∀ k, p < k → k < j → live_at t.buckets_ k = false := by
  obtain ⟨j, hj, h1, h2, h3, h4⟩ :=
    const_iterator.inc_loop_spec t hlen (t.size - p) (p + 1) (by omega) (by omega)
  refine ⟨j, ?_, by omega, h2, h3, fun k hk1 hk2 => h4 k (by omega) hk2⟩
  unfold const_iterator.operator_inc
  simp [hj, h2]

theorem const_iterator.dec_loop_spec (t : table K V) (hlen : t.buckets_.length = t.size) :
    ∀ (fuel i : Nat), i < t.size → 0 < i → i < fuel →
      ∃ j, const_iterator.dec_loop t fuel i = .ok j ∧ j ≤ i ∧
        (0 < j → live_at t.buckets_ j = true) ∧
        ∀ k, j < k → k ≤ i → live_at t.buckets_ k = false := by
  intro fuel
  induction fuel with
  | zero => intro i _ _ hf; omega
  | succ fuel ih =>
    intro i hi h0 hf
    rw [const_iterator.dec_loop]
    have hb : t.buckets_[i]? = some t.buckets_[i] :=
      List.getElem?_eq_getElem (by rw [hlen]; exact hi)
    generalize t.buckets_[i] = b at hb
    simp only [hb, dec_index h0]
    by_cases hl : (!b.occupied_ || b.deleted_) = true
    · have hdead : live_at t.buckets_ i = false := by
        simp only [live_at, hb, bucket.live]
        cases ho : b.occupied_ <;> cases hd : b.deleted_ <;> simp [ho, hd] at hl ⊢
      simp only [hl, if_true]
      by_cases h1 : i - 1 = 0
      · refine ⟨0, by simp [h1], by omega, fun h => by omega, ?_⟩
        intro k hk1 hk2
        have : k = i := by omega
        rw [this]
        exact hdead
      · obtain ⟨j, hj, hj1, hj2, hj3⟩ := ih (i - 1) (by omega) (by omega) (by omega)
        refine ⟨j, by simp [h1, hj], by omega, hj2, ?_⟩
        intro k hk1 hk2
        by_cases hki : k = i
        · rw [hki]
          exact hdead
        · exact hj3 k hk1 (by omega)
    · refine ⟨i, by simp [hl], Nat.le_refl _, ?_, fun k hk1 hk2 => by omega⟩
      intro _
      simp only [live_at, hb, bucket.live]
      cases ho : b.occupied_ <;> cases hd : b.deleted_ <;> simp [ho, hd] at hl ⊢

theorem const_iterator.operator_dec_spec (t : table K V)
    (hlen : t.buckets_.length = t.size) {p : Nat} (h0 : 0 < p)
    (hp : p ≤ t.size) :
    ∃ j, const_iterator.operator_dec t p = .ok j ∧ j < p ∧
      (0 < j → live_at t.buckets_ j = true) ∧
      ∀ k, j < k → k < p → live_at t.buckets_ k = false := by
  unfold const_iterator.operator_dec
  simp only [dec_index h0]
  by_cases h1 : p - 1 = 0
  · exact ⟨0, by simp [h1], h0, fun h => by omega, fun k hk1 hk2 => by omega⟩
  · obtain ⟨j, hj, hj1, hj2, hj3⟩ := const_iterator.dec_loop_spec t hlen (p - 1 + 1)
      (p - 1) (by omega) (by omega) (by omega)
    exact ⟨j, by simp [h1, hj], by omega, hj2, fun k hk1 hk2 => hj3 k hk1 (by omega)⟩

theorem locked_table.cend_eq (t : table K V) : locked_table.cend t = .ok t.size := by
  simp [locked_table.cend, const_iterator.mk]

theorem locked_table.begin_spec (t : table K V) (hlen : t.buckets_.length = t.size) :
    ∃ b, locked_table.begin t = .ok b ∧ b ≤ t.size ∧
      (b < t.size → live_at t.buckets_ b = true) ∧
      ∀ k, k < b → live_at t.buckets_ k = false := by
  unfold locked_table.begin const_iterator.mk
  by_cases hz : 0 = t.size
  · refine ⟨0, by simp [hz], by omega, fun h => by omega, fun k hk => by omega⟩
  · have hpos : 0 < t.size := by omega
    have hb : t.buckets_[0]? = some t.buckets_[0] :=
      List.getElem?_eq_getElem (by rw [hlen]; exact hpos)
    generalize t.buckets_[0] = b at hb
    have hne : (0 ≠ t.size) = True := by simp [hz]
    simp only [hne, if_true, hb]
    by_cases hl : (!b.occupied_ || b.deleted_) = true
    · have hdead : live_at t.buckets_ 0 = false := by
        simp only [live_at, hb, bucket.live]
        cases ho : b.occupied_ <;> cases hd : b.deleted_ <;> simp [ho, hd] at hl ⊢
      obtain ⟨j, hj, h1, h2, h3, h4⟩ := const_iterator.operator_inc_spec t hlen hpos
      refine ⟨j, by simp [hl, hj], h2, h3, ?_⟩
      intro k hk
      by_cases hk0 : k = 0
      · rw [hk0]
        exact hdead
      · exact h4 k (by omega) hk
    · refine ⟨0, by simp [hl], by omega, ?_, fun k hk => by omega⟩
      intro _
      simp only [live_at, hb, bucket.live]
      cases ho : b.occupied_ <;> cases hd : b.deleted_ <;> simp [ho, hd] at hl ⊢

theorem sorted_lt_ext {l1 l2 : List Nat} (h1 : l1.Pairwise (· < ·)) (h2 : l2.Pairwise (· < ·))
    (hmem : ∀ i, i ∈ l1 ↔ i ∈ l2) : l1 = l2 := by
  apply List.eq_of_perm_of_sorted (r := (· < ·)) _ h1 h2
  exact (List.perm_ext_iff_of_nodup h1.nodup h2.nodup).2 hmem

theorem const_iterator.inc_unique (t : table K V) (hlen : t.buckets_.length = t.size)
    {q p : Nat} (hqp : q < p) (hp : p ≤ t.size)
    (hv : p = t.size ∨ live_at t.buckets_ p = true)
    (hgap : ∀ k, q < k → k < p → live_at t.buckets_ k = false) :
    const_iterator.operator_inc t q = .ok p := by
  obtain ⟨j, hj, h1, h2, h3, h4⟩ := const_iterator.operator_inc_spec t hlen
    (show q < t.size by omega)
  have : j = p := by
    rcases Nat.lt_trichotomy j p with hlt | heq | hgt
    · have := hgap j h1 hlt
      rw [h3 (by omega)] at this
      simp at this
    · exact heq
    · rcases hv with hv | hv
      · omega
      · have := h4 p hqp hgt
        rw [hv] at this
        simp at this
  rw [hj, this]

theorem const_iterator.dec_unique (t : table K V) (hlen : t.buckets_.length = t.size)
    {q p : Nat} (hpq : p < q) (hq : q ≤ t.size)
    (hlive : live_at t.buckets_ p = true)
    (hgap : ∀ k, p < k → k < q → live_at t.buckets_ k = false) :
    const_iterator.operator_dec t q = .ok p := by
  obtain ⟨j, hj, h1, h2, h3⟩ := const_iterator.operator_dec_spec t hlen
    (show 0 < q by omega) hq
  have : j = p := by
    rcases Nat.lt_trichotomy j p with hlt | heq | hgt
    · have := h3 p hlt hpq
      rw [hlive] at this
      simp at this
    · exact heq
    · have := hgap j hgt h1
      rw [h2 (by omega)] at this
      simp at this
  rw [hj, this]

theorem const_iterator.inc_dec (t : table K V) (hlen : t.buckets_.length = t.size)
    {p : Nat} (hlive : live_at t.buckets_ p = true) :
    ∃ q, const_iterator.operator_inc t p = .ok q ∧ const_iterator.operator_dec t q = .ok p ∧
      p < q ∧ (q = t.size ∨ live_at t.buckets_ q = true) := by
  have hp : p < t.size := by rw [← hlen]; exact live_at_lt hlive
  obtain ⟨q, hq, h1, h2, h3, h4⟩ := const_iterator.operator_inc_spec t hlen hp
  refine ⟨q, hq, const_iterator.dec_unique t hlen h1 h2 hlive h4, h1, ?_⟩
  by_cases hqs : q = t.size
  · exact Or.inl hqs
  · exact Or.inr (h3 (by omega))

theorem const_iterator.dec_inc (t : table K V) (hlen : t.buckets_.length = t.size)
    {p b : Nat} (hb : locked_table.begin t = .ok b)
    (hv : p = t.size ∨ live_at t.buckets_ p = true) (hne : p ≠ b) :
    ∃ q, const_iterator.operator_dec t p = .ok q ∧ const_iterator.operator_inc t q = .ok p ∧
      q < p ∧ live_at t.buckets_ q = true := by
  obtain ⟨b', hb', hb1, hb2, hb3⟩ := locked_table.begin_spec t hlen
  rw [hb] at hb'
  simp only [Except.ok.injEq] at hb'
  subst hb'
  have hps : p ≤ t.size := by
    rcases hv with hv | hv
    · omega
    · have := live_at_lt hv
      omega
  have hbp : b < p := by
    rcases Nat.lt_trichotomy b p with h | h | h
    · exact h
    · exact absurd h.symm hne
    · rcases hv with hv | hv
      · omega
      · have := hb3 p h
        rw [hv] at this
        simp at this
  have hbl : live_at t.buckets_ b = true := hb2 (by omega)
  obtain ⟨q, hq, h1, h2, h3⟩ := const_iterator.operator_dec_spec t hlen
    (show 0 < p by omega) hps
  have hql : live_at t.buckets_ q = true := by
    by_cases hq0 : 0 < q
    · exact h2 hq0
    · have hbq : b = q := by
        by_contra hcon
        have := h3 b (by omega) hbp
        rw [hbl] at this
        simp at this
      rw [← hbq]
      exact hbl
  exact ⟨q, hq, const_iterator.inc_unique t hlen h1 hps hv h3, h1, hql⟩

theorem locked_table.forward_spec (t : table K V) (hlen : t.buckets_.length = t.size) :
    ∀ (n it fuel : Nat), (it = t.size ∨ live_at t.buckets_ it = true) → t.size - it ≤ n →
      n + 1 ≤ fuel →
      ∃ l, locked_table.forward t fuel it = .ok l ∧ l.Pairwise (· < ·) ∧
        ∀ i, i ∈ l ↔ (it ≤ i ∧ live_at t.buckets_ i = true) := by
  intro n
  induction n with
  | zero =>
    intro it fuel hv hn hf
    obtain ⟨f, rfl⟩ : ∃ f, fuel = f + 1 := ⟨fuel - 1, by omega⟩
    have hit : it = t.size := by
      rcases hv with hv | hv
      · exact hv
      · have := live_at_lt hv
        omega
    refine ⟨[], by simp [locked_table.forward, locked_table.cend_eq, hit], List.Pairwise.nil, ?_⟩
    intro i
    simp only [List.not_mem_nil, false_iff, not_and]
    intro h1 h2
    have := live_at_lt h2
    omega
  | succ n ih =>
    intro it fuel hv hn hf
    obtain ⟨f, rfl⟩ : ∃ f, fuel = f + 1 := ⟨fuel - 1, by omega⟩
    by_cases hit : it = t.size
    · refine ⟨[], by simp [locked_table.forward, locked_table.cend_eq, hit],
        List.Pairwise.nil, ?_⟩
      intro i
      simp only [List.not_mem_nil, false_iff, not_and]
      intro h1 h2
      have := live_at_lt h2
      omega
    · have hlive : live_at t.buckets_ it = true := by
        rcases hv with hv | hv
        · exact absurd hv hit
        · exact hv
      have hp : it < t.size := by rw [← hlen]; exact live_at_lt hlive
      obtain ⟨q, hq, h1, h2, h3, h4⟩ := const_iterator.operator_inc_spec t hlen hp
      have hvq : q = t.size ∨ live_at t.buckets_ q = true := by
        by_cases hqs : q = t.size
        · exact Or.inl hqs
        · exact Or.inr (h3 (by omega))
      obtain ⟨l, hl, hsorted, hmem⟩ := ih q f hvq (by omega) (by omega)
      refine ⟨it :: l, ?_, ?_, ?_⟩
      · rw [locked_table.forward]
        simp [locked_table.cend_eq, hit, hq, hl]
      · rw [List.pairwise_cons]
        refine ⟨?_, hsorted⟩
        intro i hi
        have := (hmem i).1 hi
        omega
      · intro i
        simp only [List.mem_cons, hmem]
        constructor
        · rintro (rfl | ⟨hi1, hi2⟩)
          · exact ⟨Nat.le_refl _, hlive⟩
          · exact ⟨by omega, hi2⟩
        · rintro ⟨hi1, hi2⟩
          by_cases hii : i = it
          · exact Or.inl hii
          · right
            refine ⟨?_, hi2⟩
            by_contra hcon
            have := h4 i (by omega) (by omega)
            rw [hi2] at this
            simp at this

theorem locked_table.backward_succ (t : table K V) (fuel it : Nat) :
    locked_table.backward t (fuel + 1) it =
      (match locked_table.begin t with
      | .error e => .error e
      | .ok b =>
        if it = b then .ok []
        else
          match const_iterator.operator_dec t it with
          | .error e => .error e
          | .ok prev =>
            match locked_table.backward t fuel prev with
            | .error e => .error e
            | .ok rest => .ok (prev :: rest)) := rfl

theorem locked_table.backward_spec (t : table K V) (hlen : t.buckets_.length = t.size) :
    ∀ (n it fuel : Nat), (it = t.size ∨ live_at t.buckets_ it = true) → it ≤ n →
      n + 1 ≤ fuel →
      ∃ l, locked_table.backward t fuel it = .ok l ∧ l.Pairwise (· > ·) ∧
        ∀ i, i ∈ l ↔ (i < it ∧ live_at t.buckets_ i = true) := by
  intro n
  induction n with
  | zero =>
    intro it fuel hv hn hf
    obtain ⟨f, rfl⟩ : ∃ f, fuel = f + 1 := ⟨fuel - 1, by omega⟩
    obtain ⟨b, hb, hb1, hb2, hb3⟩ := locked_table.begin_spec t hlen
    have hit : it = b := by
      by_contra hcon
      obtain ⟨q, -, -, hq, -⟩ := const_iterator.dec_inc t hlen hb hv hcon
      omega
    refine ⟨[], by rw [locked_table.backward_succ, hb]; simp only [hit, if_true], List.Pairwise.nil, ?_⟩
    intro i
    simp only [List.not_mem_nil, false_iff, not_and]
    intro h1
    omega
  | succ n ih =>
    intro it fuel hv hn hf
    obtain ⟨f, rfl⟩ : ∃ f, fuel = f + 1 := ⟨fuel - 1, by omega⟩
    obtain ⟨b, hb, hb1, hb2, hb3⟩ := locked_table.begin_spec t hlen
    by_cases hit : it = b
    · refine ⟨[], by rw [locked_table.backward_succ, hb]; simp only [hit, if_true], List.Pairwise.nil, ?_⟩
      intro i
      simp only [List.not_mem_nil, false_iff, not_and]
      intro h1 h2
      rw [hit] at h1
      rw [hb3 i h1] at h2
      simp at h2
    · obtain ⟨q, hq, hinc, hqp, hql⟩ := const_iterator.dec_inc t hlen hb hv hit
      have hps : it ≤ t.size := by
        rcases hv with hv | hv
        · omega
        · have := live_at_lt hv
          omega
      obtain ⟨q', hq', -, -, hgap⟩ := const_iterator.operator_dec_spec t hlen
        (show 0 < it by omega) hps
      rw [hq] at hq'
      simp only [Except.ok.injEq] at hq'
      subst hq'
      obtain ⟨l, hl, hsorted, hmem⟩ := ih q f (Or.inr hql) (by omega) (by omega)
      refine ⟨q :: l, ?_, ?_, ?_⟩
      · rw [locked_table.backward_succ, hb]
        simp only [hit, if_false, hq, hl]
      · rw [List.pairwise_cons]
        refine ⟨?_, hsorted⟩
        intro i hi
        have := (hmem i).1 hi
        omega
      · intro i
        simp only [List.mem_cons, hmem]
        constructor
        · rintro (rfl | ⟨hi1, hi2⟩)
          · exact ⟨hqp, hql⟩
          · exact ⟨by omega, hi2⟩
        · rintro ⟨hi1, hi2⟩
          by_cases hii : i = q
          · exact Or.inl hii
          · right
            refine ⟨?_, hi2⟩
            by_contra hcon
            have := hgap i (by omega) hi1
            rw [hi2] at this
            simp at this

/-! ## The stripe-set history across a resize -/

theorem spinlock_t.held_unlock (l : List spinlock_t) (h : ∀ s ∈ l, s.lock_ = false) :
    (l.map spinlock_t.held).map spinlock_t.unlock = l := by
  induction l with
  | nil => rfl
  | cons s l ih =>
    have hs := h s (List.mem_cons_self _ _)
    have ih' := ih (fun s' hs' => h s' (List.mem_cons_of_mem _ hs'))
    simp only [List.map_cons, ih', List.cons.injEq, and_true]
    obtain ⟨l0, c, mg⟩ := s
    have hl0 : l0 = false := hs
    subst hl0
    rfl

theorem map.inv.expand_history {m : map K V} (hinv : map.inv hash_fn m) {fuel n : Nat}
    {x : map K V × op_status} (h : map.linear_expand hash_fn fuel m m.hashpower n = .ok x) :
    ∃ next_locks, x.1.all_locks_ = next_locks :: m.all_locks_ ∧
      next_locks.length = min kMaxNumLocks x.1.bucket_count := by
  cases fuel with
  | zero => simp [map.linear_expand] at h
  | succ fuel =>
    obtain ⟨cur, older, hc, hlen, hla⟩ := hinv.lock_all_eq
    rw [map.linear_expand, hla] at h
    simp only [map.hashpower, ne_eq, not_true_eq_false, if_false] at h
    cases hfo : List.foldlM (map.migrate_step (map.insert hash_fn fuel) m.buckets_.buckets_)
        (map.new n) (List.range (hashsize m.buckets_.hashpower_)) with
    | error e => simp [hfo] at h
    | ok nm =>
      simp only [hfo] at h
      have hinvn : map.inv hash_fn nm :=
        (map.migrate_fold fuel (fun m key val x hi hx => hi.insert_sound hx)
          m.buckets_.buckets_ _ _ nm (map.inv_new n) hfo).1
      obtain ⟨ncur, nolder, hnc, hnlen⟩ := hinvn.cur
      have hfree : ∀ s ∈ ncur.map (spinlock_t.assign spinlock_t.new) ++
          List.replicate (min kMaxNumLocks nm.bucket_count - ncur.length) spinlock_t.new,
          s.lock_ = false := by
        intro s hs
        rw [List.mem_append] at hs
        rcases hs with hs | hs
        · rw [List.mem_map] at hs
          obtain ⟨o, -, ho⟩ := hs
          rw [← ho]
          rfl
        · rw [List.eq_of_mem_replicate hs]
          rfl
      have hcount : nm.bucket_count = 2 ^ nm.buckets_.hashpower_ := by
        simp [map.bucket_count, table.size, Nat.one_shiftLeft]
      have hnl : ¬ (min kMaxNumLocks nm.bucket_count < ncur.length) := by
        rw [hnlen, hcount, Nat.min_comm]
        omega
      simp only [map.get_current_locks, hnc, map.maybe_resize_locks, hnl, if_false,
        lock_set_free _ hfree, map.AllUnlocker_two, Except.ok.injEq] at h
      rw [← h]
      simp only
      rw [spinlock_t.held_unlock cur (hinv.free cur (by rw [hc]; simp)), ← hc]
      refine ⟨_, rfl, ?_⟩
      · simp only [List.length_map, List.length_append, List.length_replicate, map.bucket_count]
        have : nm.buckets_.size = 2 ^ nm.buckets_.hashpower_ := by
          simp [table.size, Nat.one_shiftLeft]
        rw [hnlen, this, Nat.min_comm]
        omega

/-! ## Every call of the public interface returns -/

theorem map.inv.find_fn_returns {σ : Type} {m : map K V} (h : map.inv hash_fn m) (key : K)
    (fn : V → σ → V × σ) (s : σ) : ∃ x, map.find_fn hash_fn m key fn s = .ok x := by
  cases hp : probe_find key m.buckets_.buckets_ (probe_budget m.hashpower)
      (index_hash m.hashpower (hash_fn key)) with
  | none => exact ⟨_, h.find_fn_none key fn s hp⟩
  | some j =>
    obtain ⟨b, hb, hh⟩ := probe_find_some _ _ _ hp
    obtain ⟨-, -, v, hst⟩ := (bucket.holds_iff b key).1 hh
    exact ⟨_, h.find_fn_some key fn s hp hb hst⟩

theorem map.inv.shrink_returns {m : map K V} (hinv : map.inv hash_fn m) (hc : m.counted) :
    ∃ fuel m', map.shrink hash_fn fuel m = .ok m' := by
  by_cases h0 : live_count m.buckets_.buckets_ = 0
  · by_cases hhp : 1 ≤ m.hashpower
    · obtain ⟨m', hm', -⟩ := map.shrink_empty (m.hashpower - 1) m hinv hc h0 (by omega)
        m.hashpower (by omega)
      exact ⟨_, m', hm'⟩
    · refine ⟨1, m, ?_⟩
      rw [map.shrink, hinv.load_factor_empty hc h0]
      have : ¬ m.hashpower > 1 := by omega
      simp [this]
  · refine ⟨1, m, ?_⟩
    rw [map.shrink]
    unfold map.load_factor
    rw [hinv.size_eq hc]
    have hpos : (0 : ℚ) < (live_count m.buckets_.buckets_ : ℚ) / (m.capacity : ℚ) := by
      apply div_pos
      · exact_mod_cast Nat.pos_of_ne_zero h0
      · have : 0 < m.capacity := by
          rw [map.capacity_eq]
          positivity
        exact_mod_cast this
    have hnle : ¬ ((live_count m.buckets_.buckets_ : ℚ) / (m.capacity : ℚ)
        ≤ (((1 / 4 : Nat) : ℚ))) := by
      simp only [Nat.reduceDiv, Nat.cast_zero, not_le]
      exact hpos
    simp only [hnle, if_false]

theorem map.inv.apply_returns {m : map K V} (hinv : map.inv hash_fn m) (hc : m.counted)
    (o : op K V) : ∃ fuel m', map.apply hash_fn fuel m o = .ok m' := by
  cases o with
  | insert key val =>
    obtain ⟨fuel, x, hx⟩ := hinv.insert_returns key val
    exact ⟨fuel, x.1, by simp [map.apply, hx, Except.map]⟩
  | insert_or_assign key val =>
    obtain ⟨fuel, x, hx⟩ := hinv.upsert_returns key (fun _ => val) val
    exact ⟨fuel, x.1, by simp [map.apply, map.insert_or_assign, hx, Except.map]⟩
  | upsert key fn val =>
    obtain ⟨fuel, x, hx⟩ := hinv.upsert_returns key fn val
    exact ⟨fuel, x.1, by simp [map.apply, hx, Except.map]⟩
  | update key val =>
    obtain ⟨x, hx⟩ := hinv.find_fn_returns key (fun _ (_ : Unit) => (val, ())) ()
    exact ⟨0, x.1, by simp [map.apply, map.update, map.update_fn, hx, Except.map]⟩
  | update_fn key fn =>
    obtain ⟨x, hx⟩ := hinv.find_fn_returns key (fun v (_ : Unit) => (fn v, ())) ()
    exact ⟨0, x.1, by simp [map.apply, map.update_fn, hx, Except.map]⟩
  | find key val =>
    exact ⟨0, m, by simp [map.apply, hinv.find_eq key val, Except.map]⟩
  | erase key =>
    obtain ⟨m', r, hx⟩ := hinv.erase_returns key
    exact ⟨0, m', by simp [map.apply, hx, Except.map]⟩
  | clear => exact ⟨0, m.cleared, by simp [map.apply, hinv.clear_cleared]⟩
  | rehash hp =>
    by_cases hne : hp = m.hashpower
    · exact ⟨0, m, by simp [map.apply, map.rehash, map.linear_rehash, hne, Except.map]⟩
    · obtain ⟨fuel, m', hx⟩ := hinv.rehash_returns hne
      exact ⟨fuel, m', by simp [map.apply, hx, Except.map]⟩
  | reserve n =>
    obtain ⟨h, hcalc, -, -⟩ := map.reserve_calc_spec n
    by_cases hne : h = m.hashpower
    · exact ⟨0, m, by simp [map.apply, map.reserve, map.linear_reserve, hcalc, hne, Except.map]⟩
    · obtain ⟨fuel, x, hx⟩ := hinv.expand_total h
      exact ⟨fuel, x, by
        simp [map.apply, map.reserve, map.linear_reserve, hcalc, hne, hx, Except.map]⟩
  | shrink =>
    obtain ⟨fuel, m', hx⟩ := hinv.shrink_returns hc
    exact ⟨fuel, m', by simp [map.apply, hx]⟩

/-! ## The probes as walks over the slots `ind, ind + 1, …` modulo the table size -/

theorem walk_shift (len ind e : Nat) :
    ((ind + 1) % len + e) % len = (ind + (e + 1)) % len := by
  rw [Nat.mod_add_mod]
  congr 1
  omega

theorem first_stop_succ {len ind : Nat} (n : Nat) (hind : ind < len) (Q R : Nat → Prop) :
    (∃ e, e < n + 1 ∧ Q ((ind + e) % len) ∧ ∀ e', e' < e → R ((ind + e') % len)) ↔
      (Q ind ∨ (R ind ∧ ∃ e, e < n ∧ Q (((ind + 1) % len + e) % len) ∧
        ∀ e', e' < e → R (((ind + 1) % len + e') % len))) := by
  have h0 : (ind + 0) % len = ind := by rw [Nat.add_zero, Nat.mod_eq_of_lt hind]
  constructor
  · rintro ⟨e, he, hq, hr⟩
    cases e with
    | zero =>
      rw [h0] at hq
      exact Or.inl hq
    | succ e =>
      right
      refine ⟨by have := hr 0 (by omega); rwa [h0] at this, e, by omega, ?_, ?_⟩
      · rw [walk_shift]
        exact hq
      · intro e' he'
        rw [walk_shift]
        exact hr (e' + 1) (by omega)
  · rintro (hq | ⟨hr0, e, he, hq, hr⟩)
    · exact ⟨0, by omega, by rw [h0]; exact hq, fun e' he' => by omega⟩
    · refine ⟨e + 1, by omega, ?_, ?_⟩
      · rw [← walk_shift]
        exact hq
      · intro e' he'
        cases e' with
        | zero =>
          rw [h0]
          exact hr0
        | succ e' =>
          rw [← walk_shift]
          exact hr e' (by omega)

theorem all_steps_succ {len ind : Nat} (n : Nat) (hind : ind < len) (R : Nat → Prop) :
    (∀ e, e < n + 1 → R ((ind + e) % len)) ↔
      (R ind ∧ ∀ e, e < n → R (((ind + 1) % len + e) % len)) := by
  have h0 : (ind + 0) % len = ind := by rw [Nat.add_zero, Nat.mod_eq_of_lt hind]
  constructor
  · intro h
    refine ⟨by have := h 0 (by omega); rwa [h0] at this, fun e he => ?_⟩
    rw [walk_shift]
    exact h (e + 1) (by omega)
  · rintro ⟨hr0, hr⟩ e he
    cases e with
    | zero =>
      rw [h0]
      exact hr0
    | succ e =>
      rw [← walk_shift]
      exact hr e (by omega)

theorem probe_find_iff {key : K} {bs : List (bucket K V)} (i : Nat) :
    ∀ (n ind : Nat), ind < bs.length →
      (probe_find key bs n ind = some i ↔
        ∃ e, e < n ∧
          ((ind + e) % bs.length = i ∧ ∃ b, bs[i]? = some b ∧ b.holds key = true) ∧
          ∀ e', e' < e → ∃ b, bs[(ind + e') % bs.length]? = some b ∧
            b.occupied_ = true ∧ b.holds key = false) := by
  intro n
  induction n with
  | zero =>
    intro ind _
    simp [probe_find]
  | succ n ih =>
    intro ind hind
    have hpos : 0 < bs.length := by omega
    rw [first_stop_succ n hind
      (fun s => s = i ∧ ∃ b, bs[i]? = some b ∧ b.holds key = true)
      (fun s => ∃ b, bs[s]? = some b ∧ b.occupied_ = true ∧ b.holds key = false),
      ← ih ((ind + 1) % bs.length) (Nat.mod_lt _ hpos)]
    have hb : bs[ind]? = some bs[ind] := List.getElem?_eq_getElem hind
    generalize bs[ind] = b at hb
    rw [probe_find]
    simp only [hb]
    cases ho : b.occupied_ with
    | false =>
      have hh : b.holds key = false := by simp [bucket.holds, ho]
      simp only [Bool.not_false, if_true]
      constructor
      · intro h
        cases h
      · rintro (⟨rfl, b', hb', hh'⟩ | ⟨⟨b', hb', ho', -⟩, -⟩)
        · rw [hb] at hb'
          cases hb'
          rw [hh] at hh'
          cases hh'
        · cases hb'
          rw [ho] at ho'
          cases ho'
    | true =>
      simp only [Bool.not_true, Bool.false_eq_true, if_false]
      cases hh : b.holds key with
      | true =>
        simp only [if_true, Option.some.injEq]
        constructor
        · rintro rfl
          exact Or.inl ⟨rfl, b, hb, hh⟩
        · rintro (⟨h, -⟩ | ⟨⟨b', hb', -, hh'⟩, -⟩)
          · exact h
          · cases hb'
            rw [hh] at hh'
            cases hh'
      | false =>
        simp only [Bool.false_eq_true, if_false]
        constructor
        · intro h
          exact Or.inr ⟨⟨b, rfl, ho, hh⟩, h⟩
        · rintro (⟨rfl, b', hb', hh'⟩ | ⟨-, h⟩)
          · rw [hb] at hb'
            cases hb'
            rw [hh] at hh'
            cases hh'
          · exact h

theorem probe_insert_iff {key : K} {bs : List (bucket K V)} :
    ∀ (n ind : Nat), ind < bs.length →
      (∀ j, probe_insert key bs n ind = .here j ↔
        ∃ e, e < n ∧ ((ind + e) % bs.length = j ∧ ∃ b, bs[j]? = some b ∧ b.live = false) ∧
          ∀ e', e' < e → ∃ b, bs[(ind + e') % bs.length]? = some b ∧
            b.live = true ∧ b.holds key = false) ∧
      (∀ j, probe_insert key bs n ind = .duplicate j ↔
        ∃ e, e < n ∧
          ((ind + e) % bs.length = j ∧ ∃ b, bs[j]? = some b ∧ b.holds key = true) ∧
          ∀ e', e' < e → ∃ b, bs[(ind + e') % bs.length]? = some b ∧
            b.live = true ∧ b.holds key = false) ∧
      (probe_insert key bs n ind = .exhausted ↔
        ∀ e, e < n → ∃ b, bs[(ind + e) % bs.length]? = some b ∧
          b.live = true ∧ b.holds key = false) := by
  intro n
  induction n with
  | zero =>
    intro ind _
    simp [probe_insert]
  | succ n ih =>
    intro ind hind
    have hpos : 0 < bs.length := by omega
    obtain ⟨ih1, ih2, ih3⟩ := ih ((ind + 1) % bs.length) (Nat.mod_lt _ hpos)
    have hb : bs[ind]? = some bs[ind] := List.getElem?_eq_getElem hind
    generalize bs[ind] = b at hb
    refine ⟨fun j => ?_, fun j => ?_, ?_⟩
    · rw [first_stop_succ n hind
        (fun s => s = j ∧ ∃ b, bs[j]? = some b ∧ b.live = false)
        (fun s => ∃ b, bs[s]? = some b ∧ b.live = true ∧ b.holds key = false), ← ih1 j]
      rw [probe_insert]
      simp only [hb]
      cases hl : b.live with
      | false =>
        simp only [Bool.not_false, if_true, insert_slot.here.injEq]
        constructor
        · rintro rfl
          exact Or.inl ⟨rfl, b, hb, hl⟩
        · rintro (⟨h, -⟩ | ⟨⟨b', hb', hl', -⟩, -⟩)
          · exact h
          · cases hb'
            rw [hl] at hl'
            cases hl'
      | true =>
        simp only [Bool.not_true, Bool.false_eq_true, if_false]
        cases hh : b.holds key with
        | true =>
          simp only [if_true]
          constructor
          · intro h
            cases h
          · rintro (⟨rfl, b', hb', hl'⟩ | ⟨⟨b', hb', -, hh'⟩, -⟩)
            · rw [hb] at hb'
              cases hb'
              rw [hl] at hl'
              cases hl'
            · cases hb'
              rw [hh] at hh'
              cases hh'
        | false =>
          simp only [Bool.false_eq_true, if_false]
          constructor
          · intro h
            exact Or.inr ⟨⟨b, rfl, hl, hh⟩, h⟩
          · rintro (⟨rfl, b', hb', hl'⟩ | ⟨-, h⟩)
            · rw [hb] at hb'
              cases hb'
              rw [hl] at hl'
              cases hl'
            · exact h
    · rw [first_stop_succ n hind
        (fun s => s = j ∧ ∃ b, bs[j]? = some b ∧ b.holds key = true)
        (fun s => ∃ b, bs[s]? = some b ∧ b.live = true ∧ b.holds key = false), ← ih2 j]
      rw [probe_insert]
      simp only [hb]
      cases hl : b.live with
      | false =>
        have hh : b.holds key = false := by
          cases hh : b.holds key with
          | false => rfl
          | true =>
            rw [bucket.holds_live hh] at hl
            cases hl
        simp only [Bool.not_false, if_true]
        constructor
        · intro h
          cases h
        · rintro (⟨rfl, b', hb', hh'⟩ | ⟨⟨b', hb', hl', -⟩, -⟩)
          · rw [hb] at hb'
            cases hb'
            rw [hh] at hh'
            cases hh'
          · cases hb'
            rw [hl] at hl'
            cases hl'
      | true =>
        simp only [Bool.not_true, Bool.false_eq_true, if_false]
        cases hh : b.holds key with
        | true =>
          simp only [if_true, insert_slot.duplicate.injEq]
          constructor
          · rintro rfl
            exact Or.inl ⟨rfl, b, hb, hh⟩
          · rintro (⟨h, -⟩ | ⟨⟨b', hb', -, hh'⟩, -⟩)
            · exact h
            · cases hb'
              rw [hh] at hh'
              cases hh'
        | false =>
          simp only [Bool.false_eq_true, if_false]
          constructor
          · intro h
            exact Or.inr ⟨⟨b, rfl, hl, hh⟩, h⟩
          · rintro (⟨rfl, b', hb', hh'⟩ | ⟨-, h⟩)
            · rw [hb] at hb'
              cases hb'
              rw [hh] at hh'
              cases hh'
            · exact h
    · rw [all_steps_succ n hind
        (fun s => ∃ b, bs[s]? = some b ∧ b.live = true ∧ b.holds key = false), ← ih3]
      rw [probe_insert]
      simp only [hb]
      cases hl : b.live with
      | false =>
        simp only [Bool.not_false, if_true]
        constructor
        · intro h
          cases h
        · rintro ⟨⟨b', hb', hl', -⟩, -⟩
          cases hb'
          rw [hl] at hl'
          cases hl'
      | true =>
        simp only [Bool.not_true, Bool.false_eq_true, if_false]
        cases hh : b.holds key with
        | true =>
          simp only [if_true]
          constructor
          · intro h
            cases h
          · rintro ⟨⟨b', hb', -, hh'⟩, -⟩
            cases hb'
            rw [hh] at hh'
            cases hh'
        | false =>
          simp only [Bool.false_eq_true, if_false]
          constructor
          · intro h
            exact ⟨⟨b, rfl, hl, hh⟩, h⟩
          · rintro ⟨-, h⟩
            exact h

theorem probe_reach_iff {bs : List (bucket K V)} (j : Nat) :
    ∀ (n ind : Nat), ind < bs.length →
      (probe_reach bs n ind j = true ↔
        ∃ e, e < n ∧ (ind + e) % bs.length = j ∧
          ∀ e', e' < e → ∃ b, bs[(ind + e') % bs.length]? = some b ∧ b.occupied_ = true) := by
  intro n
  induction n with
  | zero =>
    intro ind _
    simp [probe_reach]
  | succ n ih =>
    intro ind hind
    have hpos : 0 < bs.length := by omega
    rw [first_stop_succ n hind (fun s => s = j)
      (fun s => ∃ b, bs[s]? = some b ∧ b.occupied_ = true),
      ← ih ((ind + 1) % bs.length) (Nat.mod_lt _ hpos)]
    have hb : bs[ind]? = some bs[ind] := List.getElem?_eq_getElem hind
    generalize bs[ind] = b at hb
    rw [probe_reach]
    simp only [hb, Bool.or_eq_true, decide_eq_true_eq, Bool.and_eq_true, Option.some.injEq,
      exists_eq_left']

theorem map.hold_hashpower (m : map K V) (l : Nat) : (m.hold l).hashpower = m.hashpower := by
  unfold map.hashpower
  rw [map.hold_buckets]

theorem map.inv.loop_found {m : map K V} (hinv : map.inv hash_fn m) (key : K) (hv : Nat)
    (hne : probe_insert key m.buckets_.buckets_ (probe_budget m.hashpower)
      (index_hash m.hashpower hv) ≠ .exhausted) :
    ∃ (j : Nat) (st : op_status),
      map.linear_insert_loop hash_fn (probe_budget m.hashpower + 1) m key hv
        = .ok (m.hold (m.stripe j), ⟨j, st, some (m.stripe j)⟩) ∧
      ((st = .ok ∧ probe_insert key m.buckets_.buckets_ (probe_budget m.hashpower)
          (index_hash m.hashpower hv) = .here j) ∨
        (st = .failure_key_duplicated ∧
          probe_insert key m.buckets_.buckets_ (probe_budget m.hashpower)
            (index_hash m.hashpower hv) = .duplicate j)) := by
  obtain ⟨x, hx⟩ := hinv.go_found key hv (probe_budget m.hashpower) 0 _
    (Nat.sub_zero _) (probe_budget_pos _) (index_hash_lt _ _) hne
  have hl : map.linear_insert_loop hash_fn (probe_budget m.hashpower + 1) m key hv = .ok x := by
    rw [map.linear_insert_loop]
    exact hx
  obtain ⟨m0, j, -, -, hor, hx1, hres⟩ := (map.sound _).2.2.2.2.2 m key hv x hinv hl
  have hm0 : m0 = m := by
    rcases hor with h | h
    · exact h
    · exact absurd h hne
  subst hm0
  obtain ⟨x1, x2⟩ := x
  simp only at hx1 hres
  subst hx1
  rcases hres with ⟨h1, h2⟩ | ⟨h1, h2⟩
  · subst h1
    exact ⟨j, .ok, hl, Or.inl ⟨rfl, h2⟩⟩
  · subst h1
    exact ⟨j, .failure_key_duplicated, hl, Or.inr ⟨rfl, h2⟩⟩

theorem map.inv.loop_grows_iff {m : map K V} (hinv : map.inv hash_fn m) (key : K) (hv : Nat)
    {fuel : Nat} {x : map K V × table_position}
    (h : map.linear_insert_loop hash_fn fuel m key hv = .ok x) :
    (m.hashpower < x.1.hashpower ↔
      probe_insert key m.buckets_.buckets_ (probe_budget m.hashpower)
        (index_hash m.hashpower hv) = .exhausted) ∧
    (x.1.hashpower = m.hashpower ∨ m.hashpower < x.1.hashpower) := by
  obtain ⟨m0, j, -, hg, hor, hx1, hres⟩ := (map.sound _).2.2.2.2.2 m key hv x hinv h
  have hhp : x.1.hashpower = m0.hashpower := by
    rw [hx1]
    exact map.hold_hashpower _ _
  refine ⟨⟨fun hlt => ?_, fun hex => ?_⟩, ?_⟩
  · rcases hor with h0 | h0
    · subst h0
      omega
    · exact h0
  · rcases hg.2.2.2.2.2 with h0 | h0
    · subst h0
      rcases hres with ⟨-, h2⟩ | ⟨-, h2⟩
      · rw [hex] at h2
        cases h2
      · rw [hex] at h2
        cases h2
    · omega
  · rcases hg.2.2.2.2.2 with h0 | h0
    · subst h0
      exact Or.inl hhp
    · exact Or.inr (by omega)

theorem map.shrink_mono :
    ∀ (fuel fuel' : Nat) (m x : map K V), fuel ≤ fuel' →
      map.shrink hash_fn fuel m = .ok x → map.shrink hash_fn fuel' m = .ok x := by
  intro fuel
  induction fuel with
  | zero => intro fuel' m x _ h; simp [map.shrink] at h
  | succ f ih =>
    intro fuel' m x hle h
    obtain ⟨f', rfl⟩ : ∃ f', fuel' = f' + 1 := ⟨fuel' - 1, by omega⟩
    rw [map.shrink] at h ⊢
    cases hlf : m.load_factor with
    | error e => simp [hlf] at h
    | ok lf =>
      simp only [hlf] at h ⊢
      split
      · rename_i hc
        simp only [hc, if_true] at h
        split
        · rename_i hgt
          simp only [hgt, if_true] at h
          cases hex : map.linear_expand hash_fn f m m.hashpower (m.hashpower - 1) with
          | error e => simp [hex] at h
          | ok q =>
            simp only [hex] at h
            rw [map.linear_expand_mono (by omega : f ≤ f') hex]
            exact ih f' _ x (by omega) h
        · rename_i hgt
          simp only [hgt, if_false] at h
          exact h
      · rename_i hc
        simp only [hc, if_false] at h
        exact h

theorem map.rehash_mono {fuel fuel' : Nat} (hle : fuel ≤ fuel') {m : map K V} {hp : Nat}
    {x : map K V × Bool} (h : map.rehash hash_fn fuel m hp = .ok x) :
    map.rehash hash_fn fuel' m hp = .ok x := by
  unfold map.rehash map.linear_rehash at h ⊢
  by_cases hhp : hp = m.hashpower
  · simp only [hhp, if_true] at h ⊢
    exact h
  · simp only [hhp, if_false] at h ⊢
    cases hex : map.linear_expand hash_fn fuel m m.hashpower hp with
    | error e => simp [hex] at h
    | ok q =>
      simp only [hex] at h
      rw [map.linear_expand_mono hle hex]
      exact h

theorem map.reserve_mono {fuel fuel' : Nat} (hle : fuel ≤ fuel') {m : map K V} {n : Nat}
    {x : map K V × Bool} (h : map.reserve hash_fn fuel m n = .ok x) :
    map.reserve hash_fn fuel' m n = .ok x := by
  unfold map.reserve map.linear_reserve at h ⊢
  cases hrc : map.reserve_calc n with
  | error e => simp [hrc] at h
  | ok new_hp =>
    simp only [hrc] at h ⊢
    by_cases hhp : new_hp = m.hashpower
    · simp only [hhp, if_true] at h ⊢
      exact h
    · simp only [hhp, if_false] at h ⊢
      cases hex : map.linear_expand hash_fn fuel m m.hashpower new_hp with
      | error e => simp [hex] at h
      | ok q =>
        simp only [hex] at h
        rw [map.linear_expand_mono hle hex]
        exact h

theorem map.apply_mono {fuel fuel' : Nat} (hle : fuel ≤ fuel') {m m' : map K V} {o : op K V}
    (h : map.apply hash_fn fuel m o = .ok m') : map.apply hash_fn fuel' m o = .ok m' := by
  cases o with
  | insert key val =>
    obtain ⟨b, hb⟩ := except_map_fst h
    simp only [map.apply, map.insert_mono hle hb]
    rfl
  | insert_or_assign key val =>
    obtain ⟨b, hb⟩ := except_map_fst h
    have := map.upsert_mono hle hb
    simp only [map.apply, map.insert_or_assign, this]
    rfl
  | upsert key fn val =>
    obtain ⟨b, hb⟩ := except_map_fst h
    simp only [map.apply, map.upsert_mono hle hb]
    rfl
  | update key val => exact h
  | update_fn key fn => exact h
  | find key val => exact h
  | erase key => exact h
  | clear => exact h
  | rehash hp =>
    obtain ⟨b, hb⟩ := except_map_fst h
    simp only [map.apply, map.rehash_mono hle hb]
    rfl
  | reserve n =>
    obtain ⟨b, hb⟩ := except_map_fst h
    simp only [map.apply, map.reserve_mono hle hb]
    rfl
  | shrink => exact map.shrink_mono fuel fuel' m m' hle h

/-! ## Termination of the insert path with a bound on the resizes -/

theorem map.hold_history (m : map K V) (l : Nat) :
    (m.hold l).all_locks_.length = m.all_locks_.length := by
  unfold map.hold
  split
  · rfl
  · rename_i cur older hc
    split
    · rfl
    · simp [hc]

theorem map.add_counter_history (m : map K V) (l : Nat) (d : Int) :
    (m.add_counter l d).all_locks_.length = m.all_locks_.length := by
  unfold map.add_counter
  split
  · rfl
  · rename_i cur older hc
    split
    · rfl
    · simp [hc]

theorem map.stored_shape (m : map K V) (j : Nat) (key : K) (val : V) :
    (m.stored j key val).hashpower = m.hashpower ∧
    (m.stored j key val).all_locks_.length = m.all_locks_.length := by
  refine ⟨?_, ?_⟩
  · unfold map.hashpower
    rw [map.stored_buckets]
  · unfold map.stored
    rw [map.add_counter_history]
    rfl

theorem map.inv.uprase_fn_shape {m : map K V} (hinv : map.inv hash_fn m) {fuel : Nat}
    {key : K} {fn : V → V} {val : V} {x : map K V × table_position} {y : map K V × Bool}
    (hl : map.linear_insert_loop hash_fn fuel m key (map.hashed_key hash_fn key) = .ok x)
    (hy : map.uprase_fn hash_fn (fuel + 1) m key (fun v => (fn v, false)) val = .ok y) :
    y.1.hashpower = x.1.hashpower ∧ y.1.all_locks_.length = x.1.all_locks_.length := by
  obtain ⟨m1, pos⟩ := x
  rw [map.uprase_fn] at hy
  simp only [hl] at hy
  obtain ⟨m0, j, hinv0, -, -, hm1, hres⟩ := (map.sound fuel).2.2.2.2.2 m key _ _ hinv hl
  simp only at hm1 hres
  subst hm1
  simp only [map.hold_hashpower, map.hold_history]
  rcases hres with ⟨hpos, hprobe⟩ | ⟨hpos, hprobe⟩
  · subst hpos
    obtain ⟨b, hb, hbl⟩ := (probe_insert_slot _ _ j).1 hprobe
    have hc : (!b.occupied_ || b.deleted_) = true := by
      simp only [bucket.live] at hbl
      cases ho : b.occupied_ <;> cases hd : b.deleted_ <;> simp [ho, hd] at hbl ⊢
    obtain ⟨m2, hm2, hrel⟩ := hinv0.release_bump j
      ⟨m0.buckets_.hashpower_, m0.buckets_.buckets_.set j ⟨some (key, val), true, false⟩⟩ 1
    simp only [map.add_to_bucket, table.setKV, map.hold_buckets, hb, hc, if_true, hm2,
      map.release, hrel] at hy
    simp at hy
    have hy1 : y.1 = m0.stored j key val := by rw [← hy]; rfl
    rw [hy1]
    exact map.stored_shape m0 j key val
  · subst hpos
    obtain ⟨b, hb, hbh⟩ := (probe_insert_slot _ _ j).2 hprobe
    obtain ⟨-, -, v, hst⟩ := (bucket.holds_iff _ _).1 hbh
    simp only [map.read_slot, map.hold_buckets, hb, hst, hinv0.release_write] at hy
    simp at hy
    rw [← hy]
    exact ⟨rfl, rfl⟩

theorem map.migrate_fold_returns_bounded (src : List (bucket K V)) (B : Nat)
    (hinit : ∀ (i : Nat) (b : bucket K V), src[i]? = some b → b.live = true →
      b.storage_.isSome = true)
    (hins : ∀ (nm : map K V), map.inv hash_fn nm → live_count nm.buckets_.buckets_ < B →
      ∀ (k : K) (v : V), ∃ fuel x, map.insert hash_fn fuel nm k v = .ok x ∧
        x.1.hashpower ≤ max nm.hashpower (live_count nm.buckets_.buckets_ + 1)) :
    ∀ (l : List Nat) (nm : map K V), (∀ i ∈ l, i < src.length) → map.inv hash_fn nm →
      live_count nm.buckets_.buckets_ + l.countP (live_at src) ≤ B →
      ∃ F nm', List.foldlM (map.migrate_step (map.insert hash_fn F) src) nm l = .ok nm' ∧
        nm'.hashpower
          ≤ max nm.hashpower (live_count nm.buckets_.buckets_ + l.countP (live_at src)) := by
  intro l
  induction l with
  | nil =>
    intro nm _ _ _
    exact ⟨0, nm, rfl, Nat.le_max_left _ _⟩
  | cons i l ih =>
    intro nm hl hinv hB
    have hi : i < src.length := hl i (List.mem_cons_self _ _)
    have hl' : ∀ i' ∈ l, i' < src.length := fun i' hi' => hl i' (List.mem_cons_of_mem _ hi')
    have hbe : src[i]? = some src[i] := List.getElem?_eq_getElem hi
    generalize src[i] = b at hbe
    rw [List.countP_cons] at hB ⊢
    by_cases hlive : b.live = true
    · have hla : live_at src i = true := by unfold live_at; simp [hbe, hlive]
      simp only [hla, if_true] at hB ⊢
      cases hst : b.storage_ with
      | none =>
        have := hinit i b hbe hlive
        simp [hst] at this
      | some kv =>
        obtain ⟨k, v⟩ := kv
        obtain ⟨F1, x, hx, hxb⟩ := hins nm hinv (by omega) k v
        obtain ⟨nm1, r⟩ := x
        have hpost := hinv.insert_sound hx
        have hb1 := hpost.bounds
        simp only at hb1 hxb
        obtain ⟨F2, nm', hF2, hb2⟩ := ih nm1 hl' hpost.keeps_inv (by omega)
        refine ⟨max F1 F2, nm', ?_, ?_⟩
        · have hcond : (b.occupied_ && !b.deleted_) = true := hlive
          simp only [List.foldlM_cons, bind, Except.bind, map.migrate_step, hbe, hcond,
            if_true, hst, map.insert_mono (Nat.le_max_left F1 F2) hx]
          exact foldlM_ok_mono
            (fun b a y hy => map.migrate_step_mono
              (fun m k v y h => map.insert_mono (Nat.le_max_right F1 F2) h) src b a y hy)
            _ _ _ hF2
        · have h3 := hb1.2.2
          omega
    · have hla : live_at src i = false := by
        unfold live_at
        simp only [hbe]
        simpa using hlive
      simp only [hla, Bool.false_eq_true, if_false, Nat.add_zero] at hB ⊢
      obtain ⟨F2, nm', hF2, hb2⟩ := ih nm hl' hinv (by omega)
      refine ⟨F2, nm', ?_, hb2⟩
      have hcond : ¬ (b.occupied_ && !b.deleted_) = true := hlive
      simp only [List.foldlM_cons, bind, Except.bind, map.migrate_step, hbe, hcond, if_false]
      exact hF2

theorem map.inv.loop_returns_bounded :
    ∀ (n d : Nat) (m : map K V), map.inv hash_fn m → live_count m.buckets_.buckets_ ≤ n →
      n + 1 - m.hashpower = d → ∀ (key : K) (hv : Nat),
      ∃ fuel x, map.linear_insert_loop hash_fn fuel m key hv = .ok x ∧
        x.1.hashpower ≤ max m.hashpower (live_count m.buckets_.buckets_ + 1) ∧
        x.1.all_locks_.length + m.hashpower ≤ m.all_locks_.length + x.1.hashpower := by
  intro n
  induction n using Nat.strong_induction_on with
  | _ n ihn =>
    intro d
    induction d using Nat.strong_induction_on with
    | _ d ihd =>
      intro m hinv hlc hd key hv
      have hhome : index_hash m.hashpower hv < 2 ^ m.hashpower := index_hash_lt _ _
      by_cases hres : probe_insert key m.buckets_.buckets_ (probe_budget m.hashpower)
          (index_hash m.hashpower hv) = .exhausted
      · have hlen := hinv.len
        have hpig : probe_budget m.hashpower ≤ live_count m.buckets_.buckets_ := by
          apply live_count_ge_of_run (index_hash m.hashpower hv)
          · rw [hlen]; exact probe_budget_le _
          · exact probe_insert_exhausted_live _ _ hres (by rw [hlen]; exact hhome)
        have hbpos := probe_budget_pos m.hashpower
        have hins : ∀ (nm : map K V), map.inv hash_fn nm →
            live_count nm.buckets_.buckets_ < live_count m.buckets_.buckets_ →
            ∀ (k : K) (v : V), ∃ fuel x, map.insert hash_fn fuel nm k v = .ok x ∧
              x.1.hashpower ≤ max nm.hashpower (live_count nm.buckets_.buckets_ + 1) := by
          intro nm hinvn hlt k v
          obtain ⟨F, x, hx, hxb, -⟩ := ihn (n - 1) (by omega) _ nm hinvn (by omega) rfl k
            (map.hashed_key hash_fn k)
          obtain ⟨y, hy⟩ := hinvn.uprase_fn_returns (fun v => v) v hx
          have hsh := hinvn.uprase_fn_shape hx hy
          refine ⟨F + 1 + 1 + 1, y, by rw [map.insert, map.upsert]; exact hy, ?_⟩
          rw [hsh.1]
          exact hxb
        obtain ⟨F0, nm', hfo, hnmb⟩ := map.migrate_fold_returns_bounded m.buckets_.buckets_
          (live_count m.buckets_.buckets_) hinv.init hins
          (List.range (hashsize m.buckets_.hashpower_))
          (map.new (m.hashpower + 1))
          (by intro i hi; rw [List.mem_range, hashsize_eq] at hi; rw [hlen]; exact hi)
          (map.inv_new _)
          (by
            have h0 : live_count (map.new (m.hashpower + 1) : map K V).buckets_.buckets_ = 0 :=
              live_count_replicate _
            rw [h0, live_count_eq_countP _ _ hlen]
            omega)
        have h0 : live_count (map.new (m.hashpower + 1) : map K V).buckets_.buckets_ = 0 :=
          live_count_replicate _
        rw [h0, live_count_eq_countP _ _ hlen] at hnmb
        have hnew : (map.new (m.hashpower + 1) : map K V).hashpower = m.hashpower + 1 := rfl
        rw [hnew] at hnmb
        obtain ⟨m2, hex, hbuck⟩ := hinv.linear_expand_of_fold hfo
        have hm2hp : m2.hashpower = nm'.hashpower := by
          unfold map.hashpower
          rw [hbuck]
        obtain ⟨-, hinv2, hhp2, -, hlc2, -, -⟩ := hinv.expand_sound hex
        obtain ⟨nl, hhist, -⟩ := hinv.expand_history hex
        simp only at hinv2 hhp2 hlc2 hhist
        have hhp : m.hashpower ≤ probe_budget m.hashpower := by unfold probe_budget; omega
        obtain ⟨F2, x, hx, hxb, hxh⟩ :=
          ihd (n + 1 - m2.hashpower) (by omega) m2 hinv2 (by omega) rfl key hv
        cases F2 with
        | zero => simp [map.linear_insert_loop] at hx
        | succ F2 =>
          rw [map.linear_insert_loop] at hx
          have hex' := map.linear_expand_mono (Nat.le_max_left (F0 + 1) F2) hex
          have hgo' := map.linear_insert_loop_go_mono (Nat.le_max_right (F0 + 1) F2) hx
          have := hinv.go_exhausted key hv hex' hgo' (probe_budget m.hashpower) 0 _
            (Nat.sub_zero _) hbpos hhome hres
          refine ⟨_ + 1, x, by rw [map.linear_insert_loop]; exact this, ?_, ?_⟩
          · omega
          · rw [hhist] at hxh
            simp only [List.length_cons] at hxh
            omega
      · obtain ⟨j, st, hl, -⟩ := hinv.loop_found key hv hres
        refine ⟨_, _, hl, ?_, ?_⟩
        · simp only [map.hold_hashpower]
          exact Nat.le_max_left _ _
        · simp only [map.hold_hashpower, map.hold_history]
          exact Nat.le_refl _

theorem map.inv.insert_returns_bounded {m : map K V} (hinv : map.inv hash_fn m) (key : K)
    (val : V) :
    ∃ fuel x, map.insert hash_fn fuel m key val = .ok x ∧
      x.1.hashpower ≤ max m.hashpower (live_count m.buckets_.buckets_ + 1) ∧
      x.1.all_locks_.length + m.hashpower ≤ m.all_locks_.length + x.1.hashpower := by
  obtain ⟨F, x, hx, hxb, hxh⟩ := map.inv.loop_returns_bounded _ _ m hinv (Nat.le_refl _) rfl key
    (map.hashed_key hash_fn key)
  obtain ⟨y, hy⟩ := hinv.uprase_fn_returns (fun v => v) val hx
  have hsh := hinv.uprase_fn_shape hx hy
  refine ⟨F + 1 + 1 + 1, y, by rw [map.insert, map.upsert]; exact hy, ?_, ?_⟩
  · rw [hsh.1]
    exact hxb
  · rw [hsh.1, hsh.2]
    exact hxh

/-! ## Filling a table with the keys `0, 1, …` under the identity hash -/

theorem filled_slots_length (hp n : Nat) : (filled_slots hp n).length = 2 ^ hp := by
  simp [filled_slots]

theorem filled_slots_get {hp n j : Nat} (hj : j < 2 ^ hp) :
    (filled_slots hp n)[j]? = some (if j < n then live_slot j j else bucket.new) := by
  simp [filled_slots, List.getElem?_map, List.getElem?_range hj]

theorem filled_slots_set {hp n : Nat} (hn : n < 2 ^ hp) :
    (filled_slots hp n).set n ⟨some (n, n), true, false⟩ = filled_slots hp (n + 1) := by
  apply List.ext_getElem?
  intro j
  by_cases hj : j < 2 ^ hp
  · rw [filled_slots_get hj]
    by_cases hjn : j = n
    · subst hjn
      rw [List.getElem?_set_self (by rw [filled_slots_length]; exact hj)]
      simp [live_slot]
    · rw [List.getElem?_set_ne (fun h => hjn h.symm), filled_slots_get hj]
      have : (j < n + 1) = (j < n) := by
        apply propext
        omega
      simp only [this]
  · rw [List.getElem?_eq_none (by rw [List.length_set, filled_slots_length]; omega),
      List.getElem?_eq_none (by rw [filled_slots_length]; omega)]

theorem filled_slots_zero (hp : Nat) :
    filled_slots hp 0 = List.replicate (2 ^ hp) (bucket.new : bucket Nat Nat) := by
  apply List.ext_getElem?
  intro j
  by_cases hj : j < 2 ^ hp
  · rw [filled_slots_get hj, List.getElem?_replicate]
    simp [hj]
  · rw [List.getElem?_eq_none (by rw [filled_slots_length]; omega),
      List.getElem?_eq_none (by rw [List.length_replicate]; omega)]

theorem live_at_filled {hp n j : Nat} (hn : n ≤ 2 ^ hp) :
    live_at (filled_slots hp n) j = decide (j < n) := by
  unfold live_at
  by_cases hj : j < 2 ^ hp
  · rw [filled_slots_get hj]
    by_cases hjn : j < n
    · simp [hjn, live_slot, bucket.live]
    · simp [hjn, bucket.new, bucket.live]
  · rw [List.getElem?_eq_none (by rw [filled_slots_length]; omega)]
    have : ¬ j < n := by omega
    simp [this]

theorem countP_lt_range (N n : Nat) (hn : n ≤ N) :
    (List.range N).countP (fun j => decide (j < n)) = n := by
  induction N with
  | zero =>
    have : n = 0 := by omega
    subst this
    rfl
  | succ N ih =>
    rw [List.range_succ, List.countP_append]
    by_cases hN : n ≤ N
    · rw [ih hN]
      have : ¬ N < n := by omega
      simp [this]
    · have hnN : n = N + 1 := by omega
      subst hnN
      have hall : (List.range N).countP (fun j => decide (j < N + 1)) = N := by
        rw [List.countP_eq_length_filter, List.filter_eq_self.2, List.length_range]
        intro a ha
        rw [List.mem_range] at ha
        simp only [decide_eq_true_eq]
        omega
      rw [hall]
      simp

theorem live_count_filled {hp n : Nat} (hn : n ≤ 2 ^ hp) :
    live_count (filled_slots hp n) = n := by
  unfold live_count
  rw [filled_slots_length]
  have : live_at (filled_slots hp n) = fun j => decide (j < n) := by
    funext j
    exact live_at_filled hn
  rw [this]
  exact countP_lt_range _ _ hn

theorem map.filled_new (hp : Nat) : (map.new hp : map Nat Nat).filled hp 0 := by
  refine ⟨map.inv_new hp, map.counted_new hp, ?_⟩
  simp only [map.new, table.new, Nat.one_shiftLeft, filled_slots_zero]

theorem map.filled.size_eq_count {m : map Nat Nat} {hp n : Nat} (h : m.filled hp n)
    (hn : n ≤ 2 ^ hp) : m.size = .ok n := by
  rw [h.1.size_eq h.2.1, h.2.2]
  simp only [live_count_filled hn]

theorem map.filled.insert_next {m : map Nat Nat} {hp n : Nat} (h : m.filled hp n)
    (hn : n < 2 ^ hp) :
    ∃ fuel m', map.insert identity_hash fuel m n n = .ok (m', true) ∧ m'.filled hp (n + 1) := by
  obtain ⟨hinv, hc, hb⟩ := h
  have hhp : m.hashpower = hp := by
    unfold map.hashpower
    rw [hb]
  have hhome : m.home identity_hash n = n := by
    unfold map.home identity_hash
    rw [hhp, index_hash_eq, Nat.mod_eq_of_lt hn]
  have hslot : m.buckets_.buckets_[n]? = some bucket.new := by
    rw [hb]
    simp only
    rw [filled_slots_get hn]
    simp
  have hprobe : probe_insert n m.buckets_.buckets_ (probe_budget m.hashpower)
      (m.home identity_hash n) = .here n := by
    rw [hhome]
    obtain ⟨k, hk⟩ : ∃ k, probe_budget m.hashpower = k + 1 :=
      ⟨probe_budget m.hashpower - 1, by have := probe_budget_pos m.hashpower; omega⟩
    rw [hk, probe_insert]
    simp [hslot, bucket.new, bucket.live]
  obtain ⟨fuel, x, hx⟩ := hinv.insert_returns n n
  have hxe := hinv.insert_here hprobe hx
  subst hxe
  refine ⟨fuel, _, hx, ?_, ?_, ?_⟩
  · exact (hinv.insert_sound hx).keeps_inv
  · exact (hinv.insert_sound hx).keeps_counted hc
  · rw [map.stored_buckets, hb]
    simp only
    rw [filled_slots_set hn]

theorem map.inv.insert_via_expand {m m2 : map K V} (hinv : map.inv hash_fn m) {key : K}
    {val : V} {F F2 : Nat} {st : op_status} {y : map K V × Bool}
    (hexh : probe_insert key m.buckets_.buckets_ (probe_budget m.hashpower)
      (index_hash m.hashpower (hash_fn key)) = .exhausted)
    (hex : map.linear_expand hash_fn F m m.hashpower (m.hashpower + 1) = .ok (m2, st))
    (hy : map.insert hash_fn F2 m2 key val = .ok y) :
    ∃ fuel, map.insert hash_fn fuel m key val = .ok y := by
  obtain ⟨f, rfl⟩ : ∃ f, F2 = f + 1 + 1 + 1 := by
    cases F2 with
    | zero => simp [map.insert] at hy
    | succ a =>
      cases a with
      | zero => simp [map.insert, map.upsert] at hy
      | succ b =>
        cases b with
        | zero => simp [map.insert, map.upsert, map.uprase_fn] at hy
        | succ c => exact ⟨c, rfl⟩
  rw [map.insert, map.upsert, map.uprase_fn] at hy
  cases hl : map.linear_insert_loop hash_fn f m2 key (map.hashed_key hash_fn key) with
  | error e => simp [hl] at hy
  | ok x =>
    simp only [hl] at hy
    cases f with
    | zero => simp [map.linear_insert_loop] at hl
    | succ f =>
      rw [map.linear_insert_loop] at hl
      have hex' := map.linear_expand_mono (Nat.le_max_left F f) hex
      have hgo' := map.linear_insert_loop_go_mono (Nat.le_max_right F f) hl
      have hgo := hinv.go_exhausted key (map.hashed_key hash_fn key) hex' hgo'
        (probe_budget m.hashpower) 0 _ (Nat.sub_zero _) (probe_budget_pos _)
        (index_hash_lt _ _) hexh
      refine ⟨max F f + probe_budget m.hashpower + 1 + 1 + 1 + 1, ?_⟩
      rw [map.insert, map.upsert, map.uprase_fn]
      have hloop : map.linear_insert_loop hash_fn (max F f + probe_budget m.hashpower + 1) m key
          (map.hashed_key hash_fn key) = .ok x := by
        rw [map.linear_insert_loop]
        exact hgo
      simp only [hloop]
      exact hy

theorem map.filled.migrate {hp hp' n : Nat} (hle : 2 ^ hp ≤ 2 ^ hp') :
    ∀ L, L ≤ 2 ^ hp →
      ∃ F nm, List.foldlM (map.migrate_step (map.insert identity_hash F) (filled_slots hp n))
          (map.new hp') (List.range L) = .ok nm ∧ nm.filled hp' (min L n) := by
  intro L
  induction L with
  | zero =>
    intro _
    refine ⟨0, map.new hp', rfl, ?_⟩
    rw [Nat.zero_min]
    exact map.filled_new hp'
  | succ L ih =>
    intro hL
    obtain ⟨F, nm, hF, hnm⟩ := ih (by omega)
    have hsrc := @filled_slots_get hp n L (by omega)
    by_cases hLn : L < n
    · rw [Nat.min_eq_left (by omega)] at hnm
      obtain ⟨F', m', hins, hm'⟩ := hnm.insert_next (by omega)
      refine ⟨max F F', m', ?_, ?_⟩
      · rw [List.range_succ, List.foldlM_append]
        have hfold := foldlM_ok_mono
          (fun b a y hy => map.migrate_step_mono
            (fun m k v y h => map.insert_mono (Nat.le_max_left F F') h)
            (filled_slots hp n) b a y hy) _ _ _ hF
        rw [hfold]
        simp only [hLn, if_true] at hsrc
        simp only [bind, Except.bind, List.foldlM_cons, List.foldlM_nil, map.migrate_step, hsrc,
          live_slot, Bool.not_false, Bool.and_self, if_true,
          map.insert_mono (Nat.le_max_right F F') hins]
        rfl
      · rw [Nat.min_eq_left (by omega)]
        exact hm'
    · have hmin : min (L + 1) n = min L n := by
        rw [Nat.min_eq_right (by omega), Nat.min_eq_right (by omega)]
      refine ⟨F, nm, ?_, by rw [hmin]; exact hnm⟩
      rw [List.range_succ, List.foldlM_append, hF]
      simp only [hLn, if_false] at hsrc
      simp only [bind, Except.bind, List.foldlM_cons, List.foldlM_nil, map.migrate_step, hsrc,
        bucket.new, Bool.false_and, Bool.false_eq_true, if_false]
      rfl

theorem map.filled.insert_full {m : map Nat Nat} {hp : Nat} (h : m.filled hp (2 ^ hp)) :
    ∃ fuel m', map.insert identity_hash fuel m (2 ^ hp) (2 ^ hp) = .ok (m', true) ∧
      m'.filled (hp + 1) (2 ^ hp + 1) := by
  obtain ⟨hinv, hc, hb⟩ := h
  have hhp : m.hashpower = hp := by
    unfold map.hashpower
    rw [hb]
  have hbs : m.buckets_.buckets_ = filled_slots hp (2 ^ hp) := by rw [hb]
  have hpos : 0 < 2 ^ hp := Nat.pow_pos (by omega)
  have hexh : probe_insert (2 ^ hp) m.buckets_.buckets_ (probe_budget m.hashpower)
      (index_hash m.hashpower (identity_hash (2 ^ hp))) = .exhausted := by
    have hhome : index_hash m.hashpower (identity_hash (2 ^ hp)) < m.buckets_.buckets_.length := by
      rw [hinv.len]
      exact index_hash_lt _ _
    refine (probe_insert_iff _ _ hhome).2.2.2 ?_
    intro e _
    rw [hbs, filled_slots_length]
    have hj : (index_hash m.hashpower (identity_hash (2 ^ hp)) + e) % 2 ^ hp < 2 ^ hp :=
      Nat.mod_lt _ hpos
    generalize (index_hash m.hashpower (identity_hash (2 ^ hp)) + e) % 2 ^ hp = j at hj
    refine ⟨live_slot j j, ?_, rfl, ?_⟩
    · rw [filled_slots_get hj]
      simp [hj]
    · have : ¬ j = 2 ^ hp := by omega
      simp [bucket.holds, live_slot, this]
  obtain ⟨F, nm, hfo, hnm⟩ := @map.filled.migrate hp (hp + 1) (2 ^ hp)
    (Nat.pow_le_pow_right (by omega) (by omega)) (2 ^ hp) (Nat.le_refl _)
  rw [Nat.min_self] at hnm
  have hfo' : List.foldlM (map.migrate_step (map.insert identity_hash F) m.buckets_.buckets_)
      (map.new (hp + 1)) (List.range (hashsize m.buckets_.hashpower_)) = .ok nm := by
    rw [hbs, hashsize_eq]
    have : m.buckets_.hashpower_ = hp := hhp
    rw [this]
    exact hfo
  obtain ⟨x, hex, hxb⟩ := hinv.linear_expand_of_fold hfo'
  obtain ⟨-, hinvx, -, -, -, hfx, -⟩ := hinv.expand_sound hex
  simp only at hinvx hfx
  have hxf : x.filled (hp + 1) (2 ^ hp) := ⟨hinvx, hfx.1, by rw [hxb, hnm.2.2]⟩
  obtain ⟨F2, m', hins, hm'⟩ := hxf.insert_next (by rw [Nat.pow_succ]; omega)
  have hex2 : map.linear_expand identity_hash (F + 1) m m.hashpower (m.hashpower + 1)
      = .ok (x, .ok) := by
    rw [show m.hashpower + 1 = hp + 1 by rw [hhp]]
    exact hex
  obtain ⟨fuel, hfuel⟩ := hinv.insert_via_expand hexh hex2 hins
  exact ⟨fuel, m', hfuel, hm'⟩

theorem map.filled.insert_range :
    ∀ (k n hp : Nat) (m : map Nat Nat), m.filled hp n → n ≤ 2 ^ hp →
      ∃ fuel m',
        map.insert_each identity_hash fuel m ((List.range' n k).map (fun i => (i, i)))
          = .ok (m', (List.range' n k).map (fun i => (true, i + 1))) ∧
        m'.filled (max hp (Nat.clog 2 (n + k))) (n + k) := by
  intro k
  induction k with
  | zero =>
    intro n hp m hm hn
    refine ⟨0, m, rfl, ?_⟩
    have : Nat.clog 2 n ≤ hp := (Nat.le_pow_iff_clog_le (by omega)).1 hn
    rw [Nat.add_zero, Nat.max_eq_left this]
    exact hm
  | succ k ih =>
    intro n hp m hm hn
    have hsum : n + 1 + k = n + (k + 1) := by omega
    have hpos : 0 < 2 ^ hp := Nat.pow_pos (by omega)
    have hstep : ∀ (hp1 : Nat) (F1 : Nat) (m1 : map Nat Nat),
        map.insert identity_hash F1 m n n = .ok (m1, true) → m1.filled hp1 (n + 1) →
        n + 1 ≤ 2 ^ hp1 → max hp1 (Nat.clog 2 (n + 1 + k)) = max hp (Nat.clog 2 (n + 1 + k)) →
        ∃ fuel m',
          map.insert_each identity_hash fuel m ((List.range' n (k + 1)).map (fun i => (i, i)))
            = .ok (m', (List.range' n (k + 1)).map (fun i => (true, i + 1))) ∧
          m'.filled (max hp (Nat.clog 2 (n + (k + 1)))) (n + (k + 1)) := by
      intro hp1 F1 m1 hins hm1 hn1 hmax
      obtain ⟨F2, m', hrun, hm'⟩ := ih (n + 1) hp1 m1 hm1 hn1
      rw [hmax, hsum] at hm'
      refine ⟨max F1 F2, m', ?_, hm'⟩
      simp only [List.range', List.map_cons, map.insert_each,
        map.insert_mono (Nat.le_max_left F1 F2) hins, hm1.size_eq_count hn1,
        map.insert_each_mono (Nat.le_max_right F1 F2) _ _ _ hrun]
    rcases Nat.lt_or_ge n (2 ^ hp) with hlt | hge
    · obtain ⟨F1, m1, hins, hm1⟩ := hm.insert_next hlt
      exact hstep hp F1 m1 hins hm1 (by omega) rfl
    · have hnn : n = 2 ^ hp := by omega
      subst hnn
      obtain ⟨F1, m1, hins, hm1⟩ := hm.insert_full
      refine hstep (hp + 1) F1 m1 hins hm1 (by rw [Nat.pow_succ]; omega) ?_
      have hnot : ¬ Nat.clog 2 (2 ^ hp + 1 + k) ≤ hp := by
        rw [← Nat.le_pow_iff_clog_le (by omega)]
        omega
      rw [Nat.max_eq_right (by omega), Nat.max_eq_right (by omega)]

/-! ## Maps constructed with a functor of their own -/

theorem map.uprase_fn_with_self (fuel : Nat) (m : map K V) (key : K) (fn : V → V × Bool)
    (val : V) :
    map.uprase_fn_with hash_fn hash_fn fuel m key fn val
      = map.uprase_fn hash_fn fuel m key fn val := by
  cases fuel with
  | zero => rw [map.uprase_fn]; rfl
  | succ f => rw [map.uprase_fn, map.uprase_fn_with]

theorem map.upsert_with_self (fuel : Nat) (m : map K V) (key : K) (fn : V → V) (val : V) :
    map.upsert_with hash_fn hash_fn fuel m key fn val = map.upsert hash_fn fuel m key fn val := by
  cases fuel with
  | zero => rw [map.upsert]; rfl
  | succ f => rw [map.upsert, map.upsert_with, map.uprase_fn_with_self]

theorem map.insert_with_self (fuel : Nat) (m : map K V) (key : K) (val : V) :
    map.insert_with hash_fn hash_fn fuel m key val = map.insert hash_fn fuel m key val := by
  cases fuel with
  | zero => rw [map.insert]; rfl
  | succ f => rw [map.insert, map.insert_with, map.upsert_with_self]

theorem map.new_range_with_self (fuel : Nat) (kvs : List (K × V)) (hp : Nat) :
    map.new_range_with hash_fn hash_fn fuel kvs hp = map.new_range hash_fn fuel kvs hp := by
  unfold map.new_range_with map.new_range
  simp only [map.insert_with_self]

end lemmas

/-! ## The claims -/

section claims

variable {K V : Type} [DecidableEq K] {hash_fn : K → Nat}

/-- C1: `insert` is documented to fail when the key is already in the table, but it stores the
pair in the first tombstone of the probe sequence without looking further.  In the reachable
map `key_behind_tombstone` (identity hash, hashpower 2, after `insert(0, 0); insert(4, 1);
erase(0)`) `find(4)` returns true with value 1, and yet `insert(4, 2)` returns true and
`size()` goes from 1 to 2. -/
theorem C1_insert_accepts_present_key :
    map.run identity_hash 20 (map.new 2) [.insert 0 0, .insert 4 1, .erase 0]
      = .ok key_behind_tombstone ∧
    map.find identity_hash key_behind_tombstone 4 0 = .ok (key_behind_tombstone, true, 1) ∧
    map.insert identity_hash 20 key_behind_tombstone 4 2 = .ok (key_stored_twice, true) ∧
    key_behind_tombstone.size = .ok 1 ∧ key_stored_twice.size = .ok 2 :=
  ⟨by with_unfolding_all rfl, by with_unfolding_all rfl, by with_unfolding_all rfl,
    by with_unfolding_all rfl, by with_unfolding_all rfl⟩

/-- C2: in every reachable state, when `insert(key, val)` returns true, the `find(key)` that
follows returns true with the value `val`, whether or not the insert resized the table. -/
theorem C2_find_after_insert {m m' : map K V} (hr : reachable hash_fn m) (fuel : Nat)
    (key : K) (val out : V)
    (h : map.insert hash_fn fuel m key val = .ok (m', true)) :
    map.find hash_fn m' key out = .ok (m', true, val) := by
  obtain ⟨m0, hinv0, -, -, hc | hc⟩ := hr.to_inv.insert_sound h
  · obtain ⟨-, j, hprobe, hx⟩ := hc
    simp only at hx
    subst hx
    exact (map.inv.find_after_store (hinv0.stored val hprobe) out (Or.inl hprobe)
      (map.stored_buckets _ _ _ _) rfl rfl rfl).1
  · simp at hc

/-- Witness of C2: the insert of key 3 into the full map of hashpower 1 grows the table and
returns true, and key 3 is then found with its value. -/
theorem C2_find_after_insert_witness :
    reachable identity_hash full_table ∧
    map.insert identity_hash 20 full_table 3 9 = .ok (grown_table 9, true) ∧
    map.find identity_hash (grown_table 9) 3 0 = .ok (grown_table 9, true, 9) :=
  have hr : reachable identity_hash full_table :=
    (reachable.construct 1).run 20 [.insert 1 1, .insert 2 2] _ (by with_unfolding_all rfl)
  ⟨hr, by with_unfolding_all rfl,
    C2_find_after_insert hr 20 3 9 0 (by with_unfolding_all rfl)⟩

/-- C4: in every reachable state `insert_or_assign(key, v)` returns, and afterwards
`find(key)` returns `v`, whether or not the key was present; a further
`insert_or_assign(key, v2)` returns as well and leaves `find(key) == v2`. -/
theorem C4_find_after_insert_or_assign {m : map K V} (hr : reachable hash_fn m) (key : K)
    (v v2 out : V) :
    (∃ fuel m1 b1, map.insert_or_assign hash_fn fuel m key v = .ok (m1, b1)) ∧
    ∀ fuel m1 b1, map.insert_or_assign hash_fn fuel m key v = .ok (m1, b1) →
      map.find hash_fn m1 key out = .ok (m1, true, v) ∧
      (∃ fuel2 m2 b2, map.insert_or_assign hash_fn fuel2 m1 key v2 = .ok (m2, b2)) ∧
      ∀ fuel2 m2 b2, map.insert_or_assign hash_fn fuel2 m1 key v2 = .ok (m2, b2) →
        map.find hash_fn m2 key out = .ok (m2, true, v2) := by
  have hinv := hr.to_inv
  refine ⟨?_, ?_⟩
  · obtain ⟨F, x, hx⟩ := hinv.upsert_returns key (fun _ => v) v
    exact ⟨F, x.1, x.2, hx⟩
  · intro fuel m1 b1 h1
    unfold map.insert_or_assign at h1
    have hinv1 := (hinv.upsert_sound h1).keeps_inv
    refine ⟨hinv.find_after_upsert out h1, ?_, ?_⟩
    · obtain ⟨F, x, hx⟩ := hinv1.upsert_returns key (fun _ => v2) v2
      exact ⟨F, x.1, x.2, hx⟩
    · intro fuel2 m2 b2 h2
      exact hinv1.find_after_upsert out h2

/-- Witness of C4 on the full map of hashpower 1. -/
theorem C4_find_after_insert_or_assign_witness :
    reachable identity_hash full_table ∧
    ((∃ fuel m1 b1, map.insert_or_assign identity_hash fuel full_table 3 9 = .ok (m1, b1)) ∧
    ∀ fuel m1 b1, map.insert_or_assign identity_hash fuel full_table 3 9 = .ok (m1, b1) →
      map.find identity_hash m1 3 0 = .ok (m1, true, 9) ∧
      (∃ fuel2 m2 b2, map.insert_or_assign identity_hash fuel2 m1 3 8 = .ok (m2, b2)) ∧
      ∀ fuel2 m2 b2, map.insert_or_assign identity_hash fuel2 m1 3 8 = .ok (m2, b2) →
        map.find identity_hash m2 3 0 = .ok (m2, true, 8)) :=
  have hr : reachable identity_hash full_table :=
    (reachable.construct 1).run 20 [.insert 1 1, .insert 2 2] _ (by with_unfolding_all rfl)
  ⟨hr, C4_find_after_insert_or_assign hr 3 9 8 0⟩

/-- C5: `erase` is meant to leave the key absent, but a key that `insert` stored twice (the
defect of C1) survives it.  In the reachable map `key_stored_twice` `erase(4)` returns true,
and afterwards `find(4)` still returns true (value 1) and a second `erase(4)` returns true. -/
theorem C5_erase_leaves_key_present :
    map.run identity_hash 20 (map.new 2) [.insert 0 0, .insert 4 1, .erase 0, .insert 4 2]
      = .ok key_stored_twice ∧
    map.erase identity_hash key_stored_twice 4 = .ok (key_behind_tombstone, true) ∧
    map.find identity_hash key_behind_tombstone 4 0 = .ok (key_behind_tombstone, true, 1) ∧
    (map.erase identity_hash key_behind_tombstone 4).map Prod.snd = .ok true :=
  ⟨by with_unfolding_all rfl, by with_unfolding_all rfl, by with_unfolding_all rfl,
    by with_unfolding_all rfl⟩

/-- C6: in every reachable state `update(key, val)` returns; it returns true exactly when
`find(key)` returns true; when it returns true the `find(key)` that follows returns `val`;
when it returns false the map is unchanged; `size()` and `capacity()` never change. -/
theorem C6_update {m : map K V} (hr : reachable hash_fn m) (key : K) (val out : V) :
    ∃ m' r, map.update hash_fn m key val = .ok (m', r) ∧
      (r = true ↔ ∃ w, map.find hash_fn m key out = .ok (m, true, w)) ∧
      (r = true → map.find hash_fn m' key out = .ok (m', true, val)) ∧
      (r = false → m' = m) ∧
      m'.size = m.size ∧ m'.capacity = m.capacity := by
  have hinv := hr.to_inv
  cases hp : probe_find key m.buckets_.buckets_ (probe_budget m.hashpower)
      (m.home hash_fn key) with
  | none =>
    refine ⟨m, false, ?_, ?_, by simp, fun _ => rfl, rfl, rfl⟩
    · unfold map.update map.update_fn
      rw [hinv.find_fn_none key _ () hp]
    · rw [hinv.find_none key out hp]
      simp
  | some j =>
    obtain ⟨b, hb, hh⟩ := probe_find_some _ _ _ hp
    obtain ⟨ho, hd, w, hst⟩ := (bucket.holds_iff _ _).1 hh
    have hj := probe_find_lt hp
    have hinv' := hinv.assigned val hb hst
    refine ⟨m.assigned j b key val, true, ?_, ?_, fun _ => ?_, by simp, rfl, rfl⟩
    · unfold map.update map.update_fn
      rw [hinv.find_fn_some key _ () hp hb hst]
      rfl
    · rw [hinv.find_some key out hp hb hst]
      simp
    · have hget : (m.assigned j b key val).buckets_.buckets_[j]?
          = some ⟨some (key, val), b.occupied_, b.deleted_⟩ := by
        simp only [map.assigned, map.with_buckets]
        exact List.getElem?_set_self hj
      apply hinv'.find_some key out (j := j) _ hget rfl
      have hlen' : (m.assigned j b key val).buckets_.buckets_.length
          = m.buckets_.buckets_.length := by
        simp [map.assigned, map.with_buckets]
      have hsame : ∀ (i : Nat) (b0 : bucket K V), m.buckets_.buckets_[i]? = some b0 →
          ∃ b1 : bucket K V, (m.assigned j b key val).buckets_.buckets_[i]? = some b1 ∧
            b1.occupied_ = b0.occupied_ ∧ b1.holds key = b0.holds key := by
        intro i b0 hb0
        by_cases hij : j = i
        · subst hij
          rw [hb] at hb0
          simp only [Option.some.injEq] at hb0
          subst hb0
          refine ⟨_, hget, rfl, ?_⟩
          rw [hh, bucket.holds_iff]
          exact ⟨ho, hd, val, rfl⟩
        · refine ⟨b0, ?_, rfl, rfl⟩
          simp only [map.assigned, map.with_buckets]
          rw [List.getElem?_set_ne hij]
          exact hb0
      have hcongr := probe_find_congr hlen' hsame
        (probe_budget m.hashpower) (m.home hash_fn key)
      have hhome : (m.assigned j b key val).home hash_fn key = m.home hash_fn key := rfl
      have hhp : (m.assigned j b key val).hashpower = m.hashpower := rfl
      rw [hhome, hhp, hcongr]
      exact hp

/-- Witness of C6 on the full map of hashpower 1 and its key 2. -/
theorem C6_update_witness :
    reachable identity_hash full_table ∧
    ∃ m' r, map.update identity_hash full_table 2 7 = .ok (m', r) ∧
      (r = true ↔ ∃ w, map.find identity_hash full_table 2 0 = .ok (full_table, true, w)) ∧
      (r = true → map.find identity_hash m' 2 0 = .ok (m', true, 7)) ∧
      (r = false → m' = full_table) ∧
      m'.size = full_table.size ∧ m'.capacity = full_table.capacity :=
  have hr : reachable identity_hash full_table :=
    (reachable.construct 1).run 20 [.insert 1 1, .insert 2 2] _ (by with_unfolding_all rfl)
  ⟨hr, C6_update hr 2 7 0⟩

/-- C7: `upsert` is meant to apply the functor when the key is present, but for a key that
lies behind a tombstone it stores a second pair instead (the defect of C1).  In the reachable
map `key_behind_tombstone` key 4 is present with value 1; `upsert(4, v ↦ v + 10, 2)` returns
true, `find(4)` then returns 2 instead of 11, and `size()` goes from 1 to 2. -/
theorem C7_upsert_stores_present_key :
    map.run identity_hash 20 (map.new 2) [.insert 0 0, .insert 4 1, .erase 0]
      = .ok key_behind_tombstone ∧
    map.find identity_hash key_behind_tombstone 4 0 = .ok (key_behind_tombstone, true, 1) ∧
    map.upsert identity_hash 20 key_behind_tombstone 4 (fun v => v + 10) 2
      = .ok (key_stored_twice, true) ∧
    map.find identity_hash key_stored_twice 4 0 = .ok (key_stored_twice, true, 2) ∧
    key_behind_tombstone.size = .ok 1 ∧ key_stored_twice.size = .ok 2 :=
  ⟨by with_unfolding_all rfl, by with_unfolding_all rfl, by with_unfolding_all rfl,
    by with_unfolding_all rfl, by with_unfolding_all rfl, by with_unfolding_all rfl⟩

/-- C8: in every reachable state the two lookups agree: the throwing `find(key)` raises
`std::out_of_range` exactly when `find(key, out)` returns false, and it returns `v` exactly
when `find(key, out)` returns true and writes `v`; one of the two happens. -/
theorem C8_find_overloads_agree {m : map K V} (hr : reachable hash_fn m) (key : K) (out : V) :
    (map.find_or_throw hash_fn m key = .error .out_of_range ↔
      map.find hash_fn m key out = .ok (m, false, out)) ∧
    (∀ v, map.find_or_throw hash_fn m key = .ok (m, v) ↔
      map.find hash_fn m key out = .ok (m, true, v)) ∧
    (map.find hash_fn m key out = .ok (m, false, out) ∨
      ∃ v, map.find hash_fn m key out = .ok (m, true, v)) := by
  have hinv := hr.to_inv
  cases hp : probe_find key m.buckets_.buckets_ (probe_budget m.hashpower)
      (m.home hash_fn key) with
  | none =>
    rw [hinv.find_or_throw_none key hp, hinv.find_none key out hp]
    simp
  | some j =>
    obtain ⟨b, hb, hh⟩ := probe_find_some _ _ _ hp
    obtain ⟨-, -, w, hst⟩ := (bucket.holds_iff _ _).1 hh
    rw [hinv.find_or_throw_some key hp hb hst, hinv.find_some key out hp hb hst]
    simp

/-- Witness of C8 on the full map of hashpower 1 and the absent key 3. -/
theorem C8_find_overloads_agree_witness :
    reachable identity_hash full_table ∧
    ((map.find_or_throw identity_hash full_table 3 = .error .out_of_range ↔
      map.find identity_hash full_table 3 0 = .ok (full_table, false, 0)) ∧
    (∀ v, map.find_or_throw identity_hash full_table 3 = .ok (full_table, v) ↔
      map.find identity_hash full_table 3 0 = .ok (full_table, true, v)) ∧
    (map.find identity_hash full_table 3 0 = .ok (full_table, false, 0) ∨
      ∃ v, map.find identity_hash full_table 3 0 = .ok (full_table, true, v))) :=
  have hr : reachable identity_hash full_table :=
    (reachable.construct 1).run 20 [.insert 1 1, .insert 2 2] _ (by with_unfolding_all rfl)
  ⟨hr, C8_find_overloads_agree hr 3 0⟩

/-- C9: for every map state, well formed or not, a returning `find(key, out)` leaves the
bucket table (hence the hashpower) and every element counter as they were, and when it
returns false it leaves `out` as it was. -/
theorem C9_find_is_read_only (hash_fn : K → Nat) (m m' : map K V) (key : K) (out out' : V)
    (r : Bool)
    (h : map.find hash_fn m key out = .ok (m', r, out')) :
    m'.buckets_ = m.buckets_ ∧
    m'.all_locks_.map (List.map spinlock_t.element_counter_)
      = m.all_locks_.map (List.map spinlock_t.element_counter_) ∧
    m'.hashpower = m.hashpower ∧ (r = false → out' = out) := by
  unfold map.find map.find_fn map.linear_find_loop at h
  cases hl : map.linear_find_loop.go key (map.hashed_key hash_fn key) (m.hashpower + 1) m
      m.hashpower (index_hash m.hashpower (map.hashed_key hash_fn key)) 0 with
  | error e => simp [hl] at h
  | ok p =>
    obtain ⟨m1, pos⟩ := p
    obtain ⟨hsd, -⟩ := map.same_data_find_go key _ _ _ _ _ _ _ _ hl
    simp only [hl] at h
    by_cases hst : pos.status = .ok
    · simp only [hst, if_true] at h
      cases hrs : m1.read_slot pos.index with
      | error e => simp [hrs] at h
      | ok q =>
        obtain ⟨b, k, v⟩ := q
        obtain ⟨hb, hstg⟩ := map.read_slot_ok hrs
        simp only [hrs, map.write_mapped_same hb hstg, Except.ok.injEq, Prod.mk.injEq] at h
        obtain ⟨h1, h2, -⟩ := h
        have hsd' := map.same_data_trans hsd (m1.same_data_release pos.lock)
        rw [h1] at hsd'
        refine ⟨hsd'.1, hsd'.2, by simp [map.hashpower, hsd'.1], ?_⟩
        intro hr
        rw [hr] at h2
        simp at h2
    · simp only [hst, if_false, Except.ok.injEq, Prod.mk.injEq] at h
      obtain ⟨h1, -, h3⟩ := h
      have hsd' := map.same_data_trans hsd (m1.same_data_release pos.lock)
      rw [h1] at hsd'
      exact ⟨hsd'.1, hsd'.2, by simp [map.hashpower, hsd'.1], fun _ => h3.symm⟩

/-- Witness of C9: a lookup of the absent key 3 in the full map of hashpower 1. -/
theorem C9_find_is_read_only_witness :
    map.find identity_hash full_table 3 5 = .ok (full_table, false, 5) ∧
    (full_table.buckets_ = full_table.buckets_ ∧
    full_table.all_locks_.map (List.map spinlock_t.element_counter_)
      = full_table.all_locks_.map (List.map spinlock_t.element_counter_) ∧
    full_table.hashpower = full_table.hashpower ∧ (false = false → 5 = 5)) :=
  ⟨by with_unfolding_all rfl,
    C9_find_is_read_only identity_hash full_table full_table 3 5 5 false
      (by with_unfolding_all rfl)⟩

/-- C10: an `insert` of another key is meant to leave `find(key)` as it was, but when it
grows a table in which `key` is stored twice (the defect of C1) the migration keeps the pair
with the lower index, not the one `find` returned.  In the reachable map `key_twice_wrapped`
`find(7)` returns 3; `insert(11, 0)` grows the table, and `find(7)` then returns 2. -/
theorem C10_insert_changes_other_key :
    map.run identity_hash 20 (map.new 2) [.insert 3 1, .insert 7 2, .erase 3, .insert 7 3]
      = .ok key_twice_wrapped ∧
    map.find identity_hash key_twice_wrapped 7 0 = .ok (key_twice_wrapped, true, 3) ∧
    map.insert identity_hash 20 key_twice_wrapped 11 0 = .ok (key_twice_wrapped_grown, true) ∧
    map.find identity_hash key_twice_wrapped_grown 7 0
      = .ok (key_twice_wrapped_grown, true, 2) :=
  ⟨by with_unfolding_all rfl, by with_unfolding_all rfl, by with_unfolding_all rfl,
    by with_unfolding_all rfl⟩

/-- C12: `size()` is meant to grow by exactly 1 with every `insert` that returns true, also
when the call grows the table.  In the reachable map `key_twice_wrapped`, where key 7 is
stored twice (the defect of C1), `size()` is 2; `insert(11, 0)` returns true and grows the
table, the migration drops one of the two pairs of key 7, and `size()` is 2 again. -/
theorem C12_size_after_growing_insert :
    map.run identity_hash 20 (map.new 2) [.insert 3 1, .insert 7 2, .erase 3, .insert 7 3]
      = .ok key_twice_wrapped ∧
    key_twice_wrapped.size = .ok 2 ∧
    map.insert identity_hash 20 key_twice_wrapped 11 0 = .ok (key_twice_wrapped_grown, true) ∧
    key_twice_wrapped_grown.size = .ok 2 :=
  ⟨by with_unfolding_all rfl, by with_unfolding_all rfl, by with_unfolding_all rfl,
    by with_unfolding_all rfl⟩

/-- C13: in every reachable state `clear()` returns; afterwards no slot is occupied, every
element counter of the current stripe set is 0, `size()` is 0, `find(k)` returns false for
every key, and `capacity()` is what it was. -/
theorem C13_clear {m : map K V} (hr : reachable hash_fn m) :
    ∃ m', m.clear = .ok m' ∧
      (∀ (i : Nat) (b : bucket K V), m'.buckets_.buckets_[i]? = some b →
        b.occupied_ = false) ∧
      (∃ cur, m'.get_current_locks = .ok cur ∧ ∀ s ∈ cur, s.element_counter_ = 0) ∧
      m'.size = .ok 0 ∧
      (∀ (k : K) (out : V), map.find hash_fn m' k out = .ok (m', false, out)) ∧
      m'.capacity = m.capacity := by
  have hinv := hr.to_inv
  have hcl := hinv.clear_cleared
  obtain ⟨hinv', hhp, hocc⟩ := hinv.clear hcl
  have hzero : live_count m.cleared.buckets_.buckets_ = 0 := by
    unfold live_count
    rw [List.countP_eq_zero]
    intro i _
    simp only [live_at]
    cases hb : m.cleared.buckets_.buckets_[i]? with
    | none => simp
    | some b => simp [bucket.live, hocc i b hb]
  refine ⟨m.cleared, hcl, hocc, ?_, ?_, ?_, by rw [map.capacity_eq, map.capacity_eq, hhp]⟩
  · obtain ⟨cur, older, hcur, -⟩ := hinv.cur
    refine ⟨cur.map (fun _ => (⟨false, 0, true⟩ : spinlock_t)), ?_, ?_⟩
    · simp [map.get_current_locks, map.cleared, hcur]
    · intro s hs
      rw [List.mem_map] at hs
      obtain ⟨_, -, hs⟩ := hs
      rw [← hs]
  · rw [hinv'.size_eq hinv.cleared_counted, hzero]
  · intro k out
    rw [hinv'.find_eq k out, map.lookup_none_of_no_live _ hzero]
    rfl

/-- Witness of C13: `clear()` on the full map of hashpower 1. -/
theorem C13_clear_witness :
    reachable identity_hash full_table ∧
    (∃ m', full_table.clear = .ok m' ∧
      (∀ (i : Nat) (b : bucket Nat Nat), m'.buckets_.buckets_[i]? = some b →
        b.occupied_ = false) ∧
      (∃ cur, m'.get_current_locks = .ok cur ∧ ∀ s ∈ cur, s.element_counter_ = 0) ∧
      m'.size = .ok 0 ∧
      (∀ (k : Nat) (out : Nat), map.find identity_hash m' k out = .ok (m', false, out)) ∧
      m'.capacity = full_table.capacity) :=
  have hr : reachable identity_hash full_table :=
    (reachable.construct 1).run 20 [.insert 1 1, .insert 2 2] _ (by with_unfolding_all rfl)
  ⟨hr, C13_clear hr⟩

/-- Counterexample to C14 as stated: `table::clear` on a one-slot array whose slot is live
leaves that slot with `occupied == false` and `deleted == true`. -/
theorem C14_clear_keeps_deleted_flag :
    table.clear (⟨0, [live_slot 1 1]⟩ : table Nat Nat) = .ok ⟨0, [⟨none, false, true⟩]⟩ ∧
    (⟨none, false, true⟩ : bucket Nat Nat).deleted_ = true :=
  ⟨by with_unfolding_all rfl, rfl⟩

/-- C14, amended: for every bucket array, `table::clear` returns and resets the `occupied`
flag of every slot, so that no slot is live; it does not reset `deleted`, which afterwards is
set on exactly the slots that were occupied or already flagged deleted. -/
theorem C14_clear_resets_occupied (t : table K V) (hlen : t.buckets_.length = t.size) :
    ∃ t', t.clear = .ok t' ∧ t'.hashpower_ = t.hashpower_ ∧
      t'.buckets_.length = t.buckets_.length ∧
      ∀ (i : Nat) (b : bucket K V), t.buckets_[i]? = some b →
        ∃ b', t'.buckets_[i]? = some b' ∧ b'.occupied_ = false ∧ b'.live = false ∧
          b'.deleted_ = (b.occupied_ || b.deleted_) := by
  refine ⟨_, table.clear_eq t hlen, rfl, by simp, ?_⟩
  intro i b hb
  refine ⟨b.cleared, by simp [hb], bucket.cleared_occupied b, ?_, bucket.cleared_deleted b⟩
  simp [bucket.live, bucket.cleared_occupied]

/-- Witness of C14, amended: the one-slot array with a live slot. -/
theorem C14_clear_resets_occupied_witness :
    (⟨0, [live_slot 1 1]⟩ : table Nat Nat).buckets_.length
      = (⟨0, [live_slot 1 1]⟩ : table Nat Nat).size ∧
    (∃ t', (⟨0, [live_slot 1 1]⟩ : table Nat Nat).clear = .ok t' ∧ t'.hashpower_ = 0 ∧
      t'.buckets_.length = 1 ∧
      ∀ (i : Nat) (b : bucket Nat Nat),
        (⟨0, [live_slot 1 1]⟩ : table Nat Nat).buckets_[i]? = some b →
        ∃ b', t'.buckets_[i]? = some b' ∧ b'.occupied_ = false ∧ b'.live = false ∧
          b'.deleted_ = (b.occupied_ || b.deleted_)) :=
  ⟨by decide, C14_clear_resets_occupied ⟨0, [live_slot 1 1]⟩ (by decide)⟩

/-- Counterexample to C15 as stated: after `insert(1, 1); clear()` on a map of hashpower 1,
slot 1 has `deleted == true` and `occupied == false`. -/
theorem C15_clear_leaves_deleted_unoccupied :
    map.run identity_hash 20 (map.new 1) [.insert 1 1, .clear] = .ok cleared_table ∧
    cleared_table.buckets_.buckets_[1]? = some ⟨none, false, true⟩ ∧
    ¬ cleared_table.tidy := by
  refine ⟨by with_unfolding_all rfl, rfl, ?_⟩
  intro h
  have := h 1 ⟨none, false, true⟩ rfl rfl
  simp at this

/-- C15, amended: in every state reached from construction by calls other than `clear()`
(insert, insert_or_assign, upsert, update, find, erase, rehash, reserve, shrink), every slot
of the bucket array satisfies `deleted ⇒ occupied`. -/
theorem C15_deleted_implies_occupied {m : map K V} (hr : reachable_no_clear hash_fn m) :
    ∀ (i : Nat) (b : bucket K V), m.buckets_.buckets_[i]? = some b → b.deleted_ = true →
      b.occupied_ = true :=
  hr.to_tidy

/-- Witness of C15, amended: the map with a tombstone in slot 0. -/
theorem C15_deleted_implies_occupied_witness :
    reachable_no_clear identity_hash key_behind_tombstone ∧
    (∀ (i : Nat) (b : bucket Nat Nat), key_behind_tombstone.buckets_.buckets_[i]? = some b →
      b.deleted_ = true → b.occupied_ = true) :=
  have hr : reachable_no_clear identity_hash key_behind_tombstone :=
    (reachable_no_clear.construct 2).of_run 20 [.insert 0 0, .insert 4 1, .erase 0] _ rfl
      (by with_unfolding_all rfl)
  ⟨hr, C15_deleted_implies_occupied hr⟩

/-- C16: a present key is meant to be live in exactly one slot.  In the reachable map
`key_stored_twice` (identity hash, hashpower 2, after `insert(0, 0); insert(4, 1); erase(0);
insert(4, 2)`, the defect of C1) key 4 is live in slot 0 and in slot 1. -/
theorem C16_key_live_in_two_slots :
    map.run identity_hash 20 (map.new 2) [.insert 0 0, .insert 4 1, .erase 0, .insert 4 2]
      = .ok key_stored_twice ∧
    map.find identity_hash key_stored_twice 4 0 = .ok (key_stored_twice, true, 2) ∧
    (∃ b0 b1 : bucket Nat Nat, key_stored_twice.buckets_.buckets_[0]? = some b0 ∧
      key_stored_twice.buckets_.buckets_[1]? = some b1 ∧
      b0.holds 4 = true ∧ b1.holds 4 = true) :=
  ⟨by with_unfolding_all rfl, by with_unfolding_all rfl,
    live_slot 4 2, live_slot 4 1, rfl, rfl, by decide, by decide⟩

/-- Counterexample to C17 as stated: on the full map of hashpower 1, `rehash(0)` returns true
and the hashpower afterwards is 1, not 0: the new table grew while the two pairs were
migrated into it. -/
theorem C17_rehash_ends_above_target :
    map.run identity_hash 20 (map.new 1) [.insert 1 1, .insert 2 2] = .ok full_table ∧
    map.rehash identity_hash 20 full_table 0 = .ok (full_table_rehashed, true) ∧
    full_table_rehashed.hashpower = 1 :=
  ⟨by with_unfolding_all rfl, by with_unfolding_all rfl, rfl⟩

/-- C17, amended: in every reachable state, `rehash(hp)` returns false and changes nothing
if `hp` equals the current hashpower; otherwise it returns true and afterwards
`hashpower() ≥ hp` (and `capacity() == 2^hashpower()`), with `hashpower() == hp` when the map
is empty. -/
theorem C17_rehash {m : map K V} (hr : reachable hash_fn m) (hp : Nat) :
    (hp = m.hashpower → ∀ fuel, map.rehash hash_fn fuel m hp = .ok (m, false)) ∧
    (hp ≠ m.hashpower →
      (∃ fuel m', map.rehash hash_fn fuel m hp = .ok (m', true)) ∧
      ∀ (fuel : Nat) (m' : map K V) (r : Bool), map.rehash hash_fn fuel m hp = .ok (m', r) →
        r = true ∧ hp ≤ m'.hashpower ∧ m'.capacity = 2 ^ m'.hashpower ∧
        (m.size = .ok 0 → m'.hashpower = hp)) := by
  have hinv := hr.to_inv
  refine ⟨?_, ?_⟩
  · intro heq fuel
    unfold map.rehash map.linear_rehash
    simp [heq]
  · intro hne
    refine ⟨hinv.rehash_returns hne, ?_⟩
    intro fuel m' r h
    obtain ⟨h1, h2, h3⟩ := hinv.rehash_sound hne h
    refine ⟨h1, h2, map.capacity_eq m', ?_⟩
    intro hsz
    apply h3
    rw [hr.size_live] at hsz
    simpa using hsz

/-- Witness of C17, amended: `rehash(0)` on the full map of hashpower 1. -/
theorem C17_rehash_witness :
    reachable identity_hash full_table ∧
    ((0 = full_table.hashpower →
        ∀ fuel, map.rehash identity_hash fuel full_table 0 = .ok (full_table, false)) ∧
    (0 ≠ full_table.hashpower →
      (∃ fuel m', map.rehash identity_hash fuel full_table 0 = .ok (m', true)) ∧
      ∀ (fuel : Nat) (m' : map Nat Nat) (r : Bool),
        map.rehash identity_hash fuel full_table 0 = .ok (m', r) →
        r = true ∧ 0 ≤ m'.hashpower ∧ m'.capacity = 2 ^ m'.hashpower ∧
        (full_table.size = .ok 0 → m'.hashpower = 0))) :=
  have hr : reachable identity_hash full_table :=
    (reachable.construct 1).run 20 [.insert 1 1, .insert 2 2] _ (by with_unfolding_all rfl)
  ⟨hr, C17_rehash hr 0⟩

/-- C18: a rehash is meant to preserve the size and the result of every `find`.  In the
reachable map `key_twice_wrapped`, where key 7 is stored twice (the defect of C1), `size()`
is 2 and `find(7)` returns 3; `rehash(3)` returns true, the migration keeps only the pair of
the lower slot, and afterwards `size()` is 1 and `find(7)` returns 2. -/
theorem C18_rehash_drops_pair :
    map.run identity_hash 20 (map.new 2) [.insert 3 1, .insert 7 2, .erase 3, .insert 7 3]
      = .ok key_twice_wrapped ∧
    key_twice_wrapped.size = .ok 2 ∧
    map.find identity_hash key_twice_wrapped 7 0 = .ok (key_twice_wrapped, true, 3) ∧
    map.rehash identity_hash 20 key_twice_wrapped 3 = .ok (key_twice_wrapped_rehashed, true) ∧
    key_twice_wrapped_rehashed.size = .ok 1 ∧
    map.find identity_hash key_twice_wrapped_rehashed 7 0
      = .ok (key_twice_wrapped_rehashed, true, 2) :=
  ⟨by with_unfolding_all rfl, by with_unfolding_all rfl, by with_unfolding_all rfl,
    by with_unfolding_all rfl, by with_unfolding_all rfl, by with_unfolding_all rfl⟩

/-- C19: for every empty reachable map, of any hashpower, and every `n ≤ 2^63` (the range in
which the shift of `reserve_calc` stays within `size_type`), `reserve(n)` returns and
afterwards `capacity()` is the smallest power of two that is `≥ n`; a second `reserve(n)`
returns false and leaves the map as it is. -/
theorem C19_reserve_empty {m : map K V} (hr : reachable hash_fn m) (hempty : m.size = .ok 0)
    (n : Nat) (_hn : n ≤ 2 ^ 63) (fuel : Nat) :
    ∃ (m' : map K V) (r : Bool), map.reserve hash_fn (fuel + 1) m n = .ok (m', r) ∧
      n ≤ m'.capacity ∧ (∃ h, m'.capacity = 2 ^ h) ∧
      (∀ h, n ≤ 2 ^ h → m'.capacity ≤ 2 ^ h) ∧
      ∀ fuel', map.reserve hash_fn fuel' m' n = .ok (m', false) := by
  have hinv := hr.to_inv
  have hzero : live_count m.buckets_.buckets_ = 0 := by
    rw [hr.size_live] at hempty
    simpa using hempty
  obtain ⟨h, hcalc, hge, hlow⟩ := map.reserve_calc_spec n
  have hmin : ∀ h', n ≤ 2 ^ h' → 2 ^ h ≤ 2 ^ h' := by
    intro h' hn'
    apply Nat.pow_le_pow_right (by decide)
    by_contra hcon
    have := hlow h' (by omega)
    omega
  have hagain : ∀ (m' : map K V), m'.hashpower = h →
      ∀ fuel', map.reserve hash_fn fuel' m' n = .ok (m', false) := by
    intro m' hhp fuel'
    unfold map.reserve map.linear_reserve
    simp [hcalc, hhp]
  by_cases heq : h = m.hashpower
  · refine ⟨m, false, hagain m heq.symm _, ?_, ⟨h, ?_⟩, ?_, hagain m heq.symm⟩
    · rw [map.capacity_eq, ← heq]; exact hge
    · rw [map.capacity_eq, ← heq]
    · rw [map.capacity_eq, ← heq]; exact hmin
  · obtain ⟨x, hx, hb⟩ := hinv.expand_empty hzero fuel h
    have hhp : x.hashpower = h := by
      unfold map.hashpower
      rw [hb]
      rfl
    refine ⟨x, true, ?_, ?_, ⟨h, ?_⟩, ?_, hagain x hhp⟩
    · unfold map.reserve map.linear_reserve
      simp [hcalc, heq, hx]
    · rw [map.capacity_eq, hhp]; exact hge
    · rw [map.capacity_eq, hhp]
    · rw [map.capacity_eq, hhp]; exact hmin

/-- Witness of C19: `reserve(2)` on the empty map of hashpower 3 ends at capacity 2. -/
theorem C19_reserve_empty_witness :
    reachable identity_hash (map.new 3 : map Nat Nat) ∧
    (map.new 3 : map Nat Nat).size = .ok 0 ∧ 2 ≤ 2 ^ 63 ∧
    (∃ (m' : map Nat Nat) (r : Bool),
      map.reserve identity_hash (0 + 1) (map.new 3 : map Nat Nat) 2 = .ok (m', r) ∧
      2 ≤ m'.capacity ∧ (∃ h, m'.capacity = 2 ^ h) ∧
      (∀ h, 2 ≤ 2 ^ h → m'.capacity ≤ 2 ^ h) ∧
      ∀ fuel', map.reserve identity_hash fuel' m' 2 = .ok (m', false)) :=
  ⟨reachable.construct 3, by with_unfolding_all rfl, by decide,
    C19_reserve_empty (reachable.construct 3) (by with_unfolding_all rfl) 2 (by decide) 0⟩

/-- Counterexample to C20 as stated: on the empty map of hashpower 3, `reserve(2)` needs
hashpower 1, which is not greater than 3, and yet it returns true and the capacity goes from
8 to 2. -/
theorem C20_reserve_shrinks :
    map.reserve_calc 2 = .ok 1 ∧
    map.reserve identity_hash 20 (map.new 3 : map Nat Nat) 2 = .ok (reserved_down, true) ∧
    (map.new 3 : map Nat Nat).capacity = 8 ∧ reserved_down.capacity = 2 :=
  ⟨by with_unfolding_all rfl, by with_unfolding_all rfl, by with_unfolding_all rfl,
    by with_unfolding_all rfl⟩

/-- C20, amended: in every reachable state, `reserve(n)` returns false and leaves the map
unchanged exactly when the hashpower required for `n` (the smallest `h` with `2^h ≥ n`)
equals the current hashpower; in every other case, greater or smaller, it resizes the table
and returns true. -/
theorem C20_reserve {m : map K V} (hr : reachable hash_fn m) (n : Nat) :
    ∃ h, map.reserve_calc n = .ok h ∧ n ≤ 2 ^ h ∧ (∀ b, b < h → 2 ^ b < n) ∧
      (h = m.hashpower → ∀ fuel, map.reserve hash_fn fuel m n = .ok (m, false)) ∧
      (h ≠ m.hashpower →
        (∃ fuel m', map.reserve hash_fn fuel m n = .ok (m', true)) ∧
        ∀ (fuel : Nat) (m' : map K V) (r : Bool),
          map.reserve hash_fn fuel m n = .ok (m', r) → r = true ∧ h ≤ m'.hashpower) := by
  have hinv := hr.to_inv
  obtain ⟨h, hcalc, hge, hlow⟩ := map.reserve_calc_spec n
  refine ⟨h, hcalc, hge, hlow, ?_, ?_⟩
  · intro heq fuel
    unfold map.reserve map.linear_reserve
    simp [hcalc, heq]
  · intro hne
    refine ⟨?_, ?_⟩
    · obtain ⟨fuel, x, hx⟩ := hinv.expand_total h
      refine ⟨fuel, x, ?_⟩
      unfold map.reserve map.linear_reserve
      simp [hcalc, hne, hx]
    · intro fuel m' r hres
      obtain ⟨h1, h2, -⟩ := hinv.reserve_sound hcalc hne hres
      exact ⟨h1, h2⟩

/-- Witness of C20, amended: `reserve(2)` on the empty map of hashpower 3. -/
theorem C20_reserve_witness :
    reachable identity_hash (map.new 3 : map Nat Nat) ∧
    (∃ h, map.reserve_calc 2 = .ok h ∧ 2 ≤ 2 ^ h ∧ (∀ b, b < h → 2 ^ b < 2) ∧
      (h = (map.new 3 : map Nat Nat).hashpower →
        ∀ fuel, map.reserve identity_hash fuel (map.new 3 : map Nat Nat) 2
          = .ok (map.new 3, false)) ∧
      (h ≠ (map.new 3 : map Nat Nat).hashpower →
        (∃ fuel m', map.reserve identity_hash fuel (map.new 3 : map Nat Nat) 2
          = .ok (m', true)) ∧
        ∀ (fuel : Nat) (m' : map Nat Nat) (r : Bool),
          map.reserve identity_hash fuel (map.new 3 : map Nat Nat) 2 = .ok (m', r) →
          r = true ∧ h ≤ m'.hashpower)) :=
  ⟨reachable.construct 3, C20_reserve (reachable.construct 3) 2⟩

/-- C21: `shrink()` is meant to halve the table while the load factor is at most 1/4 and the
hashpower is above 1, but its loop condition `load_factor() <= 1 / 4` divides two integers,
so it compares with 0.  In the reachable map `sparse_table` (hashpower 3 after
`insert(1, 1)`: size 1, capacity 8, load factor 1/8) `shrink()` changes nothing. -/
theorem C21_shrink_keeps_sparse_table :
    map.run identity_hash 20 (map.new 3) [.insert 1 1] = .ok sparse_table ∧
    sparse_table.size = .ok 1 ∧ sparse_table.capacity = 8 ∧ sparse_table.hashpower = 3 ∧
    sparse_table.load_factor = .ok (1 / 8) ∧
    map.shrink identity_hash 20 sparse_table = .ok sparse_table :=
  ⟨by with_unfolding_all rfl, by with_unfolding_all rfl, by with_unfolding_all rfl, rfl,
    by with_unfolding_all rfl, by with_unfolding_all rfl⟩

/-- C22: for every reachable map of hashpower at least 1 that holds no element (freshly
built, or after its elements were erased, at any capacity), `shrink()` returns and afterwards
`capacity()` is 2 and `size()` is 0. -/
theorem C22_shrink_empty {m : map K V} (hr : reachable hash_fn m) (hempty : m.size = .ok 0)
    (hhp : 1 ≤ m.hashpower) (fuel : Nat) (hfuel : m.hashpower ≤ fuel) :
    ∃ m', map.shrink hash_fn fuel m = .ok m' ∧ m'.capacity = 2 ∧ m'.size = .ok 0 := by
  have h0 : live_count m.buckets_.buckets_ = 0 := by
    rw [hr.size_live] at hempty
    simpa using hempty
  obtain ⟨m', hm', hinv', hc', h0', hhp'⟩ := map.shrink_empty (m.hashpower - 1) m hr.to_inv
    hr.to_counted h0 (by omega) fuel (by omega)
  refine ⟨m', hm', ?_, ?_⟩
  · rw [map.capacity_eq, hhp']
    rfl
  · rw [hinv'.size_eq hc', h0']

/-- Witness of C22: the empty map of hashpower 3 shrinks to capacity 2. -/
theorem C22_shrink_empty_witness :
    reachable identity_hash (map.new 3 : map Nat Nat) ∧
    (map.new 3 : map Nat Nat).size = .ok 0 ∧ 1 ≤ (map.new 3 : map Nat Nat).hashpower ∧
    (map.new 3 : map Nat Nat).hashpower ≤ 3 ∧
    (∃ m', map.shrink identity_hash 3 (map.new 3 : map Nat Nat) = .ok m' ∧ m'.capacity = 2 ∧
      m'.size = .ok 0) :=
  ⟨reachable.construct 3, by with_unfolding_all rfl, by decide, by decide,
    C22_shrink_empty (reachable.construct 3) (by with_unfolding_all rfl) (by decide) 3
      (by decide)⟩

/-- C23: for a map constructed with a functor other than the default-constructed `Hash()` the
inserts of distinct keys lose a key.  With `SeededHash{1}` (`Hash()` has seed 0) and
hashpower 0, `insert(0, 10)` and `insert(2, 20)` both return true and `size()` is 1, then 2;
the second insert grows the table and `linear_expand` migrates key 0 into a `new_map` built
with `Hash()`, to slot 0, while `find(0)` starts at slot 1: it returns false. -/
theorem C23_insert_loses_key_of_seeded_map :
    map.insert_with (seeded_hash 1) (seeded_hash 0) 20 (map.new 0) 0 10
      = .ok (seeded_full, true) ∧
    seeded_full.size = .ok 1 ∧
    map.insert_with (seeded_hash 1) (seeded_hash 0) 20 seeded_full 2 20
      = .ok (seeded_lost, true) ∧
    seeded_lost.size = .ok 2 ∧
    map.find (seeded_hash 1) seeded_lost 2 7 = .ok (seeded_lost, true, 20) ∧
    map.find (seeded_hash 1) seeded_lost 0 7 = .ok (seeded_lost, false, 7) :=
  ⟨by with_unfolding_all rfl, by with_unfolding_all rfl, by with_unfolding_all rfl,
    by with_unfolding_all rfl, by with_unfolding_all rfl, by with_unfolding_all rfl⟩

/-- For a map whose functor is the default-constructed `Hash()`, whatever function it
computes: starting from a freshly constructed map of any hashpower, the inserts of pairwise
distinct keys all return true (for enough fuel they all return), `size()` is `i` after the
`i`-th insert, and at the end `find` returns the value of every inserted key. -/
theorem map.insert_distinct_keys_default (hash_fn : K → Nat) (hp : Nat) (kvs : List (K × V))
    (hnd : (kvs.map Prod.fst).Nodup) :
    ∃ (fuel : Nat) (m' : map K V),
      map.insert_each hash_fn fuel (map.new hp) kvs
        = .ok (m', (List.range kvs.length).map (fun i => (true, i + 1))) ∧
      ∀ kv ∈ kvs, ∀ out, map.find hash_fn m' kv.1 out = .ok (m', true, kv.2) := by
  obtain ⟨fuel, m', hrun, hc', -, -, hall⟩ :=
    map.clean.insert_each_spec kvs (map.new hp) (map.clean_new hp) hnd
      (fun kv _ => has_key_replicate _ _)
  have h0 : live_count (map.new hp : map K V).buckets_.buckets_ = 0 := live_count_replicate _
  refine ⟨fuel, m', ?_, fun kv hkv out => hc'.find_pair (hall kv hkv) out⟩
  rw [hrun, h0]
  simp

/-- An instance: three inserts into a map of a single bucket. -/
theorem map.insert_distinct_keys_default_example :
    ([(5, 50), (3, 30), (8, 80)].map Prod.fst : List Nat).Nodup ∧
    (∃ (fuel : Nat) (m' : map Nat Nat),
      map.insert_each identity_hash fuel (map.new 0) [(5, 50), (3, 30), (8, 80)]
        = .ok (m', (List.range [(5, 50), (3, 30), (8, 80)].length).map
          (fun i => (true, i + 1))) ∧
      ∀ kv ∈ [(5, 50), (3, 30), (8, 80)], ∀ out,
        map.find identity_hash m' kv.1 out = .ok (m', true, kv.2)) :=
  ⟨by decide,
    map.insert_distinct_keys_default identity_hash 0 [(5, 50), (3, 30), (8, 80)] (by decide)⟩

/-- C24: with the identity hash, inserting the keys `0, 1, …, n - 1` in this order into a
freshly constructed map of hashpower `h` returns (for enough fuel): every insert returns true
and `size()` is `i + 1` after the insert of key `i`; at the end key `i` is in slot `i` and the
other slots were never occupied, `capacity()` is `max(2^h, 2^clog2(n))` where `2^clog2(n)` is
the smallest power of two that is at least `n`, and every `find(i)` returns `i`; for
`n = 2^h` the capacity is still `2^h` and the load factor is exactly 1. -/
theorem C24_fill_in_key_order (h n : Nat) :
    ∃ (fuel : Nat) (m : map Nat Nat),
      map.insert_each identity_hash fuel (map.new h) ((List.range n).map (fun i => (i, i)))
        = .ok (m, (List.range n).map (fun i => (true, i + 1))) ∧
      (∀ i, i < n → m.buckets_.buckets_[i]? = some ⟨some (i, i), true, false⟩) ∧
      (∀ i, n ≤ i → i < m.capacity → m.buckets_.buckets_[i]? = some bucket.new) ∧
      m.capacity = max (2 ^ h) (2 ^ Nat.clog 2 n) ∧
      (n ≤ 2 ^ Nat.clog 2 n ∧ ∀ p, n ≤ 2 ^ p → 2 ^ Nat.clog 2 n ≤ 2 ^ p) ∧
      m.size = .ok n ∧
      (∀ i out, i < n → map.find identity_hash m i out = .ok (m, true, i)) ∧
      (n = 2 ^ h → m.capacity = 2 ^ h ∧ m.load_factor = .ok 1) := by
  obtain ⟨fuel, m, hrun, hm⟩ := map.filled.insert_range n 0 h (map.new h) (map.filled_new h)
    (Nat.zero_le _)
  rw [Nat.zero_add] at hm
  rw [← List.range_eq_range'] at hrun
  have hclog : n ≤ 2 ^ Nat.clog 2 n := Nat.le_pow_clog (by omega) n
  have hnle : n ≤ 2 ^ max h (Nat.clog 2 n) :=
    Nat.le_trans hclog (Nat.pow_le_pow_right (by omega) (Nat.le_max_right _ _))
  have hcap : m.capacity = 2 ^ max h (Nat.clog 2 n) := by
    rw [map.capacity_eq]
    unfold map.hashpower
    rw [hm.2.2]
  have hmax : (2 : Nat) ^ max h (Nat.clog 2 n) = max (2 ^ h) (2 ^ Nat.clog 2 n) := by
    rcases Nat.le_total h (Nat.clog 2 n) with hle | hle
    · rw [Nat.max_eq_right hle, Nat.max_eq_right (Nat.pow_le_pow_right (by omega) hle)]
    · rw [Nat.max_eq_left hle, Nat.max_eq_left (Nat.pow_le_pow_right (by omega) hle)]
  have hsize : m.size = .ok n := hm.size_eq_count hnle
  have hslot : ∀ i, i < n → m.buckets_.buckets_[i]? = some ⟨some (i, i), true, false⟩ := by
    intro i hi
    rw [hm.2.2]
    simp only
    rw [filled_slots_get (by omega)]
    simp [hi, live_slot]
  refine ⟨fuel, m, hrun, hslot, ?_, by rw [hcap, hmax], ⟨hclog, fun p hp => ?_⟩, hsize, ?_, ?_⟩
  · intro i hni hi
    rw [hcap] at hi
    rw [hm.2.2]
    simp only
    rw [filled_slots_get hi]
    have : ¬ i < n := by omega
    simp [this]
  · exact Nat.pow_le_pow_right (by omega) ((Nat.le_pow_iff_clog_le (by omega)).1 hp)
  · intro i out hi
    have hhp : m.hashpower = max h (Nat.clog 2 n) := by
      unfold map.hashpower
      rw [hm.2.2]
    have hhome : m.home identity_hash i = i := by
      unfold map.home identity_hash
      rw [hhp, index_hash_eq, Nat.mod_eq_of_lt (by omega)]
    have hprobe : probe_find i m.buckets_.buckets_ (probe_budget m.hashpower)
        (m.home identity_hash i) = some i := by
      rw [hhome]
      obtain ⟨k, hk⟩ : ∃ k, probe_budget m.hashpower = k + 1 :=
        ⟨probe_budget m.hashpower - 1, by have := probe_budget_pos m.hashpower; omega⟩
      rw [hk, probe_find]
      simp [hslot i hi, bucket.holds]
    exact hm.1.find_some i out hprobe (hslot i hi) rfl
  · intro hn
    have hc2 : m.capacity = 2 ^ h := by
      rw [hcap, hmax, Nat.max_eq_left]
      exact Nat.pow_le_pow_right (by omega)
        ((Nat.le_pow_iff_clog_le (by omega)).1 (Nat.le_of_eq hn))
    refine ⟨hc2, ?_⟩
    unfold map.load_factor
    rw [hsize, hc2, hn]
    have hne : ((2 ^ h : Nat) : ℚ) ≠ 0 := by
      have : 0 < 2 ^ h := Nat.pow_pos (by omega)
      exact_mod_cast Nat.pos_iff_ne_zero.1 this
    simp only [div_self hne]

/-- C25: for a map constructed with a functor other than the default-constructed `Hash()` a
growing insert loses a key.  The map built with `SeededHash{1}` at hashpower 0 holds key 0 in
its only slot, so every slot is live, and key 2 is absent; `insert(2, 20)` returns true and
`capacity()` grows from 1 to 2, but key 0, found before, is not found afterwards: the
migration has placed it by `Hash()`. -/
theorem C25_growing_insert_loses_key_of_seeded_map :
    seeded_full.buckets_.buckets_.all bucket.live = true ∧
    map.find (seeded_hash 1) seeded_full 2 7 = .ok (seeded_full, false, 7) ∧
    map.find (seeded_hash 1) seeded_full 0 7 = .ok (seeded_full, true, 10) ∧
    map.insert_with (seeded_hash 1) (seeded_hash 0) 20 seeded_full 2 20
      = .ok (seeded_lost, true) ∧
    seeded_full.capacity = 1 ∧ seeded_lost.capacity = 2 ∧
    map.find (seeded_hash 1) seeded_lost 0 7 = .ok (seeded_lost, false, 7) :=
  ⟨by with_unfolding_all rfl, by with_unfolding_all rfl, by with_unfolding_all rfl,
    by with_unfolding_all rfl, by with_unfolding_all rfl, by with_unfolding_all rfl,
    by with_unfolding_all rfl⟩

/-- For a map whose functor is the default-constructed `Hash()`: in every reachable state in
which every slot is live, the insert of an absent key
returns; it returns true, `capacity()` afterwards is strictly larger, and every key that was
found before is still found. -/
theorem map.insert_into_full_table_default {m : map K V} (hr : reachable hash_fn m)
    (hfull : ∀ (i : Nat) (b : bucket K V), m.buckets_.buckets_[i]? = some b → b.live = true)
    (key : K) (val out : V) (habs : map.find hash_fn m key out = .ok (m, false, out)) :
    (∃ fuel x, map.insert hash_fn fuel m key val = .ok x) ∧
    ∀ (fuel : Nat) (x : map K V × Bool), map.insert hash_fn fuel m key val = .ok x →
      x.2 = true ∧ m.capacity < x.1.capacity ∧
      ∀ (k : K) (v : V), map.find hash_fn m k out = .ok (m, true, v) →
        ∃ v', map.find hash_fn x.1 k out = .ok (x.1, true, v') := by
  have hinv := hr.to_inv
  have hno : ¬ has_key m.buckets_.buckets_ key := by
    rw [← hinv.lookup_none_iff]
    rw [hinv.find_eq key out] at habs
    simp only [Except.ok.injEq, Prod.mk.injEq, true_and] at habs
    cases hl : m.lookup hash_fn key with
    | none => rfl
    | some v => simp [hl] at habs
  refine ⟨hinv.insert_returns key val, ?_⟩
  intro fuel x hx
  have hpost := hinv.insert_sound hx
  have hinv' := hpost.keeps_inv
  have hkeys := hpost.keeps_keys.1
  refine ⟨(hpost.of_absent hno).1, ?_, ?_⟩
  · obtain ⟨m0, hinv0, hg, -, hres | hres⟩ := hpost
    · obtain ⟨-, j, hp, hx1⟩ := hres
      have hlt : m.hashpower < m0.hashpower := by
        rcases hg.2.2.2.2.2 with h0 | h0
        · exfalso
          subst h0
          obtain ⟨b, hb, hbl⟩ := (probe_insert_slot _ _ j).1 hp
          rw [hfull j b hb] at hbl
          simp at hbl
        · exact h0
      rw [map.capacity_eq, map.capacity_eq, hx1]
      have : (m0.stored j key val).hashpower = m0.hashpower := by
        unfold map.hashpower
        rw [map.stored_buckets]
      rw [this]
      exact Nat.pow_lt_pow_right (by decide) hlt
    · obtain ⟨-, j, b, v, hp, -, -, -⟩ := hres
      obtain ⟨b2, hb2, hh2⟩ := (probe_insert_slot _ _ j).2 hp
      exact absurd (hg.2.1 key ⟨j, b2, hb2, hh2⟩) hno
  · intro k v hf
    have hk : has_key m.buckets_.buckets_ k := by
      by_contra hcon
      rw [← hinv.lookup_none_iff] at hcon
      rw [hinv.find_eq k out, hcon] at hf
      simp at hf
    obtain ⟨v', hv'⟩ := hinv'.lookup_some_of_key (hkeys k hk)
    exact ⟨v', by rw [hinv'.find_eq k out, hv']; rfl⟩

/-- An instance: the insert of key 3 into the full map of hashpower 1. -/
theorem map.insert_into_full_table_default_example :
    reachable identity_hash full_table ∧
    (∀ (i : Nat) (b : bucket Nat Nat), full_table.buckets_.buckets_[i]? = some b →
      b.live = true) ∧
    map.find identity_hash full_table 3 0 = .ok (full_table, false, 0) ∧
    ((∃ fuel x, map.insert identity_hash fuel full_table 3 9 = .ok x) ∧
    ∀ (fuel : Nat) (x : map Nat Nat × Bool),
      map.insert identity_hash fuel full_table 3 9 = .ok x →
      x.2 = true ∧ full_table.capacity < x.1.capacity ∧
      ∀ (k : Nat) (v : Nat), map.find identity_hash full_table k 0 = .ok (full_table, true, v) →
        ∃ v', map.find identity_hash x.1 k 0 = .ok (x.1, true, v')) :=
  have hr : reachable identity_hash full_table :=
    (reachable.construct 1).run 20 [.insert 1 1, .insert 2 2] _ (by with_unfolding_all rfl)
  have hfull : ∀ (i : Nat) (b : bucket Nat Nat), full_table.buckets_.buckets_[i]? = some b →
      b.live = true := by
    intro i b hb
    match i, hb with
    | 0, hb => cases hb; rfl
    | 1, hb => cases hb; rfl
    | n + 2, hb => cases hb
  ⟨hr, hfull, by with_unfolding_all rfl,
    map.insert_into_full_table_default hr hfull 3 9 0 (by with_unfolding_all rfl)⟩

/-- C26: the range constructor with a functor other than the default-constructed `Hash()`
builds a map that does not hold the distinct keys of the list.  From the list
`(0, 10), (2, 20), (0, 30)` with `SeededHash{1}` and hashpower 0 it builds a map in which key
0 is live twice: `size()` is 3 for two distinct keys, `find(0)` returns 30, not the value 10
of the first occurrence, and `find(2)` returns false. -/
theorem C26_seeded_constructor_stores_key_twice :
    map.new_range_with (seeded_hash 1) (seeded_hash 0) 20 [(0, 10), (2, 20), (0, 30)] 0
      = .ok seeded_twice ∧
    seeded_twice.size = .ok 3 ∧
    ([(0, 10), (2, 20), (0, 30)].map Prod.fst).dedup.length = 2 ∧
    first_value 0 [(0, 10), (2, 20), (0, 30)] = some 10 ∧
    map.find (seeded_hash 1) seeded_twice 0 7 = .ok (seeded_twice, true, 30) ∧
    map.find (seeded_hash 1) seeded_twice 2 7 = .ok (seeded_twice, false, 7) :=
  ⟨by with_unfolding_all rfl, by with_unfolding_all rfl, by decide, by with_unfolding_all rfl,
    by with_unfolding_all rfl, by with_unfolding_all rfl⟩

/-- For a map whose functor is the default-constructed `Hash()`: for every list of pairs and
every initial hashpower, the range constructor and the initializer-list constructor return (for enough fuel) the same map; `find(k)` returns true
exactly for the keys of the list, with the value of the first pair of that key, and `size()`
is the number of distinct keys. -/
theorem map.construct_from_list_default (hash_fn : K → Nat) (kvs : List (K × V)) (hp : Nat) :
    ∃ (fuel : Nat) (m : map K V),
      map.new_range hash_fn fuel kvs hp = .ok m ∧ map.new_init hash_fn fuel kvs hp = .ok m ∧
      (∀ (k : K) (out : V), map.find hash_fn m k out
        = .ok (m, (first_value k kvs).isSome, (first_value k kvs).getD out)) ∧
      (∀ k, (first_value k kvs).isSome = true ↔ k ∈ kvs.map Prod.fst) ∧
      m.size = .ok (kvs.map Prod.fst).dedup.length := by
  have h0 : live_count (map.new hp : map K V).buckets_.buckets_ = 0 := live_count_replicate _
  have hlook : ∀ k, (map.new hp : map K V).lookup hash_fn k = first_value k [] := fun k =>
    ((map.inv_new hp).lookup_none_iff k).2 (has_key_replicate _ _)
  obtain ⟨fuel, m, hrun, hc, hl, hn⟩ :=
    @map.clean.new_range_spec K V _ hash_fn kvs [] (map.new hp) (map.clean_new hp) hlook
      (by rw [h0]; rfl)
  simp only [List.nil_append] at hl hn
  refine ⟨fuel, m, hrun, hrun, ?_, ?_, ?_⟩
  · intro k out
    rw [hc.1.find_eq k out, hl k]
  · intro k
    cases h : first_value k kvs with
    | none =>
      have hnot := (first_value_none_iff kvs).1 h
      simp [hnot]
    | some v =>
      have hin : ¬ (k ∉ kvs.map Prod.fst) := fun hnot => by
        rw [← first_value_none_iff, h] at hnot
        cases hnot
      simp only [Option.isSome_some, true_iff]
      exact not_not.1 hin
  · rw [hc.size_count, hn, List.card_toFinset]

/-- C27: in every reachable state, on the locked table `begin()` and `end()` return, and the
traversal from `begin()` with `++` until `end()` visits exactly the live slots, each once, in
increasing index order; their number is `size()`, and `begin() == end()` exactly when no slot
is live. -/
theorem C27_forward_traversal {m : map K V} (hr : reachable hash_fn m) :
    ∃ (b : Nat) (l : List Nat), locked_table.begin m.buckets_ = .ok b ∧
      locked_table.cend m.buckets_ = .ok m.buckets_.size ∧
      locked_table.forward m.buckets_ (m.buckets_.size + 1) b = .ok l ∧
      l = (List.range m.buckets_.size).filter (live_at m.buckets_.buckets_) ∧
      l.Pairwise (· < ·) ∧ (∀ i, i ∈ l ↔ live_at m.buckets_.buckets_ i = true) ∧
      m.size = .ok l.length ∧
      (b = m.buckets_.size ↔ ∀ i, live_at m.buckets_.buckets_ i = false) := by
  have hlen : m.buckets_.buckets_.length = m.buckets_.size := by
    rw [hr.to_inv.len, table.size, Nat.one_shiftLeft]
  obtain ⟨b, hb, hb1, hb2, hb3⟩ := locked_table.begin_spec m.buckets_ hlen
  have hv : b = m.buckets_.size ∨ live_at m.buckets_.buckets_ b = true := by
    by_cases hbs : b = m.buckets_.size
    · exact Or.inl hbs
    · exact Or.inr (hb2 (by omega))
  obtain ⟨l, hl, hsorted, hmem⟩ := locked_table.forward_spec m.buckets_ hlen
    (m.buckets_.size - b) b (m.buckets_.size + 1) hv (Nat.le_refl _) (by omega)
  have hmem' : ∀ i, i ∈ l ↔ live_at m.buckets_.buckets_ i = true := by
    intro i
    rw [hmem]
    constructor
    · exact fun h => h.2
    · intro h
      refine ⟨?_, h⟩
      by_contra hcon
      rw [hb3 i (by omega)] at h
      simp at h
  have heq : l = (List.range m.buckets_.size).filter (live_at m.buckets_.buckets_) := by
    apply sorted_lt_ext hsorted ((List.pairwise_lt_range _).filter _)
    intro i
    rw [hmem', List.mem_filter, List.mem_range]
    constructor
    · intro h
      exact ⟨by rw [← hlen]; exact live_at_lt h, h⟩
    · exact fun h => h.2
  refine ⟨b, l, hb, locked_table.cend_eq _, hl, heq, hsorted, hmem', ?_, ?_⟩
  · rw [hr.size_live, heq, ← List.countP_eq_length_filter, live_count, hlen]
  · constructor
    · intro hbs i
      by_cases hi : i < b
      · exact hb3 i hi
      · cases hli : live_at m.buckets_.buckets_ i with
        | false => rfl
        | true =>
          have := live_at_lt hli
          omega
    · intro hall
      by_contra hcon
      have := hb2 (by omega)
      rw [hall b] at this
      simp at this

/-- Witness of C27: the traversal of the full map of hashpower 1. -/
theorem C27_forward_traversal_witness :
    reachable identity_hash full_table ∧
    (∃ (b : Nat) (l : List Nat), locked_table.begin full_table.buckets_ = .ok b ∧
      locked_table.cend full_table.buckets_ = .ok full_table.buckets_.size ∧
      locked_table.forward full_table.buckets_ (full_table.buckets_.size + 1) b = .ok l ∧
      l = (List.range full_table.buckets_.size).filter (live_at full_table.buckets_.buckets_) ∧
      l.Pairwise (· < ·) ∧ (∀ i, i ∈ l ↔ live_at full_table.buckets_.buckets_ i = true) ∧
      full_table.size = .ok l.length ∧
      (b = full_table.buckets_.size ↔ ∀ i, live_at full_table.buckets_.buckets_ i = false)) :=
  have hr : reachable identity_hash full_table :=
    (reachable.construct 1).run 20 [.insert 1 1, .insert 2 2] _ (by with_unfolding_all rfl)
  ⟨hr, C27_forward_traversal hr⟩

/-- C28: for every bucket array and every iterator position `p`
of the locked table, that is `end()` or a live slot: if `p` is not `begin()` then `--p`
returns and `++(--p) == p`; if `p` is not `end()` then `++p` returns and `--(++p) == p`; when
a slot is live, `--end()` is the last live slot; and the traversal with `--` from `end()` down
to `begin()` visits the slots of the forward traversal in reverse order. -/
theorem C28_iterator_round_trip (t : table K V) (hlen : t.buckets_.length = t.size) :
    ∃ (b : Nat) (lf : List Nat), locked_table.begin t = .ok b ∧
      (∀ p, (p = t.size ∨ live_at t.buckets_ p = true) → p ≠ b →
        ∃ q, const_iterator.operator_dec t p = .ok q ∧
          const_iterator.operator_inc t q = .ok p) ∧
      (∀ p, (p = t.size ∨ live_at t.buckets_ p = true) → p ≠ t.size →
        ∃ q, const_iterator.operator_inc t p = .ok q ∧
          const_iterator.operator_dec t q = .ok p) ∧
      (b ≠ t.size → ∃ q, const_iterator.operator_dec t t.size = .ok q ∧
        live_at t.buckets_ q = true ∧ ∀ k, q < k → live_at t.buckets_ k = false) ∧
      locked_table.forward t (t.size + 1) b = .ok lf ∧
      locked_table.backward t (t.size + 1) t.size = .ok lf.reverse := by
  obtain ⟨b, hb, hb1, hb2, hb3⟩ := locked_table.begin_spec t hlen
  have hv : b = t.size ∨ live_at t.buckets_ b = true := by
    by_cases hbs : b = t.size
    · exact Or.inl hbs
    · exact Or.inr (hb2 (by omega))
  obtain ⟨lf, hlf, hsf, hmf⟩ := locked_table.forward_spec t hlen (t.size - b) b (t.size + 1)
    hv (Nat.le_refl _) (by omega)
  obtain ⟨lb, hlb, hsb, hmb⟩ := locked_table.backward_spec t hlen t.size t.size
    (t.size + 1) (Or.inl rfl) (Nat.le_refl _) (Nat.le_refl _)
  have hrev : lb.reverse = lf := by
    apply sorted_lt_ext (List.pairwise_reverse.2 hsb) hsf
    intro i
    rw [List.mem_reverse, hmb, hmf]
    constructor
    · rintro ⟨-, h2⟩
      refine ⟨?_, h2⟩
      by_contra hcon
      rw [hb3 i (by omega)] at h2
      simp at h2
    · rintro ⟨-, h2⟩
      exact ⟨by rw [← hlen]; exact live_at_lt h2, h2⟩
  refine ⟨b, lf, hb, ?_, ?_, ?_, hlf, ?_⟩
  · intro p hp hne
    obtain ⟨q, hq1, hq2, -, -⟩ := const_iterator.dec_inc t hlen hb hp hne
    exact ⟨q, hq1, hq2⟩
  · intro p hp hne
    have hlive : live_at t.buckets_ p = true := by
      rcases hp with hp | hp
      · exact absurd hp hne
      · exact hp
    obtain ⟨q, hq1, hq2, -, -⟩ := const_iterator.inc_dec t hlen hlive
    exact ⟨q, hq1, hq2⟩
  · intro hne
    obtain ⟨q, hq1, -, hq3, hq4⟩ :=
      const_iterator.dec_inc t hlen hb (Or.inl rfl) (fun h => hne h.symm)
    obtain ⟨q', hq', -, -, hgap⟩ := const_iterator.operator_dec_spec t hlen
      (show 0 < t.size by omega) (Nat.le_refl _)
    rw [hq1] at hq'
    simp only [Except.ok.injEq] at hq'
    subst hq'
    refine ⟨q, hq1, hq4, ?_⟩
    intro k hk
    by_cases hks : k < t.size
    · exact hgap k hk hks
    · cases hli : live_at t.buckets_ k with
      | false => rfl
      | true =>
        have := live_at_lt hli
        omega
  · rw [hlb, ← hrev, List.reverse_reverse]

/-- Witness of C28: a bucket array of eight slots with live slots 1, 4 and 6. -/
theorem C28_iterator_round_trip_witness :
    gapped_slots.buckets_.length = gapped_slots.size ∧
    (∃ (b : Nat) (lf : List Nat), locked_table.begin gapped_slots = .ok b ∧
      (∀ p, (p = gapped_slots.size ∨ live_at gapped_slots.buckets_ p = true) → p ≠ b →
        ∃ q, const_iterator.operator_dec gapped_slots p = .ok q ∧
          const_iterator.operator_inc gapped_slots q = .ok p) ∧
      (∀ p, (p = gapped_slots.size ∨ live_at gapped_slots.buckets_ p = true) →
        p ≠ gapped_slots.size →
        ∃ q, const_iterator.operator_inc gapped_slots p = .ok q ∧
          const_iterator.operator_dec gapped_slots q = .ok p) ∧
      (b ≠ gapped_slots.size → ∃ q, const_iterator.operator_dec gapped_slots gapped_slots.size
          = .ok q ∧
        live_at gapped_slots.buckets_ q = true ∧
        ∀ k, q < k → live_at gapped_slots.buckets_ k = false) ∧
      locked_table.forward gapped_slots (gapped_slots.size + 1) b = .ok lf ∧
      locked_table.backward gapped_slots (gapped_slots.size + 1) gapped_slots.size
        = .ok lf.reverse) :=
  ⟨by decide, C28_iterator_round_trip gapped_slots (by decide)⟩

/-- C31: in every state that satisfies the invariant, for every key and hash value `hv` with
`home = hv & (2^hp - 1)`, `linear_find_loop` returns the result `r` of a walk over the slots
`home, home + 1, …` (mod `2^hp`), at most `max(1, hp)` of them: it returns `Found(i)`
(status `ok`, index `i`) exactly when `i` is the first slot of the walk that is live with a key
equal to `key` and every slot before it is occupied (a tombstone or another key, which are
skipped); otherwise, on a never-occupied slot or when the budget is used up, it returns
`NotFound`. -/
theorem C31_find_probe {m : map K V} (hinv : map.inv hash_fn m) (key : K) (hv : Nat) :
    ∃ r : Option Nat,
      m.linear_find_loop key hv = .ok (m.find_result r) ∧
      index_hash m.hashpower hv = hv % 2 ^ m.hashpower ∧
      (∀ i, r = some i ↔
        ∃ e, e < max 1 m.hashpower ∧
          ((index_hash m.hashpower hv + e) % 2 ^ m.hashpower = i ∧
            ∃ b, m.buckets_.buckets_[i]? = some b ∧ b.holds key = true) ∧
          ∀ e', e' < e → ∃ b,
            m.buckets_.buckets_[(index_hash m.hashpower hv + e') % 2 ^ m.hashpower]? = some b ∧
              b.occupied_ = true ∧ b.holds key = false) ∧
      (∀ i, r = some i → (m.find_result r).2.status = .ok ∧ (m.find_result r).2.index = i) ∧
      (r = none → (m.find_result r).2.status = .failure_key_not_found) := by
  refine ⟨probe_find key m.buckets_.buckets_ (probe_budget m.hashpower)
    (index_hash m.hashpower hv), hinv.linear_find_loop_eq key hv, index_hash_eq _ _,
    fun i => ?_, ?_, ?_⟩
  · have h := @probe_find_iff K V _ key m.buckets_.buckets_ i (probe_budget m.hashpower)
      (index_hash m.hashpower hv) (by rw [hinv.len]; exact index_hash_lt _ _)
    rw [hinv.len] at h
    exact h
  · intro i hi
    rw [hi]
    exact ⟨rfl, rfl⟩
  · intro hn
    rw [hn]
    rfl

/-- Witness of C31: the map in which key 4 lives behind the tombstone of its home slot. -/
theorem C31_find_probe_witness :
    map.inv identity_hash key_behind_tombstone ∧
    ∃ r : Option Nat,
      key_behind_tombstone.linear_find_loop 4 4 = .ok (key_behind_tombstone.find_result r) ∧
      index_hash key_behind_tombstone.hashpower 4 = 4 % 2 ^ key_behind_tombstone.hashpower ∧
      (∀ i, r = some i ↔
        ∃ e, e < max 1 key_behind_tombstone.hashpower ∧
          ((index_hash key_behind_tombstone.hashpower 4 + e)
              % 2 ^ key_behind_tombstone.hashpower = i ∧
            ∃ b, key_behind_tombstone.buckets_.buckets_[i]? = some b ∧ b.holds 4 = true) ∧
          ∀ e', e' < e → ∃ b,
            key_behind_tombstone.buckets_.buckets_[(index_hash key_behind_tombstone.hashpower 4
              + e') % 2 ^ key_behind_tombstone.hashpower]? = some b ∧
              b.occupied_ = true ∧ b.holds 4 = false) ∧
      (∀ i, r = some i → (key_behind_tombstone.find_result r).2.status = .ok ∧
        (key_behind_tombstone.find_result r).2.index = i) ∧
      (r = none → (key_behind_tombstone.find_result r).2.status = .failure_key_not_found) :=
  have hr : reachable identity_hash key_behind_tombstone :=
    (reachable.construct 2).run 20 [.insert 0 0, .insert 4 1, .erase 0] _
      (by with_unfolding_all rfl)
  ⟨hr.to_inv, C31_find_probe hr.to_inv 4 4⟩

/-- C32: in every state that satisfies the invariant, for every key and hash value `hv` with
`home = hv & (2^hp - 1)`, `linear_insert_loop` walks the slots `home, home + 1, …`
(mod `2^hp`), at most `max(1, hp)` of them.  When the first slot of the walk that is not live
with another key is not live (never occupied or a tombstone) it returns that slot as
`InsertHere` (status `ok`); when it is live with a key equal to `key` it returns it as
`Duplicate`; in both cases the table is not resized.  A returning call has grown the table
exactly when all `max(1, hp)` slots of the walk are live with keys unequal to `key`, and then
the call does return.  On a tombstone in the home slot followed by a never-occupied slot it
returns the index of the tombstone while `linear_find_loop` returns `NotFound`. -/
theorem C32_insert_probe {m : map K V} (hinv : map.inv hash_fn m) (key : K) (hv : Nat) :
    (∀ j, (∃ e, e < max 1 m.hashpower ∧
        ((index_hash m.hashpower hv + e) % 2 ^ m.hashpower = j ∧
          ∃ b, m.buckets_.buckets_[j]? = some b ∧ b.live = false) ∧
        ∀ e', e' < e → ∃ b,
          m.buckets_.buckets_[(index_hash m.hashpower hv + e') % 2 ^ m.hashpower]? = some b ∧
            b.live = true ∧ b.holds key = false) →
      map.linear_insert_loop hash_fn (max 1 m.hashpower + 1) m key hv
        = .ok (m.hold (m.stripe j), ⟨j, .ok, some (m.stripe j)⟩)) ∧
    (∀ j, (∃ e, e < max 1 m.hashpower ∧
        ((index_hash m.hashpower hv + e) % 2 ^ m.hashpower = j ∧
          ∃ b, m.buckets_.buckets_[j]? = some b ∧ b.holds key = true) ∧
        ∀ e', e' < e → ∃ b,
          m.buckets_.buckets_[(index_hash m.hashpower hv + e') % 2 ^ m.hashpower]? = some b ∧
            b.live = true ∧ b.holds key = false) →
      map.linear_insert_loop hash_fn (max 1 m.hashpower + 1) m key hv
        = .ok (m.hold (m.stripe j), ⟨j, .failure_key_duplicated, some (m.stripe j)⟩)) ∧
    (∀ fuel x, map.linear_insert_loop hash_fn fuel m key hv = .ok x →
      (x.1.hashpower = m.hashpower ∨ m.hashpower < x.1.hashpower) ∧
      (m.hashpower < x.1.hashpower ↔
        ∀ e, e < max 1 m.hashpower → ∃ b,
          m.buckets_.buckets_[(index_hash m.hashpower hv + e) % 2 ^ m.hashpower]? = some b ∧
            b.live = true ∧ b.holds key = false)) ∧
    (∃ fuel x, map.linear_insert_loop hash_fn fuel m key hv = .ok x) ∧
    (∀ b b', m.buckets_.buckets_[index_hash m.hashpower hv]? = some b →
      b.occupied_ = true → b.deleted_ = true →
      m.buckets_.buckets_[(index_hash m.hashpower hv + 1) % 2 ^ m.hashpower]? = some b' →
      b'.occupied_ = false →
      map.linear_insert_loop hash_fn (max 1 m.hashpower + 1) m key hv
        = .ok (m.hold (m.stripe (index_hash m.hashpower hv)),
            ⟨index_hash m.hashpower hv, .ok, some (m.stripe (index_hash m.hashpower hv))⟩) ∧
      m.linear_find_loop key hv = .ok (m, ⟨0, .failure_key_not_found, none⟩)) := by
  have hhome : index_hash m.hashpower hv < m.buckets_.buckets_.length := by
    rw [hinv.len]
    exact index_hash_lt _ _
  obtain ⟨hhere, hdup, hexh⟩ := @probe_insert_iff K V _ key m.buckets_.buckets_
    (probe_budget m.hashpower) (index_hash m.hashpower hv) hhome
  rw [hinv.len] at hexh
  have hfound : ∀ j st, (st = op_status.ok ∧
        probe_insert key m.buckets_.buckets_ (probe_budget m.hashpower)
          (index_hash m.hashpower hv) = .here j) ∨
      (st = op_status.failure_key_duplicated ∧
        probe_insert key m.buckets_.buckets_ (probe_budget m.hashpower)
          (index_hash m.hashpower hv) = .duplicate j) →
      map.linear_insert_loop hash_fn (max 1 m.hashpower + 1) m key hv
        = .ok (m.hold (m.stripe j), ⟨j, st, some (m.stripe j)⟩) := by
    intro j st hjs
    have hne : probe_insert key m.buckets_.buckets_ (probe_budget m.hashpower)
        (index_hash m.hashpower hv) ≠ .exhausted := by
      rcases hjs with ⟨-, h⟩ | ⟨-, h⟩ <;> rw [h] <;> simp
    obtain ⟨j', st', hl, hres⟩ := hinv.loop_found key hv hne
    have : j' = j ∧ st' = st := by
      rcases hjs with ⟨h1, h2⟩ | ⟨h1, h2⟩ <;> rcases hres with ⟨h3, h4⟩ | ⟨h3, h4⟩ <;>
        rw [h2] at h4 <;> cases h4 <;> exact ⟨rfl, by rw [h1, h3]⟩
    rw [← this.1, ← this.2]
    exact hl
  refine ⟨fun j hj => ?_, fun j hj => ?_, fun fuel x hx => ?_, ?_, ?_⟩
  · apply hfound j .ok
    left
    refine ⟨rfl, (hhere j).2 ?_⟩
    rw [hinv.len]
    exact hj
  · apply hfound j .failure_key_duplicated
    right
    refine ⟨rfl, (hdup j).2 ?_⟩
    rw [hinv.len]
    exact hj
  · obtain ⟨h1, h2⟩ := hinv.loop_grows_iff key hv hx
    exact ⟨h2, h1.trans hexh⟩
  · exact map.inv.loop_returns_aux _ _ m hinv (Nat.le_refl _) rfl key hv
  · intro b b' hb ho hd hb' ho'
    have hbl : b.live = false := by simp [bucket.live, ho, hd]
    refine ⟨?_, ?_⟩
    · apply hfound _ .ok
      left
      refine ⟨rfl, (hhere _).2 ⟨0, probe_budget_pos _, ⟨?_, b, hb, hbl⟩, fun e' he' => ?_⟩⟩
      · rw [Nat.add_zero, Nat.mod_eq_of_lt hhome]
      · omega
    · rw [hinv.linear_find_loop_eq key hv]
      have hnone : probe_find key m.buckets_.buckets_ (probe_budget m.hashpower)
          (index_hash m.hashpower hv) = none := by
        cases hp : probe_find key m.buckets_.buckets_ (probe_budget m.hashpower)
            (index_hash m.hashpower hv) with
        | none => rfl
        | some i =>
          exfalso
          obtain ⟨e, -, ⟨hei, bi, hbi, hhi⟩, hbefore⟩ :=
            (@probe_find_iff K V _ key m.buckets_.buckets_ i (probe_budget m.hashpower)
              (index_hash m.hashpower hv) hhome).1 hp
          have h0 : (index_hash m.hashpower hv + 0) % m.buckets_.buckets_.length
              = index_hash m.hashpower hv := by
            rw [Nat.add_zero, Nat.mod_eq_of_lt hhome]
          have hb2 : m.buckets_.buckets_[(index_hash m.hashpower hv + 1)
              % m.buckets_.buckets_.length]? = some b' := by
            rw [hinv.len]
            exact hb'
          rcases Nat.lt_or_ge e 1 with he | he
          · have he0 : e = 0 := by omega
            subst he0
            rw [h0] at hei
            subst hei
            rw [hb] at hbi
            cases hbi
            have := bucket.holds_live hhi
            rw [hbl] at this
            cases this
          · rcases Nat.lt_or_ge e 2 with he2 | he2
            · have he1 : e = 1 := by omega
              subst he1
              subst hei
              rw [hb2] at hbi
              cases hbi
              have := ((bucket.holds_iff _ _).1 hhi).1
              rw [ho'] at this
              cases this
            · obtain ⟨b1, hb1, ho1, -⟩ := hbefore 1 (by omega)
              rw [hb2] at hb1
              cases hb1
              rw [ho'] at ho1
              cases ho1
      rw [hnone]
      rfl

/-- Witness of C32: the map with a tombstone in slot 0 and key 4 behind it, probed for key 8,
whose home slot is the tombstone. -/
theorem C32_insert_probe_witness :
    map.inv identity_hash key_behind_tombstone ∧
    ((∀ j, (∃ e, e < max 1 key_behind_tombstone.hashpower ∧
        ((index_hash key_behind_tombstone.hashpower 8 + e) % 2 ^ key_behind_tombstone.hashpower = j ∧
          ∃ b, key_behind_tombstone.buckets_.buckets_[j]? = some b ∧ b.live = false) ∧
        ∀ e', e' < e → ∃ b,
          key_behind_tombstone.buckets_.buckets_[(index_hash key_behind_tombstone.hashpower 8 + e') % 2 ^ key_behind_tombstone.hashpower]? = some b ∧
            b.live = true ∧ b.holds 8 = false) →
      map.linear_insert_loop identity_hash (max 1 key_behind_tombstone.hashpower + 1) key_behind_tombstone 8 8
        = .ok (key_behind_tombstone.hold (key_behind_tombstone.stripe j), ⟨j, .ok, some (key_behind_tombstone.stripe j)⟩)) ∧
    (∀ j, (∃ e, e < max 1 key_behind_tombstone.hashpower ∧
        ((index_hash key_behind_tombstone.hashpower 8 + e) % 2 ^ key_behind_tombstone.hashpower = j ∧
          ∃ b, key_behind_tombstone.buckets_.buckets_[j]? = some b ∧ b.holds 8 = true) ∧
        ∀ e', e' < e → ∃ b,
          key_behind_tombstone.buckets_.buckets_[(index_hash key_behind_tombstone.hashpower 8 + e') % 2 ^ key_behind_tombstone.hashpower]? = some b ∧
            b.live = true ∧ b.holds 8 = false) →
      map.linear_insert_loop identity_hash (max 1 key_behind_tombstone.hashpower + 1) key_behind_tombstone 8 8
        = .ok (key_behind_tombstone.hold (key_behind_tombstone.stripe j), ⟨j, .failure_key_duplicated, some (key_behind_tombstone.stripe j)⟩)) ∧
    (∀ fuel x, map.linear_insert_loop identity_hash fuel key_behind_tombstone 8 8 = .ok x →
      (x.1.hashpower = key_behind_tombstone.hashpower ∨ key_behind_tombstone.hashpower < x.1.hashpower) ∧
      (key_behind_tombstone.hashpower < x.1.hashpower ↔
        ∀ e, e < max 1 key_behind_tombstone.hashpower → ∃ b,
          key_behind_tombstone.buckets_.buckets_[(index_hash key_behind_tombstone.hashpower 8 + e) % 2 ^ key_behind_tombstone.hashpower]? = some b ∧
            b.live = true ∧ b.holds 8 = false)) ∧
    (∃ fuel x, map.linear_insert_loop identity_hash fuel key_behind_tombstone 8 8 = .ok x) ∧
    (∀ b b', key_behind_tombstone.buckets_.buckets_[index_hash key_behind_tombstone.hashpower 8]? = some b →
      b.occupied_ = true → b.deleted_ = true →
      key_behind_tombstone.buckets_.buckets_[(index_hash key_behind_tombstone.hashpower 8 + 1) % 2 ^ key_behind_tombstone.hashpower]? = some b' →
      b'.occupied_ = false →
      map.linear_insert_loop identity_hash (max 1 key_behind_tombstone.hashpower + 1) key_behind_tombstone 8 8
        = .ok (key_behind_tombstone.hold (key_behind_tombstone.stripe (index_hash key_behind_tombstone.hashpower 8)),
            ⟨index_hash key_behind_tombstone.hashpower 8, .ok, some (key_behind_tombstone.stripe (index_hash key_behind_tombstone.hashpower 8))⟩) ∧
      key_behind_tombstone.linear_find_loop 8 8 = .ok (key_behind_tombstone, ⟨0, .failure_key_not_found, none⟩))) :=
  have hr : reachable identity_hash key_behind_tombstone :=
    (reachable.construct 2).run 20 [.insert 0 0, .insert 4 1, .erase 0] _
      (by with_unfolding_all rfl)
  ⟨hr.to_inv, C32_insert_probe hr.to_inv 8 8⟩

/-- C33 (counterexample): a resize appends a stripe set also when the stripe count does not
grow.  `rehash(1)` on the empty map of hashpower 3 lowers the stripe count from 8 to 2, and
`rehash(0)` on the full map of hashpower 1 keeps it at 2; both leave a history of two stripe
sets where there was one. -/
theorem C33_history_grows_without_more_stripes :
    map.rehash identity_hash 20 (map.new 3) 1 = .ok (reserved_down, true) ∧
    (map.new 3 : map Nat Nat).all_locks_.map List.length = [8] ∧
    reserved_down.all_locks_.map List.length = [2, 8] ∧
    map.rehash identity_hash 20 full_table 0 = .ok (full_table_rehashed, true) ∧
    full_table.all_locks_.map List.length = [2] ∧
    full_table_rehashed.all_locks_.map List.length = [2, 2] :=
  ⟨by with_unfolding_all rfl, by with_unfolding_all rfl, by with_unfolding_all rfl,
    by with_unfolding_all rfl, by with_unfolding_all rfl, by with_unfolding_all rfl⟩

/-- C33 (amended): in every reachable state, every resize that is carried out (a returning
`linear_expand(hashpower(), n)`) reports `ok` and appends one new stripe set, of
`min(2^16, new bucket count)` locks, to the stripe-set history, whatever the current stripe
count is; the older stripe sets are unchanged and the history is one longer. -/
theorem C33_resize_appends_stripe_set {m : map K V} (hr : reachable hash_fn m) (fuel n : Nat)
    (x : map K V × op_status)
    (h : map.linear_expand hash_fn fuel m m.hashpower n = .ok x) :
    x.2 = .ok ∧
    ∃ next_locks, x.1.all_locks_ = next_locks :: m.all_locks_ ∧
      next_locks.length = min kMaxNumLocks x.1.bucket_count ∧
      x.1.all_locks_.length = m.all_locks_.length + 1 := by
  obtain ⟨next_locks, h1, h2⟩ := hr.to_inv.expand_history h
  refine ⟨(hr.to_inv.expand_sound h).1, next_locks, h1, h2, ?_⟩
  rw [h1]
  rfl

/-- Witness of C33: the empty map of hashpower 3 resized to hashpower 1. -/
theorem C33_resize_appends_stripe_set_witness :
    reachable identity_hash (map.new 3 : map Nat Nat) ∧
    map.linear_expand identity_hash 20 (map.new 3) (map.new 3 : map Nat Nat).hashpower 1
      = .ok (reserved_down, .ok) ∧
    ((reserved_down, op_status.ok).2 = .ok ∧
    ∃ next_locks, (reserved_down, op_status.ok).1.all_locks_
        = next_locks :: (map.new 3 : map Nat Nat).all_locks_ ∧
      next_locks.length = min kMaxNumLocks (reserved_down, op_status.ok).1.bucket_count ∧
      (reserved_down, op_status.ok).1.all_locks_.length
        = (map.new 3 : map Nat Nat).all_locks_.length + 1) :=
  have hr : reachable identity_hash (map.new 3 : map Nat Nat) := reachable.construct 3
  ⟨hr, by with_unfolding_all rfl,
    C33_resize_appends_stripe_set hr 20 1 (reserved_down, .ok) (by with_unfolding_all rfl)⟩

/-- C34: in every reachable state the current stripe set has exactly
`min(bucket_count, 2^16)` locks, which is the power of two `2^min(hashpower, 16)`, and
`lock_ind(i)` is `i mod stripe_count`, a valid index into it. -/
theorem C34_stripe_count {m : map K V} (hr : reachable hash_fn m) :
    ∃ cur older, m.all_locks_ = cur :: older ∧ m.get_current_locks = .ok cur ∧
      cur.length = min m.bucket_count (2 ^ 16) ∧
      cur.length = 2 ^ min m.hashpower 16 ∧
      ∀ i, m.lock_ind i = .ok (i % cur.length) ∧ i % cur.length < cur.length := by
  obtain ⟨cur, older, hc, hlen⟩ := hr.to_inv.cur
  have hk : kMaxNumLocks = 2 ^ 16 := by decide
  have hpow : cur.length = 2 ^ min m.hashpower 16 := by
    rw [hlen, hk]
    unfold map.hashpower
    rcases Nat.le_total m.buckets_.hashpower_ 16 with h | h
    · rw [Nat.min_eq_left h, Nat.min_eq_left (Nat.pow_le_pow_right (by omega) h)]
    · rw [Nat.min_eq_right h, Nat.min_eq_right (Nat.pow_le_pow_right (by omega) h)]
  have hpos : 0 < cur.length := by
    rw [hpow]
    exact Nat.pow_pos (by omega)
  refine ⟨cur, older, hc, by simp [map.get_current_locks, hc], ?_, hpow, fun i => ⟨?_, ?_⟩⟩
  · rw [hlen, hk]
    simp [map.bucket_count, table.size, Nat.one_shiftLeft]
  · simp only [map.lock_ind, map.get_current_locks, hc]
    rw [hpow, Nat.and_pow_two_sub_one_eq_mod]
  · exact Nat.mod_lt _ hpos

/-- Witness of C34: the full map of hashpower 1. -/
theorem C34_stripe_count_witness :
    reachable identity_hash full_table ∧
    ∃ cur older, full_table.all_locks_ = cur :: older ∧
      full_table.get_current_locks = .ok cur ∧
      cur.length = min full_table.bucket_count (2 ^ 16) ∧
      cur.length = 2 ^ min full_table.hashpower 16 ∧
      ∀ i, full_table.lock_ind i = .ok (i % cur.length) ∧ i % cur.length < cur.length :=
  have hr : reachable identity_hash full_table :=
    (reachable.construct 1).run 20 [.insert 1 1, .insert 2 2] _ (by with_unfolding_all rfl)
  ⟨hr, C34_stripe_count hr⟩

/-- C35: in every reachable state every element counter of the current stripe set is the
number of live slots whose index maps to that stripe, so it is not negative, and `size()`
returns the number of live slots; the reachable states include those right after a grow, a
rehash, a reserve or a shrink has rebuilt the stripe set. -/
theorem C35_counters_exact {m : map K V} (hr : reachable hash_fn m) :
    ∃ cur older, m.all_locks_ = cur :: older ∧
      (∀ (s : Nat) (c : spinlock_t), cur[s]? = some c →
        c.element_counter_ = ((List.range m.buckets_.buckets_.length).countP
          (fun i => live_at m.buckets_.buckets_ i && decide (i &&& (cur.length - 1) = s)) : Nat) ∧
        0 ≤ c.element_counter_) ∧
      m.size = .ok (live_count m.buckets_.buckets_) ∧
      (cur.map spinlock_t.element_counter_).sum = (live_count m.buckets_.buckets_ : Int) := by
  obtain ⟨cur, older, hc, -⟩ := hr.to_inv.cur
  have hcount := hr.to_counted cur older hc
  have hsize := hr.size_live
  refine ⟨cur, older, hc, fun s c hs => ?_, hsize, ?_⟩
  · have := hcount s c hs
    unfold stripe_live at this
    rw [this]
    exact ⟨rfl, Int.ofNat_nonneg _⟩
  · unfold map.size at hsize
    simp only [hc] at hsize
    split at hsize
    · simp only [Except.ok.injEq] at hsize
      omega
    · cases hsize

/-- Witness of C35: the map grown from hashpower 1 to hashpower 2 by `insert(3, 0)`. -/
theorem C35_counters_exact_witness :
    reachable identity_hash (grown_table 0) ∧
    ∃ cur older, (grown_table 0).all_locks_ = cur :: older ∧
      (∀ (s : Nat) (c : spinlock_t), cur[s]? = some c →
        c.element_counter_ = ((List.range (grown_table 0).buckets_.buckets_.length).countP
          (fun i => live_at (grown_table 0).buckets_.buckets_ i &&
            decide (i &&& (cur.length - 1) = s)) : Nat) ∧
        0 ≤ c.element_counter_) ∧
      (grown_table 0).size = .ok (live_count (grown_table 0).buckets_.buckets_) ∧
      (cur.map spinlock_t.element_counter_).sum
        = (live_count (grown_table 0).buckets_.buckets_ : Int) :=
  have hr : reachable identity_hash (grown_table 0) :=
    (reachable.construct 1).run 20 [.insert 1 1, .insert 2 2, .insert 3 0] _
      (by with_unfolding_all rfl)
  ⟨hr, C35_counters_exact hr⟩

/-- C36: in every reachable state every call of the public interface (`find`, `insert`,
`insert_or_assign`, `upsert`, `update`, `update_fn`, `erase`, `clear`, `rehash`, `reserve`,
`shrink`) returns, and when it has returned every spinlock of every stripe set of the history
is unlocked. -/
theorem C36_locks_released {m : map K V} (hr : reachable hash_fn m) (o : op K V) :
    (∃ fuel m', map.apply hash_fn fuel m o = .ok m') ∧
    ∀ fuel m', map.apply hash_fn fuel m o = .ok m' →
      ∀ locks ∈ m'.all_locks_, ∀ s ∈ locks, s.lock_ = false :=
  ⟨hr.to_inv.apply_returns hr.to_counted o, fun _ _ h => (hr.to_inv.apply h).free⟩

/-- Witness of C36: `insert(3, 0)` on the full map of hashpower 1, which grows the table and
appends a stripe set. -/
theorem C36_locks_released_witness :
    reachable identity_hash full_table ∧
    ((∃ fuel m', map.apply identity_hash fuel full_table (.insert 3 0) = .ok m') ∧
    ∀ fuel m', map.apply identity_hash fuel full_table (.insert 3 0) = .ok m' →
      ∀ locks ∈ m'.all_locks_, ∀ s ∈ locks, s.lock_ = false) :=
  have hr : reachable identity_hash full_table :=
    (reachable.construct 1).run 20 [.insert 1 1, .insert 2 2] _ (by with_unfolding_all rfl)
  ⟨hr, C36_locks_released hr (.insert 3 0)⟩

/-- C37: in a map constructed with a functor other than the default-constructed `Hash()` a
resize leaves a live slot that is not findable.  The map built with `SeededHash{1}` at
hashpower 0 reaches, through `insert(0, 10); insert(2, 20)`, a state in which slot 0 is live
with key 0, while the walk of `max(1, hashpower) = 1` slots from `hash(0) & mask = 1` does not
reach slot 0, and `find(0)` returns false. -/
theorem C37_resize_leaves_unfindable_slot :
    map.insert_with (seeded_hash 1) (seeded_hash 0) 20 (map.new 0) 0 10
      = .ok (seeded_full, true) ∧
    map.insert_with (seeded_hash 1) (seeded_hash 0) 20 seeded_full 2 20
      = .ok (seeded_lost, true) ∧
    seeded_lost.buckets_.buckets_[0]? = some ⟨some (0, 10), true, false⟩ ∧
    index_hash seeded_lost.hashpower (seeded_hash 1 0) = 1 ∧
    probe_reach seeded_lost.buckets_.buckets_ (max 1 seeded_lost.hashpower)
      (index_hash seeded_lost.hashpower (seeded_hash 1 0)) 0 = false ∧
    probe_find 0 seeded_lost.buckets_.buckets_ (max 1 seeded_lost.hashpower)
      (index_hash seeded_lost.hashpower (seeded_hash 1 0)) = none ∧
    map.find (seeded_hash 1) seeded_lost 0 7 = .ok (seeded_lost, false, 7) :=
  ⟨by with_unfolding_all rfl, by with_unfolding_all rfl, by with_unfolding_all rfl,
    by with_unfolding_all rfl, by with_unfolding_all rfl, by with_unfolding_all rfl,
    by with_unfolding_all rfl⟩

/-- For a map whose functor is the default-constructed `Hash()`: in every reachable state
every live slot is findable: when slot `j` is live and
holds key `k`, slot `j` is among the first `max(1, hashpower)` slots of the walk from
`hash(k) & mask` and every slot of the walk before it is occupied; the find probe for `k`
ends on a live slot with a key equal to `k`, and `find(k)` returns true with the value of
that slot. -/
theorem reachable.live_slot_findable_default {m : map K V} (hr : reachable hash_fn m) (j : Nat)
    (b : bucket K V) (k : K) (v : V) (hb : m.buckets_.buckets_[j]? = some b)
    (hlive : b.live = true) (hst : b.storage_ = some (k, v)) :
    (∃ e, e < max 1 m.hashpower ∧
      (index_hash m.hashpower (hash_fn k) + e) % 2 ^ m.hashpower = j ∧
      ∀ e', e' < e → ∃ b',
        m.buckets_.buckets_[(index_hash m.hashpower (hash_fn k) + e') % 2 ^ m.hashpower]?
          = some b' ∧ b'.occupied_ = true) ∧
    ∃ (i : Nat) (bi : bucket K V) (vi : V),
      probe_find k m.buckets_.buckets_ (max 1 m.hashpower)
        (index_hash m.hashpower (hash_fn k)) = some i ∧
      m.buckets_.buckets_[i]? = some bi ∧ bi.live = true ∧ bi.storage_ = some (k, vi) ∧
      ∀ out, map.find hash_fn m k out = .ok (m, true, vi) := by
  have hinv := hr.to_inv
  have hreach := hinv.reach j b k v hb hlive hst
  have hhome : index_hash m.buckets_.hashpower_ (hash_fn k) < m.buckets_.buckets_.length := by
    rw [hinv.len]
    exact index_hash_lt _ _
  have hholds : b.holds k = true := by
    rw [bucket.holds_iff]
    simp only [bucket.live, Bool.and_eq_true, Bool.not_eq_true'] at hlive
    exact ⟨hlive.1, hlive.2, v, hst⟩
  refine ⟨?_, ?_⟩
  · have h := (probe_reach_iff j _ _ hhome).1 hreach
    rw [hinv.len] at h
    exact h
  · have hsome := probe_find_of_reach ⟨b, hb, hholds⟩ _ _ hreach
    cases hp : probe_find k m.buckets_.buckets_ (probe_budget m.buckets_.hashpower_)
        (index_hash m.buckets_.hashpower_ (hash_fn k)) with
    | none => simp [hp] at hsome
    | some i =>
      obtain ⟨bi, hbi, hhi⟩ := probe_find_some _ _ _ hp
      obtain ⟨-, -, vi, hsti⟩ := (bucket.holds_iff _ _).1 hhi
      exact ⟨i, bi, vi, hp, hbi, bucket.holds_live hhi, hsti,
        fun out => hinv.find_some k out hp hbi hsti⟩

/-- An instance: key 4 in slot 1 of the map in which its home slot 0 is a tombstone. -/
theorem reachable.live_slot_findable_default_example :
    reachable identity_hash key_behind_tombstone ∧
    key_behind_tombstone.buckets_.buckets_[1]? = some (live_slot 4 1) ∧
    (live_slot 4 1).live = true ∧ (live_slot 4 1).storage_ = some (4, 1) ∧
    ((∃ e, e < max 1 key_behind_tombstone.hashpower ∧
      (index_hash key_behind_tombstone.hashpower (identity_hash 4) + e)
        % 2 ^ key_behind_tombstone.hashpower = 1 ∧
      ∀ e', e' < e → ∃ b',
        key_behind_tombstone.buckets_.buckets_[(index_hash key_behind_tombstone.hashpower
          (identity_hash 4) + e') % 2 ^ key_behind_tombstone.hashpower]?
          = some b' ∧ b'.occupied_ = true) ∧
    ∃ (i : Nat) (bi : bucket Nat Nat) (vi : Nat),
      probe_find 4 key_behind_tombstone.buckets_.buckets_ (max 1 key_behind_tombstone.hashpower)
        (index_hash key_behind_tombstone.hashpower (identity_hash 4)) = some i ∧
      key_behind_tombstone.buckets_.buckets_[i]? = some bi ∧ bi.live = true ∧
      bi.storage_ = some (4, vi) ∧
      ∀ out, map.find identity_hash key_behind_tombstone 4 out
        = .ok (key_behind_tombstone, true, vi)) :=
  have hr : reachable identity_hash key_behind_tombstone :=
    (reachable.construct 2).run 20 [.insert 0 0, .insert 4 1, .erase 0] _
      (by with_unfolding_all rfl)
  ⟨hr, rfl, rfl, rfl, reachable.live_slot_findable_default hr 1 (live_slot 4 1) 4 1 rfl rfl rfl⟩

/-- C38: in every reachable state, for every key, value and hash functor, `insert` returns
(for all sufficient fuel).  The resizes it triggers are bounded by the number of live
entries: the hashpower it ends at is at most `max(hashpower, live + 1)`, and the number of
stripe sets it appends, one per grow of the table, is at most `live + 1 - hashpower`. -/
theorem C38_insert_terminates {m : map K V} (hr : reachable hash_fn m) (key : K) (val : V) :
    ∃ fuel x, (∀ fuel', fuel ≤ fuel' → map.insert hash_fn fuel' m key val = .ok x) ∧
      x.1.hashpower ≤ max m.hashpower (live_count m.buckets_.buckets_ + 1) ∧
      x.1.all_locks_.length - m.all_locks_.length
        ≤ live_count m.buckets_.buckets_ + 1 - m.hashpower := by
  obtain ⟨fuel, x, hx, hb, hh⟩ := hr.to_inv.insert_returns_bounded key val
  refine ⟨fuel, x, fun fuel' hle => map.insert_mono hle hx, hb, ?_⟩
  omega

/-- Witness of C38: the one-slot map that holds key 1, with a hash functor that maps every
key to 0. -/
theorem C38_insert_terminates_witness :
    reachable constant_hash one_slot_full ∧
    ∃ fuel x, (∀ fuel', fuel ≤ fuel' →
        map.insert constant_hash fuel' one_slot_full 2 2 = .ok x) ∧
      x.1.hashpower ≤ max one_slot_full.hashpower
        (live_count one_slot_full.buckets_.buckets_ + 1) ∧
      x.1.all_locks_.length - one_slot_full.all_locks_.length
        ≤ live_count one_slot_full.buckets_.buckets_ + 1 - one_slot_full.hashpower :=
  have hr : reachable constant_hash one_slot_full :=
    (reachable.construct 0).run 20 [.insert 1 1] _ (by with_unfolding_all rfl)
  ⟨hr, C38_insert_terminates hr 2 2⟩

/-- C39: in every reachable state no assertion fails and no index is out of range in a call
of the public interface: every call returns normally (for all sufficient fuel), `size()`
returns (its sum is not negative), the throwing `find` returns or throws `out_of_range`,
`lock_ind` is a valid stripe index below `2^16`, every slot index of a probe walk is below
the table size, a storing `upsert` constructs its pair in a slot that is not live
(`!occupied || deleted`, the assertion of `setKV`), and a successful `erase` erases a slot
that is occupied and not deleted (the assertion of `eraseKV`). -/
theorem C39_no_assertion_fails {m : map K V} (hr : reachable hash_fn m) :
    (∀ o : op K V, ∃ fuel m', ∀ fuel', fuel ≤ fuel' →
      map.apply hash_fn fuel' m o = .ok m') ∧
    (∃ n, m.size = .ok n) ∧
    (∀ key, (∃ v, map.find_or_throw hash_fn m key = .ok (m, v)) ∨
      map.find_or_throw hash_fn m key = .error .out_of_range) ∧
    (∀ i, ∃ l cur, m.lock_ind i = .ok l ∧ l < kMaxNumLocks ∧
      m.get_current_locks = .ok cur ∧ l < cur.length) ∧
    (∀ hv e, (index_hash m.hashpower hv + e) % 2 ^ m.hashpower < m.buckets_.buckets_.length) ∧
    (∀ fuel key fn val x, map.upsert hash_fn fuel m key fn val = .ok x → x.2 = true →
      ∃ (m0 : map K V) (j : Nat) (b : bucket K V), m0.buckets_.buckets_[j]? = some b ∧
        (!b.occupied_ || b.deleted_) = true ∧ x.1 = m0.stored j key val) ∧
    (∀ key m', map.erase hash_fn m key = .ok (m', true) →
      ∃ (j : Nat) (b : bucket K V), m.buckets_.buckets_[j]? = some b ∧
        b.occupied_ = true ∧ b.deleted_ = false ∧ m' = m.erased j b) := by
  have hinv := hr.to_inv
  refine ⟨fun o => ?_, ⟨_, hr.size_live⟩, fun key => ?_, fun i => ?_, fun hv e => ?_,
    fun fuel key fn val x hx htrue => ?_, fun key m' he => ?_⟩
  · obtain ⟨fuel, m', h⟩ := hinv.apply_returns hr.to_counted o
    exact ⟨fuel, m', fun fuel' hle => map.apply_mono hle h⟩
  · cases hp : probe_find key m.buckets_.buckets_ (probe_budget m.hashpower)
        (m.home hash_fn key) with
    | none => exact Or.inr (hinv.find_or_throw_none key hp)
    | some j =>
      obtain ⟨b, hb, hh⟩ := probe_find_some _ _ _ hp
      obtain ⟨-, -, v, hst⟩ := (bucket.holds_iff b key).1 hh
      exact Or.inl ⟨v, hinv.find_or_throw_some key hp hb hst⟩
  · obtain ⟨cur, older, hc, hlen⟩ := hinv.cur
    have hlt := hinv.stripe_lt hc i
    refine ⟨m.stripe i, cur, ?_, ?_, by simp [map.get_current_locks, hc], hlt⟩
    · simp [map.lock_ind, map.get_current_locks, hc, map.stripe]
    · have : cur.length ≤ kMaxNumLocks := by
        rw [hlen]
        exact Nat.min_le_right _ _
      omega
  · rw [hinv.len]
    exact Nat.mod_lt _ (Nat.pow_pos (by omega))
  · obtain ⟨m0, -, -, -, hres⟩ := hinv.upsert_sound hx
    rcases hres with ⟨-, j, hprobe, hx1⟩ | ⟨hfalse, -⟩
    · obtain ⟨b, hb, hbl⟩ := (probe_insert_slot _ _ j).1 hprobe
      refine ⟨m0, j, b, hb, ?_, hx1⟩
      simp only [bucket.live] at hbl
      cases ho : b.occupied_ <;> cases hd : b.deleted_ <;> simp [ho, hd] at hbl ⊢
    · rw [htrue] at hfalse
      cases hfalse
  · rcases hinv.erase_cases key with ⟨h1, -⟩ | ⟨j, b, hb, hh, h1⟩
    · rw [h1] at he
      simp at he
    · rw [h1] at he
      simp only [Except.ok.injEq, Prod.mk.injEq, and_true] at he
      obtain ⟨ho, hd, -⟩ := (bucket.holds_iff b key).1 hh
      exact ⟨j, b, hb, ho, hd, he.symm⟩

/-- Witness of C39: the full map of hashpower 1. -/
theorem C39_no_assertion_fails_witness :
    reachable identity_hash full_table ∧
    ((∀ o : op Nat Nat, ∃ fuel m', ∀ fuel', fuel ≤ fuel' →
      map.apply identity_hash fuel' full_table o = .ok m') ∧
    (∃ n, full_table.size = .ok n) ∧
    (∀ key, (∃ v, map.find_or_throw identity_hash full_table key = .ok (full_table, v)) ∨
      map.find_or_throw identity_hash full_table key = .error .out_of_range) ∧
    (∀ i, ∃ l cur, full_table.lock_ind i = .ok l ∧ l < kMaxNumLocks ∧
      full_table.get_current_locks = .ok cur ∧ l < cur.length) ∧
    (∀ hv e, (index_hash full_table.hashpower hv + e) % 2 ^ full_table.hashpower
      < full_table.buckets_.buckets_.length) ∧
    (∀ fuel key fn val x, map.upsert identity_hash fuel full_table key fn val = .ok x →
      x.2 = true →
      ∃ (m0 : map Nat Nat) (j : Nat) (b : bucket Nat Nat), m0.buckets_.buckets_[j]? = some b ∧
        (!b.occupied_ || b.deleted_) = true ∧ x.1 = m0.stored j key val) ∧
    (∀ key m', map.erase identity_hash full_table key = .ok (m', true) →
      ∃ (j : Nat) (b : bucket Nat Nat), full_table.buckets_.buckets_[j]? = some b ∧
        b.occupied_ = true ∧ b.deleted_ = false ∧ m' = full_table.erased j b)) :=
  have hr : reachable identity_hash full_table :=
    (reachable.construct 1).run 20 [.insert 1 1, .insert 2 2] _ (by with_unfolding_all rfl)
  ⟨hr, C39_no_assertion_fails hr⟩

end claims

end rbhash
